import Mathlib

/-!
# win-kvstore: the sharded store (`src/storage.hpp`, `src/storage.cpp`), the
write-ahead log and the snapshot file (`src/persistence.cpp`), boot recovery
(`src/main.cpp`), the command processor (`src/server.cpp`), the replication
broadcaster and client (`src/replication.cpp`) and the worker pool
(`src/thread_pool.cpp`)

A shallow embedding of `kvstore::ShardedStore`, `kvstore::WalWriter`,
`kvstore::WalReader`, `kvstore::SnapshotManager`, `kvstore::apply_record`,
`kvstore::KvServer::process_command`, `kvstore::ReplicationBroadcaster::publish`,
`kvstore::ReplicationClient::run` and `kvstore::ThreadPool`, and proofs of their
contracts.

Modelling conventions.

* `std::string` is `String`; `size()` is the number of bytes, `String.utf8ByteSize`.
* `std::hash<std::string>` is implementation defined: every operation that
  selects a shard takes the hash function as its first argument.
* `std::chrono::steady_clock::now()` is an explicit argument `now`, a number
  of clock ticks (nanoseconds); time points are natural numbers.
* `uint64_t` counters (`version_`, `memory_usage_bytes_`) are natural numbers
  and every `++`, `+=`, `-=` on them is taken modulo `2 ^ 64`.
* `std::unordered_map<std::string, Entry>` is an association list with at most
  one pair per key in well-formed states; its iteration order is the list order.
* `std::list<std::string> lru` is a list of keys, most recent first.  The
  iterator `Entry::lru_it` is not stored: it always designates the node that
  was pushed last for the entry's key, which is the first node holding that
  key, so `lru.erase(entry.lru_it)` is `List.erase` of the key.
* The locks are not part of the state.  Every operation is given twice: by
  the store that its body leaves when no request of a mutex stops the thread
  (`put`, `restore`, `Op.apply`, `run`), and by how the call ends when the
  mutexes that the caller owns are taken into account (`put_call`,
  `restore_call`, `Op.call`, `run_call`, section "How a call ends").  A request
  of a mutex that the requesting thread owns, one of the two in exclusive mode,
  is never granted: `put` owns the mutex of its shard when it runs
  `enforce_memory_budget`, so it returns only when the loop evicts from shards
  of lower index; `restore` owns `rebalance_mutex_` in exclusive mode when it
  runs `enforce_memory_budget`, so no call of `restore` returns.  The
  acquisitions and releases that a call makes are also given as a sequence of
  events (section on the locks of the store).
* The loop of `enforce_memory_budget` need not terminate; operations that run
  it return `Option`, `none` meaning that the loop never exits.
-/

namespace kvstore

/-- Number of values of a `uint64_t`, `2 ^ 64`. -/
def U64 : Nat := 18446744073709551616

/-- Ticks of `steady_clock` in one second (its period is one nanosecond). -/
def ticksPerSecond : Nat := 1000000000

/-- Value of `std::string::size()`: the number of bytes. -/
def strSize (s : String) : Nat := s.utf8ByteSize

/-- The struct `SnapshotItem` of `storage.hpp`. -/
structure SnapshotItem where
  key : String
  value : String
  version : Nat
  expire_at : Option Nat
deriving DecidableEq

/-- The struct `ShardedStore::Entry`, without the list iterator `lru_it`. -/
structure Entry where
  value : String
  version : Nat
  expire_at : Option Nat
  size_bytes : Nat
deriving DecidableEq

/-- The struct `ShardedStore::Shard`, without its mutex. -/
structure Shard where
  map : List (String × Entry)
  lru : List String
deriving DecidableEq

/-- The counters of `Metrics` that the store writes. -/
structure Metrics where
  eviction_count_ : Nat
  memory_bytes_ : Nat
deriving DecidableEq

/-- The data members of `ShardedStore`. -/
structure ShardedStore where
  shards_ : List Shard
  memory_budget_bytes_ : Nat
  memory_usage_bytes_ : Nat
  version_ : Nat
  metrics_ : Metrics
deriving DecidableEq

/-! ## The unordered map -/

/-- Lookup `map.find(key)`: the entry stored under `key`, if any. -/
def mapFind : List (String × Entry) → String → Option Entry
  | [], _ => none
  | (k, e) :: m, key => if k = key then some e else mapFind m key

/-- Removal `map.erase(it)` of the pair stored under `key`. -/
def mapErase (m : List (String × Entry)) (key : String) : List (String × Entry) :=
  m.filter (fun p => decide (p.1 ≠ key))

/-- Assignment through `it->second` of an entry that is present: the pair keeps its place. -/
def mapReplace : List (String × Entry) → String → Entry → List (String × Entry)
  | [], _, _ => []
  | (k, e) :: m, key, e' => if k = key then (k, e') :: m else (k, e) :: mapReplace m key e'

/-- Insertion `map.emplace(key, entry)`: nothing happens when the key is present. -/
def mapEmplace (m : List (String × Entry)) (key : String) (e : Entry) : List (String × Entry) :=
  match mapFind m key with
  | none => (key, e) :: m
  | some _ => m

/-- Assignment `map[key] = entry`: overwrite when present, insert otherwise. -/
def mapAssign (m : List (String × Entry)) (key : String) (e : Entry) : List (String × Entry) :=
  match mapFind m key with
  | none => (key, e) :: m
  | some _ => mapReplace m key e

/-- The keys of a map, in iteration order. -/
def mapKeys (m : List (String × Entry)) : List String := m.map Prod.fst

/-! ## Construction and accessors -/

/-- A default-constructed shard. -/
def Shard.empty : Shard := { map := [], lru := [] }

/-- The constructor `ShardedStore(shards, memory_budget_bytes, metrics)` with fresh metrics. -/
def ShardedStore.init (shards : Nat) (memory_budget_bytes : Nat) : ShardedStore :=
  { shards_ := List.replicate shards Shard.empty
    memory_budget_bytes_ := memory_budget_bytes
    memory_usage_bytes_ := 0
    version_ := 0
    metrics_ := { eviction_count_ := 0, memory_bytes_ := 0 } }

/-- The accessor `memory_usage()`. -/
def memory_usage (s : ShardedStore) : Nat := s.memory_usage_bytes_

/-- The accessor `current_version()`. -/
def current_version (s : ShardedStore) : Nat := s.version_

/-- Index computed by `shard_for`: `hash(key) % shards_.size()`.  With no shard
the source divides by zero; the operations below then find no shard at the
index and leave the store as it is. -/
def shard_for (hash : String → Nat) (s : ShardedStore) (key : String) : Nat :=
  hash key % s.shards_.length

/-- Counter update `memory_usage_bytes_ += size` on a `uint64_t`. -/
def memAdd (mem size : Nat) : Nat := (mem + size) % U64

/-- Counter update `memory_usage_bytes_ -= size` on a `uint64_t`. -/
def memSub (mem size : Nat) : Nat := (mem + U64 - size % U64) % U64

/-! ## Operations -/

/-- The helper `touch(shard, key, entry)`: move the entry's node to the front. -/
def touch (shard : Shard) (key : String) : Shard :=
  { shard with lru := key :: shard.lru.erase key }

/-- The helper `remove_entry(shard, key)` on the shard at index `idx`. -/
def remove_entry (s : ShardedStore) (idx : Nat) (key : String) : ShardedStore :=
  match s.shards_[idx]? with
  | none => s
  | some shard =>
    match mapFind shard.map key with
    | none => s
    | some e =>
      { s with
        memory_usage_bytes_ := memSub s.memory_usage_bytes_ e.size_bytes
        shards_ := s.shards_.set idx
          { map := mapErase shard.map key, lru := shard.lru.erase key } }

/-- The test `snapshot_version && entry.version > *snapshot_version` of `get`. -/
def too_new (snapshot_version : Option Nat) (entry : Entry) : Bool :=
  match snapshot_version with
  | some v => decide (entry.version > v)
  | none => false

/-- The test `expire_at && now >= *expire_at` of `get` and of `expire_keys`. -/
def expired (now : Nat) (e : Entry) : Bool :=
  match e.expire_at with
  | some t => decide (now ≥ t)
  | none => false

/-- The operation `get(key, snapshot_version)` run at time `now`. -/
def get (hash : String → Nat) (now : Nat) (s : ShardedStore) (key : String)
    (snapshot_version : Option Nat) : Option String :=
  match s.shards_[shard_for hash s key]? with
  | none => none
  | some shard =>
    match mapFind shard.map key with
    | none => none
    | some entry =>
      if too_new snapshot_version entry then none
      else if expired now entry then none
      else some entry.value

/-- The body of `get(key, snapshot_version)` (lines 37 to 51) with the store
passed along: the value returned and the store that the call leaves.  Every
path through the body ends in a `return`; the statements before it are
`shard.map.find(key)`, the two comparisons and the copy of `entry.value`. -/
def get_call (hash : String → Nat) (now : Nat) (s : ShardedStore) (key : String)
    (snapshot_version : Option Nat) : Option String × ShardedStore :=
  match s.shards_[shard_for hash s key]? with
  | none => (none, s)
  | some shard =>
    match mapFind shard.map key with
    | none => (none, s)
    | some entry =>
      if too_new snapshot_version entry then (none, s)
      else if expired now entry then (none, s)
      else (some entry.value, s)

/-- The body of `put` up to the call of `enforce_memory_budget`. -/
def put_mutation (hash : String → Nat) (now : Nat) (s : ShardedStore) (key value : String)
    (ttl_seconds : Option Nat) : ShardedStore :=
  let idx := shard_for hash s key
  match s.shards_[idx]? with
  | none => s
  | some shard =>
    let expire_at := ttl_seconds.map (fun t => now + t * ticksPerSecond)
    let version := (s.version_ + 1) % U64
    let size := strSize key + strSize value
    let entry : Entry :=
      { value := value, version := version, expire_at := expire_at, size_bytes := size }
    match mapFind shard.map key with
    | none =>
      { s with
        version_ := version
        shards_ := s.shards_.set idx
          { map := mapEmplace shard.map key entry, lru := key :: shard.lru }
        memory_usage_bytes_ := memAdd s.memory_usage_bytes_ size }
    | some old =>
      { s with
        version_ := version
        shards_ := s.shards_.set idx
          (touch { shard with map := mapReplace shard.map key entry } key)
        memory_usage_bytes_ := memAdd (memSub s.memory_usage_bytes_ old.size_bytes) size }

/-- Index of the first shard whose recency list is not empty, with the key at its back. -/
def firstVictim : List Shard → Option (Nat × String)
  | [] => none
  | shard :: rest =>
    match shard.lru.getLast? with
    | some key => some (0, key)
    | none => (firstVictim rest).map (fun p => (p.1 + 1, p.2))

/-- The call `metrics_.record_eviction()`. -/
def record_eviction (s : ShardedStore) : ShardedStore :=
  { s with metrics_ := { s.metrics_ with
      eviction_count_ := (s.metrics_.eviction_count_ + 1) % U64 } }

/-- One pass of the `for` loop inside `enforce_memory_budget`: `none` when no
shard has a recency node (`evicted` stays false). -/
def evict_step (s : ShardedStore) : Option ShardedStore :=
  match firstVictim s.shards_ with
  | none => none
  | some (idx, key) => some (record_eviction (remove_entry s idx key))

/-- The `while` loop of `enforce_memory_budget`, run for at most `fuel` tests
of its condition; `none` when the fuel does not suffice. -/
def enforce_loop : Nat → ShardedStore → Option ShardedStore
  | 0, _ => none
  | fuel + 1, s =>
    if s.memory_usage_bytes_ > s.memory_budget_bytes_ then
      match evict_step s with
      | none => some s
      | some s' => enforce_loop fuel s'
    else some s

/-- Total number of recency nodes of the store. -/
def lruNodes (shards : List Shard) : Nat := (shards.map (fun sh => sh.lru.length)).sum

/-- The call `metrics_.set_memory_bytes(memory_usage_bytes_.load())`. -/
def set_memory_bytes (s : ShardedStore) : ShardedStore :=
  { s with metrics_ := { s.metrics_ with memory_bytes_ := s.memory_usage_bytes_ } }

/-- The operation `enforce_memory_budget()`.  A pass of the loop that removes
nothing leaves the shards as they are and is repeated for ever, so a run that
exits tests the condition at most once per recency node and once more
(`enforce_loop_fuel`, `enforce_none_iff`): `none` means that the loop never exits. -/
def enforce_memory_budget (s : ShardedStore) : Option ShardedStore :=
  (enforce_loop (lruNodes s.shards_ + 1) s).map set_memory_bytes

/-- The operation `put(key, value, ttl_seconds)` run at time `now`, without the
locks: the store that the call leaves when no request of a mutex stops the
thread, `none` when the loop of `enforce_memory_budget` never exits.  How the
call ends with the locks that `put` owns at line 78 is given by `put_call`. -/
def put (hash : String → Nat) (now : Nat) (s : ShardedStore) (key value : String)
    (ttl_seconds : Option Nat) : Option ShardedStore :=
  enforce_memory_budget (put_mutation hash now s key value ttl_seconds)

/-- The operation `del(key)`: the new store and the returned flag. -/
def del (hash : String → Nat) (s : ShardedStore) (key : String) : ShardedStore × Bool :=
  let idx := shard_for hash s key
  match s.shards_[idx]? with
  | none => (s, false)
  | some shard =>
    match mapFind shard.map key with
    | none => (s, false)
    | some _ => (remove_entry s idx key, true)

/-- The operation `snapshot(version)`. -/
def snapshot (s : ShardedStore) (version : Nat) : List SnapshotItem :=
  s.shards_.flatMap (fun shard =>
    (shard.map.filter (fun p => decide (p.2.version ≤ version))).map
      (fun p => { key := p.1, value := p.2.value, version := p.2.version,
                  expire_at := p.2.expire_at }))

/-- One pass of the loop of `restore`. -/
def restore_item (hash : String → Nat) (s : ShardedStore) (item : SnapshotItem) :
    ShardedStore :=
  let idx := shard_for hash s item.key
  match s.shards_[idx]? with
  | none => s
  | some shard =>
    let size := strSize item.key + strSize item.value
    let entry : Entry :=
      { value := item.value, version := item.version, expire_at := item.expire_at,
        size_bytes := size }
    { s with
      shards_ := s.shards_.set idx
        { map := mapAssign shard.map item.key entry, lru := item.key :: shard.lru }
      memory_usage_bytes_ := memAdd s.memory_usage_bytes_ size
      version_ := if item.version > s.version_ then item.version else s.version_ }

/-- The operation `restore(items)`, without the locks: the store that the call
would leave if no request of a mutex stopped the thread.  How the call ends
with the lock that `restore` owns at line 125 is given by `restore_call`. -/
def restore (hash : String → Nat) (s : ShardedStore) (items : List SnapshotItem) :
    Option ShardedStore :=
  enforce_memory_budget (items.foldl (restore_item hash) s)

/-- The inner loop of `expire_keys` over the entries still to visit: returns
the entries kept, the recency list and the memory counter. -/
def expire_scan (now : Nat) :
    List (String × Entry) → List String → Nat → List (String × Entry) × List String × Nat
  | [], lru, mem => ([], lru, mem)
  | (k, e) :: rest, lru, mem =>
    if expired now e then expire_scan now rest (lru.erase k) (memSub mem e.size_bytes)
    else
      let r := expire_scan now rest lru mem
      ((k, e) :: r.1, r.2.1, r.2.2)

/-- The outer loop of `expire_keys` over the shards, threading the memory counter. -/
def expire_shards (now : Nat) : List Shard → Nat → List Shard × Nat
  | [], mem => ([], mem)
  | shard :: rest, mem =>
    let r := expire_scan now shard.map shard.lru mem
    let q := expire_shards now rest r.2.2
    ({ map := r.1, lru := r.2.1 } :: q.1, q.2)

/-- The operation `expire_keys()` run at time `now`. -/
def expire_keys (now : Nat) (s : ShardedStore) : ShardedStore :=
  let r := expire_shards now s.shards_ s.memory_usage_bytes_
  { s with shards_ := r.1, memory_usage_bytes_ := r.2 }

/-- The body of the inner loop of `rebalance`: move one entry to its new shard. -/
def move_entry (hash : String → Nat) (new_shards : List Shard) (p : String × Entry) :
    List Shard :=
  let idx := hash p.1 % new_shards.length
  match new_shards[idx]? with
  | none => new_shards
  | some target =>
    new_shards.set idx { map := mapEmplace target.map p.1 p.2, lru := p.1 :: target.lru }

/-- The operation `rebalance(new_shard_count)`. -/
def rebalance (hash : String → Nat) (s : ShardedStore) (new_shard_count : Nat) :
    ShardedStore :=
  if new_shard_count = 0 ∨ new_shard_count = s.shards_.length then s
  else
    { s with
      shards_ := s.shards_.foldl
        (fun new_shards shard => shard.map.foldl (move_entry hash) new_shards)
        (List.replicate new_shard_count Shard.empty) }

/-! ## Operation sequences -/

/-- A call of one public operation of `ShardedStore`, with the clock reading
it observes when it reads the clock. -/
inductive Op where
  | get (now : Nat) (key : String) (snapshot_version : Option Nat)
  | put (now : Nat) (key value : String) (ttl_seconds : Option Nat)
  | del (key : String)
  | snapshot (version : Nat)
  | restore (items : List SnapshotItem)
  | expire_keys (now : Nat)
  | enforce_memory_budget
  | rebalance (new_shard_count : Nat)
deriving DecidableEq

/-- Whether the call is a `restore`. -/
def Op.isRestore : Op → Bool
  | .restore _ => true
  | _ => false

/-- Whether the call is a `put`. -/
def Op.isPut : Op → Bool
  | .put _ _ _ _ => true
  | _ => false

/-- The store that the call leaves when the thread is not stopped at a lock,
`none` when the loop of `enforce_memory_budget` never exits.  Whether the thread
is stopped at a lock is given by `Op.call`.  The body of `snapshot` assigns to
no member of the store. -/
def Op.apply (hash : String → Nat) : Op → ShardedStore → Option ShardedStore
  | .get now key snapshot_version, s => some (kvstore.get_call hash now s key snapshot_version).2
  | .put now key value ttl, s => kvstore.put hash now s key value ttl
  | .del key, s => some (kvstore.del hash s key).1
  | .snapshot _, s => some s
  | .restore items, s => kvstore.restore hash s items
  | .expire_keys now, s => some (kvstore.expire_keys now s)
  | .enforce_memory_budget, s => kvstore.enforce_memory_budget s
  | .rebalance n, s => some (kvstore.rebalance hash s n)

/-- The store after a sequence of calls none of which is stopped at a lock,
`none` when a loop of `enforce_memory_budget` never exits. -/
def run (hash : String → Nat) : List Op → ShardedStore → Option ShardedStore
  | [], s => some s
  | op :: ops, s =>
    match op.apply hash s with
    | none => none
    | some s' => run hash ops s'

/-- Whether no `put` of the sequence wraps the 64-bit version counter. -/
def noWrap (hash : String → Nat) : List Op → ShardedStore → Bool
  | [], _ => true
  | op :: ops, s =>
    (!op.isPut || decide (s.version_ + 1 < U64)) &&
    match op.apply hash s with
    | none => true
    | some s' => noWrap hash ops s'

/-! ## Invariants of the data model -/

/-- Sum of `size_bytes` over the entries of a map. -/
def mapBytes (m : List (String × Entry)) : Nat := (m.map (fun p => p.2.size_bytes)).sum

/-- Sum of `size_bytes` over all entries of all shards. -/
def totalBytes (shards : List Shard) : Nat := (shards.map (fun sh => mapBytes sh.map)).sum

/-- Sum of `len(key) + len(value)` over the entries of a map. -/
def mapPayload (m : List (String × Entry)) : Nat :=
  (m.map (fun p => strSize p.1 + strSize p.2.value)).sum

/-- Sum of `len(key) + len(value)` over all entries of all shards. -/
def totalPayload (shards : List Shard) : Nat := (shards.map (fun sh => mapPayload sh.map)).sum

/-- Largest `size_bytes` of an entry of the store, `0` for a store without entries. -/
def maxEntryBytes (shards : List Shard) : Nat :=
  (shards.flatMap (fun sh => sh.map.map (fun p => p.2.size_bytes))).foldl max 0

/-- Invariant 1 for one shard: the map has one pair per key and the recency
list is a rearrangement of the keys of the map. -/
def Shard.consistent (sh : Shard) : Prop :=
  (mapKeys sh.map).Nodup ∧ sh.lru.Perm (mapKeys sh.map)

/-- Invariant 1 for the store. -/
def consistent (s : ShardedStore) : Prop := ∀ sh ∈ s.shards_, sh.consistent

/-- Invariant 2: the memory counter is the sum of `size_bytes`, which fits 64 bits. -/
def memExact (s : ShardedStore) : Prop :=
  s.memory_usage_bytes_ = totalBytes s.shards_ ∧ totalBytes s.shards_ < U64

/-- Every key is stored in the shard that `shard_for` selects for it. -/
def placed (hash : String → Nat) (s : ShardedStore) : Prop :=
  ∀ i sh, s.shards_[i]? = some sh → ∀ k ∈ mapKeys sh.map, hash k % s.shards_.length = i

/-- Every entry's `size_bytes` is `len(key) + len(value)`. -/
def sized (s : ShardedStore) : Prop :=
  ∀ sh ∈ s.shards_, ∀ p ∈ sh.map, p.2.size_bytes = strSize p.1 + strSize p.2.value

/-- Invariant 2 modulo the width of the counter: the memory counter is the sum
of `size_bytes` reduced modulo `2 ^ 64`. -/
def memMod (s : ShardedStore) : Prop :=
  s.memory_usage_bytes_ = totalBytes s.shards_ % U64

/-- Well-formedness of the representation of a shard: the map has one pair per
key and the iterator of every entry designates a node of the recency list. -/
def Shard.wellFormed (sh : Shard) : Prop :=
  (mapKeys sh.map).Nodup ∧ ∀ k ∈ mapKeys sh.map, k ∈ sh.lru

/-- The entries of `s'` are entries of `s`, shard by shard. -/
def subStore (s s' : ShardedStore) : Prop :=
  s'.shards_.length = s.shards_.length ∧
  ∀ (i : Nat) (sh' : Shard), s'.shards_[i]? = some sh' →
    ∃ sh, s.shards_[i]? = some sh ∧
      ∀ k e, mapFind sh'.map k = some e → mapFind sh.map k = some e

/-- The shard without the entries whose deadline is at or before `now`: the
other entries and the other recency nodes stay, in their order. -/
def expiredRemoved (now : Nat) (sh : Shard) : Shard :=
  { map := sh.map.filter (fun p => !expired now p.2)
    lru := sh.lru.filter (fun k =>
      match mapFind sh.map k with
      | some e => !expired now e
      | none => true) }

/-- All pairs of all maps, shard by shard in iteration order. -/
def allEntries (shards : List Shard) : List (String × Entry) :=
  shards.flatMap (fun sh => sh.map)

/-- Placement of the keys of a shard array of `n` shards. -/
def placedIn (hash : String → Nat) (n : Nat) (shards : List Shard) : Prop :=
  ∀ i sh, shards[i]? = some sh → ∀ k ∈ mapKeys sh.map, hash k % n = i

/-- The invariants kept by every operation but `restore`: invariant 1, the
placement of the keys, the size of every entry, and invariant 2 modulo `2 ^ 64`. -/
def storeInv (hash : String → Nat) (s : ShardedStore) : Prop :=
  consistent s ∧ placed hash s ∧ sized s ∧ memMod s

/-- Number of values of a `uint32_t`, `2 ^ 32`. -/
def U32 : Nat := 4294967296

/-- One pass of the inner loop of `crc32`: `mask = -(crc & 1)`, then
`crc = (crc >> 1) ^ (0xEDB88320 & mask)`. -/
def crc32_bit (crc : Nat) : Nat :=
  let mask := (U32 - (crc &&& 1)) % U32
  (crc >>> 1) ^^^ (3988292384 &&& mask)

/-- One pass of the outer loop of `crc32` for the byte `c`. -/
def crc32_byte (crc c : Nat) : Nat :=
  crc32_bit (crc32_bit (crc32_bit (crc32_bit (crc32_bit (crc32_bit (crc32_bit (crc32_bit
    (crc ^^^ (c % 256)))))))))

/-- The function `crc32(data)`: the loop from `0xFFFFFFFF`, then `~crc` on 32 bits. -/
def crc32 (data : List Nat) : Nat :=
  U32 - 1 - (data.foldl crc32_byte 4294967295) % U32

/-- The four bytes of a `uint32_t` as `write` stores them. -/
def u32le (x : Nat) : List Nat :=
  [x % 256, x / 256 % 256, x / 65536 % 256, x / 16777216 % 256]

/-- The `uint32_t` that `read` rebuilds from four bytes. -/
def u32of : List Nat → Nat
  | [b0, b1, b2, b3] => b0 + 256 * b1 + 65536 * b2 + 16777216 * b3
  | _ => 0

/-- The state that `WalWriter` acts on: the content of the file at `path_` and
the gauge written by `metrics_.set_wal_bytes`. -/
structure WalWriter where
  file : List Nat
  wal_bytes_ : Nat
deriving DecidableEq

/-- The bytes that one `append(record)` adds to the file: length, checksum, payload. -/
def WalWriter.frame (record : List Nat) : List Nat :=
  u32le (record.length % U32) ++ u32le (crc32 record) ++ record

/-- The operation `WalWriter::append(record)`; `none` when the injected fault
makes it throw, before anything is written. -/
def WalWriter.append (w : WalWriter) (record : List Nat) (should_fail : Bool) :
    Option WalWriter :=
  if should_fail then none
  else
    let file := w.file ++ WalWriter.frame record
    some { file := file, wal_bytes_ := file.length }

/-- Appending the records in order with no fault injected. -/
def WalWriter.appendAll : WalWriter → List (List Nat) → Option WalWriter
  | w, [] => some w
  | w, r :: rs =>
    match w.append r false with
    | none => none
    | some w' => WalWriter.appendAll w' rs

/-- The loop of `WalReader::read_all` on the bytes not yet read, run for at
most `fuel` passes; every `break` returns the records read so far. -/
def read_loop : Nat → List Nat → List (List Nat)
  | 0, _ => []
  | fuel + 1, stream =>
    if stream.length < 4 then []
    else
      let len := u32of (stream.take 4)
      let s1 := stream.drop 4
      if s1.length < 4 then []
      else
        let checksum := u32of (s1.take 4)
        let s2 := s1.drop 4
        if s2.length < len then []
        else
          let data := s2.take len
          if crc32 data ≠ checksum then []
          else data :: read_loop fuel (s2.drop len)

/-- The operation `WalReader::read_all()` on the file, `none` for a file that
cannot be opened.  A pass that does not break reads at least eight bytes, so
the loop makes at most one pass per eight bytes and one more (`read_loop_fuel`). -/
def WalReader.read_all : Option (List Nat) → List (List Nat)
  | none => []
  | some file => read_loop (file.length / 8 + 1) file

/-- The concatenated frames of the records. -/
def frames (records : List (List Nat)) : List Nat :=
  records.flatMap WalWriter.frame

/-- Number of leading frames of the records that lie entirely within the first
`cut` bytes of their log. -/
def completeFrames : Nat → List (List Nat) → Nat
  | _, [] => 0
  | cut, r :: rs =>
    if 8 + r.length ≤ cut then completeFrames (cut - (8 + r.length)) rs + 1 else 0

/-! ## Snapshot items and entries -/

/-- The snapshot item that `snapshot` builds from a pair of the map. -/
def itemOf (p : String × Entry) : SnapshotItem :=
  { key := p.1, value := p.2.value, version := p.2.version, expire_at := p.2.expire_at }

/-- The pair that `restore` stores for an item. -/
def pairOf (item : SnapshotItem) : String × Entry :=
  (item.key, { value := item.value, version := item.version, expire_at := item.expire_at,
               size_bytes := strSize item.key + strSize item.value })

/-- The entry stored for the key in the shard that its hash selects in a shard array. -/
def lookupIn (hash : String → Nat) (shards : List Shard) (key : String) : Option Entry :=
  match shards[hash key % shards.length]? with
  | none => none
  | some shard => mapFind shard.map key

/-- The entry found by `get` for the key, before the tests on version and deadline. -/
def lookup (hash : String → Nat) (s : ShardedStore) (key : String) : Option Entry :=
  lookupIn hash s.shards_ key

/-! ## The standard CRC-32, as the specification words it -/

/-- One bit of the standard reflected CRC-32: shift right by one, and XOR the
polynomial `0xEDB88320` in when the bit shifted out is set; modulo `2 ^ 32`. -/
def crc32_standard_bit (crc : Nat) : Nat :=
  if crc % 2 = 1 then ((crc / 2) ^^^ 3988292384) % U32 else (crc / 2) % U32

/-- One byte of the standard CRC-32: XOR the byte into the low bits, then eight
single-bit steps. -/
def crc32_standard_byte (crc c : Nat) : Nat :=
  crc32_standard_bit^[8] ((crc ^^^ c) % U32)

/-- The standard reflected CRC-32 of a byte string: initial value `0xFFFFFFFF`,
one byte after the other, final XOR with `0xFFFFFFFF`. -/
def crc32_standard (data : List Nat) : Nat :=
  ((data.foldl crc32_standard_byte 4294967295) ^^^ 4294967295) % U32

/-! ## The bytes of a string

The store holds a `std::string` as a `String`, whose `size()` is its number of
UTF-8 bytes (`strSize`).  Where the program writes the bytes of a string to a
file or reads them back, the bytes of a `String` are its UTF-8 encoding, given
here in arithmetic on natural numbers. -/

/-- The bytes of one character. -/
def charBytes (c : Char) : List Nat :=
  let v := c.toNat
  if v < 128 then [v]
  else if v < 2048 then [192 + v / 64, 128 + v % 64]
  else if v < 65536 then [224 + v / 4096, 128 + v / 64 % 64, 128 + v % 64]
  else [240 + v / 262144, 128 + v / 4096 % 64, 128 + v / 64 % 64, 128 + v % 64]

/-- The bytes `data()[0 .. size())` of a string. -/
def strBytes (s : String) : List Nat := s.data.flatMap charBytes

/-- The characters that a sequence of bytes encodes, read for at most `fuel`
characters; the reading stops at the first byte that starts no character. -/
def bytesChars : Nat → List Nat → List Char
  | 0, _ => []
  | fuel + 1, bytes =>
    match bytes with
    | [] => []
    | b0 :: r0 =>
      if b0 < 128 then Char.ofNat b0 :: bytesChars fuel r0
      else if b0 < 192 then []
      else
        match r0 with
        | [] => []
        | b1 :: r1 =>
          if b0 < 224 then Char.ofNat ((b0 - 192) * 64 + (b1 - 128)) :: bytesChars fuel r1
          else
            match r1 with
            | [] => []
            | b2 :: r2 =>
              if b0 < 240 then
                Char.ofNat ((b0 - 224) * 4096 + (b1 - 128) * 64 + (b2 - 128)) :: bytesChars fuel r2
              else
                match r2 with
                | [] => []
                | b3 :: r3 =>
                  Char.ofNat ((b0 - 240) * 262144 + (b1 - 128) * 4096 + (b2 - 128) * 64
                    + (b3 - 128)) :: bytesChars fuel r3

/-- The string that a buffer of bytes holds; a character takes at least one
byte, so the length of the buffer is enough fuel. -/
def strOfBytes (bytes : List Nat) : String := String.mk (bytesChars bytes.length bytes)

/-! ## The snapshot file (`SnapshotManager`, `src/persistence.cpp`)

The directory of the manager is the content of its two files, `snapshot.tmp`
and `snapshot.dat`.  The readings of `steady_clock` are arguments, in ticks of
one nanosecond; a `uint64_t` and an `int64_t` are written through their object
representation, least significant byte first, an `int64_t` in two's complement.
The faults of the file system (a stream that cannot be opened, a write that
fails, a process that stops) are arguments of `write_snapshot`. -/

/-- Ticks of `steady_clock` in one millisecond. -/
def ticksPerMilli : Nat := 1000000

/-- The eight bytes of a `uint64_t` as `write` stores them. -/
def u64le (x : Nat) : List Nat :=
  [x % 256, x / 256 % 256, x / 65536 % 256, x / 16777216 % 256, x / 4294967296 % 256,
   x / 1099511627776 % 256, x / 281474976710656 % 256, x / 72057594037927936 % 256]

/-- The `uint64_t` that `read` rebuilds from eight bytes. -/
def u64of : List Nat → Nat
  | [b0, b1, b2, b3, b4, b5, b6, b7] =>
    b0 + 256 * b1 + 65536 * b2 + 16777216 * b3 + 4294967296 * b4 + 1099511627776 * b5
      + 281474976710656 * b6 + 72057594037927936 * b7
  | _ => 0

/-- The eight bytes of an `int64_t`. -/
def i64le (x : Int) : List Nat := u64le (x % 18446744073709551616).toNat

/-- The `int64_t` that `read` rebuilds from eight bytes. -/
def i64of (bytes : List Nat) : Int :=
  let v := u64of bytes
  if v < 9223372036854775808 then (v : Int) else (v : Int) - 18446744073709551616

/-- The value `ttl_ms` that `write_snapshot` computes for an item:
`duration_cast<milliseconds>(*item.expire_at - now_steady).count()`, which
truncates toward zero, replaced by `-1` when negative; `-1` without deadline. -/
def residual_ttl_ms (now_steady : Nat) (item : SnapshotItem) : Int :=
  match item.expire_at with
  | none => -1
  | some expire_at =>
    let ttl_ms := Int.tdiv ((expire_at : Int) - (now_steady : Int)) (ticksPerMilli : Int)
    if ttl_ms < 0 then -1 else ttl_ms

/-- The bytes that one pass of the loop of `write_snapshot` writes for an item. -/
def item_bytes (now_steady : Nat) (item : SnapshotItem) : List Nat :=
  u32le (strSize item.key % U32) ++ u32le (strSize item.value % U32) ++ u64le item.version
    ++ i64le (residual_ttl_ms now_steady item) ++ strBytes item.key ++ strBytes item.value

/-- All the bytes that the loop of `write_snapshot` writes. -/
def snapshot_bytes (now_steady : Nat) (items : List SnapshotItem) : List Nat :=
  items.flatMap (item_bytes now_steady)

/-- The files `snapshot.tmp` and `snapshot.dat`; `none` is a file that does not exist. -/
structure SnapshotDir where
  tmp : Option (List Nat)
  dat : Option (List Nat)
deriving DecidableEq

/-- Where the process stops during a call of `write_snapshot`, if it does. -/
inductive Stop where
  | before_open
  | before_rename
  | never
deriving DecidableEq

/-- What the environment does to one call of `write_snapshot`: whether the
stream on `snapshot.tmp` fails to open, after how many bytes a write fails (the
stream is then bad and the later writes do nothing), whether `rename` fails,
and where the process stops. -/
structure SnapshotFault where
  open_fails : Bool
  accepted : Option Nat
  rename_fails : Bool
  stop : Stop
deriving DecidableEq

/-- How a call of `write_snapshot` ends. -/
inductive WriteOutcome where
  | returned
  | threw
  | stopped
deriving DecidableEq

/-- The operation `SnapshotManager::write_snapshot(items)` on the directory.
The stream is opened with `trunc`; the state of the stream is never tested, so
after a failed open or write the remaining writes, `flush` and `close` do
nothing and `rename` is still called; `rename` throws when it fails, which it
does when `snapshot.tmp` does not exist. -/
def SnapshotManager.write_snapshot (now_steady : Nat) (dir : SnapshotDir)
    (items : List SnapshotItem) (fault : SnapshotFault) : SnapshotDir × WriteOutcome :=
  if fault.stop = Stop.before_open then (dir, WriteOutcome.stopped)
  else
    let all := snapshot_bytes now_steady items
    let temp : Option (List Nat) :=
      if fault.open_fails then dir.tmp
      else
        match fault.accepted with
        | none => some all
        | some n => some (all.take n)
    if fault.stop = Stop.before_rename then ({ dir with tmp := temp }, WriteOutcome.stopped)
    else
      match temp with
      | none => ({ dir with tmp := temp }, WriteOutcome.threw)
      | some content =>
        if fault.rename_fails then ({ dir with tmp := temp }, WriteOutcome.threw)
        else ({ tmp := none, dat := some content }, WriteOutcome.returned)

/-- The loop of `load_latest` on the bytes not yet read, run for at most `fuel`
passes; every `break` returns the items read so far. -/
def load_loop (now_steady : Nat) : Nat → List Nat → List SnapshotItem
  | 0, _ => []
  | fuel + 1, stream =>
    if stream.length < 4 then []
    else
      let key_len := u32of (stream.take 4)
      let s1 := stream.drop 4
      if s1.length < 20 then []
      else
        let val_len := u32of (s1.take 4)
        let version := u64of ((s1.drop 4).take 8)
        let ttl_ms := i64of ((s1.drop 12).take 8)
        let s2 := s1.drop 20
        if s2.length < key_len + val_len then []
        else
          let key := strOfBytes (s2.take key_len)
          let value := strOfBytes ((s2.drop key_len).take val_len)
          let expire_at : Option Nat :=
            if 0 ≤ ttl_ms then some (now_steady + ttl_ms.toNat * ticksPerMilli) else none
          { key := key, value := value, version := version, expire_at := expire_at }
            :: load_loop now_steady fuel (s2.drop (key_len + val_len))

/-- The operation `SnapshotManager::load_latest()` on the content of
`snapshot.dat`.  A pass that does not break reads at least 24 bytes, so the
loop makes at most one pass per 24 bytes and one more. -/
def SnapshotManager.load_latest (now_steady : Nat) : Option (List Nat) → List SnapshotItem
  | none => []
  | some file => load_loop now_steady (file.length / 24 + 1) file

/-- The item that `load_latest` at `now_load` returns for an item written by
`write_snapshot` at `now_write`. -/
def reloaded (now_write now_load : Nat) (item : SnapshotItem) : SnapshotItem :=
  { item with
    expire_at :=
      match item.expire_at with
      | none => none
      | some expire_at =>
        if expire_at + ticksPerMilli ≤ now_write then none
        else some (now_load + (expire_at - now_write) / ticksPerMilli * ticksPerMilli) }

/-- An item whose fields fit the snapshot file: lengths below `2 ^ 32`, a
version that is a `uint64_t`, a deadline that is a value of the clock. -/
def representable (item : SnapshotItem) : Prop :=
  strSize item.key < U32 ∧ strSize item.value < U32 ∧ item.version < U64 ∧
    ∀ d, item.expire_at = some d → d < 9223372036854775808

/-! ## Command lines and records (`std::istringstream`, `src/main.cpp`)

A record of the log and a command line are strings.  A `std::istringstream`
is the list of the characters not yet read with its bits `eofbit` and
`failbit`; the locale is the "C" locale. -/

/-- The function `isspace` of the "C" locale: space, `\t`, `\n`, `\v`, `\f`, `\r`. -/
def isspace (c : Char) : Bool :=
  c == ' ' || c == '\t' || c == '\n' || c == '\r' || c.toNat == 11 || c.toNat == 12

/-- The state of a `std::istringstream`. -/
structure IStream where
  buf : List Char
  eofbit : Bool
  failbit : Bool
deriving DecidableEq

/-- The stream `std::istringstream stream(s)`. -/
def IStream.init (s : String) : IStream := { buf := s.data, eofbit := false, failbit := false }

/-- The extraction `stream >> word` into a `std::string` that is empty before
the call: the string after the call and the stream after the call.  On a stream
that is not good nothing is read and `failbit` is set; otherwise white space is
skipped and the characters up to the next white space are read; reaching the
end of the buffer sets `eofbit`, and `failbit` as well when no character was
read. -/
def IStream.read_string (st : IStream) : String × IStream :=
  if st.eofbit || st.failbit then ("", { st with failbit := true })
  else
    let s1 := st.buf.dropWhile isspace
    if s1.isEmpty then ("", { buf := [], eofbit := true, failbit := true })
    else
      let word := s1.takeWhile (fun c => !isspace c)
      let s2 := s1.dropWhile (fun c => !isspace c)
      (String.mk word, { buf := s2, eofbit := s2.isEmpty, failbit := false })

/-- The number that a sequence of decimal digits denotes. -/
def digitsValue (ds : List Char) : Nat := ds.foldl (fun n c => 10 * n + (c.toNat - 48)) 0

/-- The extraction `stream >> ttl_value` into a `uint32_t`, `none` when it
fails: white space is skipped, then an optional sign and the longest run of
decimal digits are read; the extraction fails when there is no digit or the
digits denote a number above `2 ^ 32 - 1`; a number after `-` is negated modulo
`2 ^ 32`. -/
def IStream.read_u32 (st : IStream) : Option Nat :=
  if st.eofbit || st.failbit then none
  else
    let s1 := st.buf.dropWhile isspace
    let negative := s1.head? == some '-'
    let s2 := if s1.head? == some '-' || s1.head? == some '+' then s1.tail else s1
    let ds := s2.takeWhile Char.isDigit
    if ds.isEmpty then none
    else if U32 ≤ digitsValue ds then none
    else some (if negative then (U32 - digitsValue ds) % U32 else digitsValue ds)

/-- What `apply_record` does with a record, once the record is read. -/
inductive Record where
  | put (key value : String) (ttl : Option Nat)
  | del (key : String)
  | skip
deriving DecidableEq

/-- The reading part of `apply_record(store, record)` (`main.cpp`, lines 23 to
46): the command, then for `PUT` the key, the value and, when the stream is not
at its end, the TTL; for `DEL` the key; nothing is done for an empty key or any
other command. -/
def parse_record (record : String) : Record :=
  let stream := IStream.init record
  let r1 := stream.read_string
  if r1.1 = "PUT" then
    let r2 := r1.2.read_string
    let r3 := r2.2.read_string
    let ttl : Option Nat := if !r3.2.eofbit then r3.2.read_u32 else none
    if r2.1 ≠ "" then Record.put r2.1 r3.1 ttl else Record.skip
  else if r1.1 = "DEL" then
    let r2 := r1.2.read_string
    if r2.1 ≠ "" then Record.del r2.1 else Record.skip
  else Record.skip

/-- The function `apply_record(store, record)` run at clock reading `now`,
without the locks (see `put`); how the call ends with the locks is given by
`apply_record_call`. -/
def apply_record (hash : String → Nat) (now : Nat) (store : ShardedStore) (record : String) :
    Option ShardedStore :=
  match parse_record record with
  | Record.put key value ttl => put hash now store key value ttl
  | Record.del key => some (del hash store key).1
  | Record.skip => some store

/-- The loop of `main` over the recovered records (lines 87 to 89), without the
locks; every record comes with the reading of the clock at its application.
How the loop ends with the locks is given by `replay_call`. -/
def replay (hash : String → Nat) : ShardedStore → List (Nat × String) → Option ShardedStore
  | store, [] => some store
  | store, (now, record) :: rest =>
    match apply_record hash now store record with
    | none => none
    | some store' => replay hash store' rest

/-- The budget is not exceeded by a record: the mutation step of its `put`
leaves the counter within the budget. -/
def recordFits (hash : String → Nat) (now : Nat) (store : ShardedStore) (record : String) :
    Bool :=
  match parse_record record with
  | Record.put key value ttl =>
    decide ((put_mutation hash now store key value ttl).memory_usage_bytes_ ≤
      store.memory_budget_bytes_)
  | _ => true

/-- The budget is not exceeded during the replay of the records. -/
def replayFits (hash : String → Nat) : ShardedStore → List (Nat × String) → Bool
  | _, [] => true
  | store, (now, record) :: rest =>
    recordFits hash now store record &&
      match apply_record hash now store record with
      | none => false
      | some store' => replayFits hash store' rest

/-- Whether the record writes or deletes the key. -/
def Record.touches (key : String) : Record → Bool
  | Record.put k _ _ => k == key
  | Record.del k => k == key
  | Record.skip => false

/-- The last record of the log that writes or deletes the key, with the
reading of the clock at its application. -/
def lastTouch (key : String) : List (Nat × String) → Option (Nat × Record)
  | [] => none
  | (now, record) :: rest =>
    match lastTouch key rest with
    | some x => some x
    | none => if (parse_record record).touches key then some (now, parse_record record) else none

/-- The last item of the snapshot that has the key. -/
def lastItem (key : String) : List SnapshotItem → Option SnapshotItem
  | [] => none
  | item :: rest =>
    match lastItem key rest with
    | some x => some x
    | none => if item.key = key then some item else none

/-! ## The replication broadcaster (`src/replication.cpp`)

A follower is its socket, a number.  What `net::send_data` returns for a
socket and a payload is an argument of `publish`; the sends made are returned
with the new state.  The delay before each send is not modelled. -/

/-- The data members of `ReplicationBroadcaster` that `publish` acts on, and
the gauge written by `metrics_.set_replication_lag`. -/
structure ReplicationBroadcaster where
  running_ : Bool
  clients_ : List Nat
  sequence_ : Nat
  sent_ : Nat
  replication_lag_ : Nat
deriving DecidableEq

/-- The `for` loop of `publish` over the vector `clients_` with the iterator at
index `it`, run for at most `fuel` passes: the vector after the loop and the
sends made, in order.  A failed send erases the element at the iterator, which
then designates the next one; a successful send advances the iterator. -/
def publish_loop (send_data : Nat → String → Int) (payload : String) :
    Nat → List Nat → Nat → List Nat × List (Nat × String)
  | 0, clients, _ => (clients, [])
  | fuel + 1, clients, it =>
    match clients[it]? with
    | none => (clients, [])
    | some fd =>
      if send_data fd payload ≤ 0 then
        let r := publish_loop send_data payload fuel (clients.eraseIdx it) it
        (r.1, (fd, payload) :: r.2)
      else
        let r := publish_loop send_data payload fuel clients (it + 1)
        (r.1, (fd, payload) :: r.2)

/-- The operation `ReplicationBroadcaster::publish(record)`: the new state and
the sends made.  Every pass of the loop erases an element or advances the
iterator, so the loop makes at most one pass per follower. -/
def ReplicationBroadcaster.publish (send_data : Nat → String → Int)
    (b : ReplicationBroadcaster) (record : String) :
    ReplicationBroadcaster × List (Nat × String) :=
  if !b.running_ then (b, [])
  else
    let seq := (b.sequence_ + 1) % U64
    let payload := record ++ "\n"
    let r := publish_loop send_data payload b.clients_.length b.clients_ 0
    ({ b with
       clients_ := r.1
       sequence_ := seq
       sent_ := seq
       replication_lag_ := (seq + U64 - seq) % U64 }, r.2)

/-! ## The command processor (`KvServer::process_command`, `src/server.cpp`)

The state of the server is its role, the store, the log writer and the
broadcaster when there are any, and the counters of `Metrics` that the
processor increments.  The clock reading, the outcome of the fault injector
and the results of the sends are arguments of a call.  A call ends with a
response line, with an exception, or not at all (when `put` does not return);
it also returns the sends made to the followers. -/

/-- The exceptions that a call of `process_command` can throw. -/
inductive Exception where
  | invalid_argument
  | out_of_range
  | runtime_error
deriving DecidableEq

/-- The function `std::stoull(str)`, and `std::stoul(str)` where `unsigned long`
has 64 bits: the conversion of `strtoull` in base 10.  White space is skipped,
then an optional sign and the longest run of digits are read, what follows is
ignored; `std::invalid_argument` is thrown when there is no digit and
`std::out_of_range` when the digits denote a number above `2 ^ 64 - 1`; a
number after `-` is negated modulo `2 ^ 64`. -/
def stoull (str : String) : Except Exception Nat :=
  let s1 := str.data.dropWhile isspace
  let negative := s1.head? == some '-'
  let s2 := if s1.head? == some '-' || s1.head? == some '+' then s1.tail else s1
  let ds := s2.takeWhile Char.isDigit
  if ds.isEmpty then Except.error Exception.invalid_argument
  else if U64 ≤ digitsValue ds then Except.error Exception.out_of_range
  else Except.ok (if negative then (U64 - digitsValue ds) % U64 else digitsValue ds)

/-- The loop `while (stream >> part) parts.push_back(part)` of `split`, run for
at most `fuel` passes. -/
def split_loop : Nat → IStream → List String
  | 0, _ => []
  | fuel + 1, stream =>
    let r := stream.read_string
    if r.2.failbit then [] else r.1 :: split_loop fuel r.2

/-- The function `split(line)`.  Every extraction that succeeds reads at least
one character, so the loop makes at most one pass per character and one more. -/
def split (line : String) : List String :=
  split_loop (line.data.length + 1) (IStream.init line)

/-- The state of `KvServer` that `process_command` acts on. -/
structure KvServer where
  role : String
  store_ : ShardedStore
  wal_ : Option WalWriter
  replication_ : Option ReplicationBroadcaster
  get_count_ : Nat
  put_count_ : Nat
  del_count_ : Nat
deriving DecidableEq

/-- How a call of `process_command` ends. -/
inductive Outcome where
  | response (line : String)
  | threw (e : Exception)
  | hangs
deriving DecidableEq

/-- The end of the `PUT` and `DEL` branches: append the line to the log when
there is a writer, publish it when there is a broadcaster, and return the
response.  A fault injected into `append` throws before the line is published. -/
def KvServer.log_and_publish (should_fail : Bool) (send_data : Nat → String → Int)
    (srv : KvServer) (line : String) (response : String) :
    Outcome × KvServer × List (Nat × String) :=
  let logged : Option KvServer :=
    match srv.wal_ with
    | none => some srv
    | some w =>
      match w.append (strBytes line) should_fail with
      | none => none
      | some w' => some { srv with wal_ := some w' }
  match logged with
  | none => (Outcome.threw Exception.runtime_error, srv, [])
  | some srv1 =>
    match srv1.replication_ with
    | none => (Outcome.response response, srv1, [])
    | some b =>
      let r := b.publish send_data line
      (Outcome.response response, { srv1 with replication_ := some r.1 }, r.2)

/-- The function `KvServer::process_command(line)`: how the call ends, the
state after the call and the sends made to the followers.  The `PUT` branch is
given for a `put` that no request of a mutex stops (see `put`); a `put` that is
stopped (`put_call`) does not reach the lines after it. -/
def KvServer.process_command (hash : String → Nat) (now : Nat) (should_fail : Bool)
    (send_data : Nat → String → Int) (srv : KvServer) (line : String) :
    Outcome × KvServer × List (Nat × String) :=
  match split line with
  | [] => (Outcome.response "ERROR empty", srv, [])
  | cmd :: args =>
    if cmd = "GET" then
      match args with
      | [] => (Outcome.response "ERROR usage GET key [version]", srv, [])
      | key :: rest =>
        let version : Except Exception (Option Nat) :=
          match rest with
          | [] => Except.ok none
          | v :: _ => (stoull v).map some
        match version with
        | Except.error e => (Outcome.threw e, srv, [])
        | Except.ok version =>
          let result := get hash now srv.store_ key version
          let srv1 := { srv with get_count_ := (srv.get_count_ + 1) % U64 }
          match result with
          | none => (Outcome.response "NOT_FOUND", srv1, [])
          | some value => (Outcome.response ("VALUE " ++ value), srv1, [])
    else if cmd = "PUT" then
      if srv.role = "replica" then (Outcome.response "ERROR read_only", srv, [])
      else
        match args with
        | key :: value :: rest =>
          let ttl : Except Exception (Option Nat) :=
            match rest with
            | [] => Except.ok none
            | t :: _ => (stoull t).map (fun x => some (x % U32))
          match ttl with
          | Except.error e => (Outcome.threw e, srv, [])
          | Except.ok ttl =>
            match put hash now srv.store_ key value ttl with
            | none => (Outcome.hangs, srv, [])
            | some store =>
              KvServer.log_and_publish should_fail send_data
                { srv with store_ := store, put_count_ := (srv.put_count_ + 1) % U64 } line "OK"
        | _ => (Outcome.response "ERROR usage PUT key value [ttl]", srv, [])
    else if cmd = "DEL" then
      if srv.role = "replica" then (Outcome.response "ERROR read_only", srv, [])
      else
        match args with
        | [] => (Outcome.response "ERROR usage DEL key", srv, [])
        | key :: _ =>
          let r := del hash srv.store_ key
          KvServer.log_and_publish should_fail send_data
            { srv with store_ := r.1, del_count_ := (srv.del_count_ + 1) % U64 } line
            (if r.2 then "OK" else "NOT_FOUND")
    else if cmd = "REBALANCE" then
      if srv.role = "replica" then (Outcome.response "ERROR read_only", srv, [])
      else
        match args with
        | [n] =>
          match stoull n with
          | Except.error e => (Outcome.threw e, srv, [])
          | Except.ok count =>
            (Outcome.response "OK",
              { srv with store_ := rebalance hash srv.store_ (count % U32) }, [])
        | _ => (Outcome.response "ERROR usage REBALANCE shard_count", srv, [])
    else if cmd = "PING" then (Outcome.response "PONG", srv, [])
    else (Outcome.response "ERROR unknown command", srv, [])

/-! ## The worker pool (`src/thread_pool.hpp`, `src/thread_pool.cpp`)

The pool as a state machine: every critical section under `mutex_` is one
atomic step.  A task is a number; running a task happens outside the lock and
is recorded by adding the task to the list of started tasks.  A caller whose
wait predicate is false makes no step. -/

/-- The state of `ThreadPool`: its data members, the number of worker threads
that have not returned, and the tasks that workers have taken and called. -/
structure ThreadPool where
  max_queue_depth_ : Nat
  queue_ : List Nat
  shutdown_ : Bool
  workers : Nat
  started : List Nat
deriving DecidableEq

/-- How the critical section of `submit` ends. -/
inductive SubmitResult where
  | blocked
  | threw
  | queued (pool : ThreadPool)
deriving DecidableEq

/-- The critical section of `submit(fn)`: the caller waits until the flag is
set or the queue has room; then it throws when the flag is set and otherwise
puts the task at the back of the queue. -/
def ThreadPool.submit (pool : ThreadPool) (task : Nat) : SubmitResult :=
  if !(pool.shutdown_ || decide (pool.queue_.length < pool.max_queue_depth_)) then
    SubmitResult.blocked
  else if pool.shutdown_ then SubmitResult.threw
  else SubmitResult.queued { pool with queue_ := pool.queue_ ++ [task] }

/-- The critical section of `shutdown()`: set the flag unless it is set.  The
caller then wakes all waiters and joins the workers, which changes no data. -/
def ThreadPool.shutdown (pool : ThreadPool) : ThreadPool :=
  if pool.shutdown_ then pool else { pool with shutdown_ := true }

/-- How one pass of the loop of `worker` ends. -/
inductive WorkerResult where
  | waiting
  | returned (pool : ThreadPool)
  | runs (task : Nat) (pool : ThreadPool)
deriving DecidableEq

/-- One pass of the loop of `worker()` by a worker thread that has not
returned: the worker waits until the flag is set or the queue is not empty; it
returns when the flag is set and the queue is empty; otherwise it takes the
task at the front of the queue and calls it. -/
def ThreadPool.worker (pool : ThreadPool) : WorkerResult :=
  if pool.workers = 0 then WorkerResult.waiting
  else if !(pool.shutdown_ || !pool.queue_.isEmpty) then WorkerResult.waiting
  else
    match pool.queue_ with
    | [] => WorkerResult.returned { pool with workers := pool.workers - 1 }
    | task :: rest =>
      WorkerResult.runs task { pool with queue_ := rest, started := pool.started ++ [task] }

/-- A step of the state machine: a critical section entered by some thread. -/
inductive PoolCall where
  | submit (task : Nat)
  | shutdown
  | worker
deriving DecidableEq

/-- The state after a step; a step that waits or throws leaves the state as it is. -/
def ThreadPool.step (pool : ThreadPool) : PoolCall → ThreadPool
  | PoolCall.submit task =>
    match pool.submit task with
    | SubmitResult.queued pool' => pool'
    | _ => pool
  | PoolCall.shutdown => pool.shutdown
  | PoolCall.worker =>
    match pool.worker with
    | WorkerResult.returned pool' => pool'
    | WorkerResult.runs _ pool' => pool'
    | WorkerResult.waiting => pool

/-- The state after a sequence of steps. -/
def ThreadPool.run (pool : ThreadPool) (calls : List PoolCall) : ThreadPool :=
  calls.foldl ThreadPool.step pool

/-- Whether the call is a `get`. -/
def Op.isGet : Op → Bool
  | .get _ _ _ => true
  | _ => false

/-- Number of entries of the store. -/
def entryCount (shards : List Shard) : Nat := (shards.map (fun sh => sh.map.length)).sum

/-- The versions of the entries of the keys of the recency list, from the front
of the list to its back. -/
def Shard.lruVersions (sh : Shard) : List Nat :=
  sh.lru.filterMap (fun k => (mapFind sh.map k).map (fun e => e.version))

/-- Whether the recency list is in write order: every key was written after the
keys behind it, that is, the versions decrease from the front to the back. -/
def Shard.writeOrdered (sh : Shard) : Bool :=
  decide (sh.lruVersions.Pairwise (fun v1 v2 => v2 < v1))

/-! ## The replication client (`replication.cpp`, `ReplicationClient::run`)

The bytes received on a connection are numbers below 256 and a newline is the
byte 10.  The state of a connection is the `buffer` of `run` together with the
lines that were passed to `apply_fn_`, in the order of the calls.  A call of
`recv_data` is given by the bytes it stored in `temp`; a call that returns
`n <= 0` is given by the empty list. -/

/-- The call `buffer.find(ch)` of `std::string`: the index of the first
occurrence of `ch`, and `none` for `npos`. -/
def string_find : List Nat → Nat → Option Nat
  | [], _ => none
  | b :: rest, ch => if b = ch then some 0 else (string_find rest ch).map (fun pos => pos + 1)

/-- State of one connection of the replication client. -/
structure ReplicationClient where
  buffer : List Nat
  applied : List (List Nat)
  deriving DecidableEq

/-- The inner loop `while ((pos = buffer.find('\n')) != npos)` of `run`, with
fuel: `none` when the fuel does not suffice for the loop to end. -/
def ReplicationClient.drain : Nat → ReplicationClient → Option ReplicationClient
  | 0, _ => none
  | fuel + 1, c =>
    match string_find c.buffer 10 with
    | none => some c
    | some pos =>
      let line := c.buffer.take pos
      let buffer := c.buffer.drop (pos + 1)
      ReplicationClient.drain fuel
        { buffer := buffer
          applied := if !line.isEmpty then c.applied ++ [line] else c.applied }

/-- The body of the receive loop of `run` after a call of `recv_data` that
stored the bytes `temp`: they are appended to the buffer and the complete lines
are taken from it. -/
def ReplicationClient.receive (c : ReplicationClient) (temp : List Nat) :
    Option ReplicationClient :=
  let buffer := c.buffer ++ temp
  ReplicationClient.drain (buffer.length + 1) { c with buffer := buffer }

/-- The receive loop of `run` on one connection, over the results of the
successive calls of `recv_data`; the loop is left at the first call that
returns `n <= 0`. -/
def ReplicationClient.run_loop : List (List Nat) → ReplicationClient → Option ReplicationClient
  | [], c => some c
  | temp :: rest, c =>
    if temp.length ≤ 0 then some c
    else
      match ReplicationClient.receive c temp with
      | none => none
      | some c' => ReplicationClient.run_loop rest c'

/-- A connection of `run`: the buffer is empty when the receive loop starts. -/
def ReplicationClient.run (recvs : List (List Nat)) : Option ReplicationClient :=
  ReplicationClient.run_loop recvs { buffer := [], applied := [] }

/-- The specification of the line splitting, in its words: the segments of the
stream that a newline ends, in order. -/
def spec_terminated_segments (stream : List Nat) : List (List Nat) :=
  (stream.splitOn 10).dropLast

/-- The specification of the line splitting, in its words: the lines that are
applied are the segments that a newline ends and that are not empty. -/
def spec_applied_lines (stream : List Nat) : List (List Nat) :=
  (spec_terminated_segments stream).filter (fun line => !line.isEmpty)

/-- The specification of the line splitting, in its words: the bytes after the
last newline are held back. -/
def spec_held_back (stream : List Nat) : List Nat :=
  (stream.splitOn 10).getLast?.getD []

/-! ## The locks of the store (`storage.cpp`)

The definitions above give what an operation does to the store.  The
definitions of this section give the acquisitions and releases of the store's
mutexes that the thread running an operation makes, in the order of the code,
under the assumption that no acquisition blocks: a `std::shared_lock` or a
`std::unique_lock` acquires its mutex where it is declared and releases it at
the end of the scope of the declaration. -/

/-- The mutexes of a store: `rebalance_mutex_` and the member `mutex` of the
shard at an index of `shards_`. -/
inductive Mutex where
  | rebalance_mutex_
  | shard_mutex (idx : Nat)
deriving DecidableEq

/-- The two ways of owning a `std::shared_mutex`. -/
inductive LockMode where
  | shared
  | exclusive
deriving DecidableEq

/-- An acquisition or a release of a mutex by a thread. -/
inductive LockEvent where
  | acquire (m : Mutex) (mode : LockMode)
  | release (m : Mutex)
deriving DecidableEq

/-- The `for` loop over the shards in one pass of the loop of
`enforce_memory_budget`, from the shard at index `idx` on: every shard visited
is locked exclusively (line 150) and unlocked when the body is left; the loop
is left at the first shard whose recency list is not empty. -/
def for_locks : Nat → List Shard → List LockEvent
  | _, [] => []
  | idx, shard :: rest =>
    [LockEvent.acquire (Mutex.shard_mutex idx) LockMode.exclusive,
      LockEvent.release (Mutex.shard_mutex idx)] ++
      (if !shard.lru.isEmpty then [] else for_locks (idx + 1) rest)

/-- The locks taken by the `while` loop of `enforce_memory_budget`, which is
`enforce_loop`. -/
def enforce_loop_locks : Nat → ShardedStore → List LockEvent
  | 0, _ => []
  | fuel + 1, s =>
    if s.memory_usage_bytes_ > s.memory_budget_bytes_ then
      for_locks 0 s.shards_ ++
        match evict_step s with
        | none => []
        | some s' => enforce_loop_locks fuel s'
    else []

/-- The locks taken by `enforce_memory_budget()`: the shared lock of
`rebalance_mutex_` (line 146) around the loop. -/
def enforce_memory_budget_locks (s : ShardedStore) : List LockEvent :=
  [LockEvent.acquire Mutex.rebalance_mutex_ LockMode.shared] ++
    enforce_loop_locks (lruNodes s.shards_ + 1) s ++
    [LockEvent.release Mutex.rebalance_mutex_]

/-- The locks taken by `put(key, value, ttl_seconds)`: `rebalance_lock` (line
55) and `lock` (line 57) are declared in the body of the function, which ends
after the call of `enforce_memory_budget` (line 78). -/
def put_locks (hash : String → Nat) (now : Nat) (s : ShardedStore) (key value : String)
    (ttl_seconds : Option Nat) : List LockEvent :=
  let idx := shard_for hash s key
  [LockEvent.acquire Mutex.rebalance_mutex_ LockMode.shared,
    LockEvent.acquire (Mutex.shard_mutex idx) LockMode.exclusive] ++
    enforce_memory_budget_locks (put_mutation hash now s key value ttl_seconds) ++
    [LockEvent.release (Mutex.shard_mutex idx), LockEvent.release Mutex.rebalance_mutex_]

/-- The locks taken by `del(key)`. -/
def del_locks (hash : String → Nat) (s : ShardedStore) (key : String) : List LockEvent :=
  let idx := shard_for hash s key
  [LockEvent.acquire Mutex.rebalance_mutex_ LockMode.shared,
    LockEvent.acquire (Mutex.shard_mutex idx) LockMode.exclusive,
    LockEvent.release (Mutex.shard_mutex idx), LockEvent.release Mutex.rebalance_mutex_]

/-- The locks taken by `restore(items)`: `rebalance_lock` is declared in the
body of the function, the lock of a shard in the body of the loop over the
items, and `enforce_memory_budget` is called after the loop. -/
def restore_locks (hash : String → Nat) (s : ShardedStore) (items : List SnapshotItem) :
    List LockEvent :=
  [LockEvent.acquire Mutex.rebalance_mutex_ LockMode.exclusive] ++
    items.flatMap (fun item =>
      [LockEvent.acquire (Mutex.shard_mutex (shard_for hash s item.key)) LockMode.exclusive,
        LockEvent.release (Mutex.shard_mutex (shard_for hash s item.key))]) ++
    enforce_memory_budget_locks (items.foldl (restore_item hash) s) ++
    [LockEvent.release Mutex.rebalance_mutex_]

/-- The mutexes that a thread owns after a sequence of acquisitions and
releases, when it owned `held` before. -/
def owned_after (held : List Mutex) : List LockEvent → List Mutex
  | [] => held
  | LockEvent.acquire m _ :: rest => owned_after (m :: held) rest
  | LockEvent.release m :: rest => owned_after (held.erase m) rest

/-- Whether a thread that owns `held` acquires, in a sequence of acquisitions
and releases, a mutex that it owns at that point. -/
def reacquires (held : List Mutex) : List LockEvent → Bool
  | [] => false
  | LockEvent.acquire m _ :: rest => decide (m ∈ held) || reacquires (m :: held) rest
  | LockEvent.release m :: rest => reacquires (held.erase m) rest

/-! ## How a call ends

`put` calls `enforce_memory_budget` while it owns `rebalance_mutex_` in shared
mode and the mutex of the shard of the key in exclusive mode, and `restore`
calls it while it owns `rebalance_mutex_` in exclusive mode.  The standard
gives no meaning to the request of a `std::shared_mutex` by a thread that owns
it.  With the mutexes of glibc the request of a mutex that the thread owns
exclusively fails with `EDEADLK`, which `lock` and `lock_shared` throw as
`std::system_error`; elsewhere the thread waits for itself.  Either way the
call does not return, and the store stays as it is at that point.  A thread
that owns a mutex in shared mode and requests it in shared mode again is let
through.  The definitions of this section give how a call ends under these
rules. -/

/-- Whether the request of the mutex `m` in mode `mode` stops a thread that
owns the mutexes `held`: the thread owns `m`, and it owns it exclusively or
requests it exclusively. -/
def stops_at (held : List (Mutex × LockMode)) (m : Mutex) (mode : LockMode) : Bool :=
  held.any (fun h => decide (h.1 = m) &&
    (decide (h.2 = LockMode.exclusive) || decide (mode = LockMode.exclusive)))

/-- How a call ends: it returns and leaves a store; or the thread is stopped
at the request of a mutex that it owns, with the store as it is then; or a loop
of the call never exits. -/
inductive CallEnd where
  | returns (s : ShardedStore)
  | stops (m : Mutex) (s : ShardedStore)
  | never_exits
deriving DecidableEq

/-- How the `for` loop of a pass of `enforce_memory_budget` is left. -/
inductive Pass where
  | stopped (idx : Nat)
  | victim (idx : Nat) (key : String)
  | no_victim
deriving DecidableEq

/-- The `for` loop over the shards in one pass of the loop of
`enforce_memory_budget`, from the shard at index `idx` on, by a thread that
owns `held`: the mutex of every shard visited is requested exclusively (line
150); the loop is left at the first shard whose recency list is not empty, with
the key at the back of that list (lines 151 to 157). -/
def for_pass (held : List (Mutex × LockMode)) : Nat → List Shard → Pass
  | _, [] => Pass.no_victim
  | idx, shard :: rest =>
    if stops_at held (Mutex.shard_mutex idx) LockMode.exclusive then Pass.stopped idx
    else
      match shard.lru.getLast? with
      | some key => Pass.victim idx key
      | none => for_pass held (idx + 1) rest

/-- The `while` loop of `enforce_memory_budget` run by a thread that owns
`held`, for at most `fuel` tests of its condition. -/
def enforce_loop_call (held : List (Mutex × LockMode)) : Nat → ShardedStore → CallEnd
  | 0, _ => CallEnd.never_exits
  | fuel + 1, s =>
    if s.memory_usage_bytes_ > s.memory_budget_bytes_ then
      match for_pass held 0 s.shards_ with
      | Pass.stopped idx => CallEnd.stops (Mutex.shard_mutex idx) s
      | Pass.victim idx key =>
        enforce_loop_call held fuel (record_eviction (remove_entry s idx key))
      | Pass.no_victim => CallEnd.returns s
    else CallEnd.returns s

/-- The call `enforce_memory_budget()` by a thread that owns `held`: the
request of `rebalance_mutex_` in shared mode (line 146), the loop, and the
update of the gauge (line 163). -/
def enforce_memory_budget_call (held : List (Mutex × LockMode)) (s : ShardedStore) : CallEnd :=
  if stops_at held Mutex.rebalance_mutex_ LockMode.shared then
    CallEnd.stops Mutex.rebalance_mutex_ s
  else
    match enforce_loop_call held (lruNodes s.shards_ + 1) s with
    | CallEnd.returns s' => CallEnd.returns (set_memory_bytes s')
    | CallEnd.stops m s' => CallEnd.stops m s'
    | CallEnd.never_exits => CallEnd.never_exits

/-- The call `put(key, value, ttl_seconds)` at time `now`: at line 78 the thread
owns `rebalance_mutex_` in shared mode (line 55) and the mutex of the shard of
the key in exclusive mode (line 57). -/
def put_call (hash : String → Nat) (now : Nat) (s : ShardedStore) (key value : String)
    (ttl_seconds : Option Nat) : CallEnd :=
  enforce_memory_budget_call
    [(Mutex.rebalance_mutex_, LockMode.shared),
      (Mutex.shard_mutex (shard_for hash s key), LockMode.exclusive)]
    (put_mutation hash now s key value ttl_seconds)

/-- The call `restore(items)`: at line 125 the thread owns `rebalance_mutex_` in
exclusive mode (line 112); the lock of a shard taken in the loop over the items
is released at the end of each pass. -/
def restore_call (hash : String → Nat) (s : ShardedStore) (items : List SnapshotItem) :
    CallEnd :=
  enforce_memory_budget_call [(Mutex.rebalance_mutex_, LockMode.exclusive)]
    (items.foldl (restore_item hash) s)

/-- How a call of a public operation ends.  The calls other than `put` and
`restore` request no mutex that the thread owns. -/
def Op.call (hash : String → Nat) : Op → ShardedStore → CallEnd
  | .get now key snapshot_version, s =>
    CallEnd.returns (kvstore.get_call hash now s key snapshot_version).2
  | .put now key value ttl, s => kvstore.put_call hash now s key value ttl
  | .del key, s => CallEnd.returns (kvstore.del hash s key).1
  | .snapshot _, s => CallEnd.returns s
  | .restore items, s => kvstore.restore_call hash s items
  | .expire_keys now, s => CallEnd.returns (kvstore.expire_keys now s)
  | .enforce_memory_budget, s => kvstore.enforce_memory_budget_call [] s
  | .rebalance n, s => CallEnd.returns (kvstore.rebalance hash s n)

/-- How a sequence of calls ends: the calls are made in order as long as they
return. -/
def run_call (hash : String → Nat) : List Op → ShardedStore → CallEnd
  | [], s => CallEnd.returns s
  | op :: ops, s =>
    match op.call hash s with
    | CallEnd.returns s' => run_call hash ops s'
    | CallEnd.stops m s' => CallEnd.stops m s'
    | CallEnd.never_exits => CallEnd.never_exits

/-- How `apply_record(store, record)` ends at clock reading `now`. -/
def apply_record_call (hash : String → Nat) (now : Nat) (store : ShardedStore)
    (record : String) : CallEnd :=
  match parse_record record with
  | Record.put key value ttl => put_call hash now store key value ttl
  | Record.del key => CallEnd.returns (del hash store key).1
  | Record.skip => CallEnd.returns store

/-- How the loop of `main` over the recovered records (lines 87 to 89) ends. -/
def replay_call (hash : String → Nat) : ShardedStore → List (Nat × String) → CallEnd
  | store, [] => CallEnd.returns store
  | store, (now, record) :: rest =>
    match apply_record_call hash now store record with
    | CallEnd.returns store' => replay_call hash store' rest
    | CallEnd.stops m store' => CallEnd.stops m store'
    | CallEnd.never_exits => CallEnd.never_exits

/-- How boot recovery (`main`, lines 80 to 90) ends: `restore` is called when
`load_latest` returned items, and the records are applied after it returned. -/
def recover_call (hash : String → Nat) (store : ShardedStore)
    (snapshot_items : List SnapshotItem) (records : List (Nat × String)) : CallEnd :=
  match (if snapshot_items ≠ [] then restore_call hash store snapshot_items
      else CallEnd.returns store) with
  | CallEnd.returns store' => replay_call hash store' records
  | CallEnd.stops m store' => CallEnd.stops m store'
  | CallEnd.never_exits => CallEnd.never_exits

/-- A hash function for concrete instances: the number of characters of the key. -/
def lengthHash (key : String) : Nat := key.length

/-- A store with one shard holding the entry of `a` with value `1`, as left by `PUT a 1`. -/
def storeA : ShardedStore :=
  { shards_ :=
      [{ map := [("a", { value := "1", version := 1, expire_at := none, size_bytes := 2 })],
         lru := ["a"] }]
    memory_budget_bytes_ := 10
    memory_usage_bytes_ := 2
    version_ := 1
    metrics_ := { eviction_count_ := 0, memory_bytes_ := 2 } }

/-- A store of one shard with an entry `a` whose deadline is at one second and
an entry `b` without deadline. -/
def storeAB : ShardedStore :=
  { shards_ :=
      [{ map := [("b", { value := "2", version := 2, expire_at := none, size_bytes := 2 }),
                 ("a", { value := "1", version := 1, expire_at := some 1000000000,
                         size_bytes := 2 })],
         lru := ["b", "a"] }]
    memory_budget_bytes_ := 3
    memory_usage_bytes_ := 4
    version_ := 2
    metrics_ := { eviction_count_ := 0, memory_bytes_ := 4 } }

/-- Two items with the same key. -/
def twoItemsOneKey : List SnapshotItem :=
  [{ key := "a", value := "x", version := 1, expire_at := none },
   { key := "a", value := "y", version := 2, expire_at := none }]

/-- A store of one shard whose only entry, of two bytes, exceeds the budget of one byte. -/
def storeHuge : ShardedStore :=
  { shards_ :=
      [{ map := [("a", { value := "1", version := 1, expire_at := none, size_bytes := 2 })],
         lru := ["a"] }]
    memory_budget_bytes_ := 1
    memory_usage_bytes_ := 2
    version_ := 1
    metrics_ := { eviction_count_ := 0, memory_bytes_ := 2 } }

/-- The bytes of the ASCII string `123456789`. -/
def digits : List Nat := [49, 50, 51, 52, 53, 54, 55, 56, 57]

/-- Five records of a log. -/
def fiveRecords : List (List Nat) := [[80, 85, 84], [], digits, [68, 69, 76, 32, 97], [1, 2]]

/-- An item of key `a` and value `1` whose deadline is at one second. -/
def itemA1 : SnapshotItem :=
  { key := "a", value := "1", version := 1, expire_at := some 1000000000 }

/-- A call of `write_snapshot` that nothing disturbs. -/
def noFault : SnapshotFault :=
  { open_fails := false, accepted := none, rename_fails := false, stop := Stop.never }

/-- An empty data directory. -/
def emptyDir : SnapshotDir := { tmp := none, dat := none }

/-- The store that `put("a", "1", 1)` at clock reading 0 leaves from an empty
store of one shard and budget 10: the deadline of `a` is at one second. -/
def storeA1 : ShardedStore :=
  { shards_ :=
      [{ map := [("a", { value := "1", version := 1, expire_at := some 1000000000,
                         size_bytes := 2 })],
         lru := ["a"] }]
    memory_budget_bytes_ := 10
    memory_usage_bytes_ := 2
    version_ := 1
    metrics_ := { eviction_count_ := 0, memory_bytes_ := 2 } }

/-- A call of `write_snapshot` in which the file takes three bytes and then
every write fails. -/
def writeFails : SnapshotFault :=
  { open_fails := false, accepted := some 3, rename_fails := false, stop := Stop.never }

/-- A data directory that holds the snapshot of `itemA1` written at clock reading 0. -/
def dirA1 : SnapshotDir := { tmp := none, dat := some (snapshot_bytes 0 [itemA1]) }

/-- Two items, of keys `k` and `b`. -/
def itemsKB : List SnapshotItem :=
  [{ key := "k", value := "v", version := 2, expire_at := none },
   { key := "b", value := "w", version := 3, expire_at := some 5000000000 }]

/-- The snapshot that holds `a` with value `1` and version 1. -/
def snapshotA : List SnapshotItem :=
  [{ key := "a", value := "1", version := 1, expire_at := none }]

/-- The records `PUT a 2` and `DEL b` of a log, applied at clock readings 5 and 6. -/
def walAB : List (Nat × String) := [(5, "PUT a 2"), (6, "DEL b")]

/-- A running broadcaster with the followers 3, 4 and 5, after seven records. -/
def broadcaster345 : ReplicationBroadcaster :=
  { running_ := true, clients_ := [3, 4, 5], sequence_ := 7, sent_ := 7, replication_lag_ := 0 }

/-- A network in which every send to socket 4 fails and every other send
transmits the whole payload. -/
def sendFails4 (fd : Nat) (payload : String) : Int :=
  if fd = 4 then -1 else (strSize payload : Int)

/-- A leader without log writer and without broadcaster whose store holds `a`
with value `1`. -/
def leaderA : KvServer :=
  { role := "leader", store_ := storeA, wal_ := none, replication_ := none,
    get_count_ := 0, put_count_ := 0, del_count_ := 0 }

/-- A replica with a log writer and a broadcaster whose store holds `a` with value `1`. -/
def replicaA : KvServer :=
  { role := "replica", store_ := storeA, wal_ := some { file := [], wal_bytes_ := 0 },
    replication_ := some broadcaster345, get_count_ := 0, put_count_ := 0, del_count_ := 0 }

/-- A network in which every send transmits the whole payload. -/
def sendAll (_ : Nat) (payload : String) : Int := (strSize payload : Int)

/-- A pool of one worker, busy with task 1, in whose queue the tasks 7 and 8 wait. -/
def pool78 : ThreadPool :=
  { max_queue_depth_ := 4, queue_ := [7, 8], shutdown_ := false, workers := 1, started := [1] }

/-- A sequence of calls with three calls of `put`, two calls of `rebalance`
(one of them to zero shards), a `del` and a call of `expire_keys`. -/
def mixedOps : List Op :=
  [Op.put 0 "a" "x" (some 5), Op.put 0 "bb" "y" none, Op.put 0 "ccc" "z" none,
   Op.rebalance 3, Op.rebalance 0, Op.del "a", Op.expire_keys 9]

/-- The bytes of `PUT a 1`, newline, newline, `DEL a`, newline, `PU`. -/
def streamA : List Nat :=
  [80, 85, 84, 32, 97, 32, 49, 10, 10, 68, 69, 76, 32, 97, 10, 80, 85]

/-- The bytes of `streamA` in three chunks that cut the first line and the
second, with the second chunk ending between the two newlines. -/
def chunksA : List (List Nat) :=
  [[80, 85], [84, 32, 97, 32, 49, 10], [10, 68, 69, 76, 32, 97, 10, 80, 85]]

/-- A store of one shard and a budget of one byte, empty. -/
def storeTiny : ShardedStore := ShardedStore.init 1 1

/-- A store of two shards and a budget of 5 bytes that holds `bb` with value
`22` in shard 0, as left by `put("bb", "22")` on the empty store. -/
def storeBB : ShardedStore :=
  { shards_ :=
      [{ map := [("bb", { value := "22", version := 1, expire_at := none, size_bytes := 4 })],
         lru := ["bb"] },
       { map := [], lru := [] }]
    memory_budget_bytes_ := 5
    memory_usage_bytes_ := 4
    version_ := 1
    metrics_ := { eviction_count_ := 0, memory_bytes_ := 4 } }

/-- Two puts, of which the second evicts the key of the first from the shard
of lower index, a put with a TTL, an expiry pass and a delete. -/
def putsExpireDel : List Op :=
  [Op.put 0 "bb" "22" none, Op.put 1 "a" "1" none, Op.put 2 "cc" "3" (some 1),
   Op.expire_keys 2000000000, Op.del "a"]

/-- Two puts, of which the second evicts the key of the first from the shard
of lower index, a put, a rebalance to three shards and a direct call of
`enforce_memory_budget`. -/
def putsRebalanceEnforce : List Op :=
  [Op.put 0 "bb" "22" none, Op.put 1 "a" "1" none, Op.put 2 "cc" "3" none,
   Op.rebalance 3, Op.enforce_memory_budget]

/-- The store that `putsExpireDel` leaves from an empty store of two shards and
budget 5. -/
def putsExpireDelResult : ShardedStore :=
  { shards_ := [{ map := [], lru := [] }, { map := [], lru := [] }]
    memory_budget_bytes_ := 5
    memory_usage_bytes_ := 0
    version_ := 3
    metrics_ := { eviction_count_ := 1, memory_bytes_ := 5 } }

/-- The store that `putsRebalanceEnforce` leaves from an empty store of two
shards and budget 5. -/
def putsRebalanceEnforceResult : ShardedStore :=
  { shards_ :=
      [{ map := [], lru := [] },
       { map := [("a", { value := "1", version := 2, expire_at := none, size_bytes := 2 })],
         lru := ["a"] },
       { map := [("cc", { value := "3", version := 3, expire_at := none, size_bytes := 3 })],
         lru := ["cc"] }]
    memory_budget_bytes_ := 5
    memory_usage_bytes_ := 5
    version_ := 3
    metrics_ := { eviction_count_ := 1, memory_bytes_ := 5 } }

/-- Two puts on a store of one shard, of `a` and then of `b`, and a rebalance
to three shards. -/
def putsThenRebalance : List Op :=
  [Op.put 0 "a" "1" none, Op.put 1 "b" "2" none, Op.rebalance 3]

/-- The store that `putsThenRebalance` leaves from an empty store of one shard
and budget 6: `rebalance` has visited the map of the old shard in its iteration
order, `b` before `a`, and has pushed each key to the front of the list of
shard 1, so that the list is `a, b`. -/
def storeRebalanced : ShardedStore :=
  { shards_ :=
      [{ map := [], lru := [] },
       { map := [("a", { value := "1", version := 1, expire_at := none, size_bytes := 2 }),
                 ("b", { value := "2", version := 2, expire_at := none, size_bytes := 2 })],
         lru := ["a", "b"] },
       { map := [], lru := [] }]
    memory_budget_bytes_ := 6
    memory_usage_bytes_ := 4
    version_ := 2
    metrics_ := { eviction_count_ := 0, memory_bytes_ := 4 } }

/-- Two puts into shard 0, of `aa` and then of `bb`, a `get` of `aa`, and a put
of `c` into shard 1. -/
def readThenEvict : List Op :=
  [Op.put 0 "aa" "1" none, Op.put 1 "bb" "2" none, Op.get 2 "aa" none, Op.put 3 "c" "3" none]

/-! # Lemmas and theorems -/

/-! ## The body of `get` -/

/-- Every path through the body of `get` leaves the store as it found it. -/
@[simp] theorem get_call_snd (hash : String → Nat) (now : Nat) (s : ShardedStore) (key : String)
    (V : Option Nat) : (get_call hash now s key V).2 = s := by
  unfold get_call
  split
  · rfl
  · split
    · rfl
    · split
      · rfl
      · split <;> rfl

/-- The value that the body of `get` returns. -/
theorem get_call_fst (hash : String → Nat) (now : Nat) (s : ShardedStore) (key : String)
    (V : Option Nat) : (get_call hash now s key V).1 = get hash now s key V := by
  unfold get_call get
  cases h1 : s.shards_[shard_for hash s key]? with
  | none => rfl
  | some shard =>
    simp only []
    cases h2 : mapFind shard.map key with
    | none => rfl
    | some entry =>
      simp only []
      by_cases h3 : too_new V entry = true
      · simp only [h3, if_true]
      · by_cases h4 : expired now entry = true
        · simp only [h3, h4, if_true, Bool.false_eq_true, if_false]
        · simp only [h3, h4, Bool.false_eq_true, if_false]

/-! ## Lemmas on the map -/

theorem mapFind_emplace_self (m : List (String × Entry)) (k : String) (e : Entry)
    (h : mapFind m k = none) : mapFind (mapEmplace m k e) k = some e := by
  simp [mapEmplace, h, mapFind]

theorem mapFind_replace_self (m : List (String × Entry)) (k : String) (e : Entry) :
    (mapFind m k).isSome → mapFind (mapReplace m k e) k = some e := by
  induction m with
  | nil => simp [mapFind]
  | cons p m ih =>
    obtain ⟨k', e'⟩ := p
    by_cases hk : k' = k
    · simp [mapFind, mapReplace, hk]
    · simp [mapFind, mapReplace, hk]
      exact ih

theorem mapFind_replace_ne (m : List (String × Entry)) (k k' : String) (e : Entry)
    (h : k' ≠ k) : mapFind (mapReplace m k e) k' = mapFind m k' := by
  induction m with
  | nil => simp [mapFind, mapReplace]
  | cons p m ih =>
    obtain ⟨k0, e0⟩ := p
    by_cases hk : k0 = k
    · subst hk
      simp [mapFind, mapReplace, Ne.symm h]
    · by_cases hk' : k0 = k'
      · subst hk'
        simp [mapFind, mapReplace, hk]
      · simp [mapFind, mapReplace, hk, hk', ih]

theorem mapFind_erase_self (m : List (String × Entry)) (k : String) :
    mapFind (mapErase m k) k = none := by
  induction m with
  | nil => simp [mapFind, mapErase]
  | cons p m ih =>
    obtain ⟨k0, e0⟩ := p
    by_cases hk : k0 = k
    · simpa [mapErase, hk] using ih
    · simpa [mapErase, hk, mapFind] using ih

theorem mapFind_erase_ne (m : List (String × Entry)) (k k' : String) (h : k' ≠ k) :
    mapFind (mapErase m k) k' = mapFind m k' := by
  induction m with
  | nil => simp [mapFind, mapErase]
  | cons p m ih =>
    obtain ⟨k0, e0⟩ := p
    by_cases hk : k0 = k
    · subst hk
      simpa [mapErase, mapFind, Ne.symm h] using ih
    · by_cases hk' : k0 = k'
      · subst hk'
        simp [mapErase, hk, mapFind]
      · simpa [mapErase, hk, hk', mapFind] using ih

theorem mapFind_isSome_iff (m : List (String × Entry)) (k : String) :
    (mapFind m k).isSome ↔ k ∈ mapKeys m := by
  induction m with
  | nil => simp [mapFind, mapKeys]
  | cons p m ih =>
    obtain ⟨k0, e0⟩ := p
    by_cases hk : k0 = k
    · simp [mapFind, mapKeys, hk]
    · simp [mapFind, mapKeys, hk, Ne.symm hk] 
      simpa [mapKeys] using ih

theorem mapFind_eq_none_iff (m : List (String × Entry)) (k : String) :
    mapFind m k = none ↔ k ∉ mapKeys m := by
  rw [← mapFind_isSome_iff]; cases mapFind m k <;> simp

theorem mapFind_mem (m : List (String × Entry)) (k : String) (e : Entry)
    (h : mapFind m k = some e) : (k, e) ∈ m := by
  induction m with
  | nil => simp [mapFind] at h
  | cons p m ih =>
    obtain ⟨k0, e0⟩ := p
    by_cases hk : k0 = k
    · simp [mapFind, hk] at h; simp [hk, h]
    · simp [mapFind, hk] at h; simp [ih h]

/-! ## The eviction loop when the budget holds -/

theorem enforce_loop_within (fuel : Nat) (s : ShardedStore)
    (h : s.memory_usage_bytes_ ≤ s.memory_budget_bytes_) :
    enforce_loop (fuel + 1) s = some s := by
  simp [enforce_loop, Nat.not_lt.mpr h]

theorem enforce_within (s : ShardedStore)
    (h : s.memory_usage_bytes_ ≤ s.memory_budget_bytes_) :
    enforce_memory_budget s = some (set_memory_bytes s) := by
  simp [enforce_memory_budget, enforce_loop_within _ s h]

theorem get_set_memory_bytes (hash : String → Nat) (now : Nat) (s : ShardedStore)
    (key : String) (v : Option Nat) :
    get hash now (set_memory_bytes s) key v = get hash now s key v := rfl

/-! ## Unfolding the mutation step of `put` -/

theorem put_mutation_absent (hash : String → Nat) (now : Nat) (s : ShardedStore)
    (key value : String) (ttl : Option Nat) (shard : Shard)
    (hsh : s.shards_[shard_for hash s key]? = some shard) (hf : mapFind shard.map key = none) :
    put_mutation hash now s key value ttl =
      { s with
        version_ := (s.version_ + 1) % U64
        shards_ := s.shards_.set (shard_for hash s key)
          { map := mapEmplace shard.map key
              { value := value, version := (s.version_ + 1) % U64,
                expire_at := ttl.map (fun t => now + t * ticksPerSecond),
                size_bytes := strSize key + strSize value },
            lru := key :: shard.lru }
        memory_usage_bytes_ := memAdd s.memory_usage_bytes_ (strSize key + strSize value) } := by
  simp only [put_mutation, hsh, hf]

theorem put_mutation_present (hash : String → Nat) (now : Nat) (s : ShardedStore)
    (key value : String) (ttl : Option Nat) (shard : Shard) (old : Entry)
    (hsh : s.shards_[shard_for hash s key]? = some shard) (hf : mapFind shard.map key = some old) :
    put_mutation hash now s key value ttl =
      { s with
        version_ := (s.version_ + 1) % U64
        shards_ := s.shards_.set (shard_for hash s key)
          { map := mapReplace shard.map key
              { value := value, version := (s.version_ + 1) % U64,
                expire_at := ttl.map (fun t => now + t * ticksPerSecond),
                size_bytes := strSize key + strSize value },
            lru := key :: shard.lru.erase key }
        memory_usage_bytes_ :=
          memAdd (memSub s.memory_usage_bytes_ old.size_bytes) (strSize key + strSize value) } := by
  simp only [put_mutation, hsh, hf, touch]

theorem put_mutation_no_shard (hash : String → Nat) (now : Nat) (s : ShardedStore)
    (key value : String) (ttl : Option Nat)
    (hsh : s.shards_[shard_for hash s key]? = none) :
    put_mutation hash now s key value ttl = s := by
  simp only [put_mutation, hsh]

theorem put_mutation_budget (hash : String → Nat) (now : Nat) (s : ShardedStore)
    (key value : String) (ttl : Option Nat) :
    (put_mutation hash now s key value ttl).memory_budget_bytes_ = s.memory_budget_bytes_ := by
  cases hsh : s.shards_[shard_for hash s key]? with
  | none => rw [put_mutation_no_shard _ _ _ _ _ _ hsh]
  | some shard =>
    cases hf : mapFind shard.map key with
    | none => rw [put_mutation_absent _ _ _ _ _ _ _ hsh hf]
    | some old => rw [put_mutation_present _ _ _ _ _ _ _ _ hsh hf]

theorem put_mutation_length (hash : String → Nat) (now : Nat) (s : ShardedStore)
    (key value : String) (ttl : Option Nat) :
    (put_mutation hash now s key value ttl).shards_.length = s.shards_.length := by
  cases hsh : s.shards_[shard_for hash s key]? with
  | none => rw [put_mutation_no_shard _ _ _ _ _ _ hsh]
  | some shard =>
    cases hf : mapFind shard.map key with
    | none => rw [put_mutation_absent _ _ _ _ _ _ _ hsh hf]; simp
    | some old => rw [put_mutation_present _ _ _ _ _ _ _ _ hsh hf]; simp

/-- The shard of `key` after the mutation step of `put` holds the new entry. -/
theorem put_mutation_find (hash : String → Nat) (now : Nat) (s : ShardedStore)
    (key value : String) (ttl : Option Nat) (h : 0 < s.shards_.length) :
    ∃ sh, (put_mutation hash now s key value ttl).shards_[shard_for hash s key]? = some sh ∧
      mapFind sh.map key = some
        { value := value, version := (s.version_ + 1) % U64,
          expire_at := ttl.map (fun t => now + t * ticksPerSecond),
          size_bytes := strSize key + strSize value } := by
  have hidx : shard_for hash s key < s.shards_.length := Nat.mod_lt _ h
  have hsh := List.getElem?_eq_getElem hidx
  cases hf : mapFind (s.shards_[shard_for hash s key]).map key with
  | none =>
    rw [put_mutation_absent _ _ _ _ _ _ _ hsh hf]
    simp [List.getElem?_set_self hidx, mapFind_emplace_self _ _ _ hf]
  | some old =>
    rw [put_mutation_present _ _ _ _ _ _ _ _ hsh hf]
    simp [List.getElem?_set_self hidx]
    exact mapFind_replace_self _ _ _ (by simp [hf])

/-- Claim C1: in every store with at least one shard, when the mutation step of
`put(k, v)` without TTL leaves the memory counter within the budget, so that the
eviction loop removes nothing, `put` returns and a `get(k)` without snapshot
version issued on the resulting store, at any clock reading, returns exactly `v`. -/
theorem get_after_put (hash : String → Nat) (now now' : Nat) (s : ShardedStore)
    (k v : String) (hshards : 0 < s.shards_.length)
    (hfit : (put_mutation hash now s k v none).memory_usage_bytes_ ≤ s.memory_budget_bytes_) :
    ∃ s', put hash now s k v none = some s' ∧ get hash now' s' k none = some v := by
  refine ⟨set_memory_bytes (put_mutation hash now s k v none), ?_, ?_⟩
  · exact enforce_within _ (by rw [put_mutation_budget]; exact hfit)
  · obtain ⟨sh, h1, h3⟩ := put_mutation_find hash now s k v none hshards
    rw [get_set_memory_bytes]
    unfold get
    have : shard_for hash (put_mutation hash now s k v none) k = shard_for hash s k := by
      simp [shard_for, put_mutation_length]
    rw [this, h1]
    simp [h3, too_new, expired]

/-- Instance of `get_after_put`: `PUT a 1` then `GET a` gives `1`. -/
theorem get_after_put_witness :
    0 < (ShardedStore.init 2 10).shards_.length ∧
    (put_mutation lengthHash 5 (ShardedStore.init 2 10) "a" "1" none).memory_usage_bytes_ ≤
      (ShardedStore.init 2 10).memory_budget_bytes_ ∧
    ∃ s', put lengthHash 5 (ShardedStore.init 2 10) "a" "1" none = some s' ∧
      get lengthHash 6 s' "a" none = some "1" :=
  ⟨by decide, by decide,
    get_after_put lengthHash 5 6 (ShardedStore.init 2 10) "a" "1" (by decide) (by decide)⟩

/-! ## Keys and sizes of a map -/

theorem mapKeys_erase (m : List (String × Entry)) (k : String) :
    mapKeys (mapErase m k) = (mapKeys m).filter (fun x => decide (x ≠ k)) := by
  induction m with
  | nil => rfl
  | cons p m ih =>
    obtain ⟨k0, e0⟩ := p
    by_cases hk : k0 = k
    · simpa [mapErase, mapKeys, hk] using ih
    · simpa [mapErase, mapKeys, hk] using ih

theorem mapKeys_erase_nodup (m : List (String × Entry)) (k : String)
    (h : (mapKeys m).Nodup) : mapKeys (mapErase m k) = (mapKeys m).erase k := by
  rw [mapKeys_erase, List.Nodup.erase_eq_filter h]
  congr 1
  funext x
  by_cases hx : x = k <;> simp [bne, hx]

theorem mapKeys_replace (m : List (String × Entry)) (k : String) (e : Entry) :
    mapKeys (mapReplace m k e) = mapKeys m := by
  induction m with
  | nil => rfl
  | cons p m ih =>
    obtain ⟨k0, e0⟩ := p
    by_cases hk : k0 = k
    · simp [mapReplace, mapKeys, hk]
    · simpa [mapReplace, mapKeys, hk] using ih

theorem mapKeys_emplace (m : List (String × Entry)) (k : String) (e : Entry)
    (h : mapFind m k = none) : mapKeys (mapEmplace m k e) = k :: mapKeys m := by
  simp [mapEmplace, h, mapKeys]

theorem mapErase_of_not_mem (m : List (String × Entry)) (k : String)
    (h : k ∉ mapKeys m) : mapErase m k = m := by
  induction m with
  | nil => rfl
  | cons p m ih =>
    obtain ⟨k0, e0⟩ := p
    simp [mapKeys] at h
    have h1 : k0 ≠ k := fun hh => h.1 hh.symm
    have h2 : k ∉ mapKeys m := by simpa [mapKeys] using h.2
    simpa [mapErase, h1] using ih h2

theorem mapBytes_erase (m : List (String × Entry)) (k : String) (e : Entry)
    (hn : (mapKeys m).Nodup) (hf : mapFind m k = some e) :
    mapBytes (mapErase m k) + e.size_bytes = mapBytes m := by
  induction m with
  | nil => simp [mapFind] at hf
  | cons p m ih =>
    obtain ⟨k0, e0⟩ := p
    have hn' : k0 ∉ mapKeys m ∧ (mapKeys m).Nodup := by simpa [mapKeys] using hn
    by_cases hk : k0 = k
    · subst hk
      simp [mapFind] at hf
      subst hf
      have : mapErase ((k0, e0) :: m) k0 = m := by
        have := mapErase_of_not_mem m k0 hn'.1
        simpa [mapErase] using this
      rw [this]
      simp [mapBytes]
      omega
    · simp [mapFind, hk] at hf
      have := ih hn'.2 hf
      have h2 : mapErase ((k0, e0) :: m) k = (k0, e0) :: mapErase m k := by
        simp [mapErase, hk]
      rw [h2]
      simp [mapBytes] at this ⊢
      omega

theorem mapBytes_replace (m : List (String × Entry)) (k : String) (e old : Entry)
    (hf : mapFind m k = some old) :
    mapBytes (mapReplace m k e) + old.size_bytes = mapBytes m + e.size_bytes := by
  induction m with
  | nil => simp [mapFind] at hf
  | cons p m ih =>
    obtain ⟨k0, e0⟩ := p
    by_cases hk : k0 = k
    · simp [mapFind, hk] at hf
      subst hf
      simp [mapReplace, hk, mapBytes]
      omega
    · simp [mapFind, hk] at hf
      have := ih hf
      simp [mapReplace, hk, mapBytes] at this ⊢
      omega

theorem mem_mapReplace (m : List (String × Entry)) (k : String) (e : Entry)
    (p : String × Entry) (h : p ∈ mapReplace m k e) : p = (k, e) ∨ p ∈ m := by
  induction m with
  | nil => simp [mapReplace] at h
  | cons q m ih =>
    obtain ⟨k0, e0⟩ := q
    by_cases hk : k0 = k
    · simp [mapReplace, hk] at h
      rcases h with h | h
      · exact Or.inl h
      · exact Or.inr (List.mem_cons_of_mem _ h)
    · simp [mapReplace, hk] at h
      rcases h with h | h
      · exact Or.inr (by simp [h])
      · rcases ih h with h' | h'
        · exact Or.inl h'
        · exact Or.inr (List.mem_cons_of_mem _ h')

theorem mem_mapEmplace (m : List (String × Entry)) (k : String) (e : Entry)
    (p : String × Entry) (h : p ∈ mapEmplace m k e) : p = (k, e) ∨ p ∈ m := by
  unfold mapEmplace at h
  cases hf : mapFind m k with
  | none => simpa [hf] using h
  | some x => simp [hf] at h; exact Or.inr h

theorem mem_mapAssign (m : List (String × Entry)) (k : String) (e : Entry)
    (p : String × Entry) (h : p ∈ mapAssign m k e) : p = (k, e) ∨ p ∈ m := by
  unfold mapAssign at h
  cases hf : mapFind m k with
  | none => simpa [hf] using h
  | some x => simp [hf] at h; exact mem_mapReplace m k e p h

theorem mem_mapErase (m : List (String × Entry)) (k : String)
    (p : String × Entry) (h : p ∈ mapErase m k) : p ∈ m := by
  simp [mapErase] at h
  exact h.1

/-! ## Sums over the shards -/

theorem totalBytes_set (l : List Shard) (i : Nat) (sh x : Shard) (h : l[i]? = some sh) :
    totalBytes (l.set i x) + mapBytes sh.map = totalBytes l + mapBytes x.map := by
  induction l generalizing i with
  | nil => simp at h
  | cons a l ih =>
    cases i with
    | zero =>
      simp at h
      subst h
      simp [totalBytes]
      omega
    | succ i =>
      simp at h
      have := ih i h
      simp [totalBytes] at this ⊢
      omega

theorem mapBytes_le_total (l : List Shard) (sh : Shard) (h : sh ∈ l) :
    mapBytes sh.map ≤ totalBytes l := by
  induction l with
  | nil => simp at h
  | cons a l ih =>
    simp at h
    rcases h with h | h
    · subst h; simp [totalBytes]
    · have := ih h
      simp [totalBytes] at this ⊢
      omega

theorem size_le_mapBytes (m : List (String × Entry)) (p : String × Entry) (h : p ∈ m) :
    p.2.size_bytes ≤ mapBytes m := by
  induction m with
  | nil => simp at h
  | cons a m ih =>
    simp at h
    rcases h with h | h
    · subst h; simp [mapBytes]
    · have := ih h
      simp [mapBytes] at this ⊢
      omega

/-! ## Arithmetic of the 64-bit memory counter -/

theorem memSub_exact (mem size : Nat) (h1 : size ≤ mem) (h2 : mem < U64) :
    memSub mem size = mem - size := by
  unfold memSub U64 at *
  omega

theorem memSub_mod (t t' size : Nat) (h : t' + size = t) :
    memSub (t % U64) size = t' % U64 := by
  unfold memSub U64
  omega

theorem memAdd_mod (t size : Nat) : memAdd (t % U64) size = (t + size) % U64 := by
  unfold memAdd U64
  omega

/-! ## Unfolding `remove_entry` -/

theorem remove_entry_present (s : ShardedStore) (idx : Nat) (key : String) (shard : Shard)
    (e : Entry) (hsh : s.shards_[idx]? = some shard) (hf : mapFind shard.map key = some e) :
    remove_entry s idx key =
      { s with
        memory_usage_bytes_ := memSub s.memory_usage_bytes_ e.size_bytes
        shards_ := s.shards_.set idx
          { map := mapErase shard.map key, lru := shard.lru.erase key } } := by
  simp only [remove_entry, hsh, hf]

theorem remove_entry_absent (s : ShardedStore) (idx : Nat) (key : String) (shard : Shard)
    (hsh : s.shards_[idx]? = some shard) (hf : mapFind shard.map key = none) :
    remove_entry s idx key = s := by
  simp only [remove_entry, hsh, hf]

theorem remove_entry_no_shard (s : ShardedStore) (idx : Nat) (key : String)
    (hsh : s.shards_[idx]? = none) : remove_entry s idx key = s := by
  simp only [remove_entry, hsh]

/-- The three cases of `remove_entry`. -/
theorem remove_entry_cases (s : ShardedStore) (idx : Nat) (key : String) :
    remove_entry s idx key = s ∨
    ∃ shard e, s.shards_[idx]? = some shard ∧ mapFind shard.map key = some e ∧
      remove_entry s idx key =
        { s with
          memory_usage_bytes_ := memSub s.memory_usage_bytes_ e.size_bytes
          shards_ := s.shards_.set idx
            { map := mapErase shard.map key, lru := shard.lru.erase key } } := by
  cases hsh : s.shards_[idx]? with
  | none => exact Or.inl (remove_entry_no_shard s idx key hsh)
  | some shard =>
    cases hf : mapFind shard.map key with
    | none => exact Or.inl (remove_entry_absent s idx key shard hsh hf)
    | some e => exact Or.inr ⟨shard, e, rfl, hf, remove_entry_present s idx key shard e hsh hf⟩

theorem remove_entry_version (s : ShardedStore) (idx : Nat) (key : String) :
    (remove_entry s idx key).version_ = s.version_ := by
  rcases remove_entry_cases s idx key with h | ⟨_, _, _, _, h⟩ <;> rw [h]

theorem remove_entry_budget (s : ShardedStore) (idx : Nat) (key : String) :
    (remove_entry s idx key).memory_budget_bytes_ = s.memory_budget_bytes_ := by
  rcases remove_entry_cases s idx key with h | ⟨_, _, _, _, h⟩ <;> rw [h]

theorem remove_entry_length (s : ShardedStore) (idx : Nat) (key : String) :
    (remove_entry s idx key).shards_.length = s.shards_.length := by
  rcases remove_entry_cases s idx key with h | ⟨_, _, _, _, h⟩ <;> rw [h]
  simp

/-- Claim C4: `get(k, V)` run at time `now` returns a value `v` exactly when the
shard selected for `k` holds an entry for `k` whose value is `v`, whose version
is at most `V` when `V` is supplied and whose deadline, if any, is strictly
later than `now`; it returns absent exactly when there is no such entry.  In
particular a `get` with snapshot version `V` only returns entries of version
at most `V`. -/
theorem get_spec (hash : String → Nat) (now : Nat) (s : ShardedStore) (k : String)
    (V : Option Nat) :
    (∀ v, get hash now s k V = some v ↔
      ∃ sh e, s.shards_[shard_for hash s k]? = some sh ∧ mapFind sh.map k = some e ∧
        (∀ ver, V = some ver → e.version ≤ ver) ∧
        (∀ t, e.expire_at = some t → now < t) ∧ e.value = v) ∧
    (get hash now s k V = none ↔
      ¬ ∃ sh e, s.shards_[shard_for hash s k]? = some sh ∧ mapFind sh.map k = some e ∧
        (∀ ver, V = some ver → e.version ≤ ver) ∧
        (∀ t, e.expire_at = some t → now < t)) ∧
    (∀ ver v, V = some ver → get hash now s k V = some v →
      ∃ sh e, s.shards_[shard_for hash s k]? = some sh ∧ mapFind sh.map k = some e ∧
        e.version ≤ ver ∧ e.value = v) := by
  have key : ∀ v, get hash now s k V = some v ↔
      ∃ sh e, s.shards_[shard_for hash s k]? = some sh ∧ mapFind sh.map k = some e ∧
        (∀ ver, V = some ver → e.version ≤ ver) ∧
        (∀ t, e.expire_at = some t → now < t) ∧ e.value = v := by
    intro v
    unfold get
    cases hsh : s.shards_[shard_for hash s k]? with
    | none => simp
    | some sh =>
      cases hf : mapFind sh.map k with
      | none => simp [hf]
      | some e =>
        cases hV : V with
        | none =>
          cases hx : e.expire_at with
          | none => simp [hf, too_new, expired, hx]
          | some t => simp [hf, too_new, expired, hx]
        | some ver =>
          cases hx : e.expire_at with
          | none => simp [hf, too_new, expired, hx]
          | some t =>
            by_cases h1 : e.version ≤ ver <;> simp [hf, too_new, expired, hx, h1]
  refine ⟨key, ?_, ?_⟩
  · constructor
    · rintro hnone ⟨sh, e, h1, h2, h3, h4⟩
      have := (key e.value).mpr ⟨sh, e, h1, h2, h3, h4, rfl⟩
      rw [hnone] at this
      exact Option.noConfusion this
    · intro hno
      cases hg : get hash now s k V with
      | none => rfl
      | some v =>
        obtain ⟨sh, e, h1, h2, h3, h4, _⟩ := (key v).mp hg
        exact absurd ⟨sh, e, h1, h2, h3, h4⟩ hno
  · intro ver v hV hg
    obtain ⟨sh, e, h1, h2, h3, _, h5⟩ := (key v).mp hg
    exact ⟨sh, e, h1, h2, h3 ver hV, h5⟩

/-! ## Unfolding `del` -/

theorem del_present (hash : String → Nat) (s : ShardedStore) (key : String) (shard : Shard)
    (e : Entry) (hsh : s.shards_[shard_for hash s key]? = some shard)
    (hf : mapFind shard.map key = some e) :
    del hash s key = (remove_entry s (shard_for hash s key) key, true) := by
  simp only [del, hsh, hf]

theorem del_absent (hash : String → Nat) (s : ShardedStore) (key : String) (shard : Shard)
    (hsh : s.shards_[shard_for hash s key]? = some shard)
    (hf : mapFind shard.map key = none) : del hash s key = (s, false) := by
  simp only [del, hsh, hf]

theorem del_no_shard (hash : String → Nat) (s : ShardedStore) (key : String)
    (hsh : s.shards_[shard_for hash s key]? = none) : del hash s key = (s, false) := by
  simp only [del, hsh]

theorem del_fst (hash : String → Nat) (s : ShardedStore) (key : String) :
    (del hash s key).1 = remove_entry s (shard_for hash s key) key := by
  cases hsh : s.shards_[shard_for hash s key]? with
  | none => rw [del_no_shard hash s key hsh, remove_entry_no_shard s _ key hsh]
  | some shard =>
    cases hf : mapFind shard.map key with
    | none => rw [del_absent hash s key shard hsh hf, remove_entry_absent s _ key shard hsh hf]
    | some e => rw [del_present hash s key shard e hsh hf]

theorem consistent_lru_nodup {sh : Shard} (h : sh.consistent) : sh.lru.Nodup :=
  (List.Perm.nodup_iff h.2).mpr h.1

theorem consistent_mem_lru_iff {sh : Shard} (h : sh.consistent) (k : String) :
    k ∈ sh.lru ↔ k ∈ mapKeys sh.map := h.2.mem_iff

theorem storeA_consistent : consistent storeA := by
  intro sh hsh
  simp [storeA] at hsh
  subst hsh
  simp [Shard.consistent, mapKeys]

theorem storeA_memExact : memExact storeA := by
  simp [memExact, storeA, totalBytes, mapBytes, U64]

/-! ## The eviction loop -/

theorem firstVictim_some (l : List Shard) (i : Nat) (key : String)
    (h : firstVictim l = some (i, key)) :
    ∃ sh, l[i]? = some sh ∧ sh.lru.getLast? = some key := by
  induction l generalizing i with
  | nil => simp [firstVictim] at h
  | cons a l ih =>
    unfold firstVictim at h
    cases hl : a.lru.getLast? with
    | some k0 =>
      simp [hl] at h
      obtain ⟨h1, h2⟩ := h
      subst h1
      subst h2
      exact ⟨a, by simp, hl⟩
    | none =>
      simp [hl] at h
      obtain ⟨i0, h0, h1⟩ := h
      subst h1
      obtain ⟨sh, hs1, hs2⟩ := ih i0 h0
      exact ⟨sh, by simpa using hs1, hs2⟩

theorem firstVictim_none (l : List Shard) (h : firstVictim l = none) :
    ∀ sh ∈ l, sh.lru = [] := by
  induction l with
  | nil => simp
  | cons a l ih =>
    unfold firstVictim at h
    cases hl : a.lru.getLast? with
    | some k0 => simp [hl] at h
    | none =>
      simp [hl] at h
      intro sh hsh
      simp at hsh
      rcases hsh with hsh | hsh
      · subst hsh; simpa using hl
      · exact ih h sh hsh

theorem evict_step_some (s s' : ShardedStore) (h : evict_step s = some s') :
    ∃ idx key sh, s.shards_[idx]? = some sh ∧ sh.lru.getLast? = some key ∧
      s' = record_eviction (remove_entry s idx key) := by
  unfold evict_step at h
  cases hv : firstVictim s.shards_ with
  | none => simp [hv] at h
  | some p =>
    obtain ⟨idx, key⟩ := p
    simp [hv] at h
    obtain ⟨sh, h1, h2⟩ := firstVictim_some _ _ _ hv
    exact ⟨idx, key, sh, h1, h2, h.symm⟩

/-- Loop invariants: a property kept by every pass holds when the loop exits. -/
theorem enforce_loop_induct (P : ShardedStore → Prop)
    (hstep : ∀ s s', P s → evict_step s = some s' → P s') :
    ∀ (fuel : Nat) (s s' : ShardedStore), enforce_loop fuel s = some s' → P s → P s' := by
  intro fuel
  induction fuel with
  | zero => intro s s' h; simp [enforce_loop] at h
  | succ n ih =>
    intro s s' h hP
    unfold enforce_loop at h
    by_cases hc : s.memory_usage_bytes_ > s.memory_budget_bytes_
    · simp only [hc, if_true] at h
      cases he : evict_step s with
      | none =>
        simp [he] at h
        subst h
        exact hP
      | some s1 =>
        simp [he] at h
        exact ih s1 s' h (hstep s s1 hP he)
    · simp only [hc, if_false] at h
      simp at h
      subst h
      exact hP

theorem enforce_induct (P : ShardedStore → Prop)
    (hstep : ∀ s s', P s → evict_step s = some s' → P s')
    (hset : ∀ s, P s → P (set_memory_bytes s))
    (s s' : ShardedStore) (h : enforce_memory_budget s = some s') (hP : P s) : P s' := by
  unfold enforce_memory_budget at h
  cases hl : enforce_loop (lruNodes s.shards_ + 1) s with
  | none => simp [hl] at h
  | some s1 =>
    simp [hl] at h
    subst h
    exact hset _ (enforce_loop_induct P hstep _ s s1 hl hP)

/-- On exit of the loop the budget holds or no shard has a recency node. -/
theorem enforce_loop_exit (fuel : Nat) (s s' : ShardedStore)
    (h : enforce_loop fuel s = some s') :
    s'.memory_usage_bytes_ ≤ s'.memory_budget_bytes_ ∨ firstVictim s'.shards_ = none := by
  induction fuel generalizing s with
  | zero => simp [enforce_loop] at h
  | succ n ih =>
    unfold enforce_loop at h
    by_cases hc : s.memory_usage_bytes_ > s.memory_budget_bytes_
    · simp only [hc, if_true] at h
      cases he : evict_step s with
      | none =>
        simp [he] at h
        subst h
        right
        unfold evict_step at he
        cases hv : firstVictim s.shards_ with
        | none => rfl
        | some p => simp [hv] at he
      | some s1 =>
        simp [he] at h
        exact ih s1 h
    · simp only [hc, if_false] at h
      simp at h
      subst h
      left
      omega

/-! ## Sums of recency nodes -/

theorem lruNodes_set (l : List Shard) (i : Nat) (sh x : Shard) (h : l[i]? = some sh) :
    lruNodes (l.set i x) + sh.lru.length = lruNodes l + x.lru.length := by
  induction l generalizing i with
  | nil => simp at h
  | cons a l ih =>
    cases i with
    | zero =>
      simp at h
      subst h
      simp [lruNodes]
      omega
    | succ i =>
      simp at h
      have := ih i h
      simp [lruNodes] at this ⊢
      omega

/-! ## `remove_entry` and the invariants -/

theorem consistent_erase {sh : Shard} (h : sh.consistent) (key : String) :
    Shard.consistent { map := mapErase sh.map key, lru := sh.lru.erase key } := by
  constructor
  · simp only [mapKeys_erase_nodup _ _ h.1]
    exact h.1.erase key
  · simp only [mapKeys_erase_nodup _ _ h.1]
    exact h.2.erase key

theorem wellFormed_erase {sh : Shard} (h : sh.wellFormed) (key : String) :
    Shard.wellFormed { map := mapErase sh.map key, lru := sh.lru.erase key } := by
  constructor
  · simp only [mapKeys_erase_nodup _ _ h.1]
    exact h.1.erase key
  · intro k hk
    simp only [mapKeys_erase_nodup _ _ h.1] at hk
    have h1 := (List.Nodup.mem_erase_iff h.1).mp hk
    exact (List.mem_erase_of_ne h1.1).mpr (h.2 k h1.2)

theorem consistent_wellFormed {sh : Shard} (h : sh.consistent) : sh.wellFormed :=
  ⟨h.1, fun k hk => (consistent_mem_lru_iff h k).mpr hk⟩

theorem remove_entry_consistent (s : ShardedStore) (idx : Nat) (key : String)
    (h : consistent s) : consistent (remove_entry s idx key) := by
  rcases remove_entry_cases s idx key with h1 | ⟨shard, e, hsh, hf, h1⟩
  · rw [h1]; exact h
  · rw [h1]
    intro sh hsh'
    rcases List.mem_or_eq_of_mem_set hsh' with h2 | h2
    · exact h sh h2
    · subst h2
      exact consistent_erase (h shard (List.getElem?_mem hsh)) key

theorem remove_entry_wellFormed (s : ShardedStore) (idx : Nat) (key : String)
    (h : ∀ sh ∈ s.shards_, sh.wellFormed) :
    ∀ sh ∈ (remove_entry s idx key).shards_, sh.wellFormed := by
  rcases remove_entry_cases s idx key with h1 | ⟨shard, e, hsh, hf, h1⟩
  · rw [h1]; exact h
  · rw [h1]
    intro sh hsh'
    rcases List.mem_or_eq_of_mem_set hsh' with h2 | h2
    · exact h sh h2
    · subst h2
      exact wellFormed_erase (h shard (List.getElem?_mem hsh)) key

theorem remove_entry_memMod (s : ShardedStore) (idx : Nat) (key : String)
    (hn : ∀ sh ∈ s.shards_, (mapKeys sh.map).Nodup) (h : memMod s) :
    memMod (remove_entry s idx key) := by
  rcases remove_entry_cases s idx key with h1 | ⟨shard, e, hsh, hf, h1⟩
  · rw [h1]; exact h
  · rw [h1]
    unfold memMod at h ⊢
    simp only
    have h2 := totalBytes_set s.shards_ idx shard
      { map := mapErase shard.map key, lru := shard.lru.erase key } hsh
    have h3 := mapBytes_erase shard.map key e (hn shard (List.getElem?_mem hsh)) hf
    simp only at h2
    rw [h]
    exact memSub_mod _ _ _ (by omega)

theorem remove_entry_sized (s : ShardedStore) (idx : Nat) (key : String)
    (h : sized s) : sized (remove_entry s idx key) := by
  rcases remove_entry_cases s idx key with h1 | ⟨shard, e, hsh, hf, h1⟩
  · rw [h1]; exact h
  · rw [h1]
    intro sh hsh' p hp
    rcases List.mem_or_eq_of_mem_set hsh' with h2 | h2
    · exact h sh h2 p hp
    · subst h2
      exact h shard (List.getElem?_mem hsh) p (mem_mapErase _ _ _ hp)

theorem mem_mapKeys_erase (m : List (String × Entry)) (key k : String)
    (h : k ∈ mapKeys (mapErase m key)) : k ∈ mapKeys m := by
  rw [mapKeys_erase] at h
  exact (List.mem_filter.mp h).1

theorem remove_entry_placed (hash : String → Nat) (s : ShardedStore) (idx : Nat)
    (key : String) (h : placed hash s) : placed hash (remove_entry s idx key) := by
  rcases remove_entry_cases s idx key with h1 | ⟨shard, e, hsh, hf, h1⟩
  · rw [h1]; exact h
  · rw [h1]
    intro i sh hi k hk
    simp only [List.length_set]
    simp only at hi
    by_cases hii : idx = i
    · subst hii
      have hlt : idx < s.shards_.length := (List.getElem?_eq_some_iff.mp hsh).1
      rw [List.getElem?_set_self hlt] at hi
      simp at hi
      subst hi
      exact h idx shard hsh k (mem_mapKeys_erase _ _ _ hk)
    · rw [List.getElem?_set_ne hii] at hi
      exact h i sh hi k hk

theorem remove_entry_subStore (s : ShardedStore) (idx : Nat) (key : String) :
    subStore s (remove_entry s idx key) := by
  rcases remove_entry_cases s idx key with h1 | ⟨shard, e, hsh, hf, h1⟩
  · rw [h1]; exact ⟨rfl, fun i sh' hi => ⟨sh', hi, fun _ _ hh => hh⟩⟩
  · rw [h1]
    refine ⟨by simp, ?_⟩
    intro i sh' hi
    simp only at hi
    by_cases hii : idx = i
    · subst hii
      have hlt : idx < s.shards_.length := (List.getElem?_eq_some_iff.mp hsh).1
      rw [List.getElem?_set_self hlt] at hi
      simp at hi
      subst hi
      refine ⟨shard, hsh, ?_⟩
      intro k e' hk
      by_cases hkk : k = key
      · subst hkk
        rw [mapFind_erase_self] at hk
        exact Option.noConfusion hk
      · rwa [mapFind_erase_ne _ _ _ hkk] at hk
    · rw [List.getElem?_set_ne hii] at hi
      exact ⟨sh', hi, fun _ _ hh => hh⟩

theorem subStore_refl (s : ShardedStore) : subStore s s :=
  ⟨rfl, fun _ sh' hi => ⟨sh', hi, fun _ _ hh => hh⟩⟩

theorem subStore_trans {a b c : ShardedStore} (h1 : subStore a b) (h2 : subStore b c) :
    subStore a c := by
  refine ⟨h2.1.trans h1.1, ?_⟩
  intro i sh' hi
  obtain ⟨shb, hb, hb'⟩ := h2.2 i sh' hi
  obtain ⟨sha, ha, ha'⟩ := h1.2 i shb hb
  exact ⟨sha, ha, fun k e hk => ha' k e (hb' k e hk)⟩

theorem enforce_subStore (s s' : ShardedStore) (h : enforce_memory_budget s = some s') :
    subStore s s' := by
  refine enforce_induct (fun x => subStore s x) ?_ ?_ s s' h (subStore_refl s)
  · intro a b hP he
    obtain ⟨idx, key, sh, _, _, hb⟩ := evict_step_some a b he
    subst hb
    exact subStore_trans hP (remove_entry_subStore a idx key)
  · intro a hP
    exact hP

theorem enforce_version (s s' : ShardedStore) (h : enforce_memory_budget s = some s') :
    s'.version_ = s.version_ := by
  refine enforce_induct (fun x => x.version_ = s.version_) ?_ ?_ s s' h rfl
  · intro a b hP he
    obtain ⟨idx, key, sh, _, _, hb⟩ := evict_step_some a b he
    subst hb
    simpa [record_eviction, remove_entry_version] using hP
  · intro a hP
    exact hP

theorem enforce_budget (s s' : ShardedStore) (h : enforce_memory_budget s = some s') :
    s'.memory_budget_bytes_ = s.memory_budget_bytes_ := by
  refine enforce_induct (fun x => x.memory_budget_bytes_ = s.memory_budget_bytes_) ?_ ?_ s s' h rfl
  · intro a b hP he
    obtain ⟨idx, key, sh, _, _, hb⟩ := evict_step_some a b he
    subst hb
    simpa [record_eviction, remove_entry_budget] using hP
  · intro a hP
    exact hP

/-- The loop exits when no recency node is stale. -/
theorem enforce_loop_returns (fuel : Nat) (s : ShardedStore) (hc : consistent s)
    (hf : lruNodes s.shards_ < fuel) : ∃ s', enforce_loop fuel s = some s' := by
  induction fuel generalizing s with
  | zero => omega
  | succ n ih =>
    unfold enforce_loop
    by_cases hm : s.memory_usage_bytes_ > s.memory_budget_bytes_
    · simp only [hm, if_true]
      cases he : evict_step s with
      | none => exact ⟨s, rfl⟩
      | some s1 =>
        simp only
        obtain ⟨idx, key, sh, h1, h2, h3⟩ := evict_step_some s s1 he
        have hcs := hc sh (List.getElem?_mem h1)
        have hmem : key ∈ sh.lru := List.mem_of_getLast?_eq_some h2
        have hk : key ∈ mapKeys sh.map := (consistent_mem_lru_iff hcs key).mp hmem
        obtain ⟨e, hfind⟩ := Option.isSome_iff_exists.mp ((mapFind_isSome_iff _ _).mpr hk)
        apply ih
        · subst h3
          exact remove_entry_consistent s idx key hc
        · subst h3
          rw [remove_entry_present s idx key sh e h1 hfind]
          have := lruNodes_set s.shards_ idx sh
            { map := mapErase sh.map key, lru := sh.lru.erase key } h1
          simp only [List.length_erase_of_mem hmem] at this
          have hpos : 0 < sh.lru.length := List.length_pos_of_mem hmem
          simp only [record_eviction]
          omega
    · simp only [hm, if_false]
      exact ⟨s, rfl⟩

theorem enforce_returns (s : ShardedStore) (hc : consistent s) :
    ∃ s', enforce_memory_budget s = some s' := by
  obtain ⟨s1, h1⟩ := enforce_loop_returns (lruNodes s.shards_ + 1) s hc (by omega)
  exact ⟨set_memory_bytes s1, by simp [enforce_memory_budget, h1]⟩

/-! ## The mutation step of `put` and the invariants -/

/-- The three cases of the mutation step of `put`. -/
theorem put_mutation_cases (hash : String → Nat) (now : Nat) (s : ShardedStore)
    (key value : String) (ttl : Option Nat) :
    put_mutation hash now s key value ttl = s ∧ s.shards_[shard_for hash s key]? = none ∨
    ∃ shard, s.shards_[shard_for hash s key]? = some shard ∧
      ((mapFind shard.map key = none ∧
        put_mutation hash now s key value ttl =
          { s with
            version_ := (s.version_ + 1) % U64
            shards_ := s.shards_.set (shard_for hash s key)
              { map := (key,
                  { value := value, version := (s.version_ + 1) % U64,
                    expire_at := ttl.map (fun t => now + t * ticksPerSecond),
                    size_bytes := strSize key + strSize value }) :: shard.map,
                lru := key :: shard.lru }
            memory_usage_bytes_ :=
              memAdd s.memory_usage_bytes_ (strSize key + strSize value) }) ∨
      (∃ old, mapFind shard.map key = some old ∧
        put_mutation hash now s key value ttl =
          { s with
            version_ := (s.version_ + 1) % U64
            shards_ := s.shards_.set (shard_for hash s key)
              { map := mapReplace shard.map key
                  { value := value, version := (s.version_ + 1) % U64,
                    expire_at := ttl.map (fun t => now + t * ticksPerSecond),
                    size_bytes := strSize key + strSize value },
                lru := key :: shard.lru.erase key }
            memory_usage_bytes_ :=
              memAdd (memSub s.memory_usage_bytes_ old.size_bytes)
                (strSize key + strSize value) })) := by
  cases hsh : s.shards_[shard_for hash s key]? with
  | none => exact Or.inl ⟨put_mutation_no_shard _ _ _ _ _ _ hsh, rfl⟩
  | some shard =>
    right
    refine ⟨shard, rfl, ?_⟩
    cases hf : mapFind shard.map key with
    | none =>
      left
      refine ⟨rfl, ?_⟩
      rw [put_mutation_absent _ _ _ _ _ _ _ hsh hf]
      simp [mapEmplace, hf]
    | some old =>
      right
      exact ⟨old, rfl, put_mutation_present _ _ _ _ _ _ _ _ hsh hf⟩

theorem put_mutation_consistent (hash : String → Nat) (now : Nat) (s : ShardedStore)
    (key value : String) (ttl : Option Nat) (h : consistent s) :
    consistent (put_mutation hash now s key value ttl) := by
  rcases put_mutation_cases hash now s key value ttl with ⟨h1, _⟩ | ⟨shard, hsh, hcase⟩
  · rw [h1]; exact h
  · have hcs := h shard (List.getElem?_mem hsh)
    rcases hcase with ⟨hf, h1⟩ | ⟨old, hf, h1⟩
    · rw [h1]
      intro sh hsh'
      rcases List.mem_or_eq_of_mem_set hsh' with h2 | h2
      · exact h sh h2
      · subst h2
        have hk : key ∉ mapKeys shard.map := (mapFind_eq_none_iff _ _).mp hf
        constructor
        · simp only [mapKeys, List.map_cons, List.nodup_cons]
          exact ⟨hk, hcs.1⟩
        · simp only [mapKeys, List.map_cons]
          exact List.Perm.cons key hcs.2
    · rw [h1]
      intro sh hsh'
      rcases List.mem_or_eq_of_mem_set hsh' with h2 | h2
      · exact h sh h2
      · subst h2
        have hk : key ∈ mapKeys shard.map :=
          (mapFind_isSome_iff _ _).mp (by simp [hf])
        have hk' : key ∈ shard.lru := (consistent_mem_lru_iff hcs key).mpr hk
        constructor
        · simp only [mapKeys_replace]
          exact hcs.1
        · simp only [mapKeys_replace]
          exact (List.perm_cons_erase hk').symm.trans hcs.2

theorem put_mutation_version (hash : String → Nat) (now : Nat) (s : ShardedStore)
    (key value : String) (ttl : Option Nat) (h : 0 < s.shards_.length) :
    (put_mutation hash now s key value ttl).version_ = (s.version_ + 1) % U64 := by
  rcases put_mutation_cases hash now s key value ttl with
    ⟨_, h2⟩ | ⟨shard, hsh, ⟨hf, h1⟩ | ⟨old, hf, h1⟩⟩
  · have hidx : shard_for hash s key < s.shards_.length := Nat.mod_lt _ h
    rw [List.getElem?_eq_getElem hidx] at h2
    exact Option.noConfusion h2
  · rw [h1]
  · rw [h1]

theorem put_mutation_version_cases (hash : String → Nat) (now : Nat) (s : ShardedStore)
    (key value : String) (ttl : Option Nat) :
    (put_mutation hash now s key value ttl).version_ = (s.version_ + 1) % U64 ∨
    (put_mutation hash now s key value ttl).version_ = s.version_ := by
  rcases put_mutation_cases hash now s key value ttl with
    ⟨h1, _⟩ | ⟨shard, hsh, ⟨hf, h1⟩ | ⟨old, hf, h1⟩⟩
  · right; rw [h1]
  · left; rw [h1]
  · left; rw [h1]

/-- The entry found under the key after `put` returned is the one it wrote. -/
theorem put_result_entry (hash : String → Nat) (now : Nat) (s s' : ShardedStore)
    (k v : String) (ttl : Option Nat) (hput : put hash now s k v ttl = some s')
    (sh' : Shard) (e : Entry) (h1 : s'.shards_[shard_for hash s k]? = some sh')
    (h2 : mapFind sh'.map k = some e) :
    e = { value := v, version := (s.version_ + 1) % U64,
          expire_at := ttl.map (fun t => now + t * ticksPerSecond),
          size_bytes := strSize k + strSize v } := by
  have hsub := enforce_subStore _ _ hput
  have hlen : s'.shards_.length = s.shards_.length := by
    rw [hsub.1, put_mutation_length]
  have hpos : 0 < s.shards_.length := by
    have := (List.getElem?_eq_some_iff.mp h1).1
    omega
  obtain ⟨sh, h3, h4⟩ := hsub.2 _ sh' h1
  obtain ⟨sh0, h5, h6⟩ := put_mutation_find hash now s k v ttl hpos
  rw [h3] at h5
  simp at h5
  subst h5
  have := h4 k e h2
  rw [h6] at this
  simpa using this.symm

theorem put_version (hash : String → Nat) (now : Nat) (s s' : ShardedStore)
    (k v : String) (ttl : Option Nat) (hput : put hash now s k v ttl = some s')
    (hpos : 0 < s.shards_.length) : s'.version_ = (s.version_ + 1) % U64 := by
  rw [enforce_version _ _ hput, put_mutation_version _ _ _ _ _ _ hpos]

theorem del_version (hash : String → Nat) (s : ShardedStore) (k : String) :
    (del hash s k).1.version_ = s.version_ := by
  rw [del_fst, remove_entry_version]

theorem expire_keys_version (now : Nat) (s : ShardedStore) :
    (expire_keys now s).version_ = s.version_ := rfl

theorem rebalance_version (hash : String → Nat) (s : ShardedStore) (n : Nat) :
    (rebalance hash s n).version_ = s.version_ := by
  unfold rebalance
  split <;> rfl

theorem restore_item_no_shard (hash : String → Nat) (s : ShardedStore) (item : SnapshotItem)
    (hsh : s.shards_[shard_for hash s item.key]? = none) : restore_item hash s item = s := by
  simp only [restore_item, hsh]

theorem restore_item_shard (hash : String → Nat) (s : ShardedStore) (item : SnapshotItem)
    (shard : Shard) (hsh : s.shards_[shard_for hash s item.key]? = some shard) :
    restore_item hash s item =
      { s with
        shards_ := s.shards_.set (shard_for hash s item.key)
          { map := mapAssign shard.map item.key
              { value := item.value, version := item.version, expire_at := item.expire_at,
                size_bytes := strSize item.key + strSize item.value },
            lru := item.key :: shard.lru }
        memory_usage_bytes_ :=
          memAdd s.memory_usage_bytes_ (strSize item.key + strSize item.value)
        version_ := if item.version > s.version_ then item.version else s.version_ } := by
  simp only [restore_item, hsh]

theorem restore_item_version (hash : String → Nat) (s : ShardedStore) (item : SnapshotItem) :
    s.version_ ≤ (restore_item hash s item).version_ := by
  cases hsh : s.shards_[shard_for hash s item.key]? with
  | none => rw [restore_item_no_shard hash s item hsh]
  | some shard =>
    rw [restore_item_shard hash s item shard hsh]
    simp only
    split <;> omega

theorem restore_items_version (hash : String → Nat) (items : List SnapshotItem)
    (s : ShardedStore) : s.version_ ≤ (items.foldl (restore_item hash) s).version_ := by
  induction items generalizing s with
  | nil => simp
  | cons it items ih =>
    simp only [List.foldl_cons]
    exact Nat.le_trans (restore_item_version hash s it) (ih _)

theorem restore_version (hash : String → Nat) (s s' : ShardedStore)
    (items : List SnapshotItem) (h : restore hash s items = some s') :
    s.version_ ≤ s'.version_ := by
  rw [enforce_version _ _ h]
  exact restore_items_version hash items s

/-- A call other than `put` and `restore` that returns leaves the version as it was. -/
theorem apply_version (hash : String → Nat) (op : Op) (s s' : ShardedStore)
    (hp : op.isPut = false) (hr : op.isRestore = false) (h : op.apply hash s = some s') :
    s'.version_ = s.version_ := by
  cases op with
  | get now key V => simp [Op.apply] at h; rw [← h]
  | put now key value ttl => simp [Op.isPut] at hp
  | del key => simp [Op.apply] at h; rw [← h, del_version]
  | snapshot V => simp [Op.apply] at h; rw [← h]
  | restore items => simp [Op.isRestore] at hr
  | expire_keys now => simp [Op.apply] at h; rw [← h, expire_keys_version]
  | enforce_memory_budget => exact enforce_version _ _ h
  | rebalance n => simp [Op.apply] at h; rw [← h, rebalance_version]

theorem noWrap_cons (hash : String → Nat) (op : Op) (ops : List Op) (s s1 : ShardedStore)
    (hw : noWrap hash (op :: ops) s = true) (ha : op.apply hash s = some s1) :
    (op.isPut = true → s.version_ + 1 < U64) ∧ noWrap hash ops s1 = true := by
  unfold noWrap at hw
  simp only [ha, Bool.and_eq_true, Bool.or_eq_true, Bool.not_eq_true', decide_eq_true_eq] at hw
  refine ⟨fun hp => ?_, hw.2⟩
  rcases hw.1 with h | h
  · rw [hp] at h; exact Bool.noConfusion h
  · exact h

theorem run_version (hash : String → Nat) (ops : List Op) (s s' : ShardedStore)
    (hw : noWrap hash ops s = true) (h : run hash ops s = some s') :
    s.version_ ≤ s'.version_ := by
  induction ops generalizing s with
  | nil => simp [run] at h; rw [h]
  | cons op ops ih =>
    unfold run at h
    cases ha : op.apply hash s with
    | none => simp [ha] at h
    | some s1 =>
      have hw := noWrap_cons hash op ops s s1 hw ha
      simp only [ha] at h
      have h1 := ih s1 hw.2 h
      have h2 : s.version_ ≤ s1.version_ := by
        by_cases hp : op.isPut = true
        · cases op with
          | put now key value ttl =>
            have hlt := hw.1 hp
            simp only [Op.apply] at ha
            have := enforce_version _ _ ha
            rcases put_mutation_version_cases hash now s key value ttl with h3 | h3
            · rw [this, h3, Nat.mod_eq_of_lt hlt]; omega
            · rw [this, h3]
          | _ => simp [Op.isPut] at hp
        · by_cases hr : op.isRestore = true
          · cases op with
            | restore items => exact restore_version hash s s1 items ha
            | _ => simp [Op.isRestore] at hr
          · have := apply_version hash op s s1 (by simpa using hp) (by simpa using hr) ha
            omega
      omega

/-- Claim C7: a `put` on a store with at least one shard that does not wrap
the 64-bit counter raises `current_version()` by exactly 1, and the entry
found under the written key afterwards carries the new counter value; a `get`,
`del`, `expire_keys`, `enforce_memory_budget`, `snapshot` or `rebalance` that
returns leaves the counter unchanged; `restore` never lowers it; hence along
every sequence of calls in which no `put` wraps the counter the version is
non-decreasing. -/
theorem version_monotone (hash : String → Nat) :
    (∀ (now : Nat) (s : ShardedStore) (k v : String) (ttl : Option Nat) (s' : ShardedStore),
      0 < s.shards_.length → s.version_ + 1 < U64 →
      put hash now s k v ttl = some s' →
      current_version s' = current_version s + 1 ∧
      (∃ sh e, (put_mutation hash now s k v ttl).shards_[shard_for hash s k]? = some sh ∧
        mapFind sh.map k = some e ∧ e.version = current_version s') ∧
      (∀ sh' e, s'.shards_[shard_for hash s k]? = some sh' → mapFind sh'.map k = some e →
        e.version = current_version s')) ∧
    (∀ (op : Op) (s s' : ShardedStore), op.isPut = false → op.isRestore = false →
      op.apply hash s = some s' → current_version s' = current_version s) ∧
    (∀ (items : List SnapshotItem) (s s' : ShardedStore), restore hash s items = some s' →
      current_version s ≤ current_version s') ∧
    (∀ (ops : List Op) (s s' : ShardedStore), noWrap hash ops s = true →
      run hash ops s = some s' →
      current_version s ≤ current_version s') := by
  refine ⟨?_, ?_, ?_, ?_⟩
  · intro now s k v ttl s' hpos hlt hput
    have hv := put_version hash now s s' k v ttl hput hpos
    rw [Nat.mod_eq_of_lt hlt] at hv
    refine ⟨hv, ?_, ?_⟩
    · obtain ⟨sh, h1, h2⟩ := put_mutation_find hash now s k v ttl hpos
      refine ⟨sh, _, h1, h2, ?_⟩
      simp [current_version, hv, Nat.mod_eq_of_lt hlt]
    · intro sh' e h1 h2
      rw [put_result_entry hash now s s' k v ttl hput sh' e h1 h2]
      simp [current_version, hv, Nat.mod_eq_of_lt hlt]
  · intro op s s' hp hr h
    exact apply_version hash op s s' hp hr h
  · intro items s s' h
    exact restore_version hash s s' items h
  · intro ops s s' hw h
    exact run_version hash ops s s' hw h

/-- Instance of `version_monotone`: `PUT a 1` on a fresh store gives version 1. -/
theorem version_monotone_witness :
    0 < (ShardedStore.init 1 10).shards_.length ∧
    (ShardedStore.init 1 10).version_ + 1 < U64 ∧
    put lengthHash 0 (ShardedStore.init 1 10) "a" "1" none = some storeA ∧
    current_version storeA = current_version (ShardedStore.init 1 10) + 1 :=
  ⟨by decide, by decide, by decide,
    ((version_monotone lengthHash).1 0 (ShardedStore.init 1 10) "a" "1" none storeA
      (by decide) (by decide) (by decide)).1⟩

theorem put_mutation_memMod (hash : String → Nat) (now : Nat) (s : ShardedStore)
    (key value : String) (ttl : Option Nat) (h : memMod s) :
    memMod (put_mutation hash now s key value ttl) := by
  rcases put_mutation_cases hash now s key value ttl with
    ⟨h1, _⟩ | ⟨shard, hsh, ⟨hf, h1⟩ | ⟨old, hf, h1⟩⟩
  · rw [h1]; exact h
  · rw [h1]
    unfold memMod at h ⊢
    simp only
    have h2 := totalBytes_set s.shards_ (shard_for hash s key) shard
      { map := (key,
          { value := value, version := (s.version_ + 1) % U64,
            expire_at := ttl.map (fun t => now + t * ticksPerSecond),
            size_bytes := strSize key + strSize value }) :: shard.map,
        lru := key :: shard.lru } hsh
    simp only [mapBytes, List.map_cons, List.sum_cons] at h2
    rw [h, memAdd_mod]
    congr 1
    omega
  · rw [h1]
    unfold memMod at h ⊢
    simp only
    have h2 := totalBytes_set s.shards_ (shard_for hash s key) shard
      { map := mapReplace shard.map key
          { value := value, version := (s.version_ + 1) % U64,
            expire_at := ttl.map (fun t => now + t * ticksPerSecond),
            size_bytes := strSize key + strSize value },
        lru := key :: shard.lru.erase key } hsh
    have h3 := mapBytes_replace shard.map key
      { value := value, version := (s.version_ + 1) % U64,
        expire_at := ttl.map (fun t => now + t * ticksPerSecond),
        size_bytes := strSize key + strSize value } old hf
    have h4 : old.size_bytes ≤ mapBytes shard.map :=
      size_le_mapBytes _ _ (mapFind_mem _ _ _ hf)
    have h5 := mapBytes_le_total _ _ (List.getElem?_mem hsh)
    simp only at h2 h3
    rw [h, memSub_mod (totalBytes s.shards_) (totalBytes s.shards_ - old.size_bytes)
      old.size_bytes (by omega), memAdd_mod]
    congr 1
    omega

theorem put_mutation_sized (hash : String → Nat) (now : Nat) (s : ShardedStore)
    (key value : String) (ttl : Option Nat) (h : sized s) :
    sized (put_mutation hash now s key value ttl) := by
  rcases put_mutation_cases hash now s key value ttl with
    ⟨h1, _⟩ | ⟨shard, hsh, ⟨hf, h1⟩ | ⟨old, hf, h1⟩⟩
  · rw [h1]; exact h
  · rw [h1]
    intro sh hsh' p hp
    rcases List.mem_or_eq_of_mem_set hsh' with h2 | h2
    · exact h sh h2 p hp
    · subst h2
      simp only [List.mem_cons] at hp
      rcases hp with hp | hp
      · subst hp; rfl
      · exact h shard (List.getElem?_mem hsh) p hp
  · rw [h1]
    intro sh hsh' p hp
    rcases List.mem_or_eq_of_mem_set hsh' with h2 | h2
    · exact h sh h2 p hp
    · subst h2
      rcases mem_mapReplace _ _ _ _ hp with hp | hp
      · subst hp; rfl
      · exact h shard (List.getElem?_mem hsh) p hp

theorem put_mutation_placed (hash : String → Nat) (now : Nat) (s : ShardedStore)
    (key value : String) (ttl : Option Nat) (h : placed hash s) :
    placed hash (put_mutation hash now s key value ttl) := by
  rcases put_mutation_cases hash now s key value ttl with
    ⟨h1, _⟩ | ⟨shard, hsh, ⟨hf, h1⟩ | ⟨old, hf, h1⟩⟩
  · rw [h1]; exact h
  · rw [h1]
    intro i sh hi k hk
    simp only [List.length_set]
    simp only at hi
    by_cases hii : shard_for hash s key = i
    · have hlt : shard_for hash s key < s.shards_.length :=
        (List.getElem?_eq_some_iff.mp hsh).1
      rw [← hii, List.getElem?_set_self hlt] at hi
      simp at hi
      subst hi
      simp only [mapKeys, List.map_cons, List.mem_cons] at hk
      rcases hk with hk | hk
      · subst hk; exact hii
      · rw [← hii]; exact h _ shard hsh k hk
    · rw [List.getElem?_set_ne hii] at hi
      exact h i sh hi k hk
  · rw [h1]
    intro i sh hi k hk
    simp only [List.length_set]
    simp only at hi
    by_cases hii : shard_for hash s key = i
    · have hlt : shard_for hash s key < s.shards_.length :=
        (List.getElem?_eq_some_iff.mp hsh).1
      rw [← hii, List.getElem?_set_self hlt] at hi
      simp at hi
      subst hi
      simp only [mapKeys_replace] at hk
      rw [← hii]; exact h _ shard hsh k hk
    · rw [List.getElem?_set_ne hii] at hi
      exact h i sh hi k hk

/-! ## The scan of `expire_keys` -/

/-- The scan keeps exactly the entries that are not expired, in their order. -/
theorem expire_scan_map (now : Nat) (m : List (String × Entry)) (lru : List String)
    (mem : Nat) :
    (expire_scan now m lru mem).1 = m.filter (fun p => !expired now p.2) := by
  induction m generalizing lru mem with
  | nil => rfl
  | cons p m ih =>
    obtain ⟨k, e⟩ := p
    unfold expire_scan
    by_cases hx : expired now e = true
    · simp [hx, ih]
    · simp [hx, ih]

theorem expire_scan_mem (now : Nat) (m : List (String × Entry)) (lru : List String)
    (mem r : Nat) (h : mem = (r + mapBytes m) % U64) :
    (expire_scan now m lru mem).2.2 =
      (r + mapBytes (m.filter (fun p => !expired now p.2))) % U64 := by
  induction m generalizing lru mem r with
  | nil => simpa [expire_scan] using h
  | cons p m ih =>
    obtain ⟨k, e⟩ := p
    unfold expire_scan
    by_cases hx : expired now e = true
    · simp only [hx, if_true]
      rw [ih (lru.erase k) (memSub mem e.size_bytes) r]
      · simp [hx]
      · rw [h]
        apply memSub_mod
        simp [mapBytes]
        omega
    · simp only [hx]
      simp only [Bool.false_eq_true, if_false]
      have := ih lru mem (r + e.size_bytes) (by rw [h]; simp [mapBytes]; congr 1; omega)
      rw [this]
      simp [hx, mapBytes]
      congr 1
      omega

theorem expire_scan_lru (now : Nat) (m : List (String × Entry)) (lru : List String)
    (mem : Nat) (hm : (mapKeys m).Nodup) (hl : lru.Nodup) :
    (expire_scan now m lru mem).2.1 =
      lru.filter (fun k => match mapFind m k with
        | some e => !expired now e
        | none => true) := by
  induction m generalizing lru mem with
  | nil => simp [expire_scan, mapFind]
  | cons p m ih =>
    obtain ⟨k, e⟩ := p
    have hm' : k ∉ mapKeys m ∧ (mapKeys m).Nodup := by simpa [mapKeys] using hm
    have hnone : mapFind m k = none := (mapFind_eq_none_iff _ _).mpr hm'.1
    unfold expire_scan
    by_cases hx : expired now e = true
    · simp only [hx, if_true]
      rw [ih (lru.erase k) _ hm'.2 (hl.erase k), List.Nodup.erase_eq_filter hl,
        List.filter_filter]
      apply List.filter_congr
      intro x _
      by_cases hxk : k = x
      · subst hxk
        simp [mapFind, hx]
      · have : ¬ x = k := fun hh => hxk hh.symm
        simp [mapFind, hxk, this, bne]
    · simp only [hx]
      simp only [Bool.false_eq_true, if_false]
      rw [ih lru mem hm'.2 hl]
      apply List.filter_congr
      intro x _
      by_cases hxk : k = x
      · subst hxk
        simp [mapFind, hx, hnone]
      · simp [mapFind, hxk]

/-- The keys kept by the scan are the keys whose entry is not expired. -/
theorem mapKeys_filter_expired (now : Nat) (m : List (String × Entry))
    (hm : (mapKeys m).Nodup) :
    mapKeys (m.filter (fun p => !expired now p.2)) =
      (mapKeys m).filter (fun k => match mapFind m k with
        | some e => !expired now e
        | none => true) := by
  induction m with
  | nil => rfl
  | cons p m ih =>
    obtain ⟨k, e⟩ := p
    have hm' : k ∉ mapKeys m ∧ (mapKeys m).Nodup := by simpa [mapKeys] using hm
    have htail : (mapKeys m).filter (fun x => match mapFind ((k, e) :: m) x with
        | some e => !expired now e
        | none => true) =
        (mapKeys m).filter (fun x => match mapFind m x with
        | some e => !expired now e
        | none => true) := by
      apply List.filter_congr
      intro x hx
      have : k ≠ x := fun hh => hm'.1 (hh ▸ hx)
      simp [mapFind, this]
    by_cases hx : expired now e = true
    · simp only [mapKeys, List.map_cons] at htail ⊢ 
      simp [List.filter_cons, hx, mapFind]
      simpa [mapKeys] using (ih hm'.2).trans htail.symm
    · simp only [mapKeys, List.map_cons] at htail ⊢
      simp [List.filter_cons, hx, mapFind]
      simpa [mapKeys] using (ih hm'.2).trans htail.symm

theorem expire_shards_eq (now : Nat) (l : List Shard) (mem : Nat)
    (hc : ∀ sh ∈ l, sh.consistent) :
    (expire_shards now l mem).1 = l.map (expiredRemoved now) := by
  induction l generalizing mem with
  | nil => rfl
  | cons a l ih =>
    have ha := hc a (List.mem_cons_self _ _)
    unfold expire_shards
    simp only [List.map_cons]
    rw [ih _ (fun sh hsh => hc sh (List.mem_cons_of_mem _ hsh)), expire_scan_map,
      expire_scan_lru now a.map a.lru mem ha.1 (consistent_lru_nodup ha)]
    rfl

theorem expire_shards_mem (now : Nat) (l : List Shard) (mem r : Nat)
    (h : mem = (r + totalBytes l) % U64) :
    (expire_shards now l mem).2 = (r + totalBytes (l.map (expiredRemoved now))) % U64 := by
  induction l generalizing mem r with
  | nil => simpa [expire_shards] using h
  | cons a l ih =>
    unfold expire_shards
    simp only
    have h1 := expire_scan_mem now a.map a.lru mem (r + totalBytes l)
      (by rw [h]; simp [totalBytes]; congr 1; omega)
    have h2 := ih (expire_scan now a.map a.lru mem).2.2
      (r + mapBytes (a.map.filter (fun p => !expired now p.2)))
      (by rw [h1]; congr 1; omega)
    rw [h2]
    simp [totalBytes, expiredRemoved]
    congr 1
    omega

theorem expiredRemoved_consistent (now : Nat) (sh : Shard) (h : sh.consistent) :
    (expiredRemoved now sh).consistent := by
  constructor
  · simp only [expiredRemoved, mapKeys_filter_expired now sh.map h.1]
    exact h.1.filter _
  · simp only [expiredRemoved, mapKeys_filter_expired now sh.map h.1]
    exact h.2.filter _

theorem mapFind_filter_expired (now : Nat) (m : List (String × Entry)) (k : String)
    (hm : (mapKeys m).Nodup) :
    mapFind (m.filter (fun p => !expired now p.2)) k =
      match mapFind m k with
      | some e => if expired now e then none else some e
      | none => none := by
  induction m with
  | nil => rfl
  | cons p m ih =>
    obtain ⟨k0, e0⟩ := p
    have hm' : k0 ∉ mapKeys m ∧ (mapKeys m).Nodup := by simpa [mapKeys] using hm
    by_cases hk : k0 = k
    · subst hk
      by_cases hx : expired now e0 = true
      · simp only [List.filter_cons, hx, mapFind]
        simp
        rw [ih hm'.2, (mapFind_eq_none_iff _ _).mpr hm'.1]
        simp [hx]
      · simp [List.filter_cons, hx, mapFind]
    · by_cases hx : expired now e0 = true
      · simp only [List.filter_cons, hx, mapFind, hk]
        simp
        exact ih hm'.2
      · simp only [List.filter_cons, hx, mapFind, hk]
        simp [mapFind, hk]
        exact ih hm'.2

theorem expire_keys_shards (now : Nat) (s : ShardedStore) (hc : consistent s) :
    (expire_keys now s).shards_ = s.shards_.map (expiredRemoved now) :=
  expire_shards_eq now s.shards_ s.memory_usage_bytes_ hc

theorem expire_keys_consistent (now : Nat) (s : ShardedStore) (hc : consistent s) :
    consistent (expire_keys now s) := by
  intro sh hsh
  rw [expire_keys_shards now s hc] at hsh
  obtain ⟨sh0, h0, h1⟩ := List.mem_map.mp hsh
  subst h1
  exact expiredRemoved_consistent now sh0 (hc sh0 h0)

theorem expire_keys_memMod (now : Nat) (s : ShardedStore) (hc : consistent s)
    (hm : memMod s) : memMod (expire_keys now s) := by
  unfold memMod
  rw [expire_keys_shards now s hc]
  have := expire_shards_mem now s.shards_ s.memory_usage_bytes_ 0 (by simpa using hm)
  simpa [expire_keys] using this

theorem expire_keys_sized (now : Nat) (s : ShardedStore) (hc : consistent s)
    (h : sized s) : sized (expire_keys now s) := by
  intro sh hsh p hp
  rw [expire_keys_shards now s hc] at hsh
  obtain ⟨sh0, h0, h1⟩ := List.mem_map.mp hsh
  subst h1
  exact h sh0 h0 p (List.mem_filter.mp hp).1

theorem expire_keys_placed (hash : String → Nat) (now : Nat) (s : ShardedStore)
    (hc : consistent s) (h : placed hash s) : placed hash (expire_keys now s) := by
  intro i sh hi k hk
  rw [expire_keys_shards now s hc] at hi ⊢
  simp only [List.length_map]
  rw [List.getElem?_map] at hi
  cases h0 : s.shards_[i]? with
  | none => simp [h0] at hi
  | some sh0 =>
    simp [h0] at hi
    subst hi
    apply h i sh0 h0 k
    simp only [expiredRemoved, mapKeys] at hk ⊢
    obtain ⟨p, hp, hpk⟩ := List.mem_map.mp hk
    exact List.mem_map.mpr ⟨p, (List.mem_filter.mp hp).1, hpk⟩

theorem totalBytes_expired_le (now : Nat) (l : List Shard) :
    totalBytes (l.map (expiredRemoved now)) ≤ totalBytes l := by
  induction l with
  | nil => simp [totalBytes]
  | cons a l ih =>
    have h1 : mapBytes (a.map.filter (fun p => !expired now p.2)) ≤ mapBytes a.map := by
      generalize a.map = m
      induction m with
      | nil => simp [mapBytes]
      | cons p m ihm =>
        by_cases hx : expired now p.2 = true
        · simp [List.filter_cons, hx, mapBytes] at ihm ⊢; omega
        · simp [List.filter_cons, hx, mapBytes] at ihm ⊢; omega
    simp [totalBytes, expiredRemoved] at ih ⊢
    omega

/-! ## `rebalance` -/

theorem rebalance_foldl (f : List Shard → String × Entry → List Shard) (l : List Shard)
    (init : List Shard) :
    l.foldl (fun ns sh => sh.map.foldl f ns) init = (allEntries l).foldl f init := by
  induction l generalizing init with
  | nil => rfl
  | cons a l ih => simp [allEntries, List.foldl_append, ih]

theorem rebalance_noop (hash : String → Nat) (s : ShardedStore) (n : Nat)
    (h : n = 0 ∨ n = s.shards_.length) : rebalance hash s n = s := by
  simp [rebalance, h]

theorem rebalance_moved (hash : String → Nat) (s : ShardedStore) (n : Nat)
    (h : ¬ (n = 0 ∨ n = s.shards_.length)) :
    rebalance hash s n =
      { s with shards_ :=
          ((allEntries s.shards_).foldl (move_entry hash) (List.replicate n Shard.empty)) } := by
  simp only [rebalance, h, if_false, rebalance_foldl]

theorem move_entry_length (hash : String → Nat) (ns : List Shard) (p : String × Entry) :
    (move_entry hash ns p).length = ns.length := by
  cases h : ns[hash p.1 % ns.length]? <;> simp [move_entry, h]

theorem move_all_length (hash : String → Nat) (L : List (String × Entry)) (ns : List Shard) :
    (L.foldl (move_entry hash) ns).length = ns.length := by
  induction L generalizing ns with
  | nil => rfl
  | cons p L ih => simp [ih, move_entry_length]

/-- Every entry of the new shards was moved or was there before. -/
theorem move_entry_mem (hash : String → Nat) (ns : List Shard) (p q : String × Entry)
    (sh : Shard) (hsh : sh ∈ move_entry hash ns p) (hq : q ∈ sh.map) :
    q = p ∨ ∃ sh0 ∈ ns, q ∈ sh0.map := by
  unfold move_entry at hsh
  cases ht : ns[hash p.1 % ns.length]? with
  | none =>
    simp [ht] at hsh
    exact Or.inr ⟨sh, hsh, hq⟩
  | some target =>
    simp only [ht] at hsh
    rcases List.mem_or_eq_of_mem_set hsh with h | h
    · exact Or.inr ⟨sh, h, hq⟩
    · subst h
      rcases mem_mapEmplace _ _ _ _ hq with h' | h'
      · exact Or.inl h'
      · exact Or.inr ⟨target, List.getElem?_mem ht, h'⟩

theorem move_all_mem (hash : String → Nat) (L : List (String × Entry)) (ns : List Shard)
    (q : String × Entry) (sh : Shard) (hsh : sh ∈ L.foldl (move_entry hash) ns)
    (hq : q ∈ sh.map) : q ∈ L ∨ ∃ sh0 ∈ ns, q ∈ sh0.map := by
  induction L generalizing ns with
  | nil => exact Or.inr ⟨sh, hsh, hq⟩
  | cons p L ih =>
    simp only [List.foldl_cons] at hsh
    rcases ih _ hsh with h | ⟨sh1, h1, h2⟩
    · exact Or.inl (List.mem_cons_of_mem _ h)
    · rcases move_entry_mem hash ns p q sh1 h1 h2 with h3 | h3
      · exact Or.inl (by simp [h3])
      · exact Or.inr h3

theorem rebalance_mem (hash : String → Nat) (s : ShardedStore) (n : Nat) (sh : Shard)
    (q : String × Entry) (hsh : sh ∈ (rebalance hash s n).shards_) (hq : q ∈ sh.map) :
    ∃ sh0 ∈ s.shards_, q ∈ sh0.map := by
  by_cases h : n = 0 ∨ n = s.shards_.length
  · rw [rebalance_noop hash s n h] at hsh
    exact ⟨sh, hsh, hq⟩
  · rw [rebalance_moved hash s n h] at hsh
    rcases move_all_mem hash _ _ q sh hsh hq with h1 | ⟨sh0, h1, h2⟩
    · simp only [allEntries, List.mem_flatMap] at h1
      exact h1
    · simp only [List.mem_replicate] at h1
      rw [h1.2] at h2
      simp [Shard.empty] at h2

/-- Moving an entry whose key is in no new shard keeps the new shards consistent. -/
theorem move_entry_fresh (hash : String → Nat) (ns : List Shard) (p : String × Entry)
    (hpos : 0 < ns.length) (hfresh : ∀ sh ∈ ns, p.1 ∉ mapKeys sh.map) :
    ∃ target, ns[hash p.1 % ns.length]? = some target ∧
      move_entry hash ns p = ns.set (hash p.1 % ns.length)
        { map := p :: target.map, lru := p.1 :: target.lru } := by
  have hidx : hash p.1 % ns.length < ns.length := Nat.mod_lt _ hpos
  refine ⟨ns[hash p.1 % ns.length], List.getElem?_eq_getElem hidx, ?_⟩
  have hnone : mapFind (ns[hash p.1 % ns.length]).map p.1 = none :=
    (mapFind_eq_none_iff _ _).mpr (hfresh _ (List.getElem_mem hidx))
  simp only [move_entry, List.getElem?_eq_getElem hidx, mapEmplace, hnone]

theorem move_all_inv (hash : String → Nat) (L : List (String × Entry)) (ns : List Shard)
    (hpos : 0 < ns.length) (hc : ∀ sh ∈ ns, sh.consistent)
    (hp : placedIn hash ns.length ns)
    (hn : (L.map Prod.fst).Nodup) (hfresh : ∀ p ∈ L, ∀ sh ∈ ns, p.1 ∉ mapKeys sh.map) :
    (∀ sh ∈ L.foldl (move_entry hash) ns, sh.consistent) ∧
    placedIn hash ns.length (L.foldl (move_entry hash) ns) ∧
    totalBytes (L.foldl (move_entry hash) ns) = totalBytes ns + mapBytes L := by
  induction L generalizing ns with
  | nil => exact ⟨hc, hp, by simp [mapBytes]⟩
  | cons p L ih =>
    simp only [List.foldl_cons]
    have hn' : p.1 ∉ L.map Prod.fst ∧ (L.map Prod.fst).Nodup := by simpa using hn
    obtain ⟨target, ht, hmove⟩ :=
      move_entry_fresh hash ns p hpos (hfresh p (List.mem_cons_self _ _))
    have hlen : (move_entry hash ns p).length = ns.length := move_entry_length hash ns p
    have htc := hc target (List.getElem?_mem ht)
    have hpk : p.1 ∉ mapKeys target.map :=
      hfresh p (List.mem_cons_self _ _) target (List.getElem?_mem ht)
    have hidx : hash p.1 % ns.length < ns.length := Nat.mod_lt _ hpos
    have key := ih (move_entry hash ns p) (by omega)
      (by
        intro sh hsh
        rw [hmove] at hsh
        rcases List.mem_or_eq_of_mem_set hsh with h | h
        · exact hc sh h
        · subst h
          constructor
          · simp only [mapKeys, List.map_cons, List.nodup_cons]
            exact ⟨hpk, htc.1⟩
          · simp only [mapKeys, List.map_cons]
            exact List.Perm.cons _ htc.2)
      (by
        rw [hlen]
        intro i sh hi k hk
        rw [hmove] at hi
        by_cases hii : hash p.1 % ns.length = i
        · rw [← hii, List.getElem?_set_self hidx] at hi
          simp at hi
          subst hi
          simp only [mapKeys, List.map_cons, List.mem_cons] at hk
          rcases hk with hk | hk
          · rw [hk]; exact hii
          · rw [← hii]; exact hp _ target ht k hk
        · rw [List.getElem?_set_ne hii] at hi
          exact hp i sh hi k hk)
      hn'.2
      (by
        intro q hq sh hsh
        rw [hmove] at hsh
        rcases List.mem_or_eq_of_mem_set hsh with h | h
        · exact hfresh q (List.mem_cons_of_mem _ hq) sh h
        · subst h
          simp only [mapKeys, List.map_cons, List.mem_cons, not_or]
          refine ⟨?_, hfresh q (List.mem_cons_of_mem _ hq) target (List.getElem?_mem ht)⟩
          intro hqp
          exact hn'.1 (List.mem_map.mpr ⟨q, hq, hqp⟩))
    rw [hlen] at key
    refine ⟨key.1, key.2.1, ?_⟩
    rw [key.2.2, hmove]
    have := totalBytes_set ns (hash p.1 % ns.length) target
      { map := p :: target.map, lru := p.1 :: target.lru } ht
    simp only [mapBytes, List.map_cons, List.sum_cons] at this ⊢
    omega

/-- In a consistent store whose keys are in their shards no key is stored twice. -/
theorem allEntries_nodup (l : List Shard)
    (hc : ∀ sh ∈ l, (mapKeys sh.map).Nodup)
    (hp : ∀ (i j : Nat) (shi shj : Shard), l[i]? = some shi → l[j]? = some shj → i ≠ j →
      ∀ k ∈ mapKeys shi.map, k ∉ mapKeys shj.map) :
    ((allEntries l).map Prod.fst).Nodup := by
  induction l with
  | nil => simp [allEntries]
  | cons a l ih =>
    simp only [allEntries, List.flatMap_cons, List.map_append]
    rw [List.nodup_append]
    refine ⟨hc a (List.mem_cons_self _ _), ?_, ?_⟩
    · apply ih (fun sh hsh => hc sh (List.mem_cons_of_mem _ hsh))
      intro i j shi shj hi hj hij
      exact hp (i + 1) (j + 1) shi shj (by simpa using hi) (by simpa using hj) (by omega)
    · intro k hk1 hk2
      simp only [List.mem_map, List.mem_flatMap] at hk2
      obtain ⟨q, ⟨sh, hsh, hq⟩, hqk⟩ := hk2
      obtain ⟨j, hj⟩ := List.getElem?_of_mem hsh
      have := hp 0 (j + 1) a sh (by simp) (by simpa using hj) (by omega) k hk1
      exact this (by rw [← hqk]; exact List.mem_map.mpr ⟨q, hq, rfl⟩)

theorem totalBytes_allEntries (l : List Shard) : mapBytes (allEntries l) = totalBytes l := by
  induction l with
  | nil => rfl
  | cons a l ih =>
    simp only [allEntries, List.flatMap_cons, mapBytes, List.map_append, List.sum_append,
      totalBytes, List.map_cons, List.sum_cons] at ih ⊢
    rw [ih]

theorem totalBytes_replicate (n : Nat) : totalBytes (List.replicate n Shard.empty) = 0 := by
  induction n with
  | zero => rfl
  | succ n ih =>
    simp only [List.replicate_succ, totalBytes, List.map_cons, List.sum_cons] at ih ⊢
    rw [ih]
    rfl

theorem rebalance_inv (hash : String → Nat) (s : ShardedStore) (n : Nat)
    (hc : consistent s) (hp : placed hash s) :
    consistent (rebalance hash s n) ∧ placed hash (rebalance hash s n) ∧
    totalBytes (rebalance hash s n).shards_ = totalBytes s.shards_ := by
  by_cases h : n = 0 ∨ n = s.shards_.length
  · rw [rebalance_noop hash s n h]
    exact ⟨hc, hp, rfl⟩
  · rw [rebalance_moved hash s n h]
    have hn0 : 0 < n := by omega
    have hnodup := allEntries_nodup s.shards_ (fun sh hsh => (hc sh hsh).1)
      (by
        intro i j shi shj hi hj hij k hk1 hk2
        have h1 := hp i shi hi k hk1
        have h2 := hp j shj hj k hk2
        omega)
    have key := move_all_inv hash (allEntries s.shards_) (List.replicate n Shard.empty)
      (by simpa using hn0)
      (by
        intro sh hsh
        simp [List.mem_replicate] at hsh
        rw [hsh.2]
        exact ⟨by simp [Shard.empty, mapKeys], by simp [Shard.empty, mapKeys]⟩)
      (by
        intro i sh hi k hk
        have := List.getElem?_mem hi
        simp [List.mem_replicate] at this
        rw [this.2] at hk
        simp [Shard.empty, mapKeys] at hk)
      hnodup
      (by
        intro p _ sh hsh
        simp [List.mem_replicate] at hsh
        rw [hsh.2]
        simp [Shard.empty, mapKeys])
    simp only [List.length_replicate] at key
    refine ⟨key.1, ?_, ?_⟩
    · intro i sh hi k hk
      simp only [move_all_length, List.length_replicate]
      exact key.2.1 i sh hi k hk
    · simp only
      rw [key.2.2, totalBytes_replicate, totalBytes_allEntries]
      omega

theorem rebalance_sized (hash : String → Nat) (s : ShardedStore) (n : Nat) (h : sized s) :
    sized (rebalance hash s n) := by
  intro sh hsh p hp
  obtain ⟨sh0, h0, h1⟩ := rebalance_mem hash s n sh p hsh hp
  exact h sh0 h0 p h1

theorem rebalance_memory (hash : String → Nat) (s : ShardedStore) (n : Nat) :
    (rebalance hash s n).memory_usage_bytes_ = s.memory_usage_bytes_ := by
  unfold rebalance
  split <;> rfl

/-! ## The invariants along sequences of calls -/

theorem init_inv (hash : String → Nat) (n budget : Nat) :
    storeInv hash (ShardedStore.init n budget) := by
  refine ⟨?_, ?_, ?_, ?_⟩
  · intro sh hsh
    simp [ShardedStore.init, List.mem_replicate] at hsh
    rw [hsh.2]
    exact ⟨by simp [Shard.empty, mapKeys], by simp [Shard.empty, mapKeys]⟩
  · intro i sh hi k hk
    have := List.getElem?_mem hi
    simp [ShardedStore.init, List.mem_replicate] at this
    rw [this.2] at hk
    simp [Shard.empty, mapKeys] at hk
  · intro sh hsh p hp
    simp [ShardedStore.init, List.mem_replicate] at hsh
    rw [hsh.2] at hp
    simp [Shard.empty] at hp
  · simp [memMod, ShardedStore.init, totalBytes_replicate]

theorem put_mutation_inv (hash : String → Nat) (now : Nat) (s : ShardedStore)
    (key value : String) (ttl : Option Nat) (h : storeInv hash s) :
    storeInv hash (put_mutation hash now s key value ttl) :=
  ⟨put_mutation_consistent _ _ _ _ _ _ h.1, put_mutation_placed _ _ _ _ _ _ h.2.1,
    put_mutation_sized _ _ _ _ _ _ h.2.2.1, put_mutation_memMod _ _ _ _ _ _ h.2.2.2⟩

theorem remove_entry_inv (hash : String → Nat) (s : ShardedStore) (idx : Nat) (key : String)
    (h : storeInv hash s) : storeInv hash (remove_entry s idx key) :=
  ⟨remove_entry_consistent _ _ _ h.1, remove_entry_placed _ _ _ _ h.2.1,
    remove_entry_sized _ _ _ h.2.2.1,
    remove_entry_memMod _ _ _ (fun sh hsh => (h.1 sh hsh).1) h.2.2.2⟩

theorem enforce_inv (hash : String → Nat) (s s' : ShardedStore) (h : storeInv hash s)
    (he : enforce_memory_budget s = some s') : storeInv hash s' := by
  refine enforce_induct (storeInv hash) ?_ ?_ s s' he h
  · intro a b hP hab
    obtain ⟨idx, key, sh, _, _, hb⟩ := evict_step_some a b hab
    subst hb
    exact remove_entry_inv hash a idx key hP
  · intro a hP
    exact hP

theorem expire_keys_inv (hash : String → Nat) (now : Nat) (s : ShardedStore)
    (h : storeInv hash s) : storeInv hash (expire_keys now s) :=
  ⟨expire_keys_consistent now s h.1, expire_keys_placed hash now s h.1 h.2.1,
    expire_keys_sized now s h.1 h.2.2.1, expire_keys_memMod now s h.1 h.2.2.2⟩

theorem rebalance_storeInv (hash : String → Nat) (s : ShardedStore) (n : Nat)
    (h : storeInv hash s) : storeInv hash (rebalance hash s n) := by
  obtain ⟨h1, h2, h3⟩ := rebalance_inv hash s n h.1 h.2.1
  refine ⟨h1, h2, rebalance_sized hash s n h.2.2.1, ?_⟩
  unfold memMod
  rw [h3, rebalance_memory]
  exact h.2.2.2

/-- A call other than `restore` on a store that satisfies the invariants
returns, and the invariants hold afterwards. -/
theorem apply_inv (hash : String → Nat) (op : Op) (s : ShardedStore)
    (hr : op.isRestore = false) (h : storeInv hash s) :
    ∃ s', op.apply hash s = some s' ∧ storeInv hash s' := by
  cases op with
  | get now key V => exact ⟨s, by simp [Op.apply], h⟩
  | put now key value ttl =>
    have hm := put_mutation_inv hash now s key value ttl h
    obtain ⟨s', hs'⟩ := enforce_returns _ hm.1
    exact ⟨s', hs', enforce_inv hash _ s' hm hs'⟩
  | del key =>
    refine ⟨_, rfl, ?_⟩
    rw [del_fst]
    exact remove_entry_inv hash s _ key h
  | snapshot V => exact ⟨s, rfl, h⟩
  | restore items => simp [Op.isRestore] at hr
  | expire_keys now => exact ⟨_, rfl, expire_keys_inv hash now s h⟩
  | enforce_memory_budget =>
    obtain ⟨s', hs'⟩ := enforce_returns _ h.1
    exact ⟨s', hs', enforce_inv hash _ s' h hs'⟩
  | rebalance n => exact ⟨_, rfl, rebalance_storeInv hash s n h⟩

theorem run_inv (hash : String → Nat) (ops : List Op) (s : ShardedStore)
    (hr : ∀ op ∈ ops, op.isRestore = false) (h : storeInv hash s) :
    ∃ s', run hash ops s = some s' ∧ storeInv hash s' := by
  induction ops generalizing s with
  | nil => exact ⟨s, rfl, h⟩
  | cons op ops ih =>
    obtain ⟨s1, h1, h2⟩ := apply_inv hash op s (hr op (List.mem_cons_self _ _)) h
    obtain ⟨s2, h3, h4⟩ := ih s1 (fun o ho => hr o (List.mem_cons_of_mem _ ho)) h2
    exact ⟨s2, by simp [run, h1, h3], h4⟩

theorem sized_totalPayload (s : ShardedStore) (h : sized s) :
    totalPayload s.shards_ = totalBytes s.shards_ := by
  have key : ∀ l : List Shard,
      (∀ sh ∈ l, ∀ p ∈ sh.map, p.2.size_bytes = strSize p.1 + strSize p.2.value) →
      totalPayload l = totalBytes l := by
    intro l
    induction l with
    | nil => intro _; rfl
    | cons a l ih =>
      intro hl
      have h1 : mapPayload a.map = mapBytes a.map := by
        have ha := hl a (List.mem_cons_self _ _)
        generalize a.map = m at ha
        induction m with
        | nil => rfl
        | cons p m ihm =>
          have := ihm (fun q hq => ha q (List.mem_cons_of_mem _ hq))
          have hp := ha p (List.mem_cons_self _ _)
          simp only [mapPayload, mapBytes, List.map_cons, List.sum_cons] at this ⊢
          omega
      have h2 := ih (fun sh hsh => hl sh (List.mem_cons_of_mem _ hsh))
      simp only [totalPayload, totalBytes, List.map_cons, List.sum_cons] at h2 ⊢
      omega
  exact key s.shards_ h

/-! ## Invariant 3 -/

theorem restore_item_length (hash : String → Nat) (s : ShardedStore) (item : SnapshotItem) :
    (restore_item hash s item).shards_.length = s.shards_.length := by
  cases hsh : s.shards_[shard_for hash s item.key]? with
  | none => rw [restore_item_no_shard hash s item hsh]
  | some shard => rw [restore_item_shard hash s item shard hsh]; simp

theorem totalBytes_of_no_nodes (l : List Shard) (hwf : ∀ sh ∈ l, sh.wellFormed)
    (hl : ∀ sh ∈ l, sh.lru = []) : totalBytes l = 0 := by
  induction l with
  | nil => rfl
  | cons a l ih =>
    have ha : a.map = [] := by
      have h1 := (hwf a (List.mem_cons_self _ _)).2
      have h2 := hl a (List.mem_cons_self _ _)
      cases hm : a.map with
      | nil => rfl
      | cons p m =>
        have := h1 p.1 (by simp [mapKeys, hm])
        rw [h2] at this
        simp at this
    have := ih (fun sh hsh => hwf sh (List.mem_cons_of_mem _ hsh))
      (fun sh hsh => hl sh (List.mem_cons_of_mem _ hsh))
    simp only [totalBytes, List.map_cons, List.sum_cons, ha, mapBytes] at this ⊢
    simp [this]

/-- Claim C10: on any well-formed store (one pair per key, every entry with its
recency node) whose memory counter matches its contents, when
`enforce_memory_budget` returns `memory_usage()` is at most the budget, hence
at most the budget plus the largest single entry size; and the call does
return when no recency node is stale (invariant 1). -/
theorem enforce_bound (s : ShardedStore) (hwf : ∀ sh ∈ s.shards_, sh.wellFormed)
    (hm : memExact s) :
    (∀ s', enforce_memory_budget s = some s' →
      memory_usage s' ≤ s.memory_budget_bytes_ ∧
      memory_usage s' ≤ s.memory_budget_bytes_ + maxEntryBytes s'.shards_) ∧
    (consistent s → ∃ s', enforce_memory_budget s = some s') := by
  refine ⟨?_, enforce_returns s⟩
  intro s' he
  have hb := enforce_budget s s' he
  have hmod : memMod s := by unfold memMod; rw [hm.1, Nat.mod_eq_of_lt hm.2]
  have key : memory_usage s' ≤ s.memory_budget_bytes_ := by
    unfold enforce_memory_budget at he
    cases hl : enforce_loop (lruNodes s.shards_ + 1) s with
    | none => simp [hl] at he
    | some s1 =>
      simp [hl] at he
      subst he
      have hP : (∀ sh ∈ s1.shards_, sh.wellFormed) ∧ memMod s1 := by
        refine enforce_loop_induct
          (fun x => (∀ sh ∈ x.shards_, sh.wellFormed) ∧ memMod x) ?_ _ s s1 hl ⟨hwf, hmod⟩
        intro a b hP hab
        obtain ⟨idx, key, sh, _, _, hb⟩ := evict_step_some a b hab
        subst hb
        exact ⟨remove_entry_wellFormed a idx key hP.1,
          remove_entry_memMod a idx key (fun sh hsh => (hP.1 sh hsh).1) hP.2⟩
      simp only [memory_usage, set_memory_bytes]
      simp only [set_memory_bytes] at hb
      rcases enforce_loop_exit _ s s1 hl with hle | hnone
      · omega
      · have h0 := totalBytes_of_no_nodes s1.shards_ hP.1 (firstVictim_none _ hnone)
        have := hP.2
        unfold memMod at this
        rw [this, h0]
        simp
  exact ⟨key, Nat.le_trans key (Nat.le_add_right _ _)⟩

theorem storeAB_consistent : consistent storeAB := by
  intro sh hsh
  simp [storeAB] at hsh
  subst hsh
  simp [Shard.consistent, mapKeys]

theorem storeAB_memExact : memExact storeAB := by
  simp [memExact, storeAB, totalBytes, mapBytes, U64]

/-- Instance of `enforce_bound`: a store of 4 bytes with budget 3 loses its oldest entry. -/
theorem enforce_bound_witness :
    (∀ sh ∈ storeAB.shards_, sh.wellFormed) ∧ memExact storeAB ∧
    enforce_memory_budget storeAB ≠ none ∧
    ∀ s', enforce_memory_budget storeAB = some s' →
      memory_usage s' ≤ storeAB.memory_budget_bytes_ ∧
      memory_usage s' ≤ storeAB.memory_budget_bytes_ + maxEntryBytes s'.shards_ :=
  ⟨fun sh hsh => consistent_wellFormed (storeAB_consistent sh hsh), storeAB_memExact, by decide,
    (enforce_bound storeAB (fun sh hsh => consistent_wellFormed (storeAB_consistent sh hsh))
      storeAB_memExact).1⟩

/-! ## The fuel of the eviction loop -/

theorem remove_entry_record_eviction (s : ShardedStore) (idx : Nat) (key : String) :
    remove_entry (record_eviction s) idx key = record_eviction (remove_entry s idx key) := by
  cases hs : s.shards_[idx]? with
  | none =>
    rw [remove_entry_no_shard s idx key hs]
    exact remove_entry_no_shard _ idx key (by simpa [record_eviction] using hs)
  | some shard =>
    cases hf : mapFind shard.map key with
    | none =>
      rw [remove_entry_absent s idx key shard hs hf]
      exact remove_entry_absent _ idx key shard (by simpa [record_eviction] using hs) hf
    | some e =>
      rw [remove_entry_present s idx key shard e hs hf,
        remove_entry_present (record_eviction s) idx key shard e
          (by simpa [record_eviction] using hs) hf]
      rfl

/-- A pass that removes nothing is repeated for ever: no fuel suffices. -/
theorem enforce_loop_stuck (fuel : Nat) (s : ShardedStore) (idx : Nat) (key : String)
    (hm : s.memory_usage_bytes_ > s.memory_budget_bytes_)
    (hv : firstVictim s.shards_ = some (idx, key)) (hr : remove_entry s idx key = s) :
    enforce_loop fuel s = none := by
  induction fuel generalizing s with
  | zero => rfl
  | succ n ih =>
    unfold enforce_loop
    simp only [hm, if_true, evict_step, hv, hr]
    apply ih (record_eviction s)
    · exact hm
    · exact hv
    · rw [remove_entry_record_eviction, hr]

/-- Whenever some fuel lets the loop exit, the fuel used by
`enforce_memory_budget` does, with the same result. -/
theorem enforce_loop_fuel (fuel : Nat) (s s' : ShardedStore)
    (h : enforce_loop fuel s = some s') :
    enforce_loop (lruNodes s.shards_ + 1) s = some s' := by
  induction fuel generalizing s with
  | zero => simp [enforce_loop] at h
  | succ n ih =>
    unfold enforce_loop at h ⊢
    by_cases hm : s.memory_usage_bytes_ > s.memory_budget_bytes_
    · simp only [hm, if_true] at h ⊢
      cases he : evict_step s with
      | none => simpa [he] using h
      | some s1 =>
        simp only [he] at h ⊢
        have hs1 := ih s1 h
        unfold evict_step at he
        cases hv : firstVictim s.shards_ with
        | none => simp [hv] at he
        | some p =>
          obtain ⟨idx, key⟩ := p
          simp only [hv, Option.some.injEq] at he
          obtain ⟨sh, h1, h2⟩ := firstVictim_some _ _ _ hv
          rcases remove_entry_cases s idx key with hr | ⟨shard, e, hsh, hf, hr⟩
          · -- nothing removed: the loop cannot have exited
            have := enforce_loop_stuck (n + 1) s idx key hm hv hr
            unfold enforce_loop at this
            simp only [hm, if_true, evict_step, hv] at this
            rw [he] at this
            rw [this] at h
            exact Option.noConfusion h
          · rw [h1] at hsh
            simp only [Option.some.injEq] at hsh
            subst hsh
            have hmem : key ∈ sh.lru := List.mem_of_getLast?_eq_some h2
            have hcount : lruNodes s1.shards_ + 1 = lruNodes s.shards_ := by
              rw [← he, hr]
              have := lruNodes_set s.shards_ idx sh
                { map := mapErase sh.map key, lru := sh.lru.erase key } h1
              simp only [List.length_erase_of_mem hmem] at this
              have hpos : 0 < sh.lru.length := List.length_pos_of_mem hmem
              simp only [record_eviction]
              omega
            rw [← hcount]
            exact hs1
    · simp only [hm, if_false] at h ⊢
      exact h

/-- The result `none` of `enforce_memory_budget` means that no number of
passes lets the loop exit. -/
theorem enforce_none_iff (s : ShardedStore) :
    enforce_memory_budget s = none ↔ ∀ fuel, enforce_loop fuel s = none := by
  constructor
  · intro h fuel
    cases hf : enforce_loop fuel s with
    | none => rfl
    | some s' =>
      have := enforce_loop_fuel fuel s s' hf
      simp [enforce_memory_budget, this] at h
  · intro h
    simp [enforce_memory_budget, h]

/-! ## The contracts of `del` and `expire_keys` -/

/-- Claim C5: `del(k)` returns true exactly when the shard of `k` held an entry
for `k`; afterwards the map of that shard has no entry for `k`, the recency
node of the removed entry is erased, the counter is reduced by the
`size_bytes` of the removed entry modulo `2 ^ 64`, in every shard the entry
found under any other key is unchanged, and a call that returns false changes
nothing.  Under invariant 1 the key is then absent from the recency list,
and under invariant 2 `memory_usage()` has dropped by exactly that
`size_bytes`. -/
theorem del_spec (hash : String → Nat) (s : ShardedStore) (k : String) :
    ((del hash s k).2 = true ↔
      ∃ sh e, s.shards_[shard_for hash s k]? = some sh ∧ mapFind sh.map k = some e) ∧
    ((del hash s k).2 = false → (del hash s k).1 = s) ∧
    (∀ sh', (del hash s k).1.shards_[shard_for hash s k]? = some sh' →
      mapFind sh'.map k = none) ∧
    (∀ sh e, s.shards_[shard_for hash s k]? = some sh → mapFind sh.map k = some e →
      (del hash s k).1.shards_[shard_for hash s k]? =
        some { map := mapErase sh.map k, lru := sh.lru.erase k } ∧
      memory_usage (del hash s k).1 = memSub (memory_usage s) e.size_bytes) ∧
    (∀ (i : Nat) (k' : String), k' ≠ k →
      ((del hash s k).1.shards_[i]?).bind (fun sh : Shard => mapFind sh.map k') =
        (s.shards_[i]?).bind (fun sh : Shard => mapFind sh.map k')) ∧
    (consistent s →
      ∀ sh', (del hash s k).1.shards_[shard_for hash s k]? = some sh' → k ∉ sh'.lru) ∧
    (memExact s →
      ∀ sh e, s.shards_[shard_for hash s k]? = some sh → mapFind sh.map k = some e →
        memory_usage (del hash s k).1 + e.size_bytes = memory_usage s) := by
  cases hsh : s.shards_[shard_for hash s k]? with
  | none =>
    rw [del_no_shard hash s k hsh]
    simp [hsh]
  | some shard =>
    have hmem : shard ∈ s.shards_ := List.getElem?_mem hsh
    cases hf : mapFind shard.map k with
    | none =>
      rw [del_absent hash s k shard hsh hf]
      refine ⟨by simp [hf], by simp, ?_, ?_, by simp, ?_, ?_⟩
      · intro sh' h1
        rw [hsh] at h1
        simp at h1
        subst h1
        exact hf
      · intro sh e h1 h2
        simp at h1
        subst h1
        rw [hf] at h2
        exact Option.noConfusion h2
      · intro hc sh' h1
        rw [hsh] at h1
        simp at h1
        subst h1
        rw [consistent_mem_lru_iff (hc shard hmem)]
        exact (mapFind_eq_none_iff _ _).mp hf
      · intro _ sh e h1 h2
        simp at h1
        subst h1
        rw [hf] at h2
        exact Option.noConfusion h2
    | some e =>
      rw [del_present hash s k shard e hsh hf, remove_entry_present s _ k shard e hsh hf]
      have hidx : shard_for hash s k < s.shards_.length :=
        (List.getElem?_eq_some_iff.mp hsh).1
      refine ⟨by simp [hf], by simp, ?_, ?_, ?_, ?_, ?_⟩
      · intro sh' hsh'
        simp [List.getElem?_set_self hidx] at hsh'
        subst hsh'
        exact mapFind_erase_self _ _
      · intro sh e' h1 h2
        simp at h1
        subst h1
        rw [hf] at h2
        simp at h2
        subst h2
        exact ⟨by simp [List.getElem?_set_self hidx], rfl⟩
      · intro i k' hk'
        by_cases hi : shard_for hash s k = i
        · subst hi
          simp [List.getElem?_set_self hidx, hsh, mapFind_erase_ne _ _ _ hk']
        · simp [List.getElem?_set_ne hi]
      · intro hc sh' hsh'
        simp [List.getElem?_set_self hidx] at hsh'
        subst hsh'
        simp [List.Nodup.mem_erase_iff (consistent_lru_nodup (hc shard hmem))]
      · intro hm sh e' h1 h2
        simp at h1
        subst h1
        rw [hf] at h2
        simp at h2
        subst h2
        have h3 : e.size_bytes ≤ mapBytes shard.map :=
          size_le_mapBytes _ _ (mapFind_mem _ _ _ hf)
        have h4 := mapBytes_le_total _ _ hmem
        simp only [memory_usage]
        rw [memSub_exact _ _ (by rw [hm.1]; omega) (by rw [hm.1]; exact hm.2)]
        rw [hm.1]
        omega

/-- Instance of `del_spec`: deleting `a` from the store left by `PUT a 1`. -/
theorem del_spec_witness :
    consistent storeA ∧ memExact storeA ∧
    (del lengthHash storeA "a").2 = true ∧
    (∀ sh', (del lengthHash storeA "a").1.shards_[shard_for lengthHash storeA "a"]? =
      some sh' → "a" ∉ sh'.lru) ∧
    memory_usage (del lengthHash storeA "a").1 = 0 :=
  ⟨storeA_consistent, storeA_memExact, by decide,
    (del_spec lengthHash storeA "a").2.2.2.2.2.1 storeA_consistent, by decide⟩

theorem expire_shards_maps (now : Nat) (l : List Shard) (mem : Nat) :
    (expire_shards now l mem).1.map (fun sh => sh.map) =
      l.map (fun sh => sh.map.filter (fun p => !expired now p.2)) := by
  induction l generalizing mem with
  | nil => rfl
  | cons a l ih =>
    unfold expire_shards
    simp only [List.map_cons, expire_scan_map, ih]

/-- Claim C9: `expire_keys` run at time `now` leaves in every map exactly the
entries that have no deadline or a deadline later than `now`, unchanged and in
their order, and leaves the version counter unchanged; an entry is removed
exactly when it has a deadline at or before `now`.  Under invariant 1 every
recency list keeps exactly the nodes of the keys left, in their order, so that
a removed key is in neither the map nor the recency list and a kept key is in
both with its entry unchanged; under invariants 1 and 2 `memory_usage()`
becomes the sum of the sizes of the entries left. -/
theorem expire_keys_spec (now : Nat) (s : ShardedStore) :
    (expire_keys now s).shards_.map (fun sh => sh.map) =
      s.shards_.map (fun sh => sh.map.filter (fun p => !expired now p.2)) ∧
    current_version (expire_keys now s) = current_version s ∧
    (∀ e : Entry, expired now e = true ↔ ∃ t, e.expire_at = some t ∧ t ≤ now) ∧
    (consistent s →
      (expire_keys now s).shards_ = s.shards_.map (expiredRemoved now) ∧
      (∀ (i : Nat) (sh : Shard) (k : String), s.shards_[i]? = some sh →
        ∃ sh', (expire_keys now s).shards_[i]? = some sh' ∧
          (∀ e, mapFind sh.map k = some e → expired now e = true →
            mapFind sh'.map k = none ∧ k ∉ sh'.lru) ∧
          (∀ e, mapFind sh.map k = some e → expired now e = false →
            mapFind sh'.map k = some e ∧ k ∈ sh'.lru))) ∧
    (consistent s → memExact s → memExact (expire_keys now s)) := by
  refine ⟨expire_shards_maps now s.shards_ s.memory_usage_bytes_, rfl, ?_, ?_, ?_⟩
  · intro e
    unfold expired
    cases e.expire_at with
    | none => simp
    | some t => simp
  · intro hc
    have hsh := expire_keys_shards now s hc
    refine ⟨hsh, ?_⟩
    intro i sh k hi
    refine ⟨expiredRemoved now sh, by rw [hsh, List.getElem?_map, hi]; rfl, ?_, ?_⟩
    · intro e hf hx
      have hcs := hc sh (List.getElem?_mem hi)
      constructor
      · simp only [expiredRemoved]
        rw [mapFind_filter_expired now sh.map k hcs.1, hf]
        simp [hx]
      · simp [expiredRemoved, hf, hx]
    · intro e hf hx
      have hcs := hc sh (List.getElem?_mem hi)
      constructor
      · simp only [expiredRemoved]
        rw [mapFind_filter_expired now sh.map k hcs.1, hf]
        simp [hx]
      · have hk : k ∈ sh.lru :=
          (consistent_mem_lru_iff hcs k).mpr ((mapFind_isSome_iff _ _).mp (by simp [hf]))
        simp [expiredRemoved, hf, hx, hk]
  · intro hc hm
    have hsh := expire_keys_shards now s hc
    have h1 := expire_keys_memMod now s hc (by unfold memMod; rw [hm.1, Nat.mod_eq_of_lt hm.2])
    unfold memMod at h1
    have h2 : totalBytes (expire_keys now s).shards_ < U64 := by
      rw [hsh]
      exact Nat.lt_of_le_of_lt (totalBytes_expired_le now s.shards_) hm.2
    exact ⟨by rw [h1, Nat.mod_eq_of_lt h2], h2⟩

/-- Instance of `expire_keys_spec`: at one second the entry `a` of `storeAB` is
removed and the entry `b` stays. -/
theorem expire_keys_spec_witness :
    consistent storeAB ∧ memExact storeAB ∧
    (expire_keys 1000000000 storeAB).shards_ =
      storeAB.shards_.map (expiredRemoved 1000000000) ∧
    (expire_keys 1000000000 storeAB).shards_ =
      [{ map := [("b", { value := "2", version := 2, expire_at := none, size_bytes := 2 })],
         lru := ["b"] }] ∧
    memExact (expire_keys 1000000000 storeAB) ∧
    memory_usage (expire_keys 1000000000 storeAB) = 2 :=
  ⟨storeAB_consistent, storeAB_memExact,
    ((expire_keys_spec 1000000000 storeAB).2.2.2.1 storeAB_consistent).1,
    by decide,
    (expire_keys_spec 1000000000 storeAB).2.2.2.2 storeAB_consistent storeAB_memExact,
    by decide⟩

/-! ## The write-ahead log: framing -/

theorem u32of_u32le (x : Nat) (h : x < U32) : u32of (u32le x) = x := by
  unfold U32 at h
  simp only [u32of, u32le]
  all_goals omega

theorem u32le_length (x : Nat) : (u32le x).length = 4 := rfl

theorem frame_length (r : List Nat) : (WalWriter.frame r).length = 8 + r.length := by
  simp only [WalWriter.frame, List.length_append, u32le_length]

theorem crc32_lt (data : List Nat) : crc32 data < U32 := by
  unfold crc32 U32
  omega

/-- One pass of the loop on a stream that holds a whole header. -/
theorem read_loop_header (fuel a b : Nat) (body : List Nat) (ha : a < U32) (hb : b < U32) :
    read_loop (fuel + 1) (u32le a ++ (u32le b ++ body)) =
      if body.length < a then []
      else if crc32 (body.take a) ≠ b then []
      else body.take a :: read_loop fuel (body.drop a) := by
  have h1 : (u32le a ++ (u32le b ++ body)).take 4 = u32le a :=
    List.take_left' (u32le_length a)
  have h2 : (u32le a ++ (u32le b ++ body)).drop 4 = u32le b ++ body :=
    List.drop_left' (u32le_length a)
  have h3 : (u32le b ++ body).take 4 = u32le b := List.take_left' (u32le_length b)
  have h4 : (u32le b ++ body).drop 4 = body := List.drop_left' (u32le_length b)
  have h5 : ¬ (u32le a ++ (u32le b ++ body)).length < 4 := by
    simp only [List.length_append, u32le_length]; omega
  have h6 : ¬ (u32le b ++ body).length < 4 := by
    simp only [List.length_append, u32le_length]; omega
  rw [read_loop]
  simp only [h1, h2, h3, h4, h5, h6, if_false, u32of_u32le a ha, u32of_u32le b hb]

/-- A stream shorter than a length field ends the loop. -/
theorem read_loop_short (fuel : Nat) (stream : List Nat) (h : stream.length < 4) :
    read_loop fuel stream = [] := by
  cases fuel with
  | zero => rfl
  | succ n => rw [read_loop]; simp only [h, if_true]

/-- A stream that ends inside the checksum field ends the loop. -/
theorem read_loop_short_checksum (fuel a : Nat) (s1 : List Nat) (h : s1.length < 4) :
    read_loop fuel (u32le a ++ s1) = [] := by
  cases fuel with
  | zero => rfl
  | succ n =>
    have h2 : (u32le a ++ s1).drop 4 = s1 := List.drop_left' (u32le_length a)
    have h5 : ¬ (u32le a ++ s1).length < 4 := by
      simp only [List.length_append, u32le_length]; omega
    rw [read_loop]
    simp only [h2, h5, h, if_false, if_true]

/-- One pass of the loop on a whole frame returns its payload. -/
theorem read_loop_frame (fuel : Nat) (r rest : List Nat) (h : r.length < U32) :
    read_loop (fuel + 1) (WalWriter.frame r ++ rest) = r :: read_loop fuel rest := by
  have h1 : WalWriter.frame r ++ rest =
      u32le (r.length % U32) ++ (u32le (crc32 r) ++ (r ++ rest)) := by
    simp only [WalWriter.frame, List.append_assoc]
  rw [h1, read_loop_header fuel _ _ _ (Nat.mod_lt _ (by decide)) (crc32_lt r),
    Nat.mod_eq_of_lt h]
  simp only [List.take_left, List.drop_left, List.length_append]
  simp

/-- The loop returns the same records for every fuel above an eighth of the stream. -/
theorem read_loop_fuel (f1 f2 : Nat) (stream : List Nat) (h1 : stream.length / 8 < f1)
    (h2 : stream.length / 8 < f2) : read_loop f1 stream = read_loop f2 stream := by
  induction f1 generalizing f2 stream with
  | zero => omega
  | succ n ih =>
    cases f2 with
    | zero => omega
    | succ m =>
      rw [read_loop, read_loop]
      by_cases c1 : stream.length < 4
      · simp only [c1, if_true]
      · by_cases c2 : (stream.drop 4).length < 4
        · simp only [c1, c2, if_false, if_true]
        · by_cases c3 : ((stream.drop 4).drop 4).length < u32of (stream.take 4)
          · simp only [c1, c2, c3, if_false, if_true]
          · by_cases c4 : crc32 (((stream.drop 4).drop 4).take (u32of (stream.take 4))) =
                u32of ((stream.drop 4).take 4)
            · simp only [c1, c2, c3, c4, if_false, ne_eq, not_true_eq_false]
              congr 1
              have hl : (((stream.drop 4).drop 4).drop (u32of (stream.take 4))).length + 8
                  ≤ stream.length := by
                simp only [List.length_drop] at c2 ⊢
                omega
              apply ih <;> omega
            · simp only [c1, c2, c3, c4, if_false, ne_eq, not_false_eq_true, if_true]

theorem frames_cons (r : List Nat) (rs : List (List Nat)) :
    frames (r :: rs) = WalWriter.frame r ++ frames rs := by
  simp [frames]

theorem frames_length_ge (records : List (List Nat)) :
    8 * records.length ≤ (frames records).length := by
  induction records with
  | nil => simp [frames]
  | cons r rs ih =>
    rw [frames_cons, List.length_append, frame_length, List.length_cons]
    omega

theorem appendAll_file (w : WalWriter) (records : List (List Nat)) :
    ∃ w', WalWriter.appendAll w records = some w' ∧ w'.file = w.file ++ frames records := by
  induction records generalizing w with
  | nil => exact ⟨w, rfl, by simp [frames]⟩
  | cons r rs ih =>
    obtain ⟨w', h1, h2⟩ := ih { file := w.file ++ WalWriter.frame r,
                                 wal_bytes_ := (w.file ++ WalWriter.frame r).length }
    refine ⟨w', ?_, ?_⟩
    · simpa [WalWriter.appendAll, WalWriter.append] using h1
    · rw [h2, frames_cons, List.append_assoc]

theorem read_loop_frames (fuel : Nat) (records : List (List Nat)) (rest : List Nat)
    (hlen : ∀ r ∈ records, r.length < U32) (hf : records.length ≤ fuel) :
    read_loop (fuel + 1) (frames records ++ rest) =
      records ++ read_loop (fuel + 1 - records.length) rest := by
  induction records generalizing fuel with
  | nil => simp [frames]
  | cons r rs ih =>
    cases fuel with
    | zero => simp at hf
    | succ n =>
      rw [frames_cons, List.append_assoc,
        read_loop_frame _ r _ (hlen r (List.mem_cons_self _ _)),
        ih n (fun x hx => hlen x (List.mem_cons_of_mem _ hx)) (by simpa using hf)]
      have hn : n + 1 + 1 - (r :: rs).length = n + 1 - rs.length := by
        simp only [List.length_cons]
        omega
      rw [hn]
      rfl

/-- Claim C18: for every list of records, each shorter than `2 ^ 32` bytes,
appended in order to an empty log with no fault injected, every `append`
returns and `read_all` on the resulting file returns exactly the records, in
their order. -/
theorem wal_roundtrip (w : WalWriter) (records : List (List Nat)) (hw : w.file = [])
    (hlen : ∀ r ∈ records, r.length < U32) :
    ∃ w', WalWriter.appendAll w records = some w' ∧
      WalReader.read_all (some w'.file) = records := by
  obtain ⟨w', h1, h2⟩ := appendAll_file w records
  refine ⟨w', h1, ?_⟩
  rw [h2, hw, List.nil_append]
  simp only [WalReader.read_all]
  have h3 := frames_length_ge records
  have h4 := read_loop_frames ((frames records).length / 8) records [] hlen (by omega)
  simp only [List.append_nil] at h4
  rw [h4, read_loop_short _ [] (by simp)]
  simp

set_option maxRecDepth 100000 in
/-- Instance of `wal_roundtrip`: five records, one of them empty. -/
theorem wal_roundtrip_witness :
    (∀ r ∈ fiveRecords, r.length < U32) ∧
    ∃ w', WalWriter.appendAll { file := [], wal_bytes_ := 0 } fiveRecords = some w' ∧
      WalReader.read_all (some w'.file) = fiveRecords :=
  ⟨by decide, wal_roundtrip { file := [], wal_bytes_ := 0 } fiveRecords rfl (by decide)⟩

/-- Claim C19: when the frames of the records `good` are followed by a frame
whose stored checksum `c` is not the CRC-32 of its payload `bad`, `read_all`
returns exactly `good`, whatever bytes follow the torn frame, valid frames
included. -/
theorem wal_checksum_mismatch (good : List (List Nat)) (bad rest : List Nat) (c : Nat)
    (hlen : ∀ r ∈ good, r.length < U32) (hbad : bad.length < U32) (hc : c < U32)
    (hne : c ≠ crc32 bad) :
    WalReader.read_all
      (some (frames good ++ (u32le (bad.length % U32) ++ u32le c ++ bad) ++ rest)) = good := by
  simp only [WalReader.read_all]
  have hstream : frames good ++ (u32le (bad.length % U32) ++ u32le c ++ bad) ++ rest =
      frames good ++ (u32le (bad.length % U32) ++ (u32le c ++ (bad ++ rest))) := by
    simp only [List.append_assoc]
  rw [hstream]
  generalize hfuel : (frames good ++ (u32le (bad.length % U32) ++
    (u32le c ++ (bad ++ rest)))).length / 8 = fuel
  have h3 := frames_length_ge good
  have hf : good.length < fuel := by
    rw [← hfuel]
    simp only [List.length_append, u32le_length]
    omega
  rw [read_loop_frames fuel good _ hlen (by omega)]
  obtain ⟨n, hn⟩ : ∃ n, fuel + 1 - good.length = n + 1 := ⟨fuel - good.length, by omega⟩
  rw [hn, read_loop_header n _ _ _ (Nat.mod_lt _ (by decide)) hc, Nat.mod_eq_of_lt hbad]
  have h5 : ¬ (bad ++ rest).length < bad.length := by simp
  simp only [h5, if_false, List.take_left]
  rw [if_pos (fun h => hne h.symm)]
  simp

set_option maxRecDepth 100000 in
/-- Instance of `wal_checksum_mismatch`: a wrong checksum in record 3 of 5
leaves records 1 and 2, although records 4 and 5 are valid frames. -/
theorem wal_checksum_mismatch_witness :
    (∀ r ∈ fiveRecords.take 2, r.length < U32) ∧ digits.length < U32 ∧ 7 < U32 ∧
    7 ≠ crc32 digits ∧
    WalReader.read_all
      (some (frames (fiveRecords.take 2) ++ (u32le (digits.length % U32) ++ u32le 7 ++ digits)
        ++ frames (fiveRecords.drop 3))) = fiveRecords.take 2 :=
  ⟨by decide, by decide, by decide, by decide,
    wal_checksum_mismatch (fiveRecords.take 2) digits (frames (fiveRecords.drop 3)) 7
      (by decide) (by decide) (by decide) (by decide)⟩

/-! ## The write-ahead log: a torn tail -/

/-- A stream that ends inside a frame ends the loop. -/
theorem read_loop_torn (fuel cut : Nat) (r rest : List Nat) (h : r.length < U32)
    (hcut : cut < 8 + r.length) :
    read_loop fuel ((WalWriter.frame r ++ rest).take cut) = [] := by
  have h1 : WalWriter.frame r ++ rest =
      u32le (r.length % U32) ++ (u32le (crc32 r) ++ (r ++ rest)) := by
    simp only [WalWriter.frame, List.append_assoc]
  rw [h1]
  by_cases c1 : cut < 4
  · apply read_loop_short
    simp only [List.length_take]
    omega
  · have e1 : (u32le (r.length % U32) ++ (u32le (crc32 r) ++ (r ++ rest))).take cut =
        u32le (r.length % U32) ++ (u32le (crc32 r) ++ (r ++ rest)).take (cut - 4) := by
      rw [List.take_append_eq_append_take, u32le_length,
        List.take_of_length_le (by rw [u32le_length]; omega)]
    rw [e1]
    by_cases c2 : cut < 8
    · apply read_loop_short_checksum
      simp only [List.length_take]
      omega
    · have e2 : (u32le (crc32 r) ++ (r ++ rest)).take (cut - 4) =
          u32le (crc32 r) ++ (r ++ rest).take (cut - 4 - 4) := by
        rw [List.take_append_eq_append_take, u32le_length,
          List.take_of_length_le (by rw [u32le_length]; omega)]
      rw [e2]
      cases fuel with
      | zero => rfl
      | succ n =>
        rw [read_loop_header n _ _ _ (Nat.mod_lt _ (by decide)) (crc32_lt r),
          Nat.mod_eq_of_lt h]
        have : ((r ++ rest).take (cut - 4 - 4)).length < r.length := by
          simp only [List.length_take]
          omega
        simp only [this, if_true]

theorem take_frame_append (cut : Nat) (r rest : List Nat) (h : 8 + r.length ≤ cut) :
    (WalWriter.frame r ++ rest).take cut =
      WalWriter.frame r ++ rest.take (cut - (8 + r.length)) := by
  rw [List.take_append_eq_append_take, frame_length,
    List.take_of_length_le (by rw [frame_length]; omega)]

theorem completeFrames_le (cut : Nat) (records : List (List Nat)) :
    8 * completeFrames cut records ≤ ((frames records).take cut).length := by
  induction records generalizing cut with
  | nil => simp [completeFrames]
  | cons r rs ih =>
    unfold completeFrames
    by_cases h : 8 + r.length ≤ cut
    · simp only [h, if_true]
      rw [frames_cons, take_frame_append cut r _ h, List.length_append, frame_length]
      have := ih (cut - (8 + r.length))
      omega
    · simp only [h, if_false]
      omega

theorem read_loop_cut (fuel cut : Nat) (records : List (List Nat))
    (hlen : ∀ r ∈ records, r.length < U32) (hf : completeFrames cut records < fuel) :
    read_loop fuel ((frames records).take cut) =
      records.take (completeFrames cut records) := by
  induction records generalizing fuel cut with
  | nil =>
    simp only [frames, List.flatMap_nil, List.take_nil]
    exact read_loop_short _ [] (by simp)
  | cons r rs ih =>
    unfold completeFrames at hf ⊢
    by_cases h : 8 + r.length ≤ cut
    · simp only [h, if_true] at hf ⊢
      cases fuel with
      | zero => omega
      | succ n =>
        rw [frames_cons, take_frame_append cut r _ h,
          read_loop_frame n r _ (hlen r (List.mem_cons_self _ _)),
          ih n (cut - (8 + r.length)) (fun x hx => hlen x (List.mem_cons_of_mem _ hx))
            (by omega)]
        rfl
    · simp only [h, if_false]
      rw [frames_cons]
      exact read_loop_torn fuel cut r _ (hlen r (List.mem_cons_self _ _)) (by omega)

/-- Claim C20: for every list of records, each shorter than `2 ^ 32` bytes,
appended in order to an empty log, and every byte offset `cut`, `read_all` on
the first `cut` bytes of the file returns exactly the records whose frames lie
entirely within those bytes, which are the first records of the list in their
order; `read_all` is a total function, so it stops without error. -/
theorem wal_torn_tail (w : WalWriter) (records : List (List Nat)) (cut : Nat)
    (hw : w.file = []) (hlen : ∀ r ∈ records, r.length < U32) :
    ∃ w', WalWriter.appendAll w records = some w' ∧
      WalReader.read_all (some (w'.file.take cut)) =
        records.take (completeFrames cut records) := by
  obtain ⟨w', h1, h2⟩ := appendAll_file w records
  refine ⟨w', h1, ?_⟩
  rw [h2, hw, List.nil_append]
  simp only [WalReader.read_all]
  have h3 := completeFrames_le cut records
  exact read_loop_cut _ cut records hlen (by omega)

set_option maxRecDepth 100000 in
/-- Instance of `wal_torn_tail`: the log of five records cut inside the payload
of the third one gives the first two records. -/
theorem wal_torn_tail_witness :
    (∀ r ∈ fiveRecords, r.length < U32) ∧
    ∃ w', WalWriter.appendAll { file := [], wal_bytes_ := 0 } fiveRecords = some w' ∧
      WalReader.read_all (some (w'.file.take 30)) = fiveRecords.take 2 :=
  ⟨by decide,
    wal_torn_tail { file := [], wal_bytes_ := 0 } fiveRecords 30 rfl (by decide)⟩

/-! ## `rebalance` to the same count, `restore` of a key twice -/

/-- Claim C17: `rebalance(n)` with `n = 0` or `n` equal to the current shard
count returns the store as it was: the shard count, every map and recency list
with its order, `memory_usage()` and `current_version()` are unchanged. -/
theorem rebalance_unchanged (hash : String → Nat) (s : ShardedStore) (n : Nat)
    (h : n = 0 ∨ n = s.shards_.length) :
    rebalance hash s n = s ∧
    (rebalance hash s n).shards_.length = s.shards_.length ∧
    (rebalance hash s n).shards_ = s.shards_ ∧
    memory_usage (rebalance hash s n) = memory_usage s ∧
    current_version (rebalance hash s n) = current_version s := by
  have h0 : rebalance hash s n = s := by simp [rebalance, h]
  rw [h0]
  exact ⟨rfl, rfl, rfl, rfl, rfl⟩

/-- Instance of `rebalance_unchanged`: `rebalance(0)` and `rebalance(1)` on a store of one shard. -/
theorem rebalance_unchanged_witness :
    (0 = 0 ∨ 0 = storeAB.shards_.length) ∧ rebalance lengthHash storeAB 0 = storeAB ∧
    (1 = 0 ∨ 1 = storeAB.shards_.length) ∧ rebalance lengthHash storeAB 1 = storeAB :=
  ⟨Or.inl rfl, (rebalance_unchanged lengthHash storeAB 0 (Or.inl rfl)).1,
    Or.inr rfl, (rebalance_unchanged lengthHash storeAB 1 (Or.inr rfl)).1⟩

/-- A state of the loop with a stale node at the back of the first recency
list that is not empty: no fuel lets the loop exit. -/
theorem enforce_loop_stale (s : ShardedStore) (h : enforce_memory_budget s = none) (fuel : Nat) :
    enforce_loop fuel s = none :=
  (enforce_none_iff s).mp h fuel

/-! ## The victim of a pass of the eviction loop -/

theorem firstVictim_before (l : List Shard) (i : Nat) (key : String)
    (h : firstVictim l = some (i, key)) :
    ∀ (j : Nat) (sh' : Shard), j < i → l[j]? = some sh' → sh'.lru = [] := by
  induction l generalizing i with
  | nil => simp [firstVictim] at h
  | cons a l ih =>
    unfold firstVictim at h
    cases hl : a.lru.getLast? with
    | some k0 =>
      simp [hl] at h
      intro j sh' hj
      omega
    | none =>
      simp [hl] at h
      obtain ⟨i0, h0, h1⟩ := h
      subst h1
      intro j sh' hj hsh
      cases j with
      | zero =>
        simp at hsh
        subst hsh
        simpa using hl
      | succ j => exact ih i0 h0 j sh' (by omega) (by simpa using hsh)

theorem firstVictim_eq (l : List Shard) (i : Nat) (sh : Shard) (key : String)
    (hsh : l[i]? = some sh) (hk : sh.lru.getLast? = some key)
    (hb : ∀ (j : Nat) (sh' : Shard), j < i → l[j]? = some sh' → sh'.lru = []) :
    firstVictim l = some (i, key) := by
  induction l generalizing i with
  | nil => simp at hsh
  | cons a l ih =>
    cases i with
    | zero =>
      simp at hsh
      subst hsh
      simp [firstVictim, hk]
    | succ i =>
      have ha : a.lru = [] := hb 0 a (by omega) (by simp)
      have := ih i (by simpa using hsh)
        (fun j sh' hj hs => hb (j + 1) sh' (by omega) (by simpa using hs))
      simp [firstVictim, ha, this]

theorem totalBytes_single (l : List Shard) (i : Nat) (sh : Shard) (hsh : l[i]? = some sh)
    (ho : ∀ (j : Nat) (sh' : Shard), j ≠ i → l[j]? = some sh' → sh'.map = []) :
    totalBytes l = mapBytes sh.map := by
  induction l generalizing i with
  | nil => simp at hsh
  | cons a l ih =>
    cases i with
    | zero =>
      simp at hsh
      subst hsh
      have hz : totalBytes l = 0 := by
        have : ∀ sh' ∈ l, sh'.map = [] := by
          intro sh' hm
          obtain ⟨j, hj⟩ := List.getElem?_of_mem hm
          exact ho (j + 1) sh' (by omega) (by simpa using hj)
        clear ih ho
        induction l with
        | nil => rfl
        | cons b l ihl =>
          have hb := this b (List.mem_cons_self _ _)
          have := ihl (fun x hx => this x (List.mem_cons_of_mem _ hx))
          simp only [totalBytes, List.map_cons, List.sum_cons, hb, mapBytes] at this ⊢
          simp [this]
      simp only [totalBytes, List.map_cons, List.sum_cons] at hz ⊢
      omega
    | succ i =>
      have ha : a.map = [] := ho 0 a (by omega) (by simp)
      have := ih i (by simpa using hsh)
        (fun j sh' hj hs => ho (j + 1) sh' (by omega) (by simpa using hs))
      simp only [totalBytes, List.map_cons, List.sum_cons, ha, mapBytes] at this ⊢
      simp [this]

/-- Claim C13, refuted as stated: on a store whose only entry, of 2 bytes,
exceeds the budget of 1 byte, `enforce_memory_budget` returns with
`memory_usage()` not above the budget. -/
theorem enforce_single_huge_counterexample :
    ∃ s', enforce_memory_budget storeHuge = some s' ∧
      ¬ (memory_usage s' > storeHuge.memory_budget_bytes_) ∧ memory_usage s' = 0 :=
  ⟨{ storeHuge with
      shards_ := [{ map := [], lru := [] }], memory_usage_bytes_ := 0,
      metrics_ := { eviction_count_ := 1, memory_bytes_ := 0 } },
    by decide, by decide, by decide⟩

/-- Claim C13, amended: on a store holding exactly one entry, whose size
exceeds the memory budget, one call of `enforce_memory_budget` returns after
evicting that entry: every map and recency list is empty, `memory_usage()` is
0, and the eviction counter has increased by exactly 1. -/
theorem enforce_single_huge (s : ShardedStore) (i : Nat) (sh : Shard) (k : String)
    (e : Entry) (hsh : s.shards_[i]? = some sh) (hmap : sh.map = [(k, e)])
    (hlru : sh.lru = [k])
    (hothers : ∀ (j : Nat) (sh' : Shard), j ≠ i → s.shards_[j]? = some sh' →
      sh'.map = [] ∧ sh'.lru = [])
    (hmem : s.memory_usage_bytes_ = e.size_bytes)
    (hbig : s.memory_budget_bytes_ < e.size_bytes) :
    ∃ s', enforce_memory_budget s = some s' ∧ memory_usage s' = 0 ∧
      (∀ sh' ∈ s'.shards_, sh'.map = [] ∧ sh'.lru = []) ∧
      s'.metrics_.eviction_count_ = (s.metrics_.eviction_count_ + 1) % U64 := by
  have hv : firstVictim s.shards_ = some (i, k) :=
    firstVictim_eq _ i sh k hsh (by simp [hlru])
      (fun j sh' hj hs => (hothers j sh' (by omega) hs).2)
  have hf : mapFind sh.map k = some e := by simp [hmap, mapFind]
  have hrem := remove_entry_present s i k sh e hsh hf
  have hloop : enforce_loop 2 s = some (record_eviction (remove_entry s i k)) := by
    have hgt : s.memory_usage_bytes_ > s.memory_budget_bytes_ := by omega
    have hz : memSub e.size_bytes e.size_bytes = 0 := by
      unfold memSub U64 at *
      omega
    rw [enforce_loop]
    simp only [hgt, if_true, evict_step, hv]
    rw [enforce_loop]
    have : ¬ (record_eviction (remove_entry s i k)).memory_usage_bytes_ >
        (record_eviction (remove_entry s i k)).memory_budget_bytes_ := by
      rw [hrem]
      simp only [record_eviction, hmem, hz]
      omega
    simp only [this, if_false]
  have hfin := enforce_loop_fuel 2 s _ hloop
  refine ⟨set_memory_bytes (record_eviction (remove_entry s i k)),
    by simp [enforce_memory_budget, hfin], ?_, ?_, ?_⟩
  · rw [hrem]
    simp only [memory_usage, set_memory_bytes, record_eviction, hmem]
    unfold memSub U64 at *
    omega
  · intro sh' hmem'
    rw [hrem] at hmem'
    simp only [set_memory_bytes, record_eviction] at hmem'
    obtain ⟨j, hj⟩ := List.getElem?_of_mem hmem'
    by_cases hji : i = j
    · subst hji
      have hlt : i < s.shards_.length := (List.getElem?_eq_some_iff.mp hsh).1
      rw [List.getElem?_set_self hlt] at hj
      simp only [Option.some.injEq] at hj
      subst hj
      simp [hmap, hlru, mapErase]
    · rw [List.getElem?_set_ne hji] at hj
      exact hothers j sh' (fun h => hji h.symm) hj
  · rw [hrem]
    simp [set_memory_bytes, record_eviction]

/-- Instance of `enforce_single_huge`: the store `storeHuge`. -/
theorem enforce_single_huge_witness :
    storeHuge.shards_[0]? = some
      { map := [("a", { value := "1", version := 1, expire_at := none, size_bytes := 2 })],
        lru := ["a"] } ∧
    storeHuge.memory_budget_bytes_ < 2 ∧
    ∃ s', enforce_memory_budget storeHuge = some s' ∧ memory_usage s' = 0 ∧
      (∀ sh' ∈ s'.shards_, sh'.map = [] ∧ sh'.lru = []) ∧
      s'.metrics_.eviction_count_ = (storeHuge.metrics_.eviction_count_ + 1) % U64 :=
  ⟨rfl, by decide,
    enforce_single_huge storeHuge 0
      { map := [("a", { value := "1", version := 1, expire_at := none, size_bytes := 2 })],
        lru := ["a"] } "a" { value := "1", version := 1, expire_at := none, size_bytes := 2 }
      rfl rfl rfl
      (by
        intro j sh' hj hs
        cases j with
        | zero => exact absurd rfl hj
        | succ j => simp [storeHuge] at hs)
      rfl (by decide)⟩

/-! ## The key written by `put` and the eviction that follows -/

theorem remove_entry_getElem_ne (s : ShardedStore) (i j : Nat) (key : String) (h : i ≠ j) :
    (remove_entry s i key).shards_[j]? = s.shards_[j]? := by
  rcases remove_entry_cases s i key with h1 | ⟨shard, e, _, _, h1⟩
  · rw [h1]
  · rw [h1]
    simp only [List.getElem?_set_ne h]

theorem consistent_map_of_lru_nil (sh : Shard) (h : sh.consistent) (hl : sh.lru = []) :
    sh.map = [] := by
  have h2 := h.2
  rw [hl] at h2
  have := h2.symm.eq_nil
  simpa [mapKeys] using this

theorem consistent_lru_of_map_nil (sh : Shard) (h : sh.consistent) (hm : sh.map = []) :
    sh.lru = [] := by
  have h2 := h.2
  rw [hm] at h2
  simpa [mapKeys] using h2.eq_nil

theorem consistent_map_singleton (sh : Shard) (k : String) (e : Entry) (h : sh.consistent)
    (hl : sh.lru = [k]) (hf : mapFind sh.map k = some e) : sh.map = [(k, e)] := by
  have h2 := h.2
  rw [hl] at h2
  have hk : mapKeys sh.map = [k] := List.perm_singleton.mp h2.symm
  cases hm : sh.map with
  | nil => rw [hm] at hk; simp [mapKeys] at hk
  | cons p t =>
    rw [hm] at hk hf
    simp only [mapKeys, List.map_cons, List.cons.injEq, List.map_eq_nil_iff] at hk
    obtain ⟨k0, e0⟩ := p
    obtain ⟨hk1, hk2⟩ := hk
    simp only at hk1
    subst hk1 hk2
    simp only [mapFind, if_true, Option.some.injEq] at hf
    subst hf
    rfl

theorem storeAB_memMod : memMod storeAB := by
  simp [memMod, storeAB, totalBytes, mapBytes, U64]

/-! ## Lookups before and after `rebalance` -/

theorem get_eq_lookup (hash : String → Nat) (now : Nat) (s : ShardedStore) (k : String)
    (V : Option Nat) :
    get hash now s k V =
      match lookup hash s k with
      | none => none
      | some entry =>
        if too_new V entry then none
        else if expired now entry then none
        else some entry.value := by
  unfold get lookup lookupIn shard_for
  cases s.shards_[hash k % s.shards_.length]? with
  | none => rfl
  | some sh => rfl

theorem mapFind_append (m1 m2 : List (String × Entry)) (k : String) :
    mapFind (m1 ++ m2) k =
      match mapFind m1 k with
      | some e => some e
      | none => mapFind m2 k := by
  induction m1 with
  | nil => rfl
  | cons p m ih =>
    obtain ⟨k0, e0⟩ := p
    by_cases hk : k0 = k
    · simp [mapFind, hk]
    · simpa [mapFind, hk] using ih

theorem mapFind_allEntries_none (l : List Shard) (k : String)
    (h : ∀ sh ∈ l, k ∉ mapKeys sh.map) : mapFind (allEntries l) k = none := by
  induction l with
  | nil => rfl
  | cons a l ih =>
    simp only [allEntries, List.flatMap_cons]
    rw [mapFind_append, (mapFind_eq_none_iff _ _).mpr (h a (List.mem_cons_self _ _))]
    exact ih (fun sh hsh => h sh (List.mem_cons_of_mem _ hsh))

/-- When only the shard at `idx` can hold the key, looking the key up in all
entries is looking it up in that shard. -/
theorem mapFind_allEntries (l : List Shard) (k : String) (idx : Nat)
    (h : ∀ (i : Nat) (sh : Shard), l[i]? = some sh → k ∈ mapKeys sh.map → i = idx) :
    mapFind (allEntries l) k =
      match l[idx]? with
      | none => none
      | some sh => mapFind sh.map k := by
  induction l generalizing idx with
  | nil => rfl
  | cons a l ih =>
    simp only [allEntries, List.flatMap_cons]
    rw [mapFind_append]
    cases idx with
    | zero =>
      have hrest : mapFind (allEntries l) k = none := by
        apply mapFind_allEntries_none
        intro sh hsh hk
        obtain ⟨j, hj⟩ := List.getElem?_of_mem hsh
        have := h (j + 1) sh (by simpa using hj) hk
        omega
      simp only [allEntries] at hrest
      simp only [List.getElem?_cons_zero]
      rw [hrest]
      cases mapFind a.map k <;> rfl
    | succ j =>
      have ha : mapFind a.map k = none := by
        apply (mapFind_eq_none_iff _ _).mpr
        intro hk
        have := h 0 a (by simp) hk
        omega
      rw [ha]
      simp only [List.getElem?_cons_succ]
      apply ih
      intro i sh hi hk
      have := h (i + 1) sh (by simpa using hi) hk
      omega

theorem lookup_eq_allEntries (hash : String → Nat) (s : ShardedStore) (k : String)
    (hp : placed hash s) : lookup hash s k = mapFind (allEntries s.shards_) k := by
  rw [mapFind_allEntries s.shards_ k (hash k % s.shards_.length)
    (fun i sh hi hk => (hp i sh hi k hk).symm)]
  rfl

theorem move_entry_lookup (hash : String → Nat) (ns : List Shard) (p : String × Entry)
    (k : String) (hpos : 0 < ns.length) :
    lookupIn hash (move_entry hash ns p) k =
      match lookupIn hash ns k with
      | some e => some e
      | none => if p.1 = k then some p.2 else none := by
  have hidx : hash p.1 % ns.length < ns.length := Nat.mod_lt _ hpos
  have hk : hash k % ns.length < ns.length := Nat.mod_lt _ hpos
  have hmove : move_entry hash ns p = ns.set (hash p.1 % ns.length)
      { map := mapEmplace (ns[hash p.1 % ns.length]).map p.1 p.2,
        lru := p.1 :: (ns[hash p.1 % ns.length]).lru } := by
    simp only [move_entry, List.getElem?_eq_getElem hidx]
  unfold lookupIn
  rw [hmove, List.length_set]
  by_cases hsame : hash p.1 % ns.length = hash k % ns.length
  · rw [← hsame, List.getElem?_set_self hidx, List.getElem?_eq_getElem hidx]
    simp only
    by_cases hpk : p.1 = k
    · subst hpk
      cases hf : mapFind (ns[hash p.1 % ns.length]).map p.1 with
      | none => simp [mapEmplace, hf, mapFind]
      | some e0 => simp [mapEmplace, hf]
    · cases hf : mapFind (ns[hash p.1 % ns.length]).map p.1 with
      | none =>
        simp only [mapEmplace, hf, mapFind, hpk, if_false]
        cases mapFind (ns[hash p.1 % ns.length]).map k <;> rfl
      | some e0 =>
        simp only [mapEmplace, hf, hpk, if_false]
        cases mapFind (ns[hash p.1 % ns.length]).map k <;> rfl
  · have hpk : p.1 ≠ k := fun h => hsame (by rw [h])
    rw [List.getElem?_set_ne hsame, List.getElem?_eq_getElem hk]
    simp only [hpk, if_false]
    cases mapFind (ns[hash k % ns.length]).map k <;> rfl

theorem move_all_lookup (hash : String → Nat) (L : List (String × Entry)) (ns : List Shard)
    (k : String) (hpos : 0 < ns.length) :
    lookupIn hash (L.foldl (move_entry hash) ns) k =
      match lookupIn hash ns k with
      | some e => some e
      | none => mapFind L k := by
  induction L generalizing ns with
  | nil => simp only [List.foldl_nil, mapFind]; cases lookupIn hash ns k <;> rfl
  | cons p L ih =>
    obtain ⟨k0, e0⟩ := p
    simp only [List.foldl_cons]
    rw [ih _ (by rw [move_entry_length]; exact hpos), move_entry_lookup hash ns _ k hpos]
    cases lookupIn hash ns k with
    | some e => rfl
    | none =>
      by_cases hk : k0 = k
      · simp [hk, mapFind]
      · simp [hk, mapFind]

theorem lookupIn_replicate (hash : String → Nat) (n : Nat) (k : String) :
    lookupIn hash (List.replicate n Shard.empty) k = none := by
  unfold lookupIn
  cases h : (List.replicate n Shard.empty)[hash k % (List.replicate n Shard.empty).length]? with
  | none => rfl
  | some sh =>
    have := List.getElem?_mem h
    simp only [List.mem_replicate] at this
    rw [this.2]
    rfl

theorem rebalance_lookup (hash : String → Nat) (s : ShardedStore) (n : Nat) (k : String)
    (hp : placed hash s) : lookup hash (rebalance hash s n) k = lookup hash s k := by
  by_cases h : n = 0 ∨ n = s.shards_.length
  · rw [rebalance_noop hash s n h]
  · rw [rebalance_moved hash s n h, lookup_eq_allEntries hash s k hp]
    unfold lookup
    simp only
    rw [move_all_lookup hash _ _ k (by simp; omega), lookupIn_replicate]

theorem mapFind_of_mem (m : List (String × Entry)) (k : String) (e : Entry)
    (hn : (mapKeys m).Nodup) (h : (k, e) ∈ m) : mapFind m k = some e := by
  induction m with
  | nil => simp at h
  | cons p m ih =>
    obtain ⟨k0, e0⟩ := p
    have hn' : k0 ∉ mapKeys m ∧ (mapKeys m).Nodup := by simpa [mapKeys] using hn
    simp only [List.mem_cons, Prod.mk.injEq] at h
    rcases h with ⟨h1, h2⟩ | h
    · subst h1 h2
      simp [mapFind]
    · have hk : k0 ≠ k := by
        intro hh
        subst hh
        exact hn'.1 (List.mem_map.mpr ⟨(k0, e), h, rfl⟩)
      simp only [mapFind, hk, if_false]
      exact ih hn'.2 h

theorem placed_allEntries_nodup (hash : String → Nat) (s : ShardedStore)
    (hp : placed hash s) (hk : ∀ sh ∈ s.shards_, (mapKeys sh.map).Nodup) :
    (mapKeys (allEntries s.shards_)).Nodup := by
  apply allEntries_nodup s.shards_ hk
  intro i j shi shj hi hj hij k hk1 hk2
  have h1 := hp i shi hi k hk1
  have h2 := hp j shj hj k hk2
  omega

/-- Claim C16: let every key of the store be in the shard that `shard_for`
selects and every map hold one pair per key.  For every `new_shard_count ≥ 1`
different from the current count, `rebalance` leaves the result of `get(k, V)`
unchanged for every key, every optional version and every clock reading, leaves
`memory_usage()` and `current_version()` unchanged, and afterwards the store
has exactly `new_shard_count` shards that hold the same pairs of key and entry. -/
theorem rebalance_preserves (hash : String → Nat) (s : ShardedStore) (n : Nat)
    (hn : 1 ≤ n) (hne : n ≠ s.shards_.length) (hp : placed hash s)
    (hk : ∀ sh ∈ s.shards_, (mapKeys sh.map).Nodup) :
    (∀ (now : Nat) (k : String) (V : Option Nat),
      get hash now (rebalance hash s n) k V = get hash now s k V) ∧
    memory_usage (rebalance hash s n) = memory_usage s ∧
    current_version (rebalance hash s n) = current_version s ∧
    (rebalance hash s n).shards_.length = n ∧
    (∀ p : String × Entry,
      p ∈ allEntries (rebalance hash s n).shards_ ↔ p ∈ allEntries s.shards_) := by
  have hnot : ¬ (n = 0 ∨ n = s.shards_.length) := by omega
  refine ⟨?_, rebalance_memory hash s n, rebalance_version hash s n, ?_, ?_⟩
  · intro now k V
    rw [get_eq_lookup, get_eq_lookup, rebalance_lookup hash s n k hp]
  · rw [rebalance_moved hash s n hnot]
    simp only [move_all_length, List.length_replicate]
  · intro p
    constructor
    · intro hmem
      simp only [allEntries, List.mem_flatMap] at hmem ⊢
      obtain ⟨sh, hsh, hq⟩ := hmem
      exact rebalance_mem hash s n sh p hsh hq
    · intro hmem
      obtain ⟨k, e⟩ := p
      have h1 : mapFind (allEntries s.shards_) k = some e :=
        mapFind_of_mem _ k e (placed_allEntries_nodup hash s hp hk) hmem
      have h2 : lookup hash (rebalance hash s n) k = some e := by
        rw [rebalance_lookup hash s n k hp, lookup_eq_allEntries hash s k hp, h1]
      unfold lookup lookupIn at h2
      cases hsh : (rebalance hash s n).shards_[hash k %
          (rebalance hash s n).shards_.length]? with
      | none => simp [hsh] at h2
      | some sh =>
        simp only [hsh] at h2
        simp only [allEntries, List.mem_flatMap]
        exact ⟨sh, List.getElem?_mem hsh, mapFind_mem _ _ _ h2⟩

theorem storeAB_placed : placed lengthHash storeAB := by
  intro i sh hi k _
  cases i with
  | zero => simp [storeAB, Nat.mod_one]
  | succ i => simp [storeAB] at hi

theorem storeAB_keys_nodup : ∀ sh ∈ storeAB.shards_, (mapKeys sh.map).Nodup :=
  fun sh hsh => (storeAB_consistent sh hsh).1

/-- Instance of `rebalance_preserves`: `storeAB` rebalanced from one shard to two. -/
theorem rebalance_preserves_witness :
    1 ≤ 2 ∧ 2 ≠ storeAB.shards_.length ∧ placed lengthHash storeAB ∧
    (∀ sh ∈ storeAB.shards_, (mapKeys sh.map).Nodup) ∧
    (∀ (now : Nat) (k : String) (V : Option Nat),
      get lengthHash now (rebalance lengthHash storeAB 2) k V = get lengthHash now storeAB k V) ∧
    (rebalance lengthHash storeAB 2).shards_.length = 2 :=
  ⟨by decide, by decide, storeAB_placed, storeAB_keys_nodup,
    (rebalance_preserves lengthHash storeAB 2 (by decide) (by decide) storeAB_placed
      storeAB_keys_nodup).1,
    (rebalance_preserves lengthHash storeAB 2 (by decide) (by decide) storeAB_placed
      storeAB_keys_nodup).2.2.2.1⟩

/-! ## `restore` of a snapshot into an empty store -/

theorem snapshot_eq (s : ShardedStore) (V : Nat) :
    snapshot s V =
      ((allEntries s.shards_).filter (fun p => decide (p.2.version ≤ V))).map itemOf := by
  unfold snapshot allEntries
  generalize s.shards_ = l
  induction l with
  | nil => rfl
  | cons a l ih =>
    simp only [List.flatMap_cons, List.filter_append, List.map_append, ih]
    rfl

theorem itemOf_pairOf (item : SnapshotItem) : itemOf (pairOf item) = item := rfl

theorem pairOf_fst (item : SnapshotItem) : (pairOf item).1 = item.key := rfl

theorem allEntries_replicate (n : Nat) : allEntries (List.replicate n Shard.empty) = [] := by
  induction n with
  | zero => rfl
  | succ n ih =>
    simp only [allEntries, List.replicate_succ, List.flatMap_cons] at ih ⊢
    rw [ih]
    rfl

theorem allEntries_set_cons (l : List Shard) (i : Nat) (sh : Shard) (p : String × Entry)
    (lru : List String) (h : l[i]? = some sh) :
    (allEntries (l.set i { map := p :: sh.map, lru := lru })).Perm (p :: allEntries l) := by
  induction l generalizing i with
  | nil => simp at h
  | cons a l ih =>
    cases i with
    | zero =>
      simp at h
      subst h
      simp only [List.set_cons_zero, allEntries, List.flatMap_cons, List.cons_append]
      exact List.Perm.refl _
    | succ i =>
      simp at h
      have := ih i h
      simp only [List.set_cons_succ, allEntries, List.flatMap_cons] at this ⊢
      exact (List.Perm.append_left a.map this).trans List.perm_middle

theorem mem_keys_allEntries (l : List Shard) (sh : Shard) (k : String) (hsh : sh ∈ l)
    (hk : k ∈ mapKeys sh.map) : k ∈ mapKeys (allEntries l) := by
  simp only [mapKeys, allEntries, List.mem_map, List.mem_flatMap] at hk ⊢
  obtain ⟨p, hp, hpk⟩ := hk
  exact ⟨p, ⟨sh, hsh, hp⟩, hpk⟩

theorem restore_item_fresh (hash : String → Nat) (s : ShardedStore) (item : SnapshotItem)
    (hpos : 0 < s.shards_.length) (hfresh : item.key ∉ mapKeys (allEntries s.shards_)) :
    (allEntries (restore_item hash s item).shards_).Perm (pairOf item :: allEntries s.shards_) := by
  have hidx : shard_for hash s item.key < s.shards_.length := Nat.mod_lt _ hpos
  have hsh := List.getElem?_eq_getElem hidx
  have hnone : mapFind (s.shards_[shard_for hash s item.key]).map item.key = none := by
    apply (mapFind_eq_none_iff _ _).mpr
    intro hk
    exact hfresh (mem_keys_allEntries _ _ _ (List.getElem_mem hidx) hk)
  rw [restore_item_shard hash s item _ hsh]
  simp only [mapAssign, hnone]
  exact allEntries_set_cons _ _ _ _ _ hsh

theorem restore_items_perm (hash : String → Nat) (L : List SnapshotItem) (s : ShardedStore)
    (hpos : 0 < s.shards_.length)
    (hn : (L.map (fun it => it.key) ++ mapKeys (allEntries s.shards_)).Nodup) :
    (allEntries (L.foldl (restore_item hash) s).shards_).Perm
      (L.map pairOf ++ allEntries s.shards_) := by
  induction L generalizing s with
  | nil => exact List.Perm.refl _
  | cons item L ih =>
    simp only [List.foldl_cons, List.map_cons, List.cons_append, List.nodup_cons,
      List.mem_append, not_or] at hn ⊢
    have h1 := restore_item_fresh hash s item hpos hn.1.2
    have hkeys : (mapKeys (allEntries (restore_item hash s item).shards_)).Perm
        (item.key :: mapKeys (allEntries s.shards_)) := by
      simpa [mapKeys, pairOf] using h1.map Prod.fst
    have hn1 : (L.map (fun it => it.key) ++
        mapKeys (allEntries (restore_item hash s item).shards_)).Nodup := by
      refine (List.Perm.nodup_iff (List.Perm.append_left _ hkeys)).mpr ?_
      refine (List.Perm.nodup_iff List.perm_middle).mpr ?_
      simp only [List.nodup_cons, List.mem_append, not_or]
      exact hn
    have h2 := ih (restore_item hash s item) (by rw [restore_item_length]; exact hpos) hn1
    exact (h2.trans (List.Perm.append_left _ h1)).trans List.perm_middle

theorem restore_item_budget (hash : String → Nat) (s : ShardedStore) (item : SnapshotItem) :
    (restore_item hash s item).memory_budget_bytes_ = s.memory_budget_bytes_ := by
  cases hsh : s.shards_[shard_for hash s item.key]? with
  | none => rw [restore_item_no_shard hash s item hsh]
  | some shard => rw [restore_item_shard hash s item shard hsh]

theorem restore_item_memory_le (hash : String → Nat) (s : ShardedStore) (item : SnapshotItem) :
    (restore_item hash s item).memory_usage_bytes_ ≤
      s.memory_usage_bytes_ + (strSize item.key + strSize item.value) := by
  cases hsh : s.shards_[shard_for hash s item.key]? with
  | none => rw [restore_item_no_shard hash s item hsh]; omega
  | some shard =>
    rw [restore_item_shard hash s item shard hsh]
    simp only [memAdd]
    exact Nat.mod_le _ _

theorem restore_items_budget (hash : String → Nat) (L : List SnapshotItem) (s : ShardedStore) :
    (L.foldl (restore_item hash) s).memory_budget_bytes_ = s.memory_budget_bytes_ := by
  induction L generalizing s with
  | nil => rfl
  | cons item L ih => simp only [List.foldl_cons]; rw [ih, restore_item_budget]

theorem restore_items_memory_le (hash : String → Nat) (L : List SnapshotItem)
    (s : ShardedStore) :
    (L.foldl (restore_item hash) s).memory_usage_bytes_ ≤
      s.memory_usage_bytes_ + (L.map (fun it => strSize it.key + strSize it.value)).sum := by
  induction L generalizing s with
  | nil => simp
  | cons item L ih =>
    simp only [List.foldl_cons, List.map_cons, List.sum_cons]
    have h1 := ih (restore_item hash s item)
    have h2 := restore_item_memory_le hash s item
    omega

/-- Let no key be stored twice in `S`.  The loop of `restore` over `snapshot(V)`
of `S`, on an empty store of at least one shard whose budget is at least the
total size of the items, builds a store within its budget whose `snapshot(V')`,
for every `V' ≥ V`, is a rearrangement of `snapshot(V)` of `S`: it contains
exactly the entries of `S` with version at most `V`, each with the same key,
value, version and deadline. -/
theorem restore_items_snapshot (hash : String → Nat) (S : ShardedStore)
    (V V' shards budget : Nat)
    (hshards : 1 ≤ shards) (hkeys : (mapKeys (allEntries S.shards_)).Nodup)
    (hbudget : ((snapshot S V).map (fun it => strSize it.key + strSize it.value)).sum ≤ budget)
    (hV : V ≤ V') :
    ((snapshot S V).foldl (restore_item hash)
        (ShardedStore.init shards budget)).memory_usage_bytes_ ≤ budget ∧
    (snapshot ((snapshot S V).foldl (restore_item hash) (ShardedStore.init shards budget))
      V').Perm (snapshot S V) ∧
    (∀ item, item ∈ snapshot ((snapshot S V).foldl (restore_item hash)
        (ShardedStore.init shards budget)) V' ↔
      ∃ p ∈ allEntries S.shards_, p.2.version ≤ V ∧ item = itemOf p) := by
  let s0 := ShardedStore.init shards budget
  let s1 := (snapshot S V).foldl (restore_item hash) s0
  have hpos : 0 < s0.shards_.length := by
    simp only [s0, ShardedStore.init, List.length_replicate]; omega
  have hempty : allEntries s0.shards_ = [] := allEntries_replicate shards
  -- the keys of the items are distinct
  have hitemkeys : ((snapshot S V).map (fun it => it.key)).Nodup := by
    rw [snapshot_eq, List.map_map]
    have hsub : (((allEntries S.shards_).filter (fun p => decide (p.2.version ≤ V))).map
        ((fun it : SnapshotItem => it.key) ∘ itemOf)).Sublist (mapKeys (allEntries S.shards_)) :=
      (List.filter_sublist _).map _
    exact hsub.nodup hkeys
  have hperm : (allEntries s1.shards_).Perm ((snapshot S V).map pairOf) := by
    have := restore_items_perm hash (snapshot S V) s0 hpos
      (by rw [hempty]; simpa [mapKeys] using hitemkeys)
    rw [hempty, List.append_nil] at this
    exact this
  -- the budget holds, so nothing is evicted
  have hfit : s1.memory_usage_bytes_ ≤ s1.memory_budget_bytes_ := by
    have h1 := restore_items_memory_le hash (snapshot S V) s0
    have h2 := restore_items_budget hash (snapshot S V) s0
    have h3 : s0.memory_usage_bytes_ = 0 := rfl
    have h4 : s0.memory_budget_bytes_ = budget := rfl
    simp only [s1]
    omega
  -- every restored entry passes the filter of the second snapshot
  have hall : ∀ it ∈ snapshot S V, it.version ≤ V' := by
    intro it hit
    rw [snapshot_eq] at hit
    obtain ⟨p, hp, hpi⟩ := List.mem_map.mp hit
    have := (List.mem_filter.mp hp).2
    simp only [decide_eq_true_eq] at this
    rw [← hpi]
    exact Nat.le_trans this hV
  have hsnap : (snapshot s1 V').Perm (snapshot S V) := by
    rw [snapshot_eq]
    have h1 : (((allEntries s1.shards_).filter
        (fun p => decide (p.2.version ≤ V'))).map itemOf).Perm
        ((((snapshot S V).map pairOf).filter (fun p => decide (p.2.version ≤ V'))).map itemOf) :=
      (hperm.filter _).map _
    refine h1.trans ?_
    have h2 : ((snapshot S V).map pairOf).filter (fun p => decide (p.2.version ≤ V')) =
        (snapshot S V).map pairOf := by
      apply List.filter_eq_self.mpr
      intro p hp
      obtain ⟨it, hit, hip⟩ := List.mem_map.mp hp
      rw [← hip]
      simpa [pairOf] using hall it hit
    rw [h2, List.map_map]
    have h3 : (snapshot S V).map (itemOf ∘ pairOf) = snapshot S V := by
      have : (itemOf ∘ pairOf) = id := by funext it; rfl
      rw [this, List.map_id]
    rw [h3]
  have hfit' : s1.memory_usage_bytes_ ≤ budget := by
    have h1 := restore_items_memory_le hash (snapshot S V) s0
    have h3 : s0.memory_usage_bytes_ = 0 := rfl
    simp only [s1]
    omega
  refine ⟨hfit', hsnap, ?_⟩
  intro item
  rw [hsnap.mem_iff, snapshot_eq]
  constructor
  · intro h
    obtain ⟨p, hp, hpi⟩ := List.mem_map.mp h
    have := List.mem_filter.mp hp
    exact ⟨p, this.1, by simpa using this.2, hpi.symm⟩
  · rintro ⟨p, hp, hv, hpi⟩
    exact List.mem_map.mpr ⟨p, List.mem_filter.mpr ⟨hp, by simpa using hv⟩, hpi.symm⟩

/-! ## The checksum of the log and the standard CRC-32 -/

/-- On 32 bits the complement is the XOR with `0xFFFFFFFF`. -/
theorem xor_ones (x : Nat) (hx : x < U32) : x ^^^ 4294967295 = U32 - 1 - x := by
  have hx' : x < 2 ^ 32 := by unfold U32 at hx; omega
  apply Nat.eq_of_testBit_eq
  intro i
  have h1 : U32 - 1 - x = 2 ^ 32 - (x + 1) := by unfold U32; omega
  have h2 : (4294967295 : Nat) = 2 ^ 32 - 1 := by norm_num
  rw [h1, Nat.testBit_two_pow_sub_succ hx', Nat.testBit_xor, h2, Nat.testBit_two_pow_sub_one]
  by_cases hi : i < 32
  · simp [hi]
  · have hlt : x < 2 ^ i :=
      lt_of_lt_of_le hx' (Nat.pow_le_pow_right (by norm_num) (by omega))
    simp [hi, Nat.testBit_lt_two_pow hlt]

/-- One pass of the inner loop is one bit of the standard CRC-32, and stays on 32 bits. -/
theorem crc32_bit_standard (crc : Nat) (h : crc < U32) :
    crc32_bit crc = crc32_standard_bit crc ∧ crc32_bit crc < U32 := by
  have hdiv : crc / 2 < 2 ^ 32 := by unfold U32 at h; omega
  have hpoly : (3988292384 : Nat) < 2 ^ 32 := by norm_num
  have hx : (crc / 2) ^^^ 3988292384 < 2 ^ 32 := Nat.xor_lt_two_pow hdiv hpoly
  unfold crc32_bit crc32_standard_bit
  simp only [Nat.and_one_is_mod, Nat.shiftRight_one]
  rcases Nat.mod_two_eq_zero_or_one crc with h0 | h1
  · have hm : (U32 - 0) % U32 = 0 := by unfold U32; norm_num
    simp only [h0, hm, Nat.and_zero, Nat.xor_zero]
    unfold U32
    constructor
    · simp only [Nat.zero_ne_one, if_false]
      omega
    · omega
  · have hm : (U32 - 1) % U32 = 4294967295 := by unfold U32; norm_num
    have hand : 3988292384 &&& 4294967295 = 3988292384 := by decide
    simp only [h1, hm, hand, if_true]
    unfold U32
    constructor
    · omega
    · omega

/-- One pass of the outer loop is one byte of the standard CRC-32. -/
theorem crc32_byte_standard (crc c : Nat) (h : crc < U32) (hc : c < 256) :
    crc32_byte crc c = crc32_standard_byte crc c ∧ crc32_byte crc c < U32 := by
  have hx : crc ^^^ c < U32 := by
    have h1 : crc < 2 ^ 32 := by unfold U32 at h; omega
    have h2 : c < 2 ^ 32 := by omega
    have := Nat.xor_lt_two_pow h1 h2
    unfold U32; omega
  have hmod : c % 256 = c := Nat.mod_eq_of_lt hc
  unfold crc32_byte crc32_standard_byte
  rw [hmod, Nat.mod_eq_of_lt hx]
  simp only [Function.iterate_succ, Function.iterate_zero, Function.comp_apply, id_eq]
  obtain ⟨e1, l1⟩ := crc32_bit_standard _ hx
  obtain ⟨e2, l2⟩ := crc32_bit_standard _ l1
  obtain ⟨e3, l3⟩ := crc32_bit_standard _ l2
  obtain ⟨e4, l4⟩ := crc32_bit_standard _ l3
  obtain ⟨e5, l5⟩ := crc32_bit_standard _ l4
  obtain ⟨e6, l6⟩ := crc32_bit_standard _ l5
  obtain ⟨e7, l7⟩ := crc32_bit_standard _ l6
  obtain ⟨e8, l8⟩ := crc32_bit_standard _ l7
  refine ⟨?_, l8⟩
  rw [e8, e7, e6, e5, e4, e3, e2, e1]

/-- The loops of `crc32` and of the standard CRC-32 agree from every 32-bit state. -/
theorem crc32_fold_standard (data : List Nat) (hb : ∀ b ∈ data, b < 256) :
    ∀ crc : Nat, crc < U32 →
      data.foldl crc32_byte crc = data.foldl crc32_standard_byte crc ∧
      data.foldl crc32_byte crc < U32 := by
  induction data with
  | nil => intro crc h; exact ⟨rfl, h⟩
  | cons c cs ih =>
    intro crc h
    obtain ⟨e, l⟩ := crc32_byte_standard crc c h (hb c (List.mem_cons_self _ _))
    have := ih (fun b hmem => hb b (List.mem_cons_of_mem _ hmem)) _ l
    simp only [List.foldl_cons]
    rw [← e]
    exact this

set_option maxRecDepth 100000 in
/-- Claim C21: on every byte string the checksum function `crc32` of the log
equals the standard reflected CRC-32 (polynomial `0xEDB88320`, initial value
`0xFFFFFFFF`, final XOR `0xFFFFFFFF`, one bit at a time, modulo `2 ^ 32`); the
empty string maps to `0x00000000` and the string `123456789` to `0xCBF43926`. -/
theorem crc32_is_standard (data : List Nat) (hb : ∀ b ∈ data, b < 256) :
    crc32 data = crc32_standard data ∧
    crc32 [] = 0 ∧ crc32_standard [] = 0 ∧
    crc32 digits = 3421780262 ∧ crc32_standard digits = 3421780262 := by
  refine ⟨?_, by decide, by decide, by decide, by decide⟩
  obtain ⟨e, l⟩ := crc32_fold_standard data hb 4294967295 (by unfold U32; norm_num)
  unfold crc32 crc32_standard
  rw [← e, xor_ones _ l, Nat.mod_eq_of_lt l]
  have : U32 - 1 - List.foldl crc32_byte 4294967295 data < U32 := by unfold U32; omega
  rw [Nat.mod_eq_of_lt this]

/-- Claim C21, instance: the byte string `GET` (all its bytes are below 256). -/
theorem crc32_is_standard_witness :
    (∀ b ∈ [71, 69, 84], b < 256) ∧ crc32 [71, 69, 84] = crc32_standard [71, 69, 84] :=
  ⟨by decide, (crc32_is_standard [71, 69, 84] (by decide)).1⟩

/-! ## The bytes of a string -/

/-- A character takes as many bytes as `Char.utf8Size` counts. -/
theorem charBytes_length (c : Char) : (charBytes c).length = c.utf8Size := by
  unfold charBytes Char.utf8Size Char.toNat
  simp only [UInt32.le_def, BitVec.le_def]
  have e1 : (UInt32.ofNatCore 127 (by decide)).toBitVec.toNat = 127 := rfl
  have e2 : (UInt32.ofNatCore 2047 (by decide)).toBitVec.toNat = 2047 := rfl
  have e3 : (UInt32.ofNatCore 65535 (by decide)).toBitVec.toNat = 65535 := rfl
  have e0 : c.val.toNat = c.val.toBitVec.toNat := rfl
  simp only [e0]
  split_ifs <;> simp_all <;> omega

/-- The bytes of a string are `size()` many. -/
theorem strBytes_length (s : String) : (strBytes s).length = strSize s := by
  obtain ⟨cs⟩ := s
  unfold strBytes strSize
  rw [String.utf8ByteSize_mk]
  induction cs with
  | nil => rfl
  | cons c cs ih =>
    simp only [List.flatMap_cons, List.length_append, String.utf8Len_cons, charBytes_length]
    simp only [] at ih
    omega

/-- Reading the bytes of a character gives the character back. -/
theorem bytesChars_charBytes (fuel : Nat) (c : Char) (rest : List Nat) :
    bytesChars (fuel + 1) (charBytes c ++ rest) = c :: bytesChars fuel rest := by
  have hv : c.toNat < 55296 ∨ 57343 < c.toNat ∧ c.toNat < 1114112 := c.valid
  have hc := Char.ofNat_toNat c
  unfold charBytes
  simp only []
  split_ifs with h1 h2 h3
  · simp only [List.singleton_append, bytesChars, h1, if_true, hc]
  · have a1 : ¬ (192 + c.toNat / 64 < 128) := by omega
    have a2 : ¬ (192 + c.toNat / 64 < 192) := by omega
    have a3 : 192 + c.toNat / 64 < 224 := by omega
    have a4 : (192 + c.toNat / 64 - 192) * 64 + (128 + c.toNat % 64 - 128) = c.toNat := by omega
    simp only [List.cons_append, List.nil_append, bytesChars, a1, a2, a3, a4, if_true, if_false, hc]
  · have a1 : ¬ (224 + c.toNat / 4096 < 128) := by omega
    have a2 : ¬ (224 + c.toNat / 4096 < 192) := by omega
    have a3 : ¬ (224 + c.toNat / 4096 < 224) := by omega
    have a5 : 224 + c.toNat / 4096 < 240 := by omega
    have a4 : (224 + c.toNat / 4096 - 224) * 4096 + (128 + c.toNat / 64 % 64 - 128) * 64
        + (128 + c.toNat % 64 - 128) = c.toNat := by omega
    simp only [List.cons_append, List.nil_append, bytesChars, a1, a2, a3, a4, a5, if_true,
      if_false, hc]
  · have a1 : ¬ (240 + c.toNat / 262144 < 128) := by omega
    have a2 : ¬ (240 + c.toNat / 262144 < 192) := by omega
    have a3 : ¬ (240 + c.toNat / 262144 < 224) := by omega
    have a5 : ¬ (240 + c.toNat / 262144 < 240) := by omega
    have a4 : (240 + c.toNat / 262144 - 240) * 262144 + (128 + c.toNat / 4096 % 64 - 128) * 4096
        + (128 + c.toNat / 64 % 64 - 128) * 64 + (128 + c.toNat % 64 - 128) = c.toNat := by
      omega
    simp only [List.cons_append, List.nil_append, bytesChars, a1, a2, a3, a4, a5, if_true,
      if_false, hc]

/-- Reading the bytes of a list of characters gives the list back, with one
unit of fuel for each character. -/
theorem bytesChars_flatMap (cs : List Char) :
    ∀ fuel : Nat, cs.length ≤ fuel → bytesChars fuel (cs.flatMap charBytes) = cs := by
  induction cs with
  | nil => intro fuel _; cases fuel <;> rfl
  | cons c cs ih =>
    intro fuel h
    cases fuel with
    | zero => simp at h
    | succ fuel =>
      rw [List.flatMap_cons, bytesChars_charBytes, ih fuel (by simpa using h)]

/-- Every character takes at least one byte. -/
theorem flatMap_charBytes_length (cs : List Char) :
    cs.length ≤ (cs.flatMap charBytes).length := by
  induction cs with
  | nil => simp
  | cons c cs ih =>
    have := Char.utf8Size_pos c
    simp only [List.flatMap_cons, List.length_append, List.length_cons, charBytes_length]
    omega

/-- The buffer that holds the bytes of a string holds the string. -/
theorem strOfBytes_strBytes (s : String) : strOfBytes (strBytes s) = s := by
  obtain ⟨cs⟩ := s
  unfold strOfBytes strBytes
  rw [bytesChars_flatMap cs _ (flatMap_charBytes_length cs)]

/-! ## The snapshot file: what `load_latest` reads back -/

theorem u64of_u64le (x : Nat) (h : x < U64) : u64of (u64le x) = x := by
  unfold U64 at h
  simp only [u64of, u64le]
  omega

theorem u64le_length (x : Nat) : (u64le x).length = 8 := rfl

theorem i64le_length (x : Int) : (i64le x).length = 8 := rfl

/-- An `int64_t` is read back as written. -/
theorem i64of_i64le (t : Int) (h1 : -9223372036854775808 ≤ t) (h2 : t < 9223372036854775808) :
    i64of (i64le t) = t := by
  have hlt : (t % 18446744073709551616).toNat < U64 := by unfold U64; omega
  unfold i64of i64le
  rw [u64of_u64le _ hlt]
  simp only []
  split_ifs with h <;> omega

/-- The residual TTL of an item without deadline is `-1`. -/
theorem residual_ttl_ms_none (now : Nat) (item : SnapshotItem) (h : item.expire_at = none) :
    residual_ttl_ms now item = -1 := by
  simp only [residual_ttl_ms, h]

/-- The residual TTL of an item whose deadline passed a millisecond ago or more is `-1`. -/
theorem residual_ttl_ms_past (now d : Nat) (item : SnapshotItem) (h : item.expire_at = some d)
    (hd : d + ticksPerMilli ≤ now) : residual_ttl_ms now item = -1 := by
  unfold ticksPerMilli at hd
  have e : (d : Int) - (now : Int) = -((now - d : Nat) : Int) := by omega
  have hq : 1 ≤ (now - d) / 1000000 := by
    rw [Nat.le_div_iff_mul_le (by norm_num)]; omega
  simp only [residual_ttl_ms, h, ticksPerMilli, e, Int.neg_tdiv]
  have e2 : ((((now - d : Nat) : Int)).tdiv ((1000000 : Nat) : Int)) = (((now - d) / 1000000 : Nat) : Int) :=
    (Int.ofNat_tdiv _ _).symm
  rw [e2]
  have : -(((now - d) / 1000000 : Nat) : Int) < 0 := by omega
  simp only [this, if_true]

/-- The residual TTL of an item whose deadline did not pass a millisecond ago
is the whole number of milliseconds left. -/
theorem residual_ttl_ms_left (now d : Nat) (item : SnapshotItem) (h : item.expire_at = some d)
    (hd : now < d + ticksPerMilli) :
    residual_ttl_ms now item = (((d - now) / ticksPerMilli : Nat) : Int) := by
  unfold ticksPerMilli at hd
  simp only [residual_ttl_ms, h, ticksPerMilli]
  by_cases hle : now ≤ d
  · have e : (d : Int) - (now : Int) = ((d - now : Nat) : Int) := by omega
    rw [e]
    have e2 : ((((d - now : Nat) : Int)).tdiv ((1000000 : Nat) : Int)) = (((d - now) / 1000000 : Nat) : Int) :=
      (Int.ofNat_tdiv _ _).symm
    rw [e2]
    have : ¬ ((((d - now) / 1000000 : Nat) : Int) < 0) := by omega
    simp only [this, if_false]
  · have e : (d : Int) - (now : Int) = -((now - d : Nat) : Int) := by omega
    have hq : (now - d) / 1000000 = 0 := by
      apply Nat.div_eq_of_lt; omega
    have hz : (d - now) / 1000000 = 0 := by
      have : d - now = 0 := by omega
      rw [this]
    have e2 : ((((now - d : Nat) : Int)).tdiv ((1000000 : Nat) : Int)) = (((now - d) / 1000000 : Nat) : Int) :=
      (Int.ofNat_tdiv _ _).symm
    rw [e, Int.neg_tdiv, e2, hq, hz]
    simp

theorem item_bytes_length (now : Nat) (item : SnapshotItem) :
    (item_bytes now item).length = 24 + strSize item.key + strSize item.value := by
  simp only [item_bytes, List.length_append, u32le_length, u64le_length, i64le_length,
    strBytes_length]

/-- One pass of the loop of `load_latest` on the bytes of an item whose lengths
and version fit their fields and whose deadline is a value of the clock. -/
theorem load_loop_item (now_w now_l fuel : Nat) (item : SnapshotItem) (rest : List Nat)
    (hk : strSize item.key < U32) (hv : strSize item.value < U32) (hver : item.version < U64)
    (hd : ∀ d, item.expire_at = some d → d < 9223372036854775808) :
    load_loop now_l (fuel + 1) (item_bytes now_w item ++ rest) =
      reloaded now_w now_l item :: load_loop now_l fuel rest := by
  have hshape : item_bytes now_w item ++ rest =
      u32le (strSize item.key % U32) ++ (u32le (strSize item.value % U32) ++ (u64le item.version
        ++ (i64le (residual_ttl_ms now_w item) ++ (strBytes item.key ++ (strBytes item.value
        ++ rest))))) := by
    simp only [item_bytes, List.append_assoc]
  have hkl := strBytes_length item.key
  have hvl := strBytes_length item.value
  have t4 : ∀ (x : Nat) (l : List Nat), (u32le x ++ l).take 4 = u32le x := fun x l =>
    List.take_left' (u32le_length x)
  have d4 : ∀ (x : Nat) (l : List Nat), (u32le x ++ l).drop 4 = l := fun x l =>
    List.drop_left' (u32le_length x)
  have t8 : ∀ (x : Nat) (l : List Nat), (u64le x ++ l).take 8 = u64le x := fun x l =>
    List.take_left' (u64le_length x)
  have d8 : ∀ (x : Nat) (l : List Nat), (u64le x ++ l).drop 8 = l := fun x l =>
    List.drop_left' (u64le_length x)
  have ti8 : ∀ (x : Int) (l : List Nat), (i64le x ++ l).take 8 = i64le x := fun x l =>
    List.take_left' (i64le_length x)
  have di8 : ∀ (x : Int) (l : List Nat), (i64le x ++ l).drop 8 = l := fun x l =>
    List.drop_left' (i64le_length x)
  have hs1 : ∀ (a b : Nat) (l : List Nat),
      (u32le a ++ (u32le b ++ l)).drop 4 = u32le b ++ l := fun a b l => d4 a _
  have hd12 : ∀ (b v : Nat) (l : List Nat),
      (u32le b ++ (u64le v ++ l)).drop 12 = l := by
    intro b v l
    have : (u32le b ++ (u64le v ++ l)).drop 12 = ((u32le b ++ (u64le v ++ l)).drop 4).drop 8 := by
      rw [List.drop_drop]
    rw [this, d4, d8]
  have hd20 : ∀ (b v : Nat) (t : Int) (l : List Nat),
      (u32le b ++ (u64le v ++ (i64le t ++ l))).drop 20 = l := by
    intro b v t l
    have : (u32le b ++ (u64le v ++ (i64le t ++ l))).drop 20 =
        ((u32le b ++ (u64le v ++ (i64le t ++ l))).drop 12).drop 8 := by
      rw [List.drop_drop]
    rw [this, hd12, di8]
  have hlen1 : ¬ ((u32le (strSize item.key % U32) ++ (u32le (strSize item.value % U32) ++
      (u64le item.version ++ (i64le (residual_ttl_ms now_w item) ++ (strBytes item.key ++
      (strBytes item.value ++ rest)))))).length < 4) := by
    simp only [List.length_append, u32le_length]; omega
  have hlen2 : ¬ ((u32le (strSize item.value % U32) ++ (u64le item.version ++
      (i64le (residual_ttl_ms now_w item) ++ (strBytes item.key ++ (strBytes item.value ++
      rest))))).length < 20) := by
    simp only [List.length_append, u32le_length, u64le_length, i64le_length]; omega
  have hlen3 : ¬ ((strBytes item.key ++ (strBytes item.value ++ rest)).length <
      strSize item.key + strSize item.value) := by
    simp only [List.length_append, hkl, hvl]; omega
  have hu1 : u32of (u32le (strSize item.key % U32)) = strSize item.key := by
    rw [u32of_u32le _ (Nat.mod_lt _ (by decide)), Nat.mod_eq_of_lt hk]
  have hu2 : u32of (u32le (strSize item.value % U32)) = strSize item.value := by
    rw [u32of_u32le _ (Nat.mod_lt _ (by decide)), Nat.mod_eq_of_lt hv]
  have hkey : (strBytes item.key ++ (strBytes item.value ++ rest)).take (strSize item.key) =
      strBytes item.key := List.take_left' hkl
  have hrest : (strBytes item.key ++ (strBytes item.value ++ rest)).drop (strSize item.key) =
      strBytes item.value ++ rest := List.drop_left' hkl
  have hval : (strBytes item.value ++ rest).take (strSize item.value) = strBytes item.value :=
    List.take_left' hvl
  have hrest2 : (strBytes item.key ++ (strBytes item.value ++ rest)).drop
      (strSize item.key + strSize item.value) = rest := by
    rw [← List.drop_drop, hrest, List.drop_left' hvl]
  rw [hshape, load_loop]
  simp only [t4, hs1, hlen1, hlen2, if_false, hu1, hu2, d4, t8, hd12, ti8, hd20, hlen3, hkey,
    hrest, hval, hrest2, strOfBytes_strBytes, u64of_u64le _ hver]
  congr 1
  unfold reloaded
  cases he : item.expire_at with
  | none =>
    rw [residual_ttl_ms_none _ _ he, i64of_i64le _ (by norm_num) (by norm_num)]
    cases item
    simp_all
  | some d =>
    have hdb := hd d he
    by_cases hp : d + ticksPerMilli ≤ now_w
    · rw [residual_ttl_ms_past _ _ _ he hp, i64of_i64le _ (by norm_num) (by norm_num)]
      cases item
      simp_all
    · rw [residual_ttl_ms_left _ _ _ he (by omega)]
      have hb : (d - now_w) / ticksPerMilli < 9223372036854775808 :=
        lt_of_le_of_lt (Nat.div_le_self _ _) (by omega)
      have hnn : (0 : Int) ≤ (((d - now_w) / ticksPerMilli : Nat) : Int) := Int.ofNat_nonneg _
      rw [i64of_i64le _ (by omega) (by exact_mod_cast hb)]
      cases item
      simp only [] at he
      subst he
      simp only [hnn, hp, if_true, if_false, Int.toNat_ofNat]

theorem snapshot_bytes_cons (now : Nat) (item : SnapshotItem) (items : List SnapshotItem) :
    snapshot_bytes now (item :: items) = item_bytes now item ++ snapshot_bytes now items := by
  simp [snapshot_bytes]

/-- Every item takes at least 24 bytes of the file. -/
theorem snapshot_bytes_length_ge (now : Nat) (items : List SnapshotItem) :
    24 * items.length ≤ (snapshot_bytes now items).length := by
  induction items with
  | nil => simp
  | cons item items ih =>
    rw [snapshot_bytes_cons, List.length_append, item_bytes_length, List.length_cons]
    omega

/-- The loop of `load_latest` on the bytes written for a list of items, with
one unit of fuel for each item. -/
theorem load_loop_items (now_w now_l : Nat) (items : List SnapshotItem)
    (h : ∀ item ∈ items, representable item) :
    ∀ fuel : Nat, items.length ≤ fuel →
      load_loop now_l fuel (snapshot_bytes now_w items) = items.map (reloaded now_w now_l) := by
  induction items with
  | nil =>
    intro fuel _
    cases fuel with
    | zero => rfl
    | succ n => simp [snapshot_bytes, load_loop]
  | cons item items ih =>
    intro fuel hf
    cases fuel with
    | zero => simp at hf
    | succ n =>
      obtain ⟨hk, hv, hver, hd⟩ := h item (List.mem_cons_self _ _)
      rw [snapshot_bytes_cons, load_loop_item now_w now_l n item _ hk hv hver hd,
        ih (fun i hi => h i (List.mem_cons_of_mem _ hi)) n (by simpa using hf)]
      rfl

/-- An undisturbed `write_snapshot` leaves the bytes of the items in `snapshot.dat`. -/
theorem write_snapshot_noFault (now : Nat) (dir : SnapshotDir) (items : List SnapshotItem) :
    SnapshotManager.write_snapshot now dir items noFault =
      ({ tmp := none, dat := some (snapshot_bytes now items) }, WriteOutcome.returned) := by
  simp [SnapshotManager.write_snapshot, noFault]

/-- What `load_latest` returns after an undisturbed `write_snapshot`: the items
in order with their keys, values and versions; a deadline is kept, rounded down
to whole milliseconds of residual time, unless it had passed a millisecond or
more before the writing, in which case it is lost. -/
theorem load_latest_write_snapshot (now_w now_l : Nat) (dir : SnapshotDir)
    (items : List SnapshotItem) (h : ∀ item ∈ items, representable item) :
    SnapshotManager.load_latest now_l
        (SnapshotManager.write_snapshot now_w dir items noFault).1.dat =
      items.map (reloaded now_w now_l) := by
  rw [write_snapshot_noFault]
  simp only [SnapshotManager.load_latest]
  apply load_loop_items now_w now_l items h
  have := snapshot_bytes_length_ge now_w items
  omega

/-- Instance of `load_latest_write_snapshot`: two items written at 3 s and read at 0 s. -/
theorem load_latest_write_snapshot_witness :
    (∀ item ∈ itemsKB, representable item) ∧
    SnapshotManager.load_latest 0
        (SnapshotManager.write_snapshot 3000000000 emptyDir itemsKB noFault).1.dat =
      [{ key := "k", value := "v", version := 2, expire_at := none },
       { key := "b", value := "w", version := 3, expire_at := some 2000000000 }] :=
  ⟨by unfold representable; decide,
   load_latest_write_snapshot 3000000000 0 emptyDir itemsKB (by unfold representable; decide)⟩

/-- Claim C22, where the code departs from it: an item whose deadline passed a
millisecond or more before `write_snapshot` runs is written with `ttl_ms = -1`,
and `load_latest` returns it with its key, value and version but without a
deadline, although the written item had one. -/
theorem snapshot_roundtrip_loses_deadline (now_write now_load : Nat) (dir : SnapshotDir)
    (item : SnapshotItem) (d : Nat) (hrep : representable item)
    (hd : item.expire_at = some d) (hpast : d + ticksPerMilli ≤ now_write) :
    residual_ttl_ms now_write item = -1 ∧
    SnapshotManager.load_latest now_load
        (SnapshotManager.write_snapshot now_write dir [item] noFault).1.dat =
      [{ item with expire_at := none }] := by
  refine ⟨residual_ttl_ms_past now_write d item hd hpast, ?_⟩
  rw [load_latest_write_snapshot now_write now_load dir [item]
    (fun i hi => by rw [List.mem_singleton.mp hi]; exact hrep)]
  simp only [List.map_cons, List.map_nil, reloaded, hd, hpast, if_true]

set_option maxRecDepth 100000 in
/-- Claim C22, the input on which the code departs from it: the item of key
`a` whose deadline is at 1 s, written when the clock reads 3 s, is read back
without deadline. -/
theorem snapshot_roundtrip_loses_deadline_witness :
    representable itemA1 ∧ itemA1.expire_at = some 1000000000 ∧
    1000000000 + ticksPerMilli ≤ 3000000000 ∧
    SnapshotManager.load_latest 3000000000
        (SnapshotManager.write_snapshot 3000000000 emptyDir [itemA1] noFault).1.dat =
      [{ key := "a", value := "1", version := 1, expire_at := none }] :=
  ⟨by unfold representable; decide, rfl, by decide,
    (snapshot_roundtrip_loses_deadline 3000000000 3000000000 emptyDir itemA1 1000000000
      (by unfold representable; decide) rfl (by decide)).2⟩

/-- What `write_snapshot` leaves in `snapshot.dat`: the previous content when
the process stops before the rename or the call throws, and otherwise the
content of `snapshot.tmp`, which is the bytes of the items cut where a write
failed, or the file that was there when the stream could not be opened. -/
theorem write_snapshot_dat (now : Nat) (dir : SnapshotDir) (items : List SnapshotItem)
    (fault : SnapshotFault) :
    let r := SnapshotManager.write_snapshot now dir items fault
    (r.2 ≠ WriteOutcome.returned → r.1.dat = dir.dat) ∧
    (r.2 = WriteOutcome.returned → fault.open_fails = false → fault.accepted = none →
      r.1.dat = some (snapshot_bytes now items)) ∧
    (r.2 = WriteOutcome.returned → fault.open_fails = false →
      ∀ n, fault.accepted = some n → r.1.dat = some ((snapshot_bytes now items).take n)) ∧
    (r.2 = WriteOutcome.returned → fault.open_fails = true → r.1.dat = dir.tmp) := by
  obtain ⟨open_fails, accepted, rename_fails, stop⟩ := fault
  cases stop <;> cases open_fails <;> cases rename_fails <;> cases accepted <;>
    simp [SnapshotManager.write_snapshot] <;>
    (cases htmp : dir.tmp <;> simp)

/-- Claim C30, where the code departs from it: when `snapshot.tmp` is opened
and takes `n` bytes, fewer than the encoding of the item list has, before a
write fails, the stream is never tested, `rename` runs, the call returns, and
`snapshot.dat` holds those `n` bytes, which are not the complete encoding. -/
theorem write_snapshot_partial_file (now : Nat) (dir : SnapshotDir) (items : List SnapshotItem)
    (n : Nat) (h : n < (snapshot_bytes now items).length) :
    SnapshotManager.write_snapshot now dir items
        { open_fails := false, accepted := some n, rename_fails := false, stop := Stop.never } =
      ({ tmp := none, dat := some ((snapshot_bytes now items).take n) },
        WriteOutcome.returned) ∧
    ((snapshot_bytes now items).take n).length = n ∧
    (snapshot_bytes now items).take n ≠ snapshot_bytes now items := by
  have hlen : ((snapshot_bytes now items).take n).length = n := by
    rw [List.length_take]
    omega
  refine ⟨?_, hlen, ?_⟩
  · simp [SnapshotManager.write_snapshot]
  · intro he
    rw [he] at hlen
    omega

set_option maxRecDepth 100000 in
/-- Claim C30, the input on which the code departs from it: `snapshot.dat`
holds a complete snapshot and the file takes three of the 52 bytes of the new
item list; afterwards `snapshot.dat` holds the three bytes, neither its
previous content nor the new encoding. -/
theorem write_snapshot_partial_file_witness :
    3 < (snapshot_bytes 0 itemsKB).length ∧
    SnapshotManager.write_snapshot 0 dirA1 itemsKB writeFails =
      ({ tmp := none, dat := some [1, 0, 0] }, WriteOutcome.returned) ∧
    some [1, 0, 0] ≠ dirA1.dat ∧
    some [1, 0, 0] ≠ some (snapshot_bytes 0 itemsKB) :=
  ⟨by decide, (write_snapshot_partial_file 0 dirA1 itemsKB 3 (by decide)).1, by decide, by decide⟩

/-! ## Lookups after the steps of boot recovery -/

theorem lookupIn_set (hash : String → Nat) (l : List Shard) (idx : Nat) (sh' : Shard)
    (k : String) (hidx : idx < l.length) :
    lookupIn hash (l.set idx sh') k =
      if hash k % l.length = idx then mapFind sh'.map k else lookupIn hash l k := by
  unfold lookupIn
  rw [List.length_set]
  by_cases h : hash k % l.length = idx
  · simp only [h, if_true, List.getElem?_set_self hidx]
  · simp only [h, if_false, List.getElem?_set_ne (Ne.symm h)]

theorem lookupIn_at (hash : String → Nat) (l : List Shard) (sh : Shard) (k : String)
    (h : l[hash k % l.length]? = some sh) : lookupIn hash l k = mapFind sh.map k := by
  unfold lookupIn
  rw [h]

theorem mapFind_emplace_ne (m : List (String × Entry)) (k k' : String) (e : Entry)
    (h : k' ≠ k) : mapFind (mapEmplace m k e) k' = mapFind m k' := by
  unfold mapEmplace
  cases hf : mapFind m k with
  | none => simp [mapFind, h.symm]
  | some x => simp

theorem mapFind_assign_self (m : List (String × Entry)) (k : String) (e : Entry) :
    mapFind (mapAssign m k e) k = some e := by
  unfold mapAssign
  cases hf : mapFind m k with
  | none => simp [mapFind]
  | some x => simpa using mapFind_replace_self m k e (by simp [hf])

theorem mapFind_assign_ne (m : List (String × Entry)) (k k' : String) (e : Entry)
    (h : k' ≠ k) : mapFind (mapAssign m k e) k' = mapFind m k' := by
  unfold mapAssign
  cases hf : mapFind m k with
  | none => simp [mapFind, h.symm]
  | some x => simpa using mapFind_replace_ne m k k' e h

/-- The entry found under a key after the mutation step of `put`. -/
theorem lookup_put_mutation (hash : String → Nat) (now : Nat) (s : ShardedStore)
    (key value : String) (ttl : Option Nat) (k : String) (h : 0 < s.shards_.length) :
    lookup hash (put_mutation hash now s key value ttl) k =
      if k = key then
        some { value := value, version := (s.version_ + 1) % U64,
               expire_at := ttl.map (fun t => now + t * ticksPerSecond),
               size_bytes := strSize key + strSize value }
      else lookup hash s k := by
  have hidx : hash key % s.shards_.length < s.shards_.length := Nat.mod_lt _ h
  have hsh : s.shards_[shard_for hash s key]? = some (s.shards_[hash key % s.shards_.length]) :=
    List.getElem?_eq_getElem hidx
  unfold lookup
  cases hf : mapFind (s.shards_[hash key % s.shards_.length]).map key with
  | none =>
    rw [put_mutation_absent _ _ _ _ _ _ _ hsh hf]
    simp only [shard_for]
    rw [lookupIn_set _ _ _ _ _ hidx]
    by_cases hk : k = key
    · subst hk
      simp only [if_true, mapFind_emplace_self _ _ _ hf]
    · simp only [hk, if_false, mapFind_emplace_ne _ _ _ _ hk]
      split_ifs with hi
      · rw [lookupIn_at hash s.shards_ _ k (by rw [hi]; exact List.getElem?_eq_getElem hidx)]
      · rfl
  | some old =>
    rw [put_mutation_present _ _ _ _ _ _ _ _ hsh hf]
    simp only [shard_for]
    rw [lookupIn_set _ _ _ _ _ hidx]
    by_cases hk : k = key
    · subst hk
      rw [if_pos rfl, if_pos rfl]
      exact mapFind_replace_self _ _ _ (by rw [hf]; rfl)
    · simp only [hk, if_false, mapFind_replace_ne _ _ _ _ hk]
      split_ifs with hi
      · rw [lookupIn_at hash s.shards_ _ k (by rw [hi]; exact List.getElem?_eq_getElem hidx)]
      · rfl

/-- The entry found under a key after `del`. -/
theorem lookup_del (hash : String → Nat) (s : ShardedStore) (key k : String) :
    lookup hash (del hash s key).1 k = if k = key then none else lookup hash s k := by
  unfold lookup
  cases hsh : s.shards_[shard_for hash s key]? with
  | none =>
    rw [del_no_shard hash s key hsh]
    by_cases hk : k = key
    · subst hk
      simp only [if_true]
      unfold lookupIn
      unfold shard_for at hsh
      rw [hsh]
    · simp only [hk, if_false]
  | some shard =>
    have hidx : hash key % s.shards_.length < s.shards_.length :=
      (List.getElem?_eq_some_iff.mp hsh).1
    cases hf : mapFind shard.map key with
    | none =>
      rw [del_absent hash s key shard hsh hf]
      by_cases hk : k = key
      · subst hk
        simp only [if_true]
        rw [lookupIn_at hash s.shards_ shard k hsh, hf]
      · simp only [hk, if_false]
    | some e =>
      rw [del_present hash s key shard e hsh hf, remove_entry_present s _ key shard e hsh hf]
      simp only [shard_for]
      rw [lookupIn_set _ _ _ _ _ hidx]
      by_cases hk : k = key
      · subst hk
        simp only [if_true, mapFind_erase_self]
      · simp only [hk, if_false, mapFind_erase_ne _ _ _ hk]
        split_ifs with hi
        · rw [lookupIn_at hash s.shards_ shard k (by rw [hi]; exact hsh)]
        · rfl

theorem del_length (hash : String → Nat) (s : ShardedStore) (key : String) :
    (del hash s key).1.shards_.length = s.shards_.length := by
  rw [del_fst, remove_entry_length]

theorem del_budget (hash : String → Nat) (s : ShardedStore) (key : String) :
    (del hash s key).1.memory_budget_bytes_ = s.memory_budget_bytes_ := by
  rw [del_fst]
  rcases remove_entry_cases s (shard_for hash s key) key with h | ⟨_, _, _, _, h⟩ <;> rw [h]

/-- The entry found under a key after one pass of the loop of `restore`. -/
theorem lookup_restore_item (hash : String → Nat) (s : ShardedStore) (item : SnapshotItem)
    (k : String) (h : 0 < s.shards_.length) :
    lookup hash (restore_item hash s item) k =
      if k = item.key then some (pairOf item).2 else lookup hash s k := by
  have hidx : hash item.key % s.shards_.length < s.shards_.length := Nat.mod_lt _ h
  have hsh : s.shards_[shard_for hash s item.key]? =
      some (s.shards_[hash item.key % s.shards_.length]) := List.getElem?_eq_getElem hidx
  unfold lookup
  rw [restore_item_shard hash s item _ hsh]
  simp only [shard_for]
  rw [lookupIn_set _ _ _ _ _ hidx]
  by_cases hk : k = item.key
  · subst hk
    simp only [if_true, mapFind_assign_self, pairOf]
  · simp only [hk, if_false, mapFind_assign_ne _ _ _ _ hk]
    split_ifs with hi
    · rw [lookupIn_at hash s.shards_ _ k (by rw [hi]; exact List.getElem?_eq_getElem hidx)]
    · rfl

/-- The entry found under a key after the loop of `restore`: that of the last
item that has the key. -/
theorem lookup_restore_items (hash : String → Nat) (items : List SnapshotItem) (k : String) :
    ∀ s : ShardedStore, 0 < s.shards_.length →
      lookup hash (items.foldl (restore_item hash) s) k =
        match lastItem k items with
        | some item => some (pairOf item).2
        | none => lookup hash s k := by
  induction items with
  | nil => intro s _; rfl
  | cons item items ih =>
    intro s h
    rw [List.foldl_cons, ih _ (by rw [restore_item_length]; exact h)]
    simp only [lastItem]
    cases hl : lastItem k items with
    | some x => rfl
    | none =>
      simp only []
      rw [lookup_restore_item hash s item k h]
      by_cases hk : k = item.key
      · simp [hk]
      · have : ¬ item.key = k := fun e => hk e.symm
        simp [hk, this]

theorem restore_items_length (hash : String → Nat) (items : List SnapshotItem) :
    ∀ s : ShardedStore, (items.foldl (restore_item hash) s).shards_.length = s.shards_.length := by
  induction items with
  | nil => intro s; rfl
  | cons item items ih => intro s; rw [List.foldl_cons, ih, restore_item_length]

/-- A record that the budget admits is applied without eviction. -/
theorem apply_record_fits (hash : String → Nat) (now : Nat) (s : ShardedStore) (record : String)
    (h : recordFits hash now s record = true) :
    apply_record hash now s record = some
      (match parse_record record with
       | Record.put key value ttl => set_memory_bytes (put_mutation hash now s key value ttl)
       | Record.del key => (del hash s key).1
       | Record.skip => s) := by
  unfold apply_record
  unfold recordFits at h
  cases hp : parse_record record with
  | put key value ttl =>
    rw [hp] at h
    simp only [decide_eq_true_eq] at h
    simp only [put]
    exact enforce_within _ (by rw [put_mutation_budget]; exact h)
  | del key => rfl
  | skip => rfl

/-- The record that `lastTouch` returns for a key writes or deletes that key. -/
theorem lastTouch_touches (key : String) (records : List (Nat × String)) (now : Nat)
    (r : Record) (h : lastTouch key records = some (now, r)) : r.touches key = true := by
  induction records with
  | nil => simp [lastTouch] at h
  | cons p rest ih =>
    obtain ⟨n0, rec0⟩ := p
    simp only [lastTouch] at h
    cases hl : lastTouch key rest with
    | some x =>
      rw [hl] at h
      simp only [Option.some.injEq] at h
      subst h
      exact ih hl
    | none =>
      rw [hl] at h
      simp only [] at h
      split_ifs at h with ht
      simp only [Option.some.injEq, Prod.mk.injEq] at h
      rw [← h.2]
      exact ht

/-- The entries found after the replay of the records, when the budget is not
exceeded: under a key that the log touches, what its last record left; under
any other key, the entry found before the replay. -/
theorem replay_lookup (hash : String → Nat) (records : List (Nat × String)) :
    ∀ s : ShardedStore, 0 < s.shards_.length → replayFits hash s records = true →
      ∃ s', replay hash s records = some s' ∧ ∀ k : String,
        match lastTouch k records with
        | some (now, Record.put _ value ttl) =>
          ∃ e, lookup hash s' k = some e ∧ e.value = value ∧
            e.expire_at = ttl.map (fun t => now + t * ticksPerSecond)
        | some (_, Record.del _) => lookup hash s' k = none
        | some (_, Record.skip) => True
        | none => lookup hash s' k = lookup hash s k := by
  induction records with
  | nil =>
    intro s _ _
    exact ⟨s, rfl, fun k => rfl⟩
  | cons p rest ih =>
    obtain ⟨now, record⟩ := p
    intro s hpos hfit
    simp only [replayFits, Bool.and_eq_true] at hfit
    obtain ⟨hf1, hf2⟩ := hfit
    have happ := apply_record_fits hash now s record hf1
    rw [happ] at hf2
    simp only [] at hf2
    have hlen : (match parse_record record with
        | Record.put key value ttl => set_memory_bytes (put_mutation hash now s key value ttl)
        | Record.del key => (del hash s key).1
        | Record.skip => s).shards_.length = s.shards_.length := by
      cases parse_record record with
      | put key value ttl => exact put_mutation_length hash now s key value ttl
      | del key => exact del_length hash s key
      | skip => rfl
    obtain ⟨s', hs', hlook⟩ := ih _ (by rw [hlen]; exact hpos) hf2
    refine ⟨s', ?_, ?_⟩
    · simp only [replay, happ]
      exact hs'
    · intro k
      have hk := hlook k
      simp only [lastTouch]
      cases hl : lastTouch k rest with
      | some x =>
        rw [hl] at hk
        obtain ⟨n1, r1⟩ := x
        cases r1 <;> simp only [] at hk ⊢ <;> exact hk
      | none =>
        rw [hl] at hk
        simp only [] at hk ⊢
        cases hp : parse_record record with
        | put key value ttl =>
          rw [hp] at hk
          simp only [] at hk
          have hset : lookup hash (set_memory_bytes (put_mutation hash now s key value ttl)) k =
              lookup hash (put_mutation hash now s key value ttl) k := rfl
          rw [hset, lookup_put_mutation hash now s key value ttl k hpos] at hk
          by_cases hkk : key = k
          · subst hkk
            simp only [Record.touches, beq_self_eq_true, if_true]
            simp only [if_true] at hk
            exact ⟨_, hk, rfl, rfl⟩
          · have hne : ¬ k = key := fun e => hkk e.symm
            simp only [Record.touches, beq_iff_eq, hkk, if_false]
            simpa only [hne, if_false] using hk
        | del key =>
          rw [hp] at hk
          simp only [] at hk
          rw [lookup_del] at hk
          by_cases hkk : key = k
          · subst hkk
            simp only [Record.touches, beq_self_eq_true, if_true]
            simpa only [if_true] using hk
          · have hne : ¬ k = key := fun e => hkk e.symm
            simp only [Record.touches, beq_iff_eq, hkk, if_false]
            simpa only [hne, if_false] using hk
        | skip =>
          rw [hp] at hk
          simp only [Record.touches, Bool.false_eq_true, if_false]
          exact hk
theorem get_of_lookup (hash : String → Nat) (t : Nat) (s : ShardedStore) (k : String)
    (e : Entry) (h : lookup hash s k = some e) (hexp : ∀ d, e.expire_at = some d → t < d) :
    get hash t s k none = some e.value := by
  rw [get_eq_lookup, h]
  have h1 : expired t e = false := by
    unfold expired
    cases hd : e.expire_at with
    | none => rfl
    | some d =>
      have := hexp d hd
      simp only [ge_iff_le, decide_eq_false_iff_not, not_le]
      exact this
  simp [too_new, h1]

theorem get_of_lookup_none (hash : String → Nat) (t : Nat) (s : ShardedStore) (k : String)
    (V : Option Nat) (h : lookup hash s k = none) : get hash t s k V = none := by
  rw [get_eq_lookup, h]

theorem lookup_init (hash : String → Nat) (n budget : Nat) (k : String) :
    lookup hash (ShardedStore.init n budget) k = none :=
  lookupIn_replicate hash n k

/-! ## A record applied twice -/

/-- The loop of `publish` from an iterator that has passed the followers
`done`: these stay, the others are offered the payload in order and those whose
send failed are erased. -/
theorem publish_loop_spec (send_data : Nat → String → Int) (payload : String)
    (rest : List Nat) :
    ∀ (fuel : Nat) (done : List Nat), rest.length ≤ fuel →
      publish_loop send_data payload fuel (done ++ rest) done.length =
        (done ++ rest.filter (fun fd => decide (0 < send_data fd payload)),
         rest.map (fun fd => (fd, payload))) := by
  induction rest with
  | nil =>
    intro fuel done _
    cases fuel with
    | zero => simp [publish_loop]
    | succ n => simp [publish_loop]
  | cons fd rest ih =>
    intro fuel done hf
    cases fuel with
    | zero => simp at hf
    | succ n =>
      have hget : (done ++ fd :: rest)[done.length]? = some fd := by
        rw [List.getElem?_append_right (le_refl _)]
        simp
      have hlen : rest.length ≤ n := by simpa using hf
      rw [publish_loop]
      simp only [hget]
      by_cases hs : send_data fd payload ≤ 0
      · have herase : (done ++ fd :: rest).eraseIdx done.length = done ++ rest := by
          rw [List.eraseIdx_append_of_length_le (le_refl _)]
          simp
        have hnot : ¬ (0 < send_data fd payload) := not_lt.mpr hs
        simp only [hs, if_true, herase, ih n done hlen, List.filter_cons, hnot, decide_False,
          Bool.false_eq_true, if_false, List.map_cons]
      · have hpos : 0 < send_data fd payload := not_le.mp hs
        have happ : done ++ fd :: rest = (done ++ [fd]) ++ rest := by simp
        have hl : done.length + 1 = (done ++ [fd]).length := by simp
        simp only [hs, if_false]
        rw [happ, hl, ih n (done ++ [fd]) hlen]
        simp [List.filter_cons, hpos]

/-- Claim C28: with the broadcaster running, `publish(record)` offers exactly
`record + "\n"` to each connected follower in list order, keeps exactly the
followers whose send succeeded, in their original order, raises the sequence
counter by one (modulo `2 ^ 64`), sets the sent counter to it and reports a
replication lag of 0; when the broadcaster is not running, `publish` changes
nothing and sends nothing. -/
theorem publish_spec (send_data : Nat → String → Int) (b : ReplicationBroadcaster)
    (record : String) :
    (b.running_ = true →
      (b.publish send_data record).2 = b.clients_.map (fun fd => (fd, record ++ "\n")) ∧
      (b.publish send_data record).1.clients_ =
        b.clients_.filter (fun fd => decide (0 < send_data fd (record ++ "\n"))) ∧
      (b.publish send_data record).1.sequence_ = (b.sequence_ + 1) % U64 ∧
      (b.sequence_ + 1 < U64 → (b.publish send_data record).1.sequence_ = b.sequence_ + 1) ∧
      (b.publish send_data record).1.sent_ = (b.publish send_data record).1.sequence_ ∧
      (b.publish send_data record).1.replication_lag_ = 0 ∧
      (b.publish send_data record).1.running_ = true) ∧
    (b.running_ = false → b.publish send_data record = (b, [])) := by
  constructor
  · intro hr
    have hloop := publish_loop_spec send_data (record ++ "\n") b.clients_ b.clients_.length []
      (le_refl _)
    simp only [List.nil_append, List.length_nil] at hloop
    simp only [ReplicationBroadcaster.publish, hr, Bool.not_true, Bool.false_eq_true, if_false,
      hloop]
    refine ⟨trivial, trivial, trivial, ?_, trivial, ?_, trivial⟩
    · intro h; exact Nat.mod_eq_of_lt h
    · have : (b.sequence_ + 1) % U64 < U64 := Nat.mod_lt _ (by unfold U64; norm_num)
      have h2 : (b.sequence_ + 1) % U64 + U64 - (b.sequence_ + 1) % U64 = U64 := by omega
      rw [h2]
      exact Nat.mod_self _
  · intro hr
    simp [ReplicationBroadcaster.publish, hr]

set_option maxRecDepth 100000 in
/-- Claim C28, instance: three followers, the send to the second fails. -/
theorem publish_spec_witness :
    broadcaster345.running_ = true ∧
    broadcaster345.publish sendFails4 "PUT a 1" =
      ({ running_ := true, clients_ := [3, 5], sequence_ := 8, sent_ := 8,
         replication_lag_ := 0 },
       [(3, "PUT a 1\n"), (4, "PUT a 1\n"), (5, "PUT a 1\n")]) ∧
    (broadcaster345.publish sendFails4 "PUT a 1").1.clients_ =
      broadcaster345.clients_.filter (fun fd => decide (0 < sendFails4 fd ("PUT a 1" ++ "\n"))) :=
  ⟨rfl, by decide, ((publish_spec sendFails4 broadcaster345 "PUT a 1").1 rfl).2.1⟩

/-! ## `process_command` -/

set_option maxRecDepth 100000 in
/-- Claim C26, the inputs on which the code departs from it: on every server,
leader or replica, the line `GET a x`, whose version is not a number, makes
`std::stoull` throw `std::invalid_argument`, and the line
`GET a 18446744073709551616`, whose version is out of range, makes it throw
`std::out_of_range`; `process_command` does not catch, so the call throws and
returns no response line. -/
theorem process_command_throws (hash : String → Nat) (now : Nat) (should_fail : Bool)
    (send_data : Nat → String → Int) (srv : KvServer) :
    srv.process_command hash now should_fail send_data "GET a x" =
      (Outcome.threw Exception.invalid_argument, srv, []) ∧
    srv.process_command hash now should_fail send_data "GET a 18446744073709551616" =
      (Outcome.threw Exception.out_of_range, srv, []) := by
  have h1 : split "GET a x" = ["GET", "a", "x"] := by decide
  have h2 : stoull "x" = Except.error Exception.invalid_argument := by rfl
  have h3 : split "GET a 18446744073709551616" = ["GET", "a", "18446744073709551616"] := by
    decide
  have h4 : stoull "18446744073709551616" = Except.error Exception.out_of_range := by rfl
  constructor
  · simp only [KvServer.process_command, h1, h2, if_true]
    rfl
  · simp only [KvServer.process_command, h3, h4, if_true]
    rfl

/-- Claim C27: when the configured role is `replica`, every line whose command
is `PUT`, `DEL` or `REBALANCE`, with any operands, is answered with
`ERROR read_only`; the state of the server is unchanged, so the contents of the
store, its version, its memory usage and its shard count are unchanged and
nothing is appended to the log, and nothing is sent to the followers. -/
theorem replica_read_only (hash : String → Nat) (now : Nat) (should_fail : Bool)
    (send_data : Nat → String → Int) (srv : KvServer) (line cmd : String)
    (args : List String) (hrole : srv.role = "replica") (hsplit : split line = cmd :: args)
    (hcmd : cmd = "PUT" ∨ cmd = "DEL" ∨ cmd = "REBALANCE") :
    srv.process_command hash now should_fail send_data line =
      (Outcome.response "ERROR read_only", srv, []) := by
  have e1 : ¬ ("PUT" = "GET") := by decide
  have e2 : ¬ ("DEL" = "GET") := by decide
  have e3 : ¬ ("DEL" = "PUT") := by decide
  have e4 : ¬ ("REBALANCE" = "GET") := by decide
  have e5 : ¬ ("REBALANCE" = "PUT") := by decide
  have e6 : ¬ ("REBALANCE" = "DEL") := by decide
  rcases hcmd with h | h | h <;> subst h <;>
    simp only [KvServer.process_command, hsplit, hrole, e1, e2, e3, e4, e5, e6, if_true,
      if_false]

set_option maxRecDepth 100000 in
/-- Claim C27, instance: a replica with a log writer and three followers
receives `PUT a b`. -/
theorem replica_read_only_witness :
    replicaA.role = "replica" ∧ split "PUT a b" = ["PUT", "a", "b"] ∧
    replicaA.process_command lengthHash 0 false sendAll "PUT a b" =
      (Outcome.response "ERROR read_only", replicaA, []) :=
  ⟨rfl, by decide,
    replica_read_only lengthHash 0 false sendAll replicaA "PUT a b" "PUT" ["a", "b"] rfl
      (by decide) (Or.inl rfl)⟩

/-! ## The worker pool after `shutdown` -/

theorem shutdown_flag_set (pool : ThreadPool) : pool.shutdown.shutdown_ = true := by
  unfold ThreadPool.shutdown
  cases h : pool.shutdown_ <;> simp [h]

/-- After the flag is set a step keeps the flag, the queue depth and the tasks
started or waiting, in their order. -/
theorem step_after_shutdown (pool : ThreadPool) (call : PoolCall)
    (h : pool.shutdown_ = true) :
    (pool.step call).shutdown_ = true ∧
    (pool.step call).started ++ (pool.step call).queue_ = pool.started ++ pool.queue_ := by
  cases call with
  | submit task => simp [ThreadPool.step, ThreadPool.submit, h]
  | shutdown => simp [ThreadPool.step, ThreadPool.shutdown, h]
  | worker =>
    unfold ThreadPool.step ThreadPool.worker
    by_cases hw : pool.workers = 0
    · simp [hw, h]
    · cases hq : pool.queue_ with
      | nil => simp [hw, h, hq]
      | cons task rest => simp [hw, h, hq]

theorem run_after_shutdown (calls : List PoolCall) :
    ∀ pool : ThreadPool, pool.shutdown_ = true →
      (pool.run calls).shutdown_ = true ∧
      (pool.run calls).started ++ (pool.run calls).queue_ = pool.started ++ pool.queue_ := by
  induction calls with
  | nil => intro pool h; exact ⟨h, rfl⟩
  | cons call calls ih =>
    intro pool h
    obtain ⟨h1, h2⟩ := step_after_shutdown pool call h
    obtain ⟨h3, h4⟩ := ih (pool.step call) h1
    simp only [ThreadPool.run, List.foldl_cons] at h3 h4 ⊢
    exact ⟨h3, by rw [h4, h2]⟩

/-- After the flag is set, as many passes of a worker as tasks wait start all
of them, in the order of the queue. -/
theorem workers_drain (queue : List Nat) :
    ∀ pool : ThreadPool, pool.shutdown_ = true → 0 < pool.workers → pool.queue_ = queue →
      pool.run (List.replicate queue.length PoolCall.worker) =
        { pool with queue_ := [], started := pool.started ++ queue } := by
  induction queue with
  | nil =>
    intro pool _ _ hq
    cases pool
    simp only at hq
    subst hq
    simp [ThreadPool.run]
  | cons task rest ih =>
    intro pool h hw hq
    have hstep : pool.step PoolCall.worker =
        { pool with queue_ := rest, started := pool.started ++ [task] } := by
      simp [ThreadPool.step, ThreadPool.worker, Nat.ne_of_gt hw, h, hq]
    have := ih { pool with queue_ := rest, started := pool.started ++ [task] } h hw rfl
    simp only [ThreadPool.run, List.length_cons, List.replicate_succ, List.foldl_cons, hstep]
      at this ⊢
    rw [this]
    simp

set_option maxRecDepth 100000 in
/-- Claim C29, refuted as stated: in a pool of one worker in whose queue the
tasks 7 and 8 wait when `shutdown` is called, the next two passes of the worker
take and start both tasks; they are not dropped. -/
theorem shutdown_drops_counterexample :
    pool78.queue_ = [7, 8] ∧
    (pool78.run [PoolCall.shutdown]).queue_ = [7, 8] ∧
    (pool78.run [PoolCall.shutdown]).worker =
      WorkerResult.runs 7 { max_queue_depth_ := 4, queue_ := [8], shutdown_ := true,
                            workers := 1, started := [1, 7] } ∧
    (pool78.run [PoolCall.shutdown, PoolCall.worker, PoolCall.worker]).started = [1, 7, 8] := by
  decide

/-- Claim C29, amended: once `shutdown` has been called, whatever steps follow,
every `submit` throws and enqueues nothing, and no task is dropped or added:
the tasks started followed by the tasks waiting stay the same list; as long as
a worker thread is left, a pass of a worker takes the task at the front of the
queue, so as many passes as tasks wait start all of them in order, and a
worker returns only when the queue is empty. -/
theorem shutdown_spec (pool0 : ThreadPool) (calls : List PoolCall) (task : Nat) :
    ((pool0.shutdown).run calls).submit task = SubmitResult.threw ∧
    ((pool0.shutdown).run calls).step (PoolCall.submit task) = (pool0.shutdown).run calls ∧
    ((pool0.shutdown).run calls).started ++ ((pool0.shutdown).run calls).queue_ =
      pool0.started ++ pool0.queue_ ∧
    (0 < ((pool0.shutdown).run calls).workers →
      ((pool0.shutdown).run calls).run
          (List.replicate ((pool0.shutdown).run calls).queue_.length PoolCall.worker) =
        { (pool0.shutdown).run calls with
          queue_ := []
          started := ((pool0.shutdown).run calls).started ++
            ((pool0.shutdown).run calls).queue_ }) ∧
    (∀ pool', ((pool0.shutdown).run calls).worker = WorkerResult.returned pool' →
      ((pool0.shutdown).run calls).queue_ = []) := by
  obtain ⟨h1, h2⟩ := run_after_shutdown calls pool0.shutdown (shutdown_flag_set pool0)
  have h0 : pool0.shutdown.started ++ pool0.shutdown.queue_ = pool0.started ++ pool0.queue_ := by
    unfold ThreadPool.shutdown
    cases pool0.shutdown_ <;> simp
  have hsub : ((pool0.shutdown).run calls).submit task = SubmitResult.threw := by
    simp [ThreadPool.submit, h1]
  refine ⟨hsub, ?_, by rw [h2, h0], ?_, ?_⟩
  · simp only [ThreadPool.step, hsub]
  · intro hw
    exact workers_drain _ _ h1 hw rfl
  · intro pool' hret
    unfold ThreadPool.worker at hret
    by_cases hw : ((pool0.shutdown).run calls).workers = 0
    · simp [hw] at hret
    · cases hq : ((pool0.shutdown).run calls).queue_ with
      | nil => rfl
      | cons t rest => simp [hw, h1, hq] at hret

set_option maxRecDepth 100000 in
/-- Claim C29, instance: `shutdown` on the pool in whose queue 7 and 8 wait,
then a `submit` of task 9 and a pass of the worker. -/
theorem shutdown_spec_witness :
    0 < ((pool78.shutdown).run [PoolCall.submit 9, PoolCall.worker]).workers ∧
    ((pool78.shutdown).run [PoolCall.submit 9, PoolCall.worker]).submit 5 = SubmitResult.threw ∧
    ((pool78.shutdown).run [PoolCall.submit 9, PoolCall.worker]).started ++
      ((pool78.shutdown).run [PoolCall.submit 9, PoolCall.worker]).queue_ = [1, 7, 8] ∧
    (((pool78.shutdown).run [PoolCall.submit 9, PoolCall.worker]).run
      (List.replicate ((pool78.shutdown).run [PoolCall.submit 9, PoolCall.worker]).queue_.length
        PoolCall.worker)).started = [1, 7, 8] := by
  have h := shutdown_spec pool78 [PoolCall.submit 9, PoolCall.worker] 5
  refine ⟨by decide, h.1, ?_, ?_⟩
  · rw [h.2.2.1]
    decide
  · rw [h.2.2.2.1 (by decide)]
    decide

/-! ## The loops of the models run out of input before they run out of fuel -/

/-- An extraction of a word fails or shortens the buffer. -/
theorem read_string_shorter (st : IStream) :
    st.read_string.2.failbit = true ∨ st.read_string.2.buf.length < st.buf.length := by
  unfold IStream.read_string
  by_cases hg : (st.eofbit || st.failbit) = true
  · left
    simp [hg]
  · simp only [hg, Bool.false_eq_true, if_false]
    cases hs : st.buf.dropWhile isspace with
    | nil => left; simp
    | cons c rest =>
      right
      have hc : isspace c = false := by
        have := List.head_dropWhile_not isspace st.buf (by rw [hs]; simp)
        simpa [hs] using this
      have h1 : (c :: rest).length ≤ st.buf.length := by
        rw [← hs]
        exact (List.dropWhile_sublist _).length_le
      have h2 : ((c :: rest).dropWhile (fun c => !isspace c)).length ≤ rest.length := by
        rw [List.dropWhile_cons]
        simp only [hc, Bool.not_false, if_true]
        exact (List.dropWhile_sublist _).length_le
      simp only [List.isEmpty_cons, Bool.false_eq_true, if_false]
      simp only [List.length_cons] at h1
      omega

/-- The loop of `split` returns the same parts for every fuel above the length
of the buffer. -/
theorem split_loop_fuel (f1 : Nat) :
    ∀ (f2 : Nat) (st : IStream), st.buf.length < f1 → st.buf.length < f2 →
      split_loop f1 st = split_loop f2 st := by
  induction f1 with
  | zero => intro f2 st h; omega
  | succ n ih =>
    intro f2 st h1 h2
    cases f2 with
    | zero => omega
    | succ m =>
      rw [split_loop, split_loop]
      rcases read_string_shorter st with hf | hl
      · simp only [hf, if_true]
      · by_cases hf : st.read_string.2.failbit = true
        · simp only [hf, if_true]
        · simp only [hf, Bool.false_eq_true, if_false]
          congr 1
          exact ih m _ (by omega) (by omega)

/-- The loop of `load_latest` returns the same items for every fuel above a
24th of the stream. -/
theorem load_loop_fuel (now : Nat) (f1 : Nat) :
    ∀ (f2 : Nat) (stream : List Nat), stream.length / 24 < f1 → stream.length / 24 < f2 →
      load_loop now f1 stream = load_loop now f2 stream := by
  induction f1 with
  | zero => intro f2 stream h; omega
  | succ n ih =>
    intro f2 stream h1 h2
    cases f2 with
    | zero => omega
    | succ m =>
      rw [load_loop, load_loop]
      by_cases c1 : stream.length < 4
      · simp only [c1, if_true]
      · by_cases c2 : (stream.drop 4).length < 20
        · simp only [c1, c2, if_false, if_true]
        · by_cases c3 : ((stream.drop 4).drop 20).length <
              u32of (stream.take 4) + u32of ((stream.drop 4).take 4)
          · simp only [c1, c2, c3, if_false, if_true]
          · simp only [c1, c2, c3, if_false]
            congr 1
            have hl : (((stream.drop 4).drop 20).drop
                (u32of (stream.take 4) + u32of ((stream.drop 4).take 4))).length + 24
                ≤ stream.length := by
              simp only [List.length_drop] at c2 ⊢
              omega
            apply ih <;> omega

/-! ## The lines that `process_command` rejects -/

/-- The lines that `process_command` answers with an error: no token, an
unknown first token, or too few operands (for `REBALANCE`: not exactly one);
the state of the server is unchanged and nothing is sent. -/
theorem process_command_rejects (hash : String → Nat) (now : Nat) (should_fail : Bool)
    (send_data : Nat → String → Int) (srv : KvServer) (line : String) :
    (split line = [] →
      srv.process_command hash now should_fail send_data line =
        (Outcome.response "ERROR empty", srv, [])) ∧
    (∀ cmd args, split line = cmd :: args → cmd ≠ "GET" → cmd ≠ "PUT" → cmd ≠ "DEL" →
      cmd ≠ "REBALANCE" → cmd ≠ "PING" →
      srv.process_command hash now should_fail send_data line =
        (Outcome.response "ERROR unknown command", srv, [])) ∧
    (split line = ["GET"] →
      srv.process_command hash now should_fail send_data line =
        (Outcome.response "ERROR usage GET key [version]", srv, [])) ∧
    (∀ args, split line = "PUT" :: args → args.length < 2 → srv.role ≠ "replica" →
      srv.process_command hash now should_fail send_data line =
        (Outcome.response "ERROR usage PUT key value [ttl]", srv, [])) ∧
    (split line = ["DEL"] → srv.role ≠ "replica" →
      srv.process_command hash now should_fail send_data line =
        (Outcome.response "ERROR usage DEL key", srv, [])) ∧
    (∀ args, split line = "REBALANCE" :: args → args.length ≠ 1 → srv.role ≠ "replica" →
      srv.process_command hash now should_fail send_data line =
        (Outcome.response "ERROR usage REBALANCE shard_count", srv, [])) := by
  have e1 : ¬ ("PUT" = "GET") := by decide
  have e2 : ¬ ("DEL" = "GET") := by decide
  have e3 : ¬ ("DEL" = "PUT") := by decide
  have e4 : ¬ ("REBALANCE" = "GET") := by decide
  have e5 : ¬ ("REBALANCE" = "PUT") := by decide
  have e6 : ¬ ("REBALANCE" = "DEL") := by decide
  refine ⟨?_, ?_, ?_, ?_, ?_, ?_⟩
  · intro h
    simp only [KvServer.process_command, h]
  · intro cmd args h h1 h2 h3 h4 h5
    simp only [KvServer.process_command, h, h1, h2, h3, h4, h5, if_false]
  · intro h
    simp only [KvServer.process_command, h, if_true]
  · intro args h hl hr
    simp only [KvServer.process_command, h, e1, hr, if_true, if_false]
    match args, hl with
    | [], _ => rfl
    | [_], _ => rfl
  · intro h hr
    simp only [KvServer.process_command, h, e2, e3, hr, if_true, if_false]
  · intro args h hl hr
    simp only [KvServer.process_command, h, e4, e5, e6, hr, if_true, if_false]
    match args, hl with
    | [], _ => rfl
    | _ :: _ :: _, _ => rfl

/-! ## The recency list after the mutation step of `put`; the frame of `get` -/

theorem filter_ne_erase (l : List String) (k : String) :
    (l.erase k).filter (fun x => x != k) = l.filter (fun x => x != k) := by
  induction l with
  | nil => rfl
  | cons a t ih =>
    by_cases h : a = k
    · subst h
      simp
    · rw [List.erase_cons_tail (by simpa using h)]
      simp only [List.filter_cons, ih]

theorem filter_ne_of_not_mem (l : List String) (k : String) (h : k ∉ l) :
    l.filter (fun x => x != k) = l := by
  rw [List.filter_eq_self]
  intro a ha
  simp only [bne_iff_ne, ne_eq]
  intro e
  exact h (e ▸ ha)

/-- Claim C33: after the mutation step of `put(k, ...)` on a store with at
least one shard, `k` is the first element of the recency list of its shard and
the other keys of that list are the same as before in the same order, whether
`k` was new or already present (when the shard satisfies invariant 1 the list
is `k` followed by the former list without `k`); every other shard is
untouched. -/
theorem put_mutation_recency (hash : String → Nat) (now : Nat) (s : ShardedStore)
    (k v : String) (ttl : Option Nat) (hpos : 0 < s.shards_.length) :
    ∃ sh sh', s.shards_[shard_for hash s k]? = some sh ∧
      (put_mutation hash now s k v ttl).shards_[shard_for hash s k]? = some sh' ∧
      sh'.lru.head? = some k ∧
      sh'.lru.tail.filter (fun x => x != k) = sh.lru.filter (fun x => x != k) ∧
      (sh.consistent → sh'.lru = k :: sh.lru.filter (fun x => x != k)) ∧
      ∀ j, j ≠ shard_for hash s k →
        (put_mutation hash now s k v ttl).shards_[j]? = s.shards_[j]? := by
  have hidx : shard_for hash s k < s.shards_.length := Nat.mod_lt _ hpos
  rcases put_mutation_cases hash now s k v ttl with
    ⟨_, h2⟩ | ⟨shard, hsh, ⟨hf, h1⟩ | ⟨old, hf, h1⟩⟩
  · rw [List.getElem?_eq_getElem hidx] at h2
    exact Option.noConfusion h2
  · rw [h1]
    refine ⟨shard, _, hsh, List.getElem?_set_self hidx, rfl, rfl, ?_, ?_⟩
    · intro hc
      have hnot : k ∉ shard.lru := by
        rw [consistent_mem_lru_iff hc]
        exact (mapFind_eq_none_iff _ _).mp hf
      simp only
      rw [filter_ne_of_not_mem _ _ hnot]
    · intro j hj
      exact List.getElem?_set_ne (Ne.symm hj)
  · rw [h1]
    refine ⟨shard, _, hsh, List.getElem?_set_self hidx, rfl, ?_, ?_, ?_⟩
    · exact filter_ne_erase _ _
    · intro hc
      simp only
      rw [(consistent_lru_nodup hc).erase_eq_filter]
    · intro j hj
      exact List.getElem?_set_ne (Ne.symm hj)

/-- Claim C33, instance: in `storeAB`, whose recency list is `b, a`, the
mutation step of `put("a", ...)` leaves `a, b`, and that of `put("c", ...)`
leaves `c, b, a`. -/
theorem put_mutation_recency_witness :
    0 < storeAB.shards_.length ∧
    (put_mutation lengthHash 0 storeAB "a" "9" none).shards_.map (fun sh => sh.lru) =
      [["a", "b"]] ∧
    (put_mutation lengthHash 0 storeAB "c" "9" none).shards_.map (fun sh => sh.lru) =
      [["c", "b", "a"]] ∧
    ∃ sh sh', storeAB.shards_[shard_for lengthHash storeAB "a"]? = some sh ∧
      (put_mutation lengthHash 0 storeAB "a" "9" none).shards_[shard_for lengthHash storeAB "a"]?
        = some sh' ∧ sh'.lru.head? = some "a" := by
  refine ⟨by decide, by decide, by decide, ?_⟩
  obtain ⟨sh, sh', h1, h2, h3, _⟩ :=
    put_mutation_recency lengthHash 0 storeAB "a" "9" none (by decide)
  exact ⟨sh, sh', h1, h2, h3⟩

theorem run_filter_get (hash : String → Nat) (ops : List Op) :
    ∀ s : ShardedStore, run hash (ops.filter (fun op => !op.isGet)) s = run hash ops s := by
  induction ops with
  | nil => intro s; rfl
  | cons op ops ih =>
    intro s
    cases op with
    | get now key V => simpa [run, Op.isGet, Op.apply] using ih s
    | put now key value ttl =>
      simp only [List.filter_cons, Op.isGet, Bool.not_false, if_true, run]
      cases Op.apply hash (Op.put now key value ttl) s with
      | none => rfl
      | some s' => exact ih s'
    | del key =>
      simp only [List.filter_cons, Op.isGet, Bool.not_false, if_true, run]
      cases Op.apply hash (Op.del key) s with
      | none => rfl
      | some s' => exact ih s'
    | snapshot version =>
      simp only [List.filter_cons, Op.isGet, Bool.not_false, if_true, run]
      cases Op.apply hash (Op.snapshot version) s with
      | none => rfl
      | some s' => exact ih s'
    | restore items =>
      simp only [List.filter_cons, Op.isGet, Bool.not_false, if_true, run]
      cases Op.apply hash (Op.restore items) s with
      | none => rfl
      | some s' => exact ih s'
    | expire_keys now =>
      simp only [List.filter_cons, Op.isGet, Bool.not_false, if_true, run]
      cases Op.apply hash (Op.expire_keys now) s with
      | none => rfl
      | some s' => exact ih s'
    | enforce_memory_budget =>
      simp only [List.filter_cons, Op.isGet, Bool.not_false, if_true, run]
      cases Op.apply hash Op.enforce_memory_budget s with
      | none => rfl
      | some s' => exact ih s'
    | rebalance n =>
      simp only [List.filter_cons, Op.isGet, Bool.not_false, if_true, run]
      cases Op.apply hash (Op.rebalance n) s with
      | none => rfl
      | some s' => exact ih s'

/-! ## The shard of every key -/

theorem mem_mapKeys_assign (m : List (String × Entry)) (key k : String) (e : Entry)
    (h : k ∈ mapKeys (mapAssign m key e)) : k = key ∨ k ∈ mapKeys m := by
  simp only [mapKeys, List.mem_map] at h
  obtain ⟨p, hp, hk⟩ := h
  rcases mem_mapAssign m key e p hp with h1 | h1
  · left; rw [← hk, h1]
  · right; exact List.mem_map.mpr ⟨p, h1, hk⟩

theorem mem_mapKeys_emplace (m : List (String × Entry)) (key k : String) (e : Entry)
    (h : k ∈ mapKeys (mapEmplace m key e)) : k = key ∨ k ∈ mapKeys m := by
  simp only [mapKeys, List.mem_map] at h
  obtain ⟨p, hp, hk⟩ := h
  rcases mem_mapEmplace m key e p hp with h1 | h1
  · left; rw [← hk, h1]
  · right; exact List.mem_map.mpr ⟨p, h1, hk⟩

/-- One pass of the loop of `restore` stores the key in the shard of its hash. -/
theorem restore_item_placed (hash : String → Nat) (s : ShardedStore) (item : SnapshotItem)
    (h : placed hash s) : placed hash (restore_item hash s item) := by
  cases hsh : s.shards_[shard_for hash s item.key]? with
  | none => rw [restore_item_no_shard hash s item hsh]; exact h
  | some shard =>
    rw [restore_item_shard hash s item shard hsh]
    have hlt : shard_for hash s item.key < s.shards_.length :=
      (List.getElem?_eq_some_iff.mp hsh).1
    intro i sh hi k hk
    simp only [List.length_set]
    simp only at hi
    by_cases hii : shard_for hash s item.key = i
    · rw [← hii, List.getElem?_set_self hlt] at hi
      simp only [Option.some.injEq] at hi
      subst hi
      rcases mem_mapKeys_assign _ _ _ _ hk with h1 | h1
      · rw [h1, ← hii]; rfl
      · rw [← hii]
        exact h _ shard hsh k h1
    · rw [List.getElem?_set_ne hii] at hi
      exact h i sh hi k hk

theorem restore_items_placed (hash : String → Nat) (items : List SnapshotItem) :
    ∀ s : ShardedStore, placed hash s → placed hash (items.foldl (restore_item hash) s) := by
  induction items with
  | nil => intro s h; exact h
  | cons item items ih =>
    intro s h
    exact ih _ (restore_item_placed hash s item h)

theorem enforce_placed (hash : String → Nat) (s s' : ShardedStore) (h : placed hash s)
    (he : enforce_memory_budget s = some s') : placed hash s' := by
  refine enforce_induct (placed hash) ?_ ?_ s s' he h
  · intro a b hP hab
    obtain ⟨idx, key, sh, _, _, hb⟩ := evict_step_some a b hab
    subst hb
    exact remove_entry_placed hash a idx key hP
  · intro a hP
    exact hP

theorem enforce_length (s s' : ShardedStore) (he : enforce_memory_budget s = some s') :
    s'.shards_.length = s.shards_.length :=
  (enforce_subStore s s' he).1

theorem expire_keys_length (now : Nat) (s : ShardedStore) :
    (expire_keys now s).shards_.length = s.shards_.length := by
  have h := congrArg List.length (expire_shards_maps now s.shards_ s.memory_usage_bytes_)
  simpa using h

/-- The scan of `expire_keys` leaves every key that it keeps in its shard. -/
theorem expire_keys_placed_any (hash : String → Nat) (now : Nat) (s : ShardedStore)
    (h : placed hash s) : placed hash (expire_keys now s) := by
  intro i sh hi k hk
  rw [expire_keys_length]
  have hm := expire_shards_maps now s.shards_ s.memory_usage_bytes_
  have hi' : ((expire_keys now s).shards_.map (fun sh => sh.map))[i]? = some sh.map := by
    rw [List.getElem?_map, hi]; rfl
  have hexp : (expire_keys now s).shards_ = (expire_shards now s.shards_ s.memory_usage_bytes_).1 :=
    rfl
  rw [hexp, hm, List.getElem?_map] at hi'
  cases h0 : s.shards_[i]? with
  | none => simp [h0] at hi'
  | some sh0 =>
    simp only [h0, Option.map_some', Option.some.injEq] at hi'
    apply h i sh0 h0 k
    rw [← hi'] at hk
    simp only [mapKeys, List.mem_map] at hk ⊢
    obtain ⟨p, hp, hpk⟩ := hk
    exact ⟨p, (List.mem_filter.mp hp).1, hpk⟩

/-- Moving an entry stores its key in the shard of its hash. -/
theorem move_entry_placedIn (hash : String → Nat) (ns : List Shard) (p : String × Entry)
    (h : placedIn hash ns.length ns) : placedIn hash ns.length (move_entry hash ns p) := by
  cases ht : ns[hash p.1 % ns.length]? with
  | none =>
    have : move_entry hash ns p = ns := by simp only [move_entry, ht]
    rw [this]; exact h
  | some target =>
    have hm : move_entry hash ns p = ns.set (hash p.1 % ns.length)
        { map := mapEmplace target.map p.1 p.2, lru := p.1 :: target.lru } := by
      simp only [move_entry, ht]
    rw [hm]
    have hlt : hash p.1 % ns.length < ns.length := (List.getElem?_eq_some_iff.mp ht).1
    intro i sh hi k hk
    by_cases hii : hash p.1 % ns.length = i
    · rw [← hii, List.getElem?_set_self hlt] at hi
      simp only [Option.some.injEq] at hi
      subst hi
      rcases mem_mapKeys_emplace _ _ _ _ hk with h1 | h1
      · rw [h1, ← hii]
      · rw [← hii]
        exact h _ target ht k h1
    · rw [List.getElem?_set_ne hii] at hi
      exact h i sh hi k hk

theorem move_all_placedIn (hash : String → Nat) (L : List (String × Entry)) :
    ∀ ns : List Shard, placedIn hash ns.length ns →
      placedIn hash ns.length (L.foldl (move_entry hash) ns) := by
  induction L with
  | nil => intro ns h; exact h
  | cons p L ih =>
    intro ns h
    have h1 := move_entry_placedIn hash ns p h
    have h2 := ih (move_entry hash ns p) (by rw [move_entry_length]; exact h1)
    rw [move_entry_length] at h2
    exact h2

/-- After `rebalance` every key is in the shard of its hash, and there is a shard. -/
theorem rebalance_placed_any (hash : String → Nat) (s : ShardedStore) (n : Nat)
    (hpos : 0 < s.shards_.length) (h : placed hash s) :
    0 < (rebalance hash s n).shards_.length ∧ placed hash (rebalance hash s n) := by
  by_cases hn : n = 0 ∨ n = s.shards_.length
  · rw [rebalance_noop hash s n hn]
    exact ⟨hpos, h⟩
  · rw [rebalance_moved hash s n hn]
    have hlen : ((allEntries s.shards_).foldl (move_entry hash)
        (List.replicate n Shard.empty)).length = n := by
      rw [move_all_length, List.length_replicate]
    refine ⟨by simp only [hlen]; omega, ?_⟩
    have hrep : placedIn hash (List.replicate n Shard.empty).length
        (List.replicate n Shard.empty) := by
      intro i sh hi k hk
      have := List.getElem?_mem hi
      simp only [List.mem_replicate] at this
      rw [this.2] at hk
      simp [Shard.empty, mapKeys] at hk
    have := move_all_placedIn hash (allEntries s.shards_) _ hrep
    rw [List.length_replicate] at this
    intro i sh hi k hk
    simp only at hi ⊢
    rw [hlen]
    exact this i sh hi k hk

/-- Every call keeps a shard count of at least one and every key in the shard
of its hash. -/
theorem apply_placed (hash : String → Nat) (op : Op) (s s' : ShardedStore)
    (hpos : 0 < s.shards_.length) (h : placed hash s) (ha : op.apply hash s = some s') :
    0 < s'.shards_.length ∧ placed hash s' := by
  cases op with
  | get now key V =>
    simp only [Op.apply, Option.some.injEq, get_call_snd] at ha
    subst ha; exact ⟨hpos, h⟩
  | put now key value ttl =>
    simp only [Op.apply] at ha
    refine ⟨?_, enforce_placed hash _ s' (put_mutation_placed hash now s key value ttl h) ha⟩
    rw [enforce_length _ _ ha, put_mutation_length]
    exact hpos
  | del key =>
    simp only [Op.apply, Option.some.injEq] at ha
    subst ha
    rw [del_fst]
    exact ⟨by rw [remove_entry_length]; exact hpos, remove_entry_placed hash s _ key h⟩
  | snapshot version =>
    simp only [Op.apply, Option.some.injEq] at ha
    subst ha; exact ⟨hpos, h⟩
  | restore items =>
    simp only [Op.apply] at ha
    refine ⟨?_, enforce_placed hash _ s' (restore_items_placed hash items s h) ha⟩
    rw [enforce_length _ _ ha, restore_items_length]
    exact hpos
  | expire_keys now =>
    simp only [Op.apply, Option.some.injEq] at ha
    subst ha
    exact ⟨by rw [expire_keys_length]; exact hpos, expire_keys_placed_any hash now s h⟩
  | enforce_memory_budget =>
    simp only [Op.apply] at ha
    exact ⟨by rw [enforce_length _ _ ha]; exact hpos, enforce_placed hash s s' h ha⟩
  | rebalance n =>
    simp only [Op.apply, Option.some.injEq] at ha
    subst ha
    exact rebalance_placed_any hash s n hpos h

theorem run_placed (hash : String → Nat) (ops : List Op) :
    ∀ s s' : ShardedStore, 0 < s.shards_.length → placed hash s → run hash ops s = some s' →
      0 < s'.shards_.length ∧ placed hash s' := by
  induction ops with
  | nil =>
    intro s s' hpos h hr
    simp only [run, Option.some.injEq] at hr
    subst hr; exact ⟨hpos, h⟩
  | cons op ops ih =>
    intro s s' hpos h hr
    simp only [run] at hr
    cases ha : op.apply hash s with
    | none => simp [ha] at hr
    | some s1 =>
      simp only [ha] at hr
      obtain ⟨h1, h2⟩ := apply_placed hash op s s1 hpos h ha
      exact ih s1 s' h1 h2 hr

/-- Claim C37: for a store constructed with at least one shard, after any
sequence of calls of `put`, `del`, `expire_keys`, `restore` and `rebalance`
(and of `get`, `snapshot` and `enforce_memory_budget`) that returns, the shard
count is at least 1 and every stored key is in shard number
`hash(key) mod shard_count`; hence the index that `shard_for` computes is in
range for every key, and the entry that `get` and `del` find in the shard they
select is the entry that a search of all shards finds. -/
theorem shard_placement (hash : String → Nat) (n budget : Nat) (ops : List Op)
    (s' : ShardedStore) (hn : 0 < n)
    (hrun : run hash ops (ShardedStore.init n budget) = some s') :
    1 ≤ s'.shards_.length ∧
    (∀ (i : Nat) (sh : Shard) (k : String), s'.shards_[i]? = some sh → k ∈ mapKeys sh.map →
      i = hash k % s'.shards_.length) ∧
    (∀ k : String, shard_for hash s' k < s'.shards_.length) ∧
    (∀ k : String, lookup hash s' k = mapFind (allEntries s'.shards_) k) := by
  have hinit : (ShardedStore.init n budget).shards_.length = n := by simp [ShardedStore.init]
  obtain ⟨h1, h2⟩ := run_placed hash ops _ s' (by rw [hinit]; exact hn)
    (init_inv hash n budget).2.1 hrun
  refine ⟨h1, ?_, ?_, ?_⟩
  · intro i sh k hi hk
    exact (h2 i sh hi k hk).symm
  · intro k
    exact Nat.mod_lt _ h1
  · intro k
    exact lookup_eq_allEntries hash s' k h2

/-! ## The steps of the eviction loop -/

theorem entryCount_set (l : List Shard) (i : Nat) (sh x : Shard) (h : l[i]? = some sh) :
    entryCount (l.set i x) + sh.map.length = entryCount l + x.map.length := by
  induction l generalizing i with
  | nil => simp at h
  | cons a l ih =>
    cases i with
    | zero =>
      simp at h
      subst h
      simp [entryCount]
      omega
    | succ j =>
      simp at h
      have := ih j h
      simp [entryCount] at this ⊢
      omega

theorem mapErase_length (m : List (String × Entry)) (k : String)
    (hn : (mapKeys m).Nodup) (hk : k ∈ mapKeys m) : (mapErase m k).length + 1 = m.length := by
  induction m with
  | nil => simp [mapKeys] at hk
  | cons p m ih =>
    obtain ⟨k0, e0⟩ := p
    have hn' : k0 ∉ mapKeys m ∧ (mapKeys m).Nodup := by simpa [mapKeys] using hn
    by_cases h : k0 = k
    · subst h
      have : mapErase m k0 = m := mapErase_of_not_mem m k0 hn'.1
      have h2 : mapErase ((k0, e0) :: m) k0 = mapErase m k0 := by simp [mapErase]
      rw [h2, this]
      rfl
    · have hk' : k ∈ mapKeys m := by
        simp [mapKeys] at hk
        rcases hk with hk | hk
        · exact absurd hk.symm h
        · simpa [mapKeys] using hk
      have := ih hn'.2 hk'
      simp [mapErase, h] at this ⊢
      omega

/-- Erasing the last element of a list without repetition drops it. -/
theorem erase_getLast_nodup (l : List String) (k : String) (hn : l.Nodup)
    (hl : l.getLast? = some k) : l.erase k = l.dropLast := by
  induction l with
  | nil => simp at hl
  | cons a t ih =>
    cases t with
    | nil =>
      simp at hl
      subst hl
      simp
    | cons b t' =>
      have hl' : (b :: t').getLast? = some k := by simpa [List.getLast?_cons_cons] using hl
      have hmem : k ∈ b :: t' := List.mem_of_getLast?_eq_some hl'
      have hn' : a ∉ b :: t' ∧ (b :: t').Nodup := List.nodup_cons.mp hn
      have hne : a ≠ k := fun e => hn'.1 (e ▸ hmem)
      rw [List.erase_cons_tail (by simpa using hne), ih hn'.2 hl']
      simp [List.dropLast]

/-- In a shard that satisfies invariant 1 and whose recency list is in write
order, the key at the back of the list has the lowest version of the shard. -/
theorem writeOrdered_tail (sh : Shard) (hcs : sh.consistent) (key : String) (e : Entry)
    (hlast : sh.lru.getLast? = some key) (he : mapFind sh.map key = some e)
    (hw : sh.writeOrdered = true) (k : String) (e' : Entry) (hk : k ≠ key)
    (he' : mapFind sh.map k = some e') : e.version < e'.version := by
  have hmem : k ∈ sh.lru :=
    (consistent_mem_lru_iff hcs k).mpr ((mapFind_isSome_iff _ _).mp (by rw [he']; rfl))
  have hsplit : sh.lru.dropLast ++ [key] = sh.lru :=
    List.dropLast_append_getLast? key (by rw [hlast]; rfl)
  have hk' : k ∈ sh.lru.dropLast := by
    rw [← hsplit] at hmem
    rcases List.mem_append.mp hmem with h | h
    · exact h
    · simp only [List.mem_singleton] at h
      exact absurd h hk
  unfold Shard.writeOrdered Shard.lruVersions at hw
  simp only [decide_eq_true_eq] at hw
  rw [← hsplit, List.filterMap_append, List.pairwise_append] at hw
  have h1 : e'.version ∈ sh.lru.dropLast.filterMap
      (fun k => (mapFind sh.map k).map (fun e => e.version)) :=
    List.mem_filterMap.mpr ⟨k, hk', by rw [he']; rfl⟩
  have h2 : e.version ∈ [key].filterMap
      (fun k => (mapFind sh.map k).map (fun e => e.version)) :=
    List.mem_filterMap.mpr ⟨key, by simp, by rw [he]; rfl⟩
  exact hw.2.2 _ h1 _ h2

/-- One pass of the eviction loop on a store that satisfies invariant 1. -/
theorem evict_step_consistent (s s' : ShardedStore) (hc : consistent s)
    (h : evict_step s = some s') :
    ∃ i sh key e, s.shards_[i]? = some sh ∧ sh.lru.getLast? = some key ∧
      (∀ (j : Nat) (sh' : Shard), j < i → s.shards_[j]? = some sh' →
        sh'.lru = [] ∧ sh'.map = []) ∧
      mapFind sh.map key = some e ∧
      s' = { s with
             memory_usage_bytes_ := memSub s.memory_usage_bytes_ e.size_bytes
             shards_ := s.shards_.set i { map := mapErase sh.map key, lru := sh.lru.dropLast }
             metrics_ := { s.metrics_ with
               eviction_count_ := (s.metrics_.eviction_count_ + 1) % U64 } } ∧
      entryCount s'.shards_ + 1 = entryCount s.shards_ ∧
      (sh.writeOrdered = true → ∀ (k : String) (e' : Entry), k ≠ key →
        mapFind sh.map k = some e' → e.version < e'.version) := by
  unfold evict_step at h
  cases hv : firstVictim s.shards_ with
  | none => simp [hv] at h
  | some p =>
    obtain ⟨i, key⟩ := p
    simp only [hv, Option.some.injEq] at h
    obtain ⟨sh, hsh, hlast⟩ := firstVictim_some _ _ _ hv
    have hbefore := firstVictim_before _ _ _ hv
    have hcs := hc sh (List.getElem?_mem hsh)
    have hmem : key ∈ sh.lru := List.mem_of_getLast?_eq_some hlast
    have hkeys : key ∈ mapKeys sh.map := (consistent_mem_lru_iff hcs key).mp hmem
    obtain ⟨e, he⟩ := Option.isSome_iff_exists.mp ((mapFind_isSome_iff _ _).mpr hkeys)
    have hrem := remove_entry_present s i key sh e hsh he
    have herase := erase_getLast_nodup sh.lru key (consistent_lru_nodup hcs) hlast
    have hs' : s' = { s with
             memory_usage_bytes_ := memSub s.memory_usage_bytes_ e.size_bytes
             shards_ := s.shards_.set i { map := mapErase sh.map key, lru := sh.lru.dropLast }
             metrics_ := { s.metrics_ with
               eviction_count_ := (s.metrics_.eviction_count_ + 1) % U64 } } := by
      rw [← h, hrem, herase]
      rfl
    refine ⟨i, sh, key, e, hsh, hlast, ?_, he, hs', ?_,
      fun hw k e' hk he' => writeOrdered_tail sh hcs key e hlast he hw k e' hk he'⟩
    · intro j sh' hj hs
      have hl := hbefore j sh' hj hs
      exact ⟨hl, consistent_map_of_lru_nil sh' (hc sh' (List.getElem?_mem hs)) hl⟩
    · rw [hs']
      have h1 := entryCount_set s.shards_ i sh
        { map := mapErase sh.map key, lru := sh.lru.dropLast } hsh
      have h2 := mapErase_length sh.map key hcs.1 hkeys
      simp only at h1 ⊢
      omega

theorem entryCount_eq_zero (l : List Shard) :
    entryCount l = 0 ↔ ∀ sh ∈ l, sh.map = [] := by
  induction l with
  | nil => simp [entryCount]
  | cons a l ih =>
    have : entryCount (a :: l) = a.map.length + entryCount l := by simp [entryCount]
    rw [this]
    constructor
    · intro h sh hsh
      have h1 : a.map.length = 0 := by omega
      have h2 : entryCount l = 0 := by omega
      rcases List.mem_cons.mp hsh with e | e
      · rw [e]; exact List.length_eq_zero.mp h1
      · exact ih.mp h2 sh e
    · intro h
      have h1 := h a (List.mem_cons_self _ _)
      have h2 := ih.mpr (fun sh hsh => h sh (List.mem_cons_of_mem _ hsh))
      rw [h1, h2]; rfl

/-- On a store that satisfies invariant 1 there is no victim exactly when the
store has no entry. -/
theorem evict_step_none_iff (s : ShardedStore) (hc : consistent s) :
    evict_step s = none ↔ entryCount s.shards_ = 0 := by
  rw [entryCount_eq_zero]
  constructor
  · intro h sh hsh
    unfold evict_step at h
    cases hv : firstVictim s.shards_ with
    | none => exact consistent_map_of_lru_nil sh (hc sh hsh) (firstVictim_none _ hv sh hsh)
    | some p => simp [hv] at h
  · intro h
    cases he : evict_step s with
    | none => rfl
    | some s' =>
      obtain ⟨i, sh, key, e, hsh, _, _, hf, _⟩ := evict_step_consistent s s' hc he
      have := h sh (List.getElem?_mem hsh)
      rw [this] at hf
      simp [mapFind] at hf

/-- Claim C32, amended: on a store whose maps and recency lists are consistent,
a pass of the loop of `enforce_memory_budget` removes the key at the tail of
the recency list of the shard of lowest index that is not empty, with its
entry, and raises the eviction counter by one; that key is the least recently
written key of its shard when the recency list of the shard is in write order
(the versions decrease from its front to its back); there is no victim only
when the store is empty; no pass is made from a state whose `memory_usage()` is
within the budget (the call then only reports the memory gauge); and when the
call returns, the eviction counter has grown by exactly the number of entries
removed from the store (modulo `2 ^ 64`), and the counter is within the budget
or the store is empty. -/
theorem eviction_steps (s : ShardedStore) (hc : consistent s)
    (hcount : s.metrics_.eviction_count_ < U64) :
    (∀ s', evict_step s = some s' →
      ∃ i sh key e, s.shards_[i]? = some sh ∧ sh.lru.getLast? = some key ∧
        (∀ (j : Nat) (sh' : Shard), j < i → s.shards_[j]? = some sh' →
          sh'.lru = [] ∧ sh'.map = []) ∧
        mapFind sh.map key = some e ∧
        s' = { s with
               memory_usage_bytes_ := memSub s.memory_usage_bytes_ e.size_bytes
               shards_ := s.shards_.set i { map := mapErase sh.map key, lru := sh.lru.dropLast }
               metrics_ := { s.metrics_ with
                 eviction_count_ := (s.metrics_.eviction_count_ + 1) % U64 } } ∧
        entryCount s'.shards_ + 1 = entryCount s.shards_ ∧
        (sh.writeOrdered = true → ∀ (k : String) (e' : Entry), k ≠ key →
          mapFind sh.map k = some e' → e.version < e'.version)) ∧
    (evict_step s = none ↔ entryCount s.shards_ = 0) ∧
    (∀ fuel, s.memory_usage_bytes_ ≤ s.memory_budget_bytes_ →
      enforce_loop (fuel + 1) s = some s) ∧
    (s.memory_usage_bytes_ ≤ s.memory_budget_bytes_ →
      enforce_memory_budget s = some (set_memory_bytes s)) ∧
    (∀ s', enforce_memory_budget s = some s' →
      entryCount s'.shards_ ≤ entryCount s.shards_ ∧
      s'.metrics_.eviction_count_ =
        (s.metrics_.eviction_count_ + (entryCount s.shards_ - entryCount s'.shards_)) % U64 ∧
      (s.metrics_.eviction_count_ + entryCount s.shards_ < U64 →
        s'.metrics_.eviction_count_ =
          s.metrics_.eviction_count_ + (entryCount s.shards_ - entryCount s'.shards_)) ∧
      (s'.memory_usage_bytes_ ≤ s'.memory_budget_bytes_ ∨ entryCount s'.shards_ = 0)) := by
  refine ⟨fun s' h => evict_step_consistent s s' hc h, evict_step_none_iff s hc,
    fun fuel h => enforce_loop_within fuel s h, fun h => enforce_within s h, ?_⟩
  intro s' he
  let P : ShardedStore → Prop := fun x =>
    consistent x ∧ entryCount x.shards_ ≤ entryCount s.shards_ ∧
    x.metrics_.eviction_count_ =
      (s.metrics_.eviction_count_ + (entryCount s.shards_ - entryCount x.shards_)) % U64
  have hP : P s' := by
    refine enforce_induct P ?_ ?_ s s' he ⟨hc, le_refl _, ?_⟩
    · intro a b ⟨hca, hle, hcnt⟩ hab
      obtain ⟨i, sh, key, e, _, _, _, _, hb, hec⟩ := evict_step_consistent a b hca hab
      obtain ⟨idx, key', sh', _, _, hb'⟩ := evict_step_some a b hab
      refine ⟨?_, by omega, ?_⟩
      · rw [hb']
        exact remove_entry_consistent a idx key' hca
      · have h1 : b.metrics_.eviction_count_ = (a.metrics_.eviction_count_ + 1) % U64 := by
          rw [hb]
        rw [h1, hcnt]
        have h2 : entryCount s.shards_ - entryCount b.shards_ =
            entryCount s.shards_ - entryCount a.shards_ + 1 := by omega
        rw [h2]
        unfold U64
        omega
    · intro a hP
      exact hP
    · simp only [Nat.sub_self, Nat.add_zero]
      exact (Nat.mod_eq_of_lt hcount).symm
  obtain ⟨hc', hle, hcnt⟩ := hP
  refine ⟨hle, hcnt, ?_, ?_⟩
  · intro hlt
    rw [hcnt]
    apply Nat.mod_eq_of_lt
    omega
  · unfold enforce_memory_budget at he
    cases hl : enforce_loop (lruNodes s.shards_ + 1) s with
    | none => simp [hl] at he
    | some r =>
      simp only [hl, Option.map_some', Option.some.injEq] at he
      subst he
      rcases enforce_loop_exit _ _ _ hl with h | h
      · exact Or.inl h
      · right
        rw [entryCount_eq_zero]
        intro sh hsh
        have hcr : consistent r := hc'
        exact consistent_map_of_lru_nil sh (hcr sh hsh) (firstVictim_none _ h sh hsh)

set_option maxRecDepth 100000 in
/-- Claim C32, amended, instance: `storeAB` holds `b` and `a` in one shard, its
recency list is `b, a`, in write order, and its counter exceeds its budget by
one; a call of `enforce_memory_budget` removes `a`, the tail, and the eviction
counter becomes 1. -/
theorem eviction_steps_witness :
    consistent storeAB ∧ storeAB.metrics_.eviction_count_ < U64 ∧
    storeAB.shards_.map (fun sh => (sh.lru, sh.lruVersions, sh.writeOrdered)) =
      [(["b", "a"], [2, 1], true)] ∧
    (enforce_memory_budget storeAB).map
        (fun s' => (s'.shards_, s'.metrics_.eviction_count_, s'.memory_usage_bytes_)) =
      some ([{ map := [("b", { value := "2", version := 2, expire_at := none,
                               size_bytes := 2 })], lru := ["b"] }], 1, 2) ∧
    ∀ s', enforce_memory_budget storeAB = some s' →
      s'.metrics_.eviction_count_ =
        (storeAB.metrics_.eviction_count_ +
          (entryCount storeAB.shards_ - entryCount s'.shards_)) % U64 :=
  ⟨storeAB_consistent, by decide, by decide, by decide,
    fun s' h => ((eviction_steps storeAB storeAB_consistent (by decide)).2.2.2.2 s' h).2.1⟩

/-! ## The line splitting of the replication client -/

theorem string_find_none (b : List Nat) (ch : Nat) :
    string_find b ch = none ↔ ch ∉ b := by
  induction b with
  | nil => simp [string_find]
  | cons x rest ih =>
    unfold string_find
    by_cases hx : x = ch
    · simp [hx]
    · simp only [if_neg hx, Option.map_eq_none', ih, List.mem_cons, not_or]
      exact ⟨fun h => ⟨fun e => hx e.symm, h⟩, fun h => h.2⟩

theorem string_find_some (b : List Nat) (ch pos : Nat) (h : string_find b ch = some pos) :
    b = b.take pos ++ ch :: b.drop (pos + 1) ∧ ch ∉ b.take pos ∧ pos < b.length := by
  induction b generalizing pos with
  | nil => simp [string_find] at h
  | cons x rest ih =>
    unfold string_find at h
    by_cases hx : x = ch
    · simp only [if_pos hx, Option.some.injEq] at h
      subst h
      simp [hx]
    · simp only [if_neg hx, Option.map_eq_some'] at h
      obtain ⟨p, hp, rfl⟩ := h
      obtain ⟨h1, h2, h3⟩ := ih p hp
      refine ⟨?_, ?_, ?_⟩
      · simp only [List.take_succ_cons, List.drop_succ_cons, List.cons_append]
        rw [← h1]
      · simp only [List.take_succ_cons, List.mem_cons, not_or]
        exact ⟨fun e => hx e.symm, h2⟩
      · simp only [List.length_cons]
        omega

theorem splitOn_first (a b : List Nat) (h : 10 ∉ a) :
    (a ++ 10 :: b).splitOn 10 = a :: b.splitOn 10 := by
  unfold List.splitOn
  apply List.splitOnP_first
  · intro x hx hp
    have : x = 10 := by simpa using hp
    exact h (this ▸ hx)
  · simp

theorem splitOn_single (a : List Nat) (h : 10 ∉ a) : a.splitOn 10 = [a] := by
  unfold List.splitOn
  apply List.splitOnP_eq_single
  intro x hx hp
  have : x = 10 := by simpa using hp
  exact h (this ▸ hx)

theorem splitOn_ne_nil (a : List Nat) : a.splitOn 10 ≠ [] := by
  unfold List.splitOn
  exact List.splitOnP_ne_nil _ _

theorem spec_held_back_first (a b : List Nat) (h : 10 ∉ a) :
    spec_held_back (a ++ 10 :: b) = spec_held_back b := by
  unfold spec_held_back
  rw [splitOn_first a b h]
  cases hb : b.splitOn 10 with
  | nil => exact absurd hb (splitOn_ne_nil b)
  | cons x xs => simp [List.getLast?_cons_cons]

theorem spec_terminated_first (a b : List Nat) (h : 10 ∉ a) :
    spec_terminated_segments (a ++ 10 :: b) = a :: spec_terminated_segments b := by
  unfold spec_terminated_segments
  rw [splitOn_first a b h]
  cases hb : b.splitOn 10 with
  | nil => exact absurd hb (splitOn_ne_nil b)
  | cons x xs => rfl

theorem spec_applied_first (a b : List Nat) (h : 10 ∉ a) :
    spec_applied_lines (a ++ 10 :: b) =
      (if !a.isEmpty then [a] else []) ++ spec_applied_lines b := by
  unfold spec_applied_lines
  rw [spec_terminated_first a b h, List.filter_cons]
  cases a <;> simp

theorem spec_held_back_single (a : List Nat) (h : 10 ∉ a) : spec_held_back a = a := by
  unfold spec_held_back
  rw [splitOn_single a h]
  rfl

theorem spec_applied_single (a : List Nat) (h : 10 ∉ a) : spec_applied_lines a = [] := by
  unfold spec_applied_lines spec_terminated_segments
  rw [splitOn_single a h]
  rfl

/-- The bytes held back contain no newline. -/
theorem spec_held_back_no_newline (s : List Nat) : 10 ∉ spec_held_back s := by
  suffices hall : ∀ (n : Nat) (s : List Nat), s.length = n → 10 ∉ spec_held_back s from
    hall s.length s rfl
  intro n
  induction n using Nat.strong_induction_on with
  | _ n ih =>
    intro s hn
    by_cases hm : 10 ∈ s
    · obtain ⟨a, b, hs, ha⟩ := List.eq_append_cons_of_mem hm
      rw [hs, spec_held_back_first a b ha]
      exact ih b.length (by rw [← hn, hs]; simp; omega) b rfl
    · rw [spec_held_back_single s hm]
      exact hm

/-- Splitting is compositional: what follows the last newline of a first part
of the stream is split together with the rest of the stream. -/
theorem spec_split_append (s t : List Nat) :
    spec_applied_lines (s ++ t) =
      spec_applied_lines s ++ spec_applied_lines (spec_held_back s ++ t) ∧
    spec_held_back (s ++ t) = spec_held_back (spec_held_back s ++ t) := by
  suffices hall : ∀ (n : Nat) (s : List Nat), s.length = n →
      spec_applied_lines (s ++ t) =
        spec_applied_lines s ++ spec_applied_lines (spec_held_back s ++ t) ∧
      spec_held_back (s ++ t) = spec_held_back (spec_held_back s ++ t) from
    hall s.length s rfl
  intro n
  induction n using Nat.strong_induction_on with
  | _ n ih =>
    intro s hn
    by_cases hm : 10 ∈ s
    · obtain ⟨a, b, hs, ha⟩ := List.eq_append_cons_of_mem hm
      have hb := ih b.length (by rw [← hn, hs]; simp; omega) b rfl
      have e : s ++ t = a ++ 10 :: (b ++ t) := by rw [hs]; simp
      rw [e, spec_applied_first a (b ++ t) ha, spec_held_back_first a (b ++ t) ha, hs,
        spec_applied_first a b ha, spec_held_back_first a b ha, hb.1, hb.2]
      simp
    · rw [spec_held_back_single s hm, spec_applied_single s hm]
      simp

/-- The inner loop of `run` ends: it applies the lines of the buffer that are
not empty and leaves what follows the last newline. -/
theorem drain_spec (fuel : Nat) (c : ReplicationClient) (h : c.buffer.length < fuel) :
    ReplicationClient.drain fuel c =
      some { buffer := spec_held_back c.buffer
             applied := c.applied ++ spec_applied_lines c.buffer } := by
  induction fuel generalizing c with
  | zero => omega
  | succ n ih =>
    unfold ReplicationClient.drain
    cases hf : string_find c.buffer 10 with
    | none =>
      have hm := (string_find_none _ _).mp hf
      simp only [spec_held_back_single _ hm, spec_applied_single _ hm, List.append_nil]
    | some pos =>
      obtain ⟨h1, h2, h3⟩ := string_find_some _ _ _ hf
      simp only []
      rw [ih _ (by simp only [List.length_drop]; omega)]
      simp only []
      have e1 := spec_held_back_first _ (c.buffer.drop (pos + 1)) h2
      have e2 := spec_applied_first _ (c.buffer.drop (pos + 1)) h2
      rw [← h1] at e1 e2
      rw [e1, e2]
      cases hl : (List.take pos c.buffer).isEmpty <;> simp

theorem receive_spec (c : ReplicationClient) (temp : List Nat) :
    ReplicationClient.receive c temp =
      some { buffer := spec_held_back (c.buffer ++ temp)
             applied := c.applied ++ spec_applied_lines (c.buffer ++ temp) } := by
  unfold ReplicationClient.receive
  exact drain_spec _ _ (Nat.lt_succ_self _)

theorem run_loop_spec (chunks : List (List Nat)) (c : ReplicationClient)
    (hc : 10 ∉ c.buffer) (h : ∀ chunk ∈ chunks, chunk ≠ []) :
    ReplicationClient.run_loop chunks c =
      some { buffer := spec_held_back (c.buffer ++ chunks.flatten)
             applied := c.applied ++ spec_applied_lines (c.buffer ++ chunks.flatten) } := by
  induction chunks generalizing c with
  | nil =>
    simp only [ReplicationClient.run_loop, List.flatten_nil, List.append_nil,
      spec_held_back_single _ hc, spec_applied_single _ hc]
  | cons t rest ih =>
    have ht : ¬ t.length ≤ 0 := by
      have := h t (List.mem_cons_self _ _)
      have := List.length_pos.mpr this
      omega
    unfold ReplicationClient.run_loop
    rw [if_neg ht, receive_spec]
    simp only []
    rw [ih _ (spec_held_back_no_newline _) (fun x hx => h x (List.mem_cons_of_mem _ hx))]
    have hs := spec_split_append (c.buffer ++ t) rest.flatten
    simp only [List.flatten_cons, ← List.append_assoc]
    rw [hs.1, hs.2, List.append_assoc]

/-- Claim C36: for every way of cutting a byte stream into chunks that are not
empty, the receive loop of the replication client returns, the lines it passed
to the apply callback are the segments of the whole stream that a newline ends
and that are not empty, in order, and its buffer holds the bytes after the last
newline, which are not applied; hence two ways of cutting the same stream apply
the same lines. -/
theorem run_chunking (chunks : List (List Nat)) (h : ∀ chunk ∈ chunks, chunk ≠ []) :
    ReplicationClient.run chunks =
      some { buffer := spec_held_back chunks.flatten
             applied := spec_applied_lines chunks.flatten } ∧
    (∀ chunks' : List (List Nat), (∀ chunk ∈ chunks', chunk ≠ []) →
      chunks'.flatten = chunks.flatten →
      ReplicationClient.run chunks' = ReplicationClient.run chunks) := by
  have key : ∀ cs : List (List Nat), (∀ chunk ∈ cs, chunk ≠ []) →
      ReplicationClient.run cs =
        some { buffer := spec_held_back cs.flatten
               applied := spec_applied_lines cs.flatten } := by
    intro cs hcs
    unfold ReplicationClient.run
    rw [run_loop_spec cs _ (by simp) hcs]
    simp
  refine ⟨key chunks h, ?_⟩
  intro chunks' h' e
  rw [key chunks' h', key chunks h, e]

set_option maxRecDepth 100000 in
/-- Claim C36, instance: `chunksA` cuts `streamA` inside its first line and
between its two adjacent newlines; the lines applied are `PUT a 1` and `DEL a`,
the empty line is skipped and the bytes `PU` are held back. -/
theorem run_chunking_witness :
    (∀ chunk ∈ chunksA, chunk ≠ []) ∧ chunksA.flatten = streamA ∧
    ReplicationClient.run chunksA =
      some { buffer := [80, 85]
             applied := [[80, 85, 84, 32, 97, 32, 49], [68, 69, 76, 32, 97]] } ∧
    ReplicationClient.run chunksA =
      some { buffer := spec_held_back chunksA.flatten
             applied := spec_applied_lines chunksA.flatten } :=
  ⟨by decide, by decide, by decide, (run_chunking chunksA (by decide)).1⟩

/-! ## The leader's reading of a line and that of `apply_record` -/

theorem isspace_le (c : Char) (h : isspace c = true) : c.toNat ≤ 32 := by
  unfold isspace at h
  simp only [Bool.or_eq_true, beq_iff_eq] at h
  rcases h with ((((h | h) | h) | h) | h) | h
  · rw [h]; decide
  · rw [h]; decide
  · rw [h]; decide
  · rw [h]; decide
  · omega
  · omega

theorem isDigit_not_isspace (c : Char) (h : c.isDigit = true) : (!isspace c) = true := by
  cases hs : isspace c with
  | false => rfl
  | true =>
    have h1 := isspace_le c hs
    unfold Char.isDigit at h
    simp only [Bool.and_eq_true, decide_eq_true_eq] at h
    have h2 : 48 ≤ c.toNat := by
      have := h.1
      exact this
    omega

theorem takeWhile_takeWhile_imp {α : Type} (p q : α → Bool) (hpq : ∀ a, p a = true → q a = true)
    (l : List α) : (l.takeWhile q).takeWhile p = l.takeWhile p := by
  induction l with
  | nil => rfl
  | cons a l ih =>
    by_cases hp : p a = true
    · simp [List.takeWhile_cons, hp, hpq a hp, ih]
    · by_cases hq : q a = true
      · simp [List.takeWhile_cons, hp, hq]
      · simp [List.takeWhile_cons, hp, hq]

/-- An extraction of a word that succeeds: the stream was good, and the word is
the run of characters up to the next white space, after the leading white
space; it is not empty. -/
theorem read_string_ok (st : IStream) (h : st.read_string.2.failbit = false) :
    st.eofbit = false ∧ st.failbit = false ∧
    ∃ c r, st.buf.dropWhile isspace = c :: r ∧ isspace c = false ∧
      st.read_string.1 = String.mk (c :: r.takeWhile (fun c => !isspace c)) ∧
      st.read_string.2.failbit = false := by
  unfold IStream.read_string at h ⊢
  by_cases hg : (st.eofbit || st.failbit) = true
  · simp [hg] at h
  · simp only [hg, Bool.false_eq_true, if_false] at h ⊢
    have hg2 : st.eofbit = false ∧ st.failbit = false := by
      cases he : st.eofbit <;> cases hf : st.failbit <;> simp [he, hf] at hg ⊢
    refine ⟨hg2.1, hg2.2, ?_⟩
    cases hs : st.buf.dropWhile isspace with
    | nil => simp [hs] at h
    | cons c r =>
      have hc : isspace c = false := by
        have := List.head_dropWhile_not isspace st.buf (by rw [hs]; simp)
        simpa [hs] using this
      refine ⟨c, r, rfl, hc, ?_, ?_⟩
      · simp [List.takeWhile_cons, hc]
      · simp

theorem split_loop_cons (fuel : Nat) (st : IStream) (w : String) (ws : List String)
    (h : split_loop fuel st = w :: ws) :
    ∃ n, fuel = n + 1 ∧ st.read_string.2.failbit = false ∧ st.read_string.1 = w ∧
      split_loop n st.read_string.2 = ws := by
  cases fuel with
  | zero => simp [split_loop] at h
  | succ n =>
    rw [split_loop] at h
    by_cases hf : st.read_string.2.failbit = true
    · simp [hf] at h
    · simp only [hf, Bool.false_eq_true, if_false, List.cons.injEq] at h
      exact ⟨n, rfl, by simpa using hf, h.1, h.2⟩

theorem split_loop_nil (n : Nat) (st : IStream) (h : split_loop (n + 1) st = []) :
    st.read_string.2.failbit = true := by
  rw [split_loop] at h
  by_cases hf : st.read_string.2.failbit = true
  · exact hf
  · simp [hf] at h

/-- When the extraction of a word fails on a stream, the extraction of a number
is not attempted or fails as well. -/
theorem read_u32_of_read_fail (st : IStream) (hf : st.read_string.2.failbit = true) :
    (if !st.eofbit then st.read_u32 else none) = none := by
  cases he : st.eofbit with
  | true => rfl
  | false =>
    simp only [Bool.not_false, if_true]
    unfold IStream.read_u32
    cases hfb : st.failbit with
    | true => simp [he]
    | false =>
      unfold IStream.read_string at hf
      simp only [he, hfb, Bool.or_false, Bool.false_eq_true, if_false] at hf ⊢
      cases hs : st.buf.dropWhile isspace with
      | nil => simp
      | cons c r => simp [hs] at hf

/-- The extraction of a number from a stream reads the same digits as from the
word that the extraction of a word would read. -/
theorem read_u32_token (st : IStream) (h : st.read_string.2.failbit = false) :
    (if !st.eofbit then st.read_u32 else none) = (IStream.init st.read_string.1).read_u32 := by
  obtain ⟨he, hfb, c, r, hs, hc, hw, _⟩ := read_string_ok st h
  rw [hw]
  have hd : List.dropWhile isspace (c :: r.takeWhile (fun c => !isspace c)) =
      c :: r.takeWhile (fun c => !isspace c) := by
    simp [List.dropWhile_cons, hc]
  have ht : ∀ l : List Char, List.takeWhile Char.isDigit (l.takeWhile (fun c => !isspace c)) =
      List.takeWhile Char.isDigit l :=
    takeWhile_takeWhile_imp Char.isDigit (fun c => !isspace c) isDigit_not_isspace
  have ht2 : List.takeWhile Char.isDigit (c :: r.takeWhile (fun c => !isspace c)) =
      List.takeWhile Char.isDigit (c :: r) := by
    have := ht (c :: r)
    simpa [List.takeWhile_cons, hc] using this
  simp only [he, Bool.not_false, if_true]
  unfold IStream.read_u32 IStream.init
  simp only [he, hfb, Bool.or_false, Bool.false_eq_true, if_false, hs, hd, List.head?_cons,
    List.tail_cons]
  by_cases hsign : (some c == some '-' || some c == some '+') = true
  · simp only [hsign, if_true, ht]
  · simp only [hsign, Bool.false_eq_true, if_false, ht2]

/-- A token that the extraction into a `uint32_t` accepts is accepted by
`std::stoul` as well, and the cast of its result is the number extracted. -/
theorem stoull_read_u32 (t : String) (y : Nat) (h : (IStream.init t).read_u32 = some y) :
    ∃ x, stoull t = Except.ok x ∧ x % U32 = y := by
  unfold IStream.read_u32 IStream.init at h
  unfold stoull
  simp only [Bool.or_false, Bool.false_eq_true, if_false] at h ⊢
  generalize hds : List.takeWhile Char.isDigit
    (if ((List.dropWhile isspace t.data).head? == some '-' ||
        (List.dropWhile isspace t.data).head? == some '+') = true
      then (List.dropWhile isspace t.data).tail else List.dropWhile isspace t.data) = ds at h ⊢
  by_cases he : ds.isEmpty = true
  · simp [he] at h
  · simp only [he, Bool.false_eq_true, if_false] at h ⊢
    by_cases hr : U32 ≤ digitsValue ds
    · simp [hr] at h
    · simp only [hr, if_false, Option.some.injEq] at h
      have h64 : ¬ U64 ≤ digitsValue ds := by
        unfold U32 at hr
        unfold U64
        omega
      simp only [h64, if_false]
      refine ⟨_, rfl, ?_⟩
      rw [← h]
      by_cases hn : ((List.dropWhile isspace t.data).head? == some '-') = true
      · simp only [hn, if_true]
        unfold U32 at hr ⊢
        unfold U64
        omega
      · simp only [hn, Bool.false_eq_true, if_false]
        unfold U32 at hr ⊢
        omega

/-- What `apply_record` reads from a line that `split` cuts into `PUT`, a key, a
value and possibly more words: the same key and value, and as TTL what the
extraction into a `uint32_t` makes of the fourth word. -/
theorem parse_record_put (line key value : String) (rest : List String)
    (h : split line = "PUT" :: key :: value :: rest) :
    parse_record line = Record.put key value
      (match rest with
       | [] => none
       | t :: _ => (IStream.init t).read_u32) := by
  unfold split at h
  obtain ⟨n1, hn1, hf1, hw1, h1⟩ := split_loop_cons _ _ _ _ h
  obtain ⟨n2, hn2, hf2, hw2, h2⟩ := split_loop_cons _ _ _ _ h1
  obtain ⟨n3, hn3, hf3, hw3, h3⟩ := split_loop_cons _ _ _ _ h2
  have hkey : key ≠ "" := by
    obtain ⟨_, _, c, r, _, _, hw, _⟩ := read_string_ok _ hf2
    rw [← hw2, hw]
    intro e
    have := congrArg String.data e
    simp at this
  have l1 := read_string_shorter (IStream.init line)
  have l2 := read_string_shorter (IStream.init line).read_string.2
  have l3 := read_string_shorter (IStream.init line).read_string.2.read_string.2
  simp only [hf1, hf2, hf3, Bool.false_eq_true, false_or] at l1 l2 l3
  have hlen : (IStream.init line).buf.length = line.data.length := rfl
  unfold parse_record
  simp only [hw1, hw2, hw3, if_true, ne_eq, hkey, not_false_eq_true]
  congr 1
  cases rest with
  | nil =>
    have hn : n3 = (n3 - 1) + 1 := by omega
    rw [hn] at h3
    exact read_u32_of_read_fail _ (split_loop_nil _ _ h3)
  | cons t rest' =>
    obtain ⟨n4, hn4, hf4, hw4, h4⟩ := split_loop_cons _ _ _ _ h3
    rw [read_u32_token _ hf4, hw4]

theorem parse_record_del (line key : String) (rest : List String)
    (h : split line = "DEL" :: key :: rest) :
    parse_record line = Record.del key := by
  unfold split at h
  obtain ⟨n1, hn1, hf1, hw1, h1⟩ := split_loop_cons _ _ _ _ h
  obtain ⟨n2, hn2, hf2, hw2, h2⟩ := split_loop_cons _ _ _ _ h1
  have hkey : key ≠ "" := by
    obtain ⟨_, _, c, r, _, _, hw, _⟩ := read_string_ok _ hf2
    rw [← hw2, hw]
    intro e
    have := congrArg String.data e
    simp at this
  have e1 : ¬ ("DEL" = "PUT") := by decide
  unfold parse_record
  simp only [hw1, hw2, e1, if_true, if_false, ne_eq, hkey, not_false_eq_true]

/-- Logging and publishing a line leave the store of the server as it is. -/
theorem log_and_publish_store (should_fail : Bool) (send_data : Nat → String → Int)
    (srv : KvServer) (line response : String) :
    (KvServer.log_and_publish should_fail send_data srv line response).2.1.store_ =
      srv.store_ := by
  unfold KvServer.log_and_publish
  cases hw : srv.wal_ with
  | none =>
    simp only []
    cases hr : srv.replication_ <;> rfl
  | some w =>
    simp only []
    cases ha : w.append (strBytes line) should_fail with
    | none => rfl
    | some w' =>
      simp only []
      cases hr : srv.replication_ <;> rfl

/-- What the leader does with a line that `split` cuts into `PUT`, a key, a
value and possibly more words, when `std::stoul` accepts the fourth word. -/
theorem process_command_put (hash : String → Nat) (now : Nat) (should_fail : Bool)
    (send_data : Nat → String → Int) (srv : KvServer) (line key value : String)
    (rest : List String) (ttl : Option Nat) (store : ShardedStore)
    (hrole : srv.role ≠ "replica") (hsplit : split line = "PUT" :: key :: value :: rest)
    (httl : (match rest with
             | [] => Except.ok none
             | t :: _ => (stoull t).map (fun x => some (x % U32))) = Except.ok ttl)
    (hput : put hash now srv.store_ key value ttl = some store) :
    srv.process_command hash now should_fail send_data line =
      KvServer.log_and_publish should_fail send_data
        { srv with store_ := store, put_count_ := (srv.put_count_ + 1) % U64 } line "OK" := by
  have e1 : ¬ ("PUT" = "GET") := by decide
  unfold KvServer.process_command
  simp only [hsplit, e1, if_false, if_true, hrole]
  cases rest with
  | nil =>
    simp only [Except.ok.injEq] at httl
    subst httl
    simp only [hput]
  | cons t rest' =>
    simp only [] at httl
    simp only [httl, hput]

theorem process_command_del (hash : String → Nat) (now : Nat) (should_fail : Bool)
    (send_data : Nat → String → Int) (srv : KvServer) (line key : String)
    (rest : List String)
    (hrole : srv.role ≠ "replica") (hsplit : split line = "DEL" :: key :: rest) :
    srv.process_command hash now should_fail send_data line =
      KvServer.log_and_publish should_fail send_data
        { srv with store_ := (del hash srv.store_ key).1,
                   del_count_ := (srv.del_count_ + 1) % U64 } line
        (if (del hash srv.store_ key).2 then "OK" else "NOT_FOUND") := by
  have e1 : ¬ ("DEL" = "GET") := by decide
  have e2 : ¬ ("DEL" = "PUT") := by decide
  unfold KvServer.process_command
  simp only [hsplit, e1, e2, if_false, if_true, hrole]

/-- The leader and `apply_record` agree on every line that the leader executes
as a `DEL`, as a `PUT` without TTL, or as a `PUT` whose TTL the extraction into
a `uint32_t` accepts: `apply_record` makes the same call of `put` or `del`, and
the store it returns is the store of the leader after `process_command`. -/
theorem apply_record_agrees (hash : String → Nat) (now : Nat) (should_fail : Bool)
    (send_data : Nat → String → Int) (srv : KvServer) (line : String)
    (hrole : srv.role ≠ "replica") :
    (∀ key value, split line = ["PUT", key, value] →
      apply_record hash now srv.store_ line = put hash now srv.store_ key value none ∧
      ∀ store, apply_record hash now srv.store_ line = some store →
        (srv.process_command hash now should_fail send_data line).2.1.store_ = store) ∧
    (∀ key value t rest y, split line = "PUT" :: key :: value :: t :: rest →
      (IStream.init t).read_u32 = some y →
      (∃ x, stoull t = Except.ok x ∧ x % U32 = y) ∧
      apply_record hash now srv.store_ line = put hash now srv.store_ key value (some y) ∧
      ∀ store, apply_record hash now srv.store_ line = some store →
        (srv.process_command hash now should_fail send_data line).2.1.store_ = store) ∧
    (∀ key rest, split line = "DEL" :: key :: rest →
      apply_record hash now srv.store_ line = some (del hash srv.store_ key).1 ∧
      (srv.process_command hash now should_fail send_data line).2.1.store_ =
        (del hash srv.store_ key).1) := by
  refine ⟨?_, ?_, ?_⟩
  · intro key value hs
    have hp := parse_record_put line key value [] hs
    have ha : apply_record hash now srv.store_ line = put hash now srv.store_ key value none := by
      unfold apply_record
      rw [hp]
    refine ⟨ha, ?_⟩
    intro store hst
    rw [process_command_put hash now should_fail send_data srv line key value [] none store
      hrole hs rfl (by rw [← ha]; exact hst), log_and_publish_store]
  · intro key value t rest y hs hy
    obtain ⟨x, hx, hxy⟩ := stoull_read_u32 t y hy
    have hp := parse_record_put line key value (t :: rest) hs
    simp only [hy] at hp
    have ha : apply_record hash now srv.store_ line =
        put hash now srv.store_ key value (some y) := by
      unfold apply_record
      rw [hp]
    refine ⟨⟨x, hx, hxy⟩, ha, ?_⟩
    intro store hst
    rw [process_command_put hash now should_fail send_data srv line key value (t :: rest)
      (some y) store hrole hs (by simp only [hx]; rw [← hxy]; rfl) (by rw [← ha]; exact hst),
      log_and_publish_store]
  · intro key rest hs
    have hp := parse_record_del line key rest hs
    refine ⟨?_, ?_⟩
    · unfold apply_record
      rw [hp]
    · rw [process_command_del hash now should_fail send_data srv line key rest hrole hs,
        log_and_publish_store]

/-- Claim C35, the lines on which the code departs from it: when the leader
executes a `PUT` whose TTL word `std::stoul` accepts but the extraction into a
`uint32_t` rejects, which is the case of a number of `2 ^ 32` or more where
`unsigned long` has 64 bits, the leader stores the entry with the TTL reduced
modulo `2 ^ 32`, so that the entry has a deadline, and `apply_record` run on the
same line against the same store at the same clock reading stores it without
TTL, so that the entry has no deadline. -/
theorem leader_truncates_ttl (hash : String → Nat) (now : Nat) (should_fail : Bool)
    (send_data : Nat → String → Int) (srv : KvServer) (line key value t : String)
    (rest : List String) (x : Nat)
    (hrole : srv.role ≠ "replica")
    (hsplit : split line = "PUT" :: key :: value :: t :: rest)
    (hx : stoull t = Except.ok x) (hrange : (IStream.init t).read_u32 = none) :
    apply_record hash now srv.store_ line = put hash now srv.store_ key value none ∧
    (∀ leader_store, put hash now srv.store_ key value (some (x % U32)) = some leader_store →
      srv.process_command hash now should_fail send_data line =
        KvServer.log_and_publish should_fail send_data
          { srv with store_ := leader_store, put_count_ := (srv.put_count_ + 1) % U64 }
          line "OK" ∧
      (srv.process_command hash now should_fail send_data line).2.1.store_ = leader_store ∧
      ∀ sh e, leader_store.shards_[shard_for hash srv.store_ key]? = some sh →
        mapFind sh.map key = some e →
        e.expire_at = some (now + (x % U32) * ticksPerSecond)) ∧
    (∀ replayed sh e, apply_record hash now srv.store_ line = some replayed →
      replayed.shards_[shard_for hash srv.store_ key]? = some sh →
      mapFind sh.map key = some e → e.expire_at = none) := by
  have hp := parse_record_put line key value (t :: rest) hsplit
  simp only [hrange] at hp
  have ha : apply_record hash now srv.store_ line = put hash now srv.store_ key value none := by
    unfold apply_record
    rw [hp]
  refine ⟨ha, ?_, ?_⟩
  · intro leader_store hput
    have hpc := process_command_put hash now should_fail send_data srv line key value
      (t :: rest) (some (x % U32)) leader_store hrole hsplit (by simp only [hx]; rfl) hput
    refine ⟨hpc, by rw [hpc, log_and_publish_store], ?_⟩
    intro sh e h1 h2
    rw [put_result_entry hash now srv.store_ leader_store key value (some (x % U32)) hput sh e
      h1 h2]
    rfl
  · intro replayed sh e hr h1 h2
    rw [ha] at hr
    rw [put_result_entry hash now srv.store_ replayed key value none hr sh e h1 h2]
    rfl

set_option maxRecDepth 100000 in
/-- Claim C35, instance: the leader `leaderA` answers `OK` to the line
`PUT k v 4294967296` and stores `k` with TTL 0, so that a `get` of `k` at the
same clock reading finds nothing, while `apply_record` run on the same line
against the same store at the same clock reading stores `k` without TTL, and
a `get` of `k` returns `v`. -/
theorem leader_truncates_ttl_witness :
    leaderA.role ≠ "replica" ∧
    split "PUT k v 4294967296" = ["PUT", "k", "v", "4294967296"] ∧
    (IStream.init "4294967296").read_u32 = none ∧
    apply_record lengthHash 5 leaderA.store_ "PUT k v 4294967296" =
      put lengthHash 5 leaderA.store_ "k" "v" none ∧
    (leaderA.process_command lengthHash 5 false sendAll "PUT k v 4294967296").1 =
      Outcome.response "OK" ∧
    get lengthHash 5
      (leaderA.process_command lengthHash 5 false sendAll "PUT k v 4294967296").2.1.store_
      "k" none = none ∧
    (apply_record lengthHash 5 leaderA.store_ "PUT k v 4294967296").map
      (fun replayed => get lengthHash 5 replayed "k" none) = some (some "v") :=
  ⟨by decide, by decide, by decide,
    (leader_truncates_ttl lengthHash 5 false sendAll leaderA "PUT k v 4294967296" "k" "v"
      "4294967296" [] 4294967296 (by decide) (by decide) (by rfl) (by decide)).1,
    by decide, by decide, by decide⟩

/-! ## The locks held across `enforce_memory_budget` -/

theorem owned_after_append (held : List Mutex) (a b : List LockEvent) :
    owned_after held (a ++ b) = owned_after (owned_after held a) b := by
  induction a generalizing held with
  | nil => rfl
  | cons e a ih =>
    cases e with
    | acquire m mode => exact ih (m :: held)
    | release m => exact ih (held.erase m)

/-- The `for` loop of a pass locks and unlocks the shards before the one it
takes its victim from, and then locks that one. -/
theorem for_locks_victim (shards : List Shard) :
    ∀ (j i : Nat) (k : String), firstVictim shards = some (i, k) →
      ∃ pre, for_locks j shards =
          pre ++ [LockEvent.acquire (Mutex.shard_mutex (j + i)) LockMode.exclusive,
            LockEvent.release (Mutex.shard_mutex (j + i))] ∧
        ∀ held, owned_after held pre = held := by
  induction shards with
  | nil => intro j i k h; simp [firstVictim] at h
  | cons shard rest ih =>
    intro j i k h
    unfold firstVictim at h
    cases hl : shard.lru.getLast? with
    | some key =>
      simp only [hl, Option.some.injEq, Prod.mk.injEq] at h
      have hne : shard.lru.isEmpty = false := by
        cases hlru : shard.lru with
        | nil => rw [hlru] at hl; simp at hl
        | cons a l => rfl
      refine ⟨[], ?_, fun held => rfl⟩
      unfold for_locks
      rw [← h.1]
      simp [hne]
    | none =>
      simp only [hl, Option.map_eq_some'] at h
      obtain ⟨p, hp, hpe⟩ := h
      obtain ⟨i', k'⟩ := p
      simp only [Prod.mk.injEq] at hpe
      have hnil : shard.lru = [] := List.getLast?_eq_none_iff.mp hl
      obtain ⟨pre, hpre, hown⟩ := ih (j + 1) i' k' hp
      refine ⟨[LockEvent.acquire (Mutex.shard_mutex j) LockMode.exclusive,
        LockEvent.release (Mutex.shard_mutex j)] ++ pre, ?_, ?_⟩
      · unfold for_locks
        rw [hnil, hpre, ← hpe.1]
        have e : j + 1 + i' = j + (i' + 1) := by omega
        simp [e]
      · intro held
        rw [owned_after_append]
        simp only [owned_after, List.erase_cons_head]
        exact hown held

theorem reacquires_pairs {α : Type} (f : α → Mutex) (held : List Mutex) (items : List α)
    (rest : List LockEvent) (h : reacquires held rest = true) :
    reacquires held (items.flatMap (fun item =>
      [LockEvent.acquire (f item) LockMode.exclusive, LockEvent.release (f item)]) ++ rest) =
      true := by
  induction items with
  | nil => simpa using h
  | cons a l ih =>
    have e : (a :: l).flatMap (fun item =>
        [LockEvent.acquire (f item) LockMode.exclusive, LockEvent.release (f item)]) ++ rest =
        LockEvent.acquire (f a) LockMode.exclusive :: LockEvent.release (f a) ::
          (l.flatMap (fun item =>
            [LockEvent.acquire (f item) LockMode.exclusive, LockEvent.release (f item)]) ++
            rest) := by
      simp [List.flatMap_cons]
    rw [e]
    simp only [reacquires, List.erase_cons_head, ih, Bool.or_true]

/-- Claim C31, where the code departs from it: `put` calls
`enforce_memory_budget` while it still owns the exclusive lock of its shard and
the shared lock of `rebalance_mutex_`.  So in every `put` the thread acquires
`rebalance_mutex_` a second time while it owns it, which `del` does not do; when
the counter exceeds the budget and the first victim is in the shard of the key,
the thread acquires the mutex of that shard exclusively while it owns it
exclusively, and waits for itself; and in every `restore` the thread acquires
`rebalance_mutex_` in shared mode while it owns it exclusively. -/
theorem put_keeps_locks (hash : String → Nat) (now : Nat) (s : ShardedStore)
    (key value : String) (ttl : Option Nat) :
    (∃ rest, put_locks hash now s key value ttl =
      LockEvent.acquire Mutex.rebalance_mutex_ LockMode.shared ::
      LockEvent.acquire (Mutex.shard_mutex (shard_for hash s key)) LockMode.exclusive ::
      LockEvent.acquire Mutex.rebalance_mutex_ LockMode.shared :: rest) ∧
    reacquires [] (put_locks hash now s key value ttl) = true ∧
    reacquires [] (del_locks hash s key) = false ∧
    (∀ victim,
      (put_mutation hash now s key value ttl).memory_usage_bytes_ >
        (put_mutation hash now s key value ttl).memory_budget_bytes_ →
      firstVictim (put_mutation hash now s key value ttl).shards_ =
        some (shard_for hash s key, victim) →
      ∃ pre post, put_locks hash now s key value ttl =
          pre ++ LockEvent.acquire (Mutex.shard_mutex (shard_for hash s key))
            LockMode.exclusive :: post ∧
        Mutex.shard_mutex (shard_for hash s key) ∈ owned_after [] pre) ∧
    (∀ items, reacquires [] (restore_locks hash s items) = true) := by
  refine ⟨⟨_, rfl⟩, ?_, ?_, ?_, ?_⟩
  · simp [put_locks, enforce_memory_budget_locks, reacquires]
  · simp [del_locks, reacquires]
  · intro victim hover hv
    obtain ⟨pre, hpre, hown⟩ := for_locks_victim _ 0 _ _ hv
    refine ⟨[LockEvent.acquire Mutex.rebalance_mutex_ LockMode.shared,
        LockEvent.acquire (Mutex.shard_mutex (shard_for hash s key)) LockMode.exclusive,
        LockEvent.acquire Mutex.rebalance_mutex_ LockMode.shared] ++ pre,
      LockEvent.release (Mutex.shard_mutex (shard_for hash s key)) ::
        ((match evict_step (put_mutation hash now s key value ttl) with
          | none => []
          | some s' => enforce_loop_locks
              (lruNodes (put_mutation hash now s key value ttl).shards_) s') ++
        [LockEvent.release Mutex.rebalance_mutex_] ++
        [LockEvent.release (Mutex.shard_mutex (shard_for hash s key)),
          LockEvent.release Mutex.rebalance_mutex_]), ?_, ?_⟩
    · have e : enforce_loop_locks (lruNodes (put_mutation hash now s key value ttl).shards_ + 1)
          (put_mutation hash now s key value ttl) =
          for_locks 0 (put_mutation hash now s key value ttl).shards_ ++
            (match evict_step (put_mutation hash now s key value ttl) with
              | none => []
              | some s' => enforce_loop_locks
                  (lruNodes (put_mutation hash now s key value ttl).shards_) s') := by
        rw [enforce_loop_locks]
        simp only [hover, if_true]
      unfold put_locks enforce_memory_budget_locks
      rw [e, hpre]
      simp
    · rw [owned_after_append, hown]
      simp [owned_after]
  · intro items
    have e : restore_locks hash s items =
        LockEvent.acquire Mutex.rebalance_mutex_ LockMode.exclusive ::
          (items.flatMap (fun item =>
            [LockEvent.acquire (Mutex.shard_mutex (shard_for hash s item.key))
                LockMode.exclusive,
              LockEvent.release (Mutex.shard_mutex (shard_for hash s item.key))]) ++
            (enforce_memory_budget_locks (items.foldl (restore_item hash) s) ++
              [LockEvent.release Mutex.rebalance_mutex_])) := by
      simp [restore_locks]
    have h := reacquires_pairs (fun item : SnapshotItem =>
        Mutex.shard_mutex (shard_for hash s item.key)) [Mutex.rebalance_mutex_] items
      (enforce_memory_budget_locks (items.foldl (restore_item hash) s) ++
        [LockEvent.release Mutex.rebalance_mutex_])
      (by simp [enforce_memory_budget_locks, reacquires])
    rw [e]
    simp only [reacquires, List.not_mem_nil, decide_False, Bool.false_or]
    exact h

set_option maxRecDepth 100000 in
/-- Claim C31, instance: on the empty store `storeTiny` of one shard and a budget
of one byte, `put("a", "1")` raises the counter to 2 and the eviction takes its
victim from shard 0, the shard of `a`: the thread acquires `rebalance_mutex_`
and the mutex of shard 0, then `rebalance_mutex_` again and the mutex of shard 0
again, before it releases any of them. -/
theorem put_keeps_locks_witness :
    put_locks lengthHash 0 storeTiny "a" "1" none =
      [LockEvent.acquire Mutex.rebalance_mutex_ LockMode.shared,
        LockEvent.acquire (Mutex.shard_mutex 0) LockMode.exclusive,
        LockEvent.acquire Mutex.rebalance_mutex_ LockMode.shared,
        LockEvent.acquire (Mutex.shard_mutex 0) LockMode.exclusive,
        LockEvent.release (Mutex.shard_mutex 0),
        LockEvent.release Mutex.rebalance_mutex_,
        LockEvent.release (Mutex.shard_mutex 0),
        LockEvent.release Mutex.rebalance_mutex_] ∧
    ∃ pre post, put_locks lengthHash 0 storeTiny "a" "1" none =
        pre ++ LockEvent.acquire (Mutex.shard_mutex (shard_for lengthHash storeTiny "a"))
          LockMode.exclusive :: post ∧
      Mutex.shard_mutex (shard_for lengthHash storeTiny "a") ∈ owned_after [] pre :=
  ⟨by decide,
    (put_keeps_locks lengthHash 0 storeTiny "a" "1" none).2.2.2.1 "a" (by decide) (by decide)⟩

/-! ## How the calls end -/

theorem stops_at_nil (m : Mutex) (mode : LockMode) : stops_at [] m mode = false := rfl

/-- A pass that finds a victim has visited the shards up to the victim's
without being stopped, and the victim is the one of `firstVictim`. -/
theorem for_pass_victim (held : List (Mutex × LockMode)) (shards : List Shard) :
    ∀ (i idx : Nat) (key : String), for_pass held i shards = Pass.victim idx key →
      ∃ j, idx = i + j ∧ firstVictim shards = some (j, key) ∧
        ∀ j', j' ≤ j → stops_at held (Mutex.shard_mutex (i + j')) LockMode.exclusive = false := by
  induction shards with
  | nil => intro i idx key h; simp [for_pass] at h
  | cons shard rest ih =>
    intro i idx key h
    unfold for_pass at h
    by_cases hs : stops_at held (Mutex.shard_mutex i) LockMode.exclusive = true
    · simp [hs] at h
    · simp only [hs, Bool.false_eq_true, if_false] at h
      have hs' : stops_at held (Mutex.shard_mutex i) LockMode.exclusive = false := by
        simpa using hs
      cases hl : shard.lru.getLast? with
      | some k0 =>
        simp only [hl, Pass.victim.injEq] at h
        refine ⟨0, by omega, ?_, ?_⟩
        · unfold firstVictim
          simp only [hl, h.2]
        · intro j' hj'
          have : j' = 0 := by omega
          subst this
          exact hs'
      | none =>
        simp only [hl] at h
        obtain ⟨j, hj, hv, hfree⟩ := ih (i + 1) idx key h
        refine ⟨j + 1, by omega, ?_, ?_⟩
        · unfold firstVictim
          simp only [hl, hv, Option.map_some']
        · intro j' hj'
          cases j' with
          | zero => exact hs'
          | succ j'' =>
            have := hfree j'' (by omega)
            have e : i + (j'' + 1) = i + 1 + j'' := by omega
            rw [e]
            exact this

/-- A pass that finds no victim has visited every shard without being stopped. -/
theorem for_pass_no_victim (held : List (Mutex × LockMode)) (shards : List Shard) :
    ∀ (i : Nat), for_pass held i shards = Pass.no_victim →
      firstVictim shards = none ∧
        ∀ j', j' < shards.length →
          stops_at held (Mutex.shard_mutex (i + j')) LockMode.exclusive = false := by
  induction shards with
  | nil => intro i _; exact ⟨rfl, fun j' hj' => by simp at hj'⟩
  | cons shard rest ih =>
    intro i h
    unfold for_pass at h
    by_cases hs : stops_at held (Mutex.shard_mutex i) LockMode.exclusive = true
    · simp [hs] at h
    · simp only [hs, Bool.false_eq_true, if_false] at h
      have hs' : stops_at held (Mutex.shard_mutex i) LockMode.exclusive = false := by
        simpa using hs
      cases hl : shard.lru.getLast? with
      | some k0 => simp [hl] at h
      | none =>
        simp only [hl] at h
        obtain ⟨hv, hfree⟩ := ih (i + 1) h
        refine ⟨?_, ?_⟩
        · unfold firstVictim
          simp only [hl, hv, Option.map_none']
        · intro j' hj'
          cases j' with
          | zero => exact hs'
          | succ j'' =>
            have := hfree j'' (by simp only [List.length_cons] at hj'; omega)
            have e : i + (j'' + 1) = i + 1 + j'' := by omega
            rw [e]
            exact this

/-- A pass that is stopped is stopped at a shard whose mutex the thread owns,
after shards whose recency lists are empty. -/
theorem for_pass_stopped (held : List (Mutex × LockMode)) (shards : List Shard) :
    ∀ (i idx : Nat), for_pass held i shards = Pass.stopped idx →
      ∃ j, idx = i + j ∧ j < shards.length ∧
        stops_at held (Mutex.shard_mutex idx) LockMode.exclusive = true ∧
        ∀ (j' : Nat) (sh : Shard), j' < j → shards[j']? = some sh → sh.lru = [] := by
  induction shards with
  | nil => intro i idx h; simp [for_pass] at h
  | cons shard rest ih =>
    intro i idx h
    unfold for_pass at h
    by_cases hs : stops_at held (Mutex.shard_mutex i) LockMode.exclusive = true
    · simp only [hs, if_true, Pass.stopped.injEq] at h
      subst h
      exact ⟨0, by omega, by simp, hs, fun j' sh hj' => by omega⟩
    · simp only [hs, Bool.false_eq_true, if_false] at h
      cases hl : shard.lru.getLast? with
      | some k0 => simp [hl] at h
      | none =>
        simp only [hl] at h
        obtain ⟨j, hj, hlt, hst, hemp⟩ := ih (i + 1) idx h
        refine ⟨j + 1, by omega, by simp only [List.length_cons]; omega, hst, ?_⟩
        intro j' sh hj' hsh
        cases j' with
        | zero =>
          simp only [List.getElem?_cons_zero, Option.some.injEq] at hsh
          subst hsh
          exact List.getLast?_eq_none_iff.mp hl
        | succ j'' =>
          exact hemp j'' sh (by omega) (by simpa using hsh)

/-- A thread that owns none of the mutexes of the shards makes the pass of
`firstVictim`. -/
theorem for_pass_free (held : List (Mutex × LockMode)) (shards : List Shard) :
    ∀ (i : Nat),
      (∀ j, j < shards.length →
        stops_at held (Mutex.shard_mutex (i + j)) LockMode.exclusive = false) →
      for_pass held i shards =
        match firstVictim shards with
        | some (j, key) => Pass.victim (i + j) key
        | none => Pass.no_victim := by
  induction shards with
  | nil => intro i _; rfl
  | cons shard rest ih =>
    intro i hfree
    have h0 := hfree 0 (by simp)
    simp only [Nat.add_zero] at h0
    unfold for_pass firstVictim
    simp only [h0, Bool.false_eq_true, if_false]
    cases hl : shard.lru.getLast? with
    | some k0 => simp
    | none =>
      simp only []
      rw [ih (i + 1) (fun j hj => by
        have := hfree (j + 1) (by simp only [List.length_cons]; omega)
        have e : i + (j + 1) = i + 1 + j := by omega
        rw [← e]; exact this)]
      cases hv : firstVictim rest with
      | none => rfl
      | some p =>
        obtain ⟨j, key⟩ := p
        simp only [Option.map_some']
        have e : i + 1 + j = i + (j + 1) := by omega
        rw [e]

theorem evict_step_of_victim (s : ShardedStore) (j : Nat) (key : String)
    (h : firstVictim s.shards_ = some (j, key)) :
    evict_step s = some (record_eviction (remove_entry s j key)) := by
  unfold evict_step
  rw [h]

/-- The loop of a call that returns has made the passes of `enforce_loop`. -/
theorem enforce_loop_call_returns (held : List (Mutex × LockMode)) :
    ∀ (fuel : Nat) (s s' : ShardedStore),
      enforce_loop_call held fuel s = CallEnd.returns s' → enforce_loop fuel s = some s' := by
  intro fuel
  induction fuel with
  | zero => intro s s' h; simp [enforce_loop_call] at h
  | succ n ih =>
    intro s s' h
    unfold enforce_loop_call at h
    unfold enforce_loop
    by_cases hc : s.memory_usage_bytes_ > s.memory_budget_bytes_
    · simp only [hc, if_true] at h ⊢
      cases hp : for_pass held 0 s.shards_ with
      | stopped idx => simp [hp] at h
      | victim idx key =>
        simp only [hp] at h
        obtain ⟨j, hj, hv, _⟩ := for_pass_victim held s.shards_ 0 idx key hp
        have hidx : idx = j := by omega
        subst hidx
        rw [evict_step_of_victim s idx key hv]
        exact ih _ _ h
      | no_victim =>
        simp only [hp, CallEnd.returns.injEq] at h
        have hv := (for_pass_no_victim held s.shards_ 0 hp).1
        subst h
        simp only [evict_step, hv]
    · simp only [hc, if_false, CallEnd.returns.injEq] at h ⊢
      rw [h]

theorem enforce_call_returns (held : List (Mutex × LockMode)) (s s' : ShardedStore)
    (h : enforce_memory_budget_call held s = CallEnd.returns s') :
    enforce_memory_budget s = some s' := by
  unfold enforce_memory_budget_call at h
  by_cases hs : stops_at held Mutex.rebalance_mutex_ LockMode.shared = true
  · simp [hs] at h
  · simp only [hs, Bool.false_eq_true, if_false] at h
    cases hl : enforce_loop_call held (lruNodes s.shards_ + 1) s with
    | returns s1 =>
      simp only [hl, CallEnd.returns.injEq] at h
      unfold enforce_memory_budget
      rw [enforce_loop_call_returns held _ s s1 hl, ← h]
      rfl
    | stops m s1 => simp [hl] at h
    | never_exits => simp [hl] at h

/-- When `put` returns, the store it leaves is the one of `put`. -/
theorem put_call_returns (hash : String → Nat) (now : Nat) (s s' : ShardedStore)
    (key value : String) (ttl : Option Nat)
    (h : put_call hash now s key value ttl = CallEnd.returns s') :
    put hash now s key value ttl = some s' :=
  enforce_call_returns _ _ _ h

theorem call_returns (hash : String → Nat) (op : Op) (s s' : ShardedStore)
    (h : op.call hash s = CallEnd.returns s') : op.apply hash s = some s' := by
  cases op with
  | get now key V => simpa [Op.call, Op.apply] using h
  | put now key value ttl => exact put_call_returns hash now s s' key value ttl h
  | del key => simpa [Op.call, Op.apply] using h
  | snapshot V => simpa [Op.call, Op.apply] using h
  | restore items =>
    have h' : restore_call hash s items = CallEnd.returns s' := h
    exact enforce_call_returns _ _ _ h'
  | expire_keys now => simpa [Op.call, Op.apply] using h
  | enforce_memory_budget =>
    have h' : enforce_memory_budget_call [] s = CallEnd.returns s' := h
    exact enforce_call_returns _ _ _ h'
  | rebalance n => simpa [Op.call, Op.apply] using h

/-- A sequence of calls that return leaves the store of `run`. -/
theorem run_call_returns (hash : String → Nat) (ops : List Op) :
    ∀ (s s' : ShardedStore), run_call hash ops s = CallEnd.returns s' →
      run hash ops s = some s' := by
  induction ops with
  | nil => intro s s' h; simpa [run_call, run] using h
  | cons op ops ih =>
    intro s s' h
    unfold run_call at h
    unfold run
    cases hc : op.call hash s with
    | returns s1 =>
      simp only [hc] at h
      rw [call_returns hash op s s1 hc]
      exact ih s1 s' h
    | stops m s1 => simp [hc] at h
    | never_exits => simp [hc] at h

/-- An invariant of the passes holds of the store that the loop leaves, whether
the call returns or is stopped. -/
theorem enforce_loop_call_induct (held : List (Mutex × LockMode)) (P : ShardedStore → Prop)
    (hstep : ∀ s idx key, P s → s.memory_usage_bytes_ > s.memory_budget_bytes_ →
      for_pass held 0 s.shards_ = Pass.victim idx key →
      P (record_eviction (remove_entry s idx key))) :
    ∀ (fuel : Nat) (s : ShardedStore), P s →
      (∀ s', enforce_loop_call held fuel s = CallEnd.returns s' → P s') ∧
      (∀ m s', enforce_loop_call held fuel s = CallEnd.stops m s' → P s') := by
  intro fuel
  induction fuel with
  | zero =>
    intro s _
    exact ⟨fun s' h => by simp [enforce_loop_call] at h,
      fun m s' h => by simp [enforce_loop_call] at h⟩
  | succ n ih =>
    intro s hP
    unfold enforce_loop_call
    by_cases hc : s.memory_usage_bytes_ > s.memory_budget_bytes_
    · simp only [hc, if_true]
      cases hp : for_pass held 0 s.shards_ with
      | stopped idx =>
        simp only []
        refine ⟨fun s' h => by simp at h, fun m s' h => ?_⟩
        simp only [CallEnd.stops.injEq] at h
        rw [← h.2]; exact hP
      | victim idx key =>
        simp only []
        exact ih _ (hstep s idx key hP hc hp)
      | no_victim =>
        simp only []
        refine ⟨fun s' h => ?_, fun m s' h => by simp at h⟩
        simp only [CallEnd.returns.injEq] at h
        rw [← h]; exact hP
    · simp only [hc, if_false]
      refine ⟨fun s' h => ?_, fun m s' h => by simp at h⟩
      simp only [CallEnd.returns.injEq] at h
      rw [← h]; exact hP

/-- The same for the call of `enforce_memory_budget`, for invariants that do
not depend on the gauge. -/
theorem enforce_call_induct (held : List (Mutex × LockMode)) (P : ShardedStore → Prop)
    (hstep : ∀ s idx key, P s → s.memory_usage_bytes_ > s.memory_budget_bytes_ →
      for_pass held 0 s.shards_ = Pass.victim idx key →
      P (record_eviction (remove_entry s idx key)))
    (hset : ∀ s, P s → P (set_memory_bytes s)) (s : ShardedStore) (hP : P s) :
    (∀ s', enforce_memory_budget_call held s = CallEnd.returns s' → P s') ∧
    (∀ m s', enforce_memory_budget_call held s = CallEnd.stops m s' → P s') := by
  unfold enforce_memory_budget_call
  by_cases hs : stops_at held Mutex.rebalance_mutex_ LockMode.shared = true
  · simp only [hs, if_true]
    refine ⟨fun s' h => by simp at h, fun m s' h => ?_⟩
    simp only [CallEnd.stops.injEq] at h
    rw [← h.2]; exact hP
  · simp only [hs, Bool.false_eq_true, if_false]
    have hloop := enforce_loop_call_induct held P hstep (lruNodes s.shards_ + 1) s hP
    cases hl : enforce_loop_call held (lruNodes s.shards_ + 1) s with
    | returns s1 =>
      simp only []
      refine ⟨fun s' h => ?_, fun m s' h => by simp at h⟩
      simp only [CallEnd.returns.injEq] at h
      rw [← h]
      exact hset s1 (hloop.1 s1 hl)
    | stops m1 s1 =>
      simp only []
      refine ⟨fun s' h => by simp at h, fun m s' h => ?_⟩
      simp only [CallEnd.stops.injEq] at h
      rw [← h.2]
      exact hloop.2 m1 s1 hl
    | never_exits =>
      simp only []
      exact ⟨fun s' h => by simp at h, fun m s' h => by simp at h⟩

/-- A call of `enforce_memory_budget` within the budget by a thread that does
not own `rebalance_mutex_` exclusively returns at once. -/
theorem enforce_call_within (held : List (Mutex × LockMode)) (s : ShardedStore)
    (hs : stops_at held Mutex.rebalance_mutex_ LockMode.shared = false)
    (h : s.memory_usage_bytes_ ≤ s.memory_budget_bytes_) :
    enforce_memory_budget_call held s = CallEnd.returns (set_memory_bytes s) := by
  unfold enforce_memory_budget_call enforce_loop_call
  have hc : ¬ s.memory_usage_bytes_ > s.memory_budget_bytes_ := by omega
  simp only [hs, Bool.false_eq_true, if_false, hc]

/-- When the mutation step of `put` leaves the counter within the budget, the
loop makes no pass, no mutex of a shard is requested and `put` returns. -/
theorem put_call_within (hash : String → Nat) (now : Nat) (s : ShardedStore)
    (key value : String) (ttl : Option Nat)
    (h : (put_mutation hash now s key value ttl).memory_usage_bytes_ ≤ s.memory_budget_bytes_) :
    put_call hash now s key value ttl =
      CallEnd.returns (set_memory_bytes (put_mutation hash now s key value ttl)) := by
  unfold put_call
  apply enforce_call_within
  · simp [stops_at]
  · rw [put_mutation_budget]; exact h

/-- The call of `restore` never returns: the thread is stopped at line 146,
where `enforce_memory_budget` requests `rebalance_mutex_`, with the store as the
loop over the items left it. -/
theorem restore_call_stops (hash : String → Nat) (s : ShardedStore) (items : List SnapshotItem) :
    restore_call hash s items =
      CallEnd.stops Mutex.rebalance_mutex_ (items.foldl (restore_item hash) s) := by
  simp [restore_call, enforce_memory_budget_call, stops_at]

/-- A direct call of `enforce_memory_budget`, by a thread that owns no mutex,
ends as `enforce_loop` says. -/
theorem enforce_loop_call_direct :
    ∀ (fuel : Nat) (s : ShardedStore),
      enforce_loop_call [] fuel s =
        match enforce_loop fuel s with
        | some s' => CallEnd.returns s'
        | none => CallEnd.never_exits := by
  intro fuel
  induction fuel with
  | zero => intro s; rfl
  | succ n ih =>
    intro s
    unfold enforce_loop_call enforce_loop
    by_cases hc : s.memory_usage_bytes_ > s.memory_budget_bytes_
    · simp only [hc, if_true]
      rw [for_pass_free [] s.shards_ 0 (fun j _ => stops_at_nil _ _)]
      unfold evict_step
      cases hv : firstVictim s.shards_ with
      | none => rfl
      | some p =>
        obtain ⟨j, key⟩ := p
        simp only [Nat.zero_add]
        exact ih _
    · simp only [hc, if_false]

theorem enforce_call_direct (s : ShardedStore) :
    enforce_memory_budget_call [] s =
      match enforce_memory_budget s with
      | some s' => CallEnd.returns s'
      | none => CallEnd.never_exits := by
  unfold enforce_memory_budget_call enforce_memory_budget
  simp only [stops_at_nil, Bool.false_eq_true, if_false]
  rw [enforce_loop_call_direct]
  cases enforce_loop (lruNodes s.shards_ + 1) s <;> rfl

/-- The shards from the one of the key on are not touched by the evictions of
a `put`, whether it returns or is stopped: a pass takes its victim from a shard
of lower index. -/
theorem put_call_frame (hash : String → Nat) (now : Nat) (s : ShardedStore)
    (key value : String) (ttl : Option Nat) :
    (∀ s', put_call hash now s key value ttl = CallEnd.returns s' →
      s'.shards_.length = s.shards_.length ∧
      ∀ j, shard_for hash s key ≤ j →
        s'.shards_[j]? = (put_mutation hash now s key value ttl).shards_[j]?) ∧
    (∀ m s', put_call hash now s key value ttl = CallEnd.stops m s' →
      s'.shards_.length = s.shards_.length ∧
      ∀ j, shard_for hash s key ≤ j →
        s'.shards_[j]? = (put_mutation hash now s key value ttl).shards_[j]?) := by
  let held : List (Mutex × LockMode) :=
    [(Mutex.rebalance_mutex_, LockMode.shared),
      (Mutex.shard_mutex (shard_for hash s key), LockMode.exclusive)]
  let P : ShardedStore → Prop := fun x =>
    x.shards_.length = s.shards_.length ∧
    ∀ j, shard_for hash s key ≤ j →
      x.shards_[j]? = (put_mutation hash now s key value ttl).shards_[j]?
  have hstep : ∀ x idx k, P x → x.memory_usage_bytes_ > x.memory_budget_bytes_ →
      for_pass held 0 x.shards_ = Pass.victim idx k →
      P (record_eviction (remove_entry x idx k)) := by
    intro x idx k hP _ hp
    obtain ⟨j, hj, _, hfree⟩ := for_pass_victim held x.shards_ 0 idx k hp
    have hlt : idx < shard_for hash s key := by
      by_contra hge
      have := hfree (shard_for hash s key) (by omega)
      simp [held, stops_at] at this
    refine ⟨?_, ?_⟩
    · show (remove_entry x idx k).shards_.length = s.shards_.length
      rw [remove_entry_length]; exact hP.1
    · intro j' hj'
      show (remove_entry x idx k).shards_[j']? = _
      rw [remove_entry_getElem_ne x idx j' k (by omega)]
      exact hP.2 j' hj'
  have h0 : P (put_mutation hash now s key value ttl) :=
    ⟨put_mutation_length _ _ _ _ _ _, fun _ _ => rfl⟩
  exact enforce_call_induct held P hstep (fun x hx => hx) _ h0

/-- The same for a call of `enforce_memory_budget` that leaves the loop:
whether the counter is within the budget afterwards. -/
theorem enforce_loop_call_exit (held : List (Mutex × LockMode)) :
    ∀ (fuel : Nat) (s s' : ShardedStore),
      enforce_loop_call held fuel s = CallEnd.returns s' →
      s'.memory_usage_bytes_ ≤ s'.memory_budget_bytes_ ∨
        for_pass held 0 s'.shards_ = Pass.no_victim := by
  intro fuel
  induction fuel with
  | zero => intro s s' h; simp [enforce_loop_call] at h
  | succ n ih =>
    intro s s' h
    unfold enforce_loop_call at h
    by_cases hc : s.memory_usage_bytes_ > s.memory_budget_bytes_
    · simp only [hc, if_true] at h
      cases hp : for_pass held 0 s.shards_ with
      | stopped idx => simp [hp] at h
      | victim idx key =>
        simp only [hp] at h
        exact ih _ _ h
      | no_victim =>
        simp only [hp, CallEnd.returns.injEq] at h
        rw [← h]; exact Or.inr hp
    · simp only [hc, if_false, CallEnd.returns.injEq] at h
      rw [← h]; left; omega

/-- A pass that removes nothing is repeated for ever. -/
theorem enforce_loop_call_stuck (held : List (Mutex × LockMode)) (fuel : Nat) (s : ShardedStore)
    (idx : Nat) (key : String) (hm : s.memory_usage_bytes_ > s.memory_budget_bytes_)
    (hp : for_pass held 0 s.shards_ = Pass.victim idx key) (hr : remove_entry s idx key = s) :
    enforce_loop_call held fuel s = CallEnd.never_exits := by
  induction fuel generalizing s with
  | zero => rfl
  | succ n ih =>
    unfold enforce_loop_call
    simp only [hm, if_true, hp, hr]
    apply ih (record_eviction s)
    · exact hm
    · exact hp
    · rw [remove_entry_record_eviction, hr]

/-- Whenever some number of passes lets the loop of a call end, by a return or
at a lock, the number of passes that the model allows does, with the same end. -/
theorem enforce_loop_call_fuel (held : List (Mutex × LockMode)) (fuel : Nat) (s : ShardedStore)
    (e : CallEnd) (h : enforce_loop_call held fuel s = e) (hne : e ≠ CallEnd.never_exits) :
    enforce_loop_call held (lruNodes s.shards_ + 1) s = e := by
  induction fuel generalizing s with
  | zero =>
    simp only [enforce_loop_call] at h
    exact absurd h.symm hne
  | succ n ih =>
    unfold enforce_loop_call at h ⊢
    by_cases hm : s.memory_usage_bytes_ > s.memory_budget_bytes_
    · simp only [hm, if_true] at h ⊢
      cases hp : for_pass held 0 s.shards_ with
      | stopped idx => simpa [hp] using h
      | no_victim => simpa [hp] using h
      | victim idx key =>
        simp only [hp] at h ⊢
        have hs1 := ih _ h
        obtain ⟨j, hj, hv, _⟩ := for_pass_victim held s.shards_ 0 idx key hp
        have hidx : idx = j := by omega
        subst hidx
        obtain ⟨sh, h1, h2⟩ := firstVictim_some _ _ _ hv
        rcases remove_entry_cases s idx key with hr | ⟨shard, e0, hsh, hf, hr⟩
        · have := enforce_loop_call_stuck held (n + 1) s idx key hm hp hr
          unfold enforce_loop_call at this
          simp only [hm, if_true, hp] at this
          rw [this] at h
          exact absurd h.symm hne
        · rw [h1] at hsh
          simp only [Option.some.injEq] at hsh
          subst hsh
          have hmem : key ∈ sh.lru := List.mem_of_getLast?_eq_some h2
          have hcount : lruNodes (record_eviction (remove_entry s idx key)).shards_ + 1 =
              lruNodes s.shards_ := by
            rw [hr]
            have := lruNodes_set s.shards_ idx sh
              { map := mapErase sh.map key, lru := sh.lru.erase key } h1
            simp only [List.length_erase_of_mem hmem] at this
            have hpos : 0 < sh.lru.length := List.length_pos_of_mem hmem
            simp only [record_eviction]
            omega
          rw [← hcount]
          exact hs1
    · simp only [hm, if_false] at h ⊢
      exact h

/-- The end `never_exits` of a `put` means that no number of passes lets its
loop end. -/
theorem put_call_never_exits_iff (hash : String → Nat) (now : Nat) (s : ShardedStore)
    (key value : String) (ttl : Option Nat) :
    put_call hash now s key value ttl = CallEnd.never_exits ↔
      ∀ fuel, enforce_loop_call
        [(Mutex.rebalance_mutex_, LockMode.shared),
          (Mutex.shard_mutex (shard_for hash s key), LockMode.exclusive)]
        fuel (put_mutation hash now s key value ttl) = CallEnd.never_exits := by
  unfold put_call enforce_memory_budget_call
  have hs : stops_at [(Mutex.rebalance_mutex_, LockMode.shared),
      (Mutex.shard_mutex (shard_for hash s key), LockMode.exclusive)]
      Mutex.rebalance_mutex_ LockMode.shared = false := by simp [stops_at]
  simp only [hs, Bool.false_eq_true, if_false]
  constructor
  · intro h fuel
    by_contra hne
    have := enforce_loop_call_fuel _ fuel _ _ rfl hne
    rw [this] at h
    cases hf : enforce_loop_call
        [(Mutex.rebalance_mutex_, LockMode.shared),
          (Mutex.shard_mutex (shard_for hash s key), LockMode.exclusive)]
        fuel (put_mutation hash now s key value ttl) with
    | returns s1 => simp [hf] at h
    | stops m s1 => simp [hf] at h
    | never_exits => exact hne hf
  · intro h
    rw [h]

/-! ## The key just written survives the evictions of its `put` -/

/-- When `put` returns, the entry it wrote is found under the key. -/
theorem put_call_entry (hash : String → Nat) (now : Nat) (s s' : ShardedStore)
    (k v : String) (ttl : Option Nat) (hpos : 0 < s.shards_.length)
    (hput : put_call hash now s k v ttl = CallEnd.returns s') :
    lookup hash s' k = some
      { value := v, version := (s.version_ + 1) % U64,
        expire_at := ttl.map (fun t => now + t * ticksPerSecond),
        size_bytes := strSize k + strSize v } := by
  obtain ⟨hlen, hframe⟩ := (put_call_frame hash now s k v ttl).1 s' hput
  obtain ⟨sh, h1, h2⟩ := put_mutation_find hash now s k v ttl hpos
  unfold lookup
  have h3 : s'.shards_[hash k % s'.shards_.length]? = some sh := by
    rw [hlen]
    have := hframe (shard_for hash s k) (Nat.le_refl _)
    unfold shard_for at this h1
    rw [this, h1]
  rw [lookupIn_at hash s'.shards_ sh k h3, h2]

/-- Claim C12: in every store with at least one shard, when `put(k, v)` returns,
also after evictions, the entry it wrote is found under `k` and a `get(k)`
before its deadline returns `v`; the shard of `k` and the shards of higher index
are as the mutation step left them, so the entries evicted by that `put` are
entries of other keys, in shards of lower index. -/
theorem put_survives (hash : String → Nat) (now now' : Nat) (s s' : ShardedStore)
    (k v : String) (ttl : Option Nat) (hpos : 0 < s.shards_.length)
    (hput : put_call hash now s k v ttl = CallEnd.returns s') :
    lookup hash s' k = some
      { value := v, version := (s.version_ + 1) % U64,
        expire_at := ttl.map (fun t => now + t * ticksPerSecond),
        size_bytes := strSize k + strSize v } ∧
    ((∀ secs, ttl = some secs → now' < now + secs * ticksPerSecond) →
      get hash now' s' k none = some v) ∧
    s'.shards_.length = s.shards_.length ∧
    (∀ j, shard_for hash s k ≤ j →
      s'.shards_[j]? = (put_mutation hash now s k v ttl).shards_[j]?) ∧
    put hash now s k v ttl = some s' := by
  have hentry := put_call_entry hash now s s' k v ttl hpos hput
  obtain ⟨hlen, hframe⟩ := (put_call_frame hash now s k v ttl).1 s' hput
  refine ⟨hentry, ?_, hlen, hframe, put_call_returns hash now s s' k v ttl hput⟩
  intro hexp
  have := get_of_lookup hash now' s' k _ hentry (by
    intro d hd
    cases ttl with
    | none => simp at hd
    | some secs =>
      simp only [Option.map_some', Option.some.injEq] at hd
      rw [← hd]
      exact hexp secs rfl)
  exact this

set_option maxRecDepth 100000 in
/-- Claim C12, instance: `storeBB` holds `bb` in shard 0 and its budget is 5;
`put("a", "1")` writes 2 bytes into shard 1, the counter becomes 6, the pass
evicts `bb` from shard 0, `put` returns and `get("a")` returns `1`. -/
theorem put_survives_witness :
    0 < storeBB.shards_.length ∧
    put_call lengthHash 1 storeBB "a" "1" none = CallEnd.returns
      { shards_ :=
          [{ map := [], lru := [] },
           { map := [("a", { value := "1", version := 2, expire_at := none, size_bytes := 2 })],
             lru := ["a"] }]
        memory_budget_bytes_ := 5
        memory_usage_bytes_ := 2
        version_ := 2
        metrics_ := { eviction_count_ := 1, memory_bytes_ := 2 } } ∧
    get lengthHash 9
      { shards_ :=
          [{ map := [], lru := [] },
           { map := [("a", { value := "1", version := 2, expire_at := none, size_bytes := 2 })],
             lru := ["a"] }]
        memory_budget_bytes_ := 5
        memory_usage_bytes_ := 2
        version_ := 2
        metrics_ := { eviction_count_ := 1, memory_bytes_ := 2 } } "a" none = some "1" :=
  ⟨by decide, by decide,
    (put_survives lengthHash 1 9 storeBB _ "a" "1" none (by decide) (by decide)).2.1
      (by intro secs h; exact Option.noConfusion h)⟩

/-! ## Expiry of a written entry -/

/-- A `get` on a store in which the entry under the key has the deadline `d`:
the value before the deadline, absent from the deadline on. -/
theorem get_with_deadline (hash : String → Nat) (t' : Nat) (s : ShardedStore) (k : String)
    (e : Entry) (d : Nat) (h : lookup hash s k = some e) (hd : e.expire_at = some d) :
    (t' < d → get hash t' s k none = some e.value) ∧ (d ≤ t' → get hash t' s k none = none) := by
  constructor
  · intro hlt
    exact get_of_lookup hash t' s k e h (fun d' hd' => by
      rw [hd] at hd'
      simp only [Option.some.injEq] at hd'
      omega)
  · intro hle
    rw [get_eq_lookup, h]
    simp [too_new, expired, hd, hle]

/-- Claim C6: let `put(k, v, ttl)` run at time `t` on a store with at least one
shard and return.  The entry found under `k` is then the entry written, with
deadline `t + ttl` seconds.  On the store that `put` leaves, and on every later
store in which the entry under `k` is still that entry (no later write to `k`
and no eviction of `k`), a `get(k)` at time `t'` returns `v` when `t'` is
before the deadline and absent when `t'` is at or after it; with `ttl = 0`
every `get` at or after `t` returns absent. -/
theorem get_after_put_ttl (hash : String → Nat) (t t' : Nat) (s s' : ShardedStore)
    (k v : String) (ttl : Nat) (hpos : 0 < s.shards_.length)
    (hput : put_call hash t s k v (some ttl) = CallEnd.returns s') :
    lookup hash s' k = some
      { value := v, version := (s.version_ + 1) % U64,
        expire_at := some (t + ttl * ticksPerSecond),
        size_bytes := strSize k + strSize v } ∧
    (∀ s'' : ShardedStore, lookup hash s'' k = lookup hash s' k →
      (t' < t + ttl * ticksPerSecond → get hash t' s'' k none = some v) ∧
      (t + ttl * ticksPerSecond ≤ t' → get hash t' s'' k none = none) ∧
      (ttl = 0 → t ≤ t' → get hash t' s'' k none = none)) := by
  have hentry := put_call_entry hash t s s' k v (some ttl) hpos hput
  simp only [Option.map_some'] at hentry
  refine ⟨hentry, ?_⟩
  intro s'' hsame
  rw [hentry] at hsame
  have hg := get_with_deadline hash t' s'' k _ (t + ttl * ticksPerSecond) hsame rfl
  refine ⟨hg.1, hg.2, ?_⟩
  intro h0 hle
  apply hg.2
  subst h0
  omega

set_option maxRecDepth 100000 in
/-- Claim C6, instance: `PUT a 1 1` at time 0 on an empty store of one shard and
budget 10 returns and leaves `storeA1`; `GET a` half a second later returns `1`,
and `GET a` 1.5 s later returns absent. -/
theorem get_after_put_ttl_witness :
    0 < (ShardedStore.init 1 10).shards_.length ∧
    put_call lengthHash 0 (ShardedStore.init 1 10) "a" "1" (some 1) = CallEnd.returns storeA1 ∧
    get lengthHash 500000000 storeA1 "a" none = some "1" ∧
    get lengthHash 1500000000 storeA1 "a" none = none :=
  ⟨by decide, by decide,
    ((get_after_put_ttl lengthHash 0 500000000 (ShardedStore.init 1 10) storeA1 "a" "1" 1
      (by decide) (by decide)).2 storeA1 rfl).1 (by decide),
    ((get_after_put_ttl lengthHash 0 1500000000 (ShardedStore.init 1 10) storeA1 "a" "1" 1
      (by decide) (by decide)).2 storeA1 rfl).2.1 (by decide)⟩

/-! ## Invariants 1 and 2 after a sequence of calls -/

/-- A call other than `restore` on a store with at least one shard that
satisfies the invariants leaves such a store, whether the call returns or is
stopped at a lock. -/
theorem call_inv (hash : String → Nat) (op : Op) (s : ShardedStore)
    (hr : op.isRestore = false) (h : storeInv hash s) (hpos : 0 < s.shards_.length) :
    (∀ s', op.call hash s = CallEnd.returns s' →
      storeInv hash s' ∧ 0 < s'.shards_.length) ∧
    (∀ m s', op.call hash s = CallEnd.stops m s' →
      storeInv hash s' ∧ 0 < s'.shards_.length) := by
  have hret : ∀ s', op.call hash s = CallEnd.returns s' →
      storeInv hash s' ∧ 0 < s'.shards_.length := by
    intro s' hc
    obtain ⟨s1, h1, h2⟩ := apply_inv hash op s hr h
    have ha := call_returns hash op s s' hc
    have := ha
    rw [h1] at this
    simp only [Option.some.injEq] at this
    rw [← this]
    rw [← this] at ha
    exact ⟨h2, (apply_placed hash op s s1 hpos h.2.1 ha).1⟩
  refine ⟨hret, ?_⟩
  intro m s' hc
  cases op with
  | get now key V => simp [Op.call] at hc
  | put now key value ttl =>
    have hc' : put_call hash now s key value ttl = CallEnd.stops m s' := hc
    exact (enforce_call_induct _ (fun x => storeInv hash x ∧ 0 < x.shards_.length)
      (fun x idx k hP _ _ => ⟨remove_entry_inv hash x idx k hP.1, by
        show 0 < (remove_entry x idx k).shards_.length
        rw [remove_entry_length]; exact hP.2⟩) (fun x hx => hx) _
      ⟨put_mutation_inv hash now s key value ttl h, by
        rw [put_mutation_length]; exact hpos⟩).2 m s' hc'
  | del key => simp [Op.call] at hc
  | snapshot V => simp [Op.call] at hc
  | restore items => simp [Op.isRestore] at hr
  | expire_keys now => simp [Op.call] at hc
  | enforce_memory_budget =>
    have hc' : enforce_memory_budget_call [] s = CallEnd.stops m s' := hc
    rw [enforce_call_direct] at hc'
    cases he : enforce_memory_budget s <;> simp [he] at hc'
  | rebalance n => simp [Op.call] at hc

/-- A sequence of calls other than `restore` on a store with at least one shard
that satisfies the invariants leaves such a store, whether it ends by the
return of its last call or at a call that is stopped at a lock. -/
theorem run_call_inv (hash : String → Nat) (ops : List Op) (s : ShardedStore)
    (hr : ∀ op ∈ ops, op.isRestore = false) (h : storeInv hash s)
    (hpos : 0 < s.shards_.length) :
    (∀ s', run_call hash ops s = CallEnd.returns s' →
      storeInv hash s' ∧ 0 < s'.shards_.length) ∧
    (∀ m s', run_call hash ops s = CallEnd.stops m s' →
      storeInv hash s' ∧ 0 < s'.shards_.length) := by
  induction ops generalizing s with
  | nil =>
    refine ⟨fun s' hc => ?_, fun m s' hc => by simp [run_call] at hc⟩
    simp only [run_call, CallEnd.returns.injEq] at hc
    rw [← hc]; exact ⟨h, hpos⟩
  | cons op ops ih =>
    have hop := call_inv hash op s (hr op (List.mem_cons_self _ _)) h hpos
    unfold run_call
    cases hc : op.call hash s with
    | returns s1 =>
      simp only []
      exact ih s1 (fun o ho => hr o (List.mem_cons_of_mem _ ho)) (hop.1 s1 hc).1
        (hop.1 s1 hc).2
    | stops m1 s1 =>
      simp only []
      refine ⟨fun s' h' => by simp at h', fun m s' h' => ?_⟩
      simp only [CallEnd.stops.injEq] at h'
      rw [← h'.2]
      exact hop.2 m1 s1 hc
    | never_exits =>
      simp only []
      exact ⟨fun s' h' => by simp at h', fun m s' h' => by simp at h'⟩

/-- The invariants at the end of a sequence of calls other than `restore` from
an empty store with at least one shard. -/
theorem run_ends_inv (hash : String → Nat) (shards budget : Nat) (ops : List Op)
    (hshards : 0 < shards) (hops : ∀ op ∈ ops, op.isRestore = false) (s : ShardedStore)
    (hrun : run hash ops (ShardedStore.init shards budget) = some s ∨
      ∃ m, run_call hash ops (ShardedStore.init shards budget) = CallEnd.stops m s) :
    storeInv hash s ∧ 0 < s.shards_.length := by
  have hpos : 0 < (ShardedStore.init shards budget).shards_.length := by
    simp only [ShardedStore.init, List.length_replicate]; exact hshards
  rcases hrun with hrun | ⟨m, hstop⟩
  · obtain ⟨s1, h1, h2⟩ := run_inv hash ops _ hops (init_inv hash shards budget)
    have h := hrun
    rw [h1] at h
    simp only [Option.some.injEq] at h
    rw [← h]
    rw [← h] at hrun
    exact ⟨h2, (run_placed hash ops _ s1 hpos (init_inv hash shards budget).2.1 hrun).1⟩
  · exact (run_call_inv hash ops _ hops (init_inv hash shards budget) hpos).2 m s hstop

/-- Claim C2: from an empty store with at least one shard, after every sequence
of calls of `put`, `del` and `expire_keys` (more generally of any operation but
`restore`), evictions included, `memory_usage()` is the sum over all entries of
all shards of `len(key) + len(value)` reduced modulo `2 ^ 64`, hence equal to
that sum whenever the sum fits the 64-bit counter, and the `size_bytes` of every
entry is `len(key) + len(value)`.  This holds of the store that the sequence
leaves when its calls return, and of the store at the point at which a `put` of
the sequence is stopped at a lock. -/
theorem memory_accounting (hash : String → Nat) (shards budget : Nat) (ops : List Op)
    (hshards : 0 < shards) (hops : ∀ op ∈ ops, op.isRestore = false) (s : ShardedStore)
    (hrun : run hash ops (ShardedStore.init shards budget) = some s ∨
      ∃ m, run_call hash ops (ShardedStore.init shards budget) = CallEnd.stops m s) :
    memory_usage s = totalPayload s.shards_ % U64 ∧
    (totalPayload s.shards_ < U64 → memory_usage s = totalPayload s.shards_) ∧
    (∀ sh ∈ s.shards_, ∀ p ∈ sh.map,
      p.2.size_bytes = strSize p.1 + strSize p.2.value) := by
  have hinv := (run_ends_inv hash shards budget ops hshards hops s hrun).1
  have h3 : memory_usage s = totalPayload s.shards_ % U64 := by
    rw [sized_totalPayload s hinv.2.2.1]
    exact hinv.2.2.2
  exact ⟨h3, fun hlt => by rw [h3, Nat.mod_eq_of_lt hlt], hinv.2.2.1⟩

set_option maxRecDepth 100000 in
/-- Claim C2, instance: on an empty store of two shards and budget 5, `put` of
`bb`, `put` of `a`, which evicts `bb` from the shard of lower index, `put` of
`cc` with a TTL, an expiry pass after its deadline and `del` of `a`: every call
returns and the store left is empty, with a counter of 0. -/
theorem memory_accounting_witness :
    0 < 2 ∧ (∀ op ∈ putsExpireDel, op.isRestore = false) ∧
    run_call lengthHash putsExpireDel (ShardedStore.init 2 5) =
      CallEnd.returns putsExpireDelResult ∧
    run lengthHash putsExpireDel (ShardedStore.init 2 5) = some putsExpireDelResult ∧
    memory_usage putsExpireDelResult = totalPayload putsExpireDelResult.shards_ % U64 ∧
    (totalPayload putsExpireDelResult.shards_ < U64 →
      memory_usage putsExpireDelResult = totalPayload putsExpireDelResult.shards_) ∧
    (∀ sh ∈ putsExpireDelResult.shards_, ∀ p ∈ sh.map,
      p.2.size_bytes = strSize p.1 + strSize p.2.value) :=
  ⟨by decide, by decide, by decide, by decide,
    memory_accounting lengthHash 2 5 putsExpireDel (by decide) (by decide) putsExpireDelResult
      (Or.inl (by decide))⟩

/-- Claim C3: from an empty store with at least one shard, after every sequence
of calls of `put`, `del`, `expire_keys`, `enforce_memory_budget` and
`rebalance`, in every shard the recency list holds each key of the map of that
shard exactly once and holds no other key.  This holds of the store that the
sequence leaves when its calls return, and of the store at the point at which a
`put` of the sequence is stopped at a lock. -/
theorem recency_matches_map (hash : String → Nat) (shards budget : Nat) (ops : List Op)
    (hshards : 0 < shards) (hops : ∀ op ∈ ops, op.isRestore = false) (s : ShardedStore)
    (hrun : run hash ops (ShardedStore.init shards budget) = some s ∨
      ∃ m, run_call hash ops (ShardedStore.init shards budget) = CallEnd.stops m s) :
    ∀ sh ∈ s.shards_, ∀ k : String,
      sh.lru.count k = if (mapFind sh.map k).isSome then 1 else 0 := by
  have hinv := (run_ends_inv hash shards budget ops hshards hops s hrun).1
  intro sh hsh k
  have hcs := hinv.1 sh hsh
  by_cases hk : (mapFind sh.map k).isSome
  · simp only [hk, if_true]
    exact List.count_eq_one_of_mem (consistent_lru_nodup hcs)
      ((consistent_mem_lru_iff hcs k).mpr ((mapFind_isSome_iff _ _).mp hk))
  · simp only [hk]
    simp only [Bool.false_eq_true, if_false]
    apply List.count_eq_zero_of_not_mem
    intro hmem
    exact hk ((mapFind_isSome_iff _ _).mpr ((consistent_mem_lru_iff hcs k).mp hmem))

set_option maxRecDepth 100000 in
/-- Claim C3, instance: on an empty store of two shards and budget 5, `put` of
`bb`, `put` of `a`, which evicts `bb` from the shard of lower index, `put` of
`cc`, a rebalance to three shards and a direct call of `enforce_memory_budget`:
every call returns, and `a` and `cc` are each once in the recency list of their
shard. -/
theorem recency_matches_map_witness :
    0 < 2 ∧ (∀ op ∈ putsRebalanceEnforce, op.isRestore = false) ∧
    run_call lengthHash putsRebalanceEnforce (ShardedStore.init 2 5) =
      CallEnd.returns putsRebalanceEnforceResult ∧
    run lengthHash putsRebalanceEnforce (ShardedStore.init 2 5) =
      some putsRebalanceEnforceResult ∧
    ∀ sh ∈ putsRebalanceEnforceResult.shards_, ∀ k : String,
      sh.lru.count k = if (mapFind sh.map k).isSome then 1 else 0 :=
  ⟨by decide, by decide, by decide, by decide,
    recency_matches_map lengthHash 2 5 putsRebalanceEnforce (by decide) (by decide)
      putsRebalanceEnforceResult (Or.inl (by decide))⟩

/-! ## `restore` of a key twice -/

set_option maxRecDepth 100000 in
/-- Claim C14, the code at the failing input: on an empty store of one shard
and budget 100 the loop of `restore` over two items with the key `a` builds a
store whose map holds one entry for `a`, with the value and version of the last
item, while the recency list holds `a` twice and `memory_usage()` is 4, twice
the 2 bytes of the entry stored.  That is the store which the call leaves: it is
stopped at line 146 and does not return. -/
theorem restore_same_key_twice :
    (twoItemsOneKey.foldl (restore_item lengthHash) (ShardedStore.init 1 100)).shards_ =
      [{ map := [("a", { value := "y", version := 2, expire_at := none, size_bytes := 2 })],
         lru := ["a", "a"] }] ∧
    (twoItemsOneKey.foldl (restore_item lengthHash) (ShardedStore.init 1 100)).shards_.map
      (fun sh => sh.lru.count "a") = [2] ∧
    memory_usage (twoItemsOneKey.foldl (restore_item lengthHash) (ShardedStore.init 1 100)) = 4 ∧
    totalPayload
      (twoItemsOneKey.foldl (restore_item lengthHash) (ShardedStore.init 1 100)).shards_ = 2 ∧
    restore_call lengthHash (ShardedStore.init 1 100) twoItemsOneKey =
      CallEnd.stops Mutex.rebalance_mutex_
        (twoItemsOneKey.foldl (restore_item lengthHash) (ShardedStore.init 1 100)) :=
  ⟨by decide, by decide, by decide, by decide, restore_call_stops _ _ _⟩

set_option maxRecDepth 100000 in
/-- Claim C11, the code at the failing input: on an empty store of one shard
and budget 1, `restore` of two items with the key `a` is stopped at line 146
after its loop has built a store whose recency list holds `a` twice; a call of
`enforce_memory_budget` on that store never exits, whatever the number of
passes: after the entry of `a` is evicted, every pass finds the stale node `a`
at the back of the list, removes nothing and sets `evicted`. -/
theorem enforce_never_exits :
    restore_call lengthHash (ShardedStore.init 1 1) twoItemsOneKey =
      CallEnd.stops Mutex.rebalance_mutex_
        (twoItemsOneKey.foldl (restore_item lengthHash) (ShardedStore.init 1 1)) ∧
    enforce_memory_budget
      (twoItemsOneKey.foldl (restore_item lengthHash) (ShardedStore.init 1 1)) = none ∧
    (∀ fuel, enforce_loop fuel
      (twoItemsOneKey.foldl (restore_item lengthHash) (ShardedStore.init 1 1)) = none) ∧
    enforce_memory_budget_call []
      (twoItemsOneKey.foldl (restore_item lengthHash) (ShardedStore.init 1 1)) =
      CallEnd.never_exits ∧
    (evict_step
      (twoItemsOneKey.foldl (restore_item lengthHash) (ShardedStore.init 1 1))).map
        (fun s => (s.shards_, s.memory_usage_bytes_, evict_step s == some (record_eviction s))) =
      some ([{ map := [], lru := ["a"] }], 2, true) :=
  ⟨restore_call_stops _ _ _, by decide, fun fuel => enforce_loop_stale _ (by decide) fuel,
    by decide, by decide⟩

/-! ## `restore` of a snapshot -/

/-- Claim C15, where the code departs from it: restoring `snapshot(V)` of a
store `S` into an empty store does not yield a store, because the call of
`restore` does not return: it is stopped at line 146, where
`enforce_memory_budget` requests `rebalance_mutex_` while `restore` owns it
exclusively.  The store that the loop of `restore` has built by then is the one
the claim describes: when no key is stored twice in `S`, there is at least one
shard and the budget is at least the total size of the items, its
`snapshot(V')`, for every `V' ≥ V`, contains exactly the entries of `S` with
version at most `V`, each with the same key, value, version and deadline. -/
theorem restore_snapshot (hash : String → Nat) (S : ShardedStore) (V V' shards budget : Nat)
    (hshards : 1 ≤ shards) (hkeys : (mapKeys (allEntries S.shards_)).Nodup)
    (hbudget : ((snapshot S V).map (fun it => strSize it.key + strSize it.value)).sum ≤ budget)
    (hV : V ≤ V') :
    restore_call hash (ShardedStore.init shards budget) (snapshot S V) =
      CallEnd.stops Mutex.rebalance_mutex_
        ((snapshot S V).foldl (restore_item hash) (ShardedStore.init shards budget)) ∧
    (∀ s', restore_call hash (ShardedStore.init shards budget) (snapshot S V) ≠
      CallEnd.returns s') ∧
    (snapshot ((snapshot S V).foldl (restore_item hash) (ShardedStore.init shards budget))
      V').Perm (snapshot S V) ∧
    (∀ item, item ∈ snapshot ((snapshot S V).foldl (restore_item hash)
        (ShardedStore.init shards budget)) V' ↔
      ∃ p ∈ allEntries S.shards_, p.2.version ≤ V ∧ item = itemOf p) := by
  have h := restore_items_snapshot hash S V V' shards budget hshards hkeys hbudget hV
  refine ⟨restore_call_stops _ _ _, ?_, h.2.1, h.2.2⟩
  intro s' hs'
  rw [restore_call_stops] at hs'
  exact CallEnd.noConfusion hs'

set_option maxRecDepth 100000 in
/-- Claim C15, instance: the call `restore(snapshot(1))` of `storeAB` on an empty
store of two shards and budget 10, within the budget, is stopped at the request
of `rebalance_mutex_`. -/
theorem restore_snapshot_witness :
    1 ≤ 2 ∧ (mapKeys (allEntries storeAB.shards_)).Nodup ∧
    ((snapshot storeAB 1).map (fun it => strSize it.key + strSize it.value)).sum ≤ 10 ∧
    1 ≤ 5 ∧
    snapshot storeAB 1 =
      [{ key := "a", value := "1", version := 1, expire_at := some 1000000000 }] ∧
    restore_call lengthHash (ShardedStore.init 2 10) (snapshot storeAB 1) =
      CallEnd.stops Mutex.rebalance_mutex_
        ((snapshot storeAB 1).foldl (restore_item lengthHash) (ShardedStore.init 2 10)) ∧
    restore_locks lengthHash (ShardedStore.init 2 10) (snapshot storeAB 1) =
      [LockEvent.acquire Mutex.rebalance_mutex_ LockMode.exclusive,
        LockEvent.acquire (Mutex.shard_mutex 1) LockMode.exclusive,
        LockEvent.release (Mutex.shard_mutex 1),
        LockEvent.acquire Mutex.rebalance_mutex_ LockMode.shared,
        LockEvent.release Mutex.rebalance_mutex_,
        LockEvent.release Mutex.rebalance_mutex_] :=
  ⟨by decide, by decide, by decide, by decide, by decide,
    (restore_snapshot lengthHash storeAB 1 5 2 10 (by decide) (by decide) (by decide)
      (by decide)).1, by decide⟩

/-! ## Boot recovery -/

/-- A record that the budget admits is applied without eviction, and the call
returns. -/
theorem apply_record_call_fits (hash : String → Nat) (now : Nat) (s : ShardedStore)
    (record : String) (h : recordFits hash now s record = true) :
    apply_record_call hash now s record = CallEnd.returns
      (match parse_record record with
       | Record.put key value ttl => set_memory_bytes (put_mutation hash now s key value ttl)
       | Record.del key => (del hash s key).1
       | Record.skip => s) := by
  unfold apply_record_call
  unfold recordFits at h
  cases hp : parse_record record with
  | put key value ttl =>
    rw [hp] at h
    simp only [decide_eq_true_eq] at h
    exact put_call_within hash now s key value ttl h
  | del key => rfl
  | skip => rfl

/-- When the budget is not exceeded during the replay of the records, every
`apply_record` returns and the replay leaves the store of `replay`. -/
theorem replay_call_fits (hash : String → Nat) (records : List (Nat × String)) :
    ∀ s s' : ShardedStore, replayFits hash s records = true →
      replay hash s records = some s' → replay_call hash s records = CallEnd.returns s' := by
  induction records with
  | nil =>
    intro s s' _ h
    simp only [replay, Option.some.injEq] at h
    simp only [replay_call, h]
  | cons p rest ih =>
    obtain ⟨now, record⟩ := p
    intro s s' hfit h
    simp only [replayFits, Bool.and_eq_true] at hfit
    obtain ⟨hf1, hf2⟩ := hfit
    have happ := apply_record_fits hash now s record hf1
    have hcall := apply_record_call_fits hash now s record hf1
    rw [happ] at hf2
    simp only [] at hf2
    unfold replay at h
    rw [happ] at h
    simp only [] at h
    unfold replay_call
    rw [hcall]
    simp only []
    exact ih _ s' hf2 h

/-- The values read after the replay of the records on a store with at least
one shard, when the budget is not exceeded: every `apply_record` returns, and a
`get` shows, for a key that the log touches, the effect of its last record, and
for any other key what it showed before the replay. -/
theorem replay_last_record (hash : String → Nat) (records : List (Nat × String))
    (s : ShardedStore) (hpos : 0 < s.shards_.length)
    (hfit : replayFits hash s records = true) :
    ∃ s', replay_call hash s records = CallEnd.returns s' ∧
      ∀ (key : String) (t : Nat),
        (∀ now value ttl, lastTouch key records = some (now, Record.put key value ttl) →
          (∀ secs, ttl = some secs → t < now + secs * ticksPerSecond) →
          get hash t s' key none = some value) ∧
        (∀ now, lastTouch key records = some (now, Record.del key) →
          get hash t s' key none = none) ∧
        (lastTouch key records = none →
          get hash t s' key none = get hash t s key none) := by
  obtain ⟨s', hs', hlook⟩ := replay_lookup hash records s hpos hfit
  refine ⟨s', replay_call_fits hash records s s' hfit hs', ?_⟩
  intro key t
  have hk := hlook key
  refine ⟨?_, ?_, ?_⟩
  · intro now value ttl hl hexp
    rw [hl] at hk
    obtain ⟨e, he, hv, hd⟩ := hk
    rw [get_of_lookup hash t s' key e he, hv]
    intro d hde
    rw [hd] at hde
    cases ttl with
    | none => simp at hde
    | some secs =>
      simp only [Option.map_some', Option.some.injEq] at hde
      rw [← hde]
      exact hexp secs rfl
  · intro now hl
    rw [hl] at hk
    exact get_of_lookup_none hash t s' key none hk
  · intro hl
    rw [hl] at hk
    simp only [] at hk
    rw [get_eq_lookup, get_eq_lookup, hk]

/-- Claim C24, where the code departs from it: when `load_latest` returns items,
boot recovery calls `restore`, which is stopped at line 146 and does not return,
so that no record of the log is applied; the store is left as the loop of
`restore` built it.  When there is no snapshot item, `restore` is not called,
and on a fresh store with at least one shard, when the budget is not exceeded
during the replay, the recovery returns and `get` at a clock reading `t` gives:
for a key that the log touches, the value of its last record when that is a
`PUT` whose TTL has not elapsed at `t`, and absent when it is a `DEL`; for any
other key, absent. -/
theorem recovery_last_record (hash : String → Nat) (n budget : Nat)
    (items : List SnapshotItem) (records : List (Nat × String)) (hn : 0 < n) :
    (items ≠ [] →
      recover_call hash (ShardedStore.init n budget) items records =
        CallEnd.stops Mutex.rebalance_mutex_
          (items.foldl (restore_item hash) (ShardedStore.init n budget))) ∧
    (replayFits hash (ShardedStore.init n budget) records = true →
      ∃ s', recover_call hash (ShardedStore.init n budget) [] records = CallEnd.returns s' ∧
        ∀ (key : String) (t : Nat),
          (∀ now value ttl, lastTouch key records = some (now, Record.put key value ttl) →
            (∀ secs, ttl = some secs → t < now + secs * ticksPerSecond) →
            get hash t s' key none = some value) ∧
          (∀ now, lastTouch key records = some (now, Record.del key) →
            get hash t s' key none = none) ∧
          (lastTouch key records = none → get hash t s' key none = none)) := by
  constructor
  · intro hne
    unfold recover_call
    simp only [ne_eq, hne, not_false_eq_true, if_true, restore_call_stops]
  · intro hfit
    have hpos : 0 < (ShardedStore.init n budget).shards_.length := by
      simp only [ShardedStore.init, List.length_replicate]; exact hn
    obtain ⟨s', hs', hget⟩ := replay_last_record hash records _ hpos hfit
    refine ⟨s', ?_, ?_⟩
    · unfold recover_call
      simp only [ne_eq, not_true_eq_false, if_false]
      exact hs'
    · intro key t
      refine ⟨(hget key t).1, (hget key t).2.1, ?_⟩
      intro hl
      rw [(hget key t).2.2 hl]
      exact get_of_lookup_none hash t _ key none (lookup_init hash n budget key)

set_option maxRecDepth 100000 in
/-- Claim C24, instance: the snapshot holds `a` with value `1` and version 1,
the log holds `PUT a 2` and `DEL b`.  Boot recovery is stopped in `restore`; in
the store left `get(a)` is `1`, the record `PUT a 2` has not been applied.
Without the snapshot the same log is replayed, and `get(a)` is `2` and `get(b)`
absent. -/
theorem recovery_last_record_witness :
    0 < 4 ∧ snapshotA ≠ [] ∧
    recover_call lengthHash (ShardedStore.init 4 100) snapshotA walAB =
      CallEnd.stops Mutex.rebalance_mutex_
        (snapshotA.foldl (restore_item lengthHash) (ShardedStore.init 4 100)) ∧
    get lengthHash 9 (snapshotA.foldl (restore_item lengthHash) (ShardedStore.init 4 100))
      "a" none = some "1" ∧
    replayFits lengthHash (ShardedStore.init 4 100) walAB = true ∧
    (match recover_call lengthHash (ShardedStore.init 4 100) [] walAB with
     | CallEnd.returns s' => (get lengthHash 9 s' "a" none, get lengthHash 9 s' "b" none)
     | _ => (none, none)) = (some "2", none) :=
  ⟨by decide, by decide,
    (recovery_last_record lengthHash 4 100 snapshotA walAB (by decide)).1 (by decide),
    by decide, by decide, by decide⟩

/-! ## The version counter at its wrap -/

theorem storeRebalanced_consistent : consistent storeRebalanced := by
  intro sh hsh
  simp [storeRebalanced] at hsh
  rcases hsh with h | h | h <;> subst h <;> simp [Shard.consistent, mapKeys]

set_option maxRecDepth 100000 in
/-- Claim C32, refuted as stated: on an empty store of one shard and budget 6,
`put` of `a`, `put` of `b` and a rebalance to three shards return and leave
`storeRebalanced`, which is consistent and in which the recency list of shard 1
is `a, b`, although `b` was written after `a`.  The following `put` of `cc`
into shard 2 exceeds the budget; the pass takes the tail of the list of shard
1, which is `b`, the most recently written key of that shard, and the older key
`a` stays. -/
theorem eviction_steps_counterexample :
    run_call lengthHash putsThenRebalance (ShardedStore.init 1 6) =
      CallEnd.returns storeRebalanced ∧
    consistent storeRebalanced ∧
    storeRebalanced.shards_.map (fun sh => (sh.lru, sh.lruVersions, sh.writeOrdered)) =
      [([], [], true), (["a", "b"], [1, 2], false), ([], [], true)] ∧
    firstVictim (put_mutation lengthHash 2 storeRebalanced "cc" "3" none).shards_ =
      some (1, "b") ∧
    put_call lengthHash 2 storeRebalanced "cc" "3" none =
      CallEnd.returns
        { shards_ :=
            [{ map := [], lru := [] },
             { map := [("a", { value := "1", version := 1, expire_at := none,
                               size_bytes := 2 })],
               lru := ["a"] },
             { map := [("cc", { value := "3", version := 3, expire_at := none,
                                size_bytes := 3 })],
               lru := ["cc"] }]
          memory_budget_bytes_ := 6
          memory_usage_bytes_ := 5
          version_ := 3
          metrics_ := { eviction_count_ := 1, memory_bytes_ := 5 } } :=
  ⟨by decide, storeRebalanced_consistent, by decide, by decide, by decide⟩

/-! ## `get` changes nothing -/

set_option maxRecDepth 100000 in
/-- Claim C34: `get` changes nothing.  For every store, key and optional
snapshot version, on every path through the body of `get` the store that the
call leaves is the store it found, so all maps, all recency lists with their
order, `memory_usage()` and `current_version()` are the same, whatever `get`
returns (a value, or absent for a missing, expired or too new entry); hence the
calls of `get` can be removed from any sequence of calls without changing the
store it leaves.  In particular a read does not promote: on an empty store of
two shards and budget 7, after `put` of `aa`, `put` of `bb` and `get` of `aa`,
which returns its value, the `put` of `c` that exceeds the budget evicts `aa`,
the tail of the list of shard 0, and keeps `bb`. -/
theorem get_frame (hash : String → Nat) (now : Nat) (s : ShardedStore) (key : String)
    (V : Option Nat) (ops : List Op) :
    (get_call hash now s key V).2 = s ∧
    (get_call hash now s key V).1 = get hash now s key V ∧
    (get_call hash now s key V).2.shards_.map (fun sh => sh.map) =
      s.shards_.map (fun sh => sh.map) ∧
    (get_call hash now s key V).2.shards_.map (fun sh => sh.lru) =
      s.shards_.map (fun sh => sh.lru) ∧
    memory_usage (get_call hash now s key V).2 = memory_usage s ∧
    current_version (get_call hash now s key V).2 = current_version s ∧
    (Op.get now key V).call hash s = CallEnd.returns s ∧
    (Op.get now key V).apply hash s = some s ∧
    run hash (ops.filter (fun op => !op.isGet)) s = run hash ops s ∧
    (match run_call lengthHash (readThenEvict.take 2) (ShardedStore.init 2 7) with
     | CallEnd.returns s2 =>
       some (s2.shards_.map (fun sh => sh.lru), get lengthHash 2 s2 "aa" none,
         (get_call lengthHash 2 s2 "aa" none).2.shards_.map (fun sh => sh.lru))
     | _ => none) = some ([["bb", "aa"], []], some "1", [["bb", "aa"], []]) ∧
    (match run_call lengthHash readThenEvict (ShardedStore.init 2 7) with
     | CallEnd.returns s4 => some (s4.shards_.map (fun sh => sh.lru))
     | _ => none) = some [["bb"], ["c"]] := by
  have h := get_call_snd hash now s key V
  refine ⟨h, get_call_fst hash now s key V, by rw [h], by rw [h], by rw [h], by rw [h], ?_, ?_,
    run_filter_get hash ops s, by decide, by decide⟩
  · simp only [Op.call, h]
  · simp only [Op.apply, h]

/-! ## An expired entry after persistence -/

set_option maxRecDepth 100000 in
/-- Claim C23, the input on which the code departs from it: `put("a", "1", 1)`
at 0 leaves an entry whose deadline is 1 s; at 2 s the entry is expired and not
yet removed, `get` returns absent; `snapshot(current_version)` still holds the
entry, `write_snapshot` at 2 s writes it with residual TTL `-1` although it has
an expiry, and `load_latest` reads it back without deadline: in the store that
the loop of `restore` builds from the loaded items on an empty store, which is
the store that the call of `restore` leaves, `get` returns its value, at 2 s
and at every later reading of the clock. -/
theorem expired_entry_revived :
    put lengthHash 0 (ShardedStore.init 1 10) "a" "1" (some 1) = some storeA1 ∧
    get lengthHash 2000000000 storeA1 "a" none = none ∧
    snapshot storeA1 (current_version storeA1) = [itemA1] ∧
    residual_ttl_ms 2000000000 itemA1 = -1 ∧
    SnapshotManager.load_latest 2000000000
        (SnapshotManager.write_snapshot 2000000000 emptyDir
          (snapshot storeA1 (current_version storeA1)) noFault).1.dat =
      [{ key := "a", value := "1", version := 1, expire_at := none }] ∧
    restore_call lengthHash (ShardedStore.init 1 10)
        (SnapshotManager.load_latest 2000000000
          (SnapshotManager.write_snapshot 2000000000 emptyDir
            (snapshot storeA1 (current_version storeA1)) noFault).1.dat) =
      CallEnd.stops Mutex.rebalance_mutex_
        ((SnapshotManager.load_latest 2000000000
          (SnapshotManager.write_snapshot 2000000000 emptyDir
            (snapshot storeA1 (current_version storeA1)) noFault).1.dat).foldl
          (restore_item lengthHash) (ShardedStore.init 1 10)) ∧
    ∀ now, get lengthHash now
      ((SnapshotManager.load_latest 2000000000
          (SnapshotManager.write_snapshot 2000000000 emptyDir
            (snapshot storeA1 (current_version storeA1)) noFault).1.dat).foldl
        (restore_item lengthHash) (ShardedStore.init 1 10)) "a" none = some "1" := by
  have hload : SnapshotManager.load_latest 2000000000
        (SnapshotManager.write_snapshot 2000000000 emptyDir
          (snapshot storeA1 (current_version storeA1)) noFault).1.dat =
      [{ key := "a", value := "1", version := 1, expire_at := none }] := by decide
  refine ⟨by decide, by decide, by decide, by decide, hload, restore_call_stops _ _ _, ?_⟩
  intro now
  rw [hload]
  have hbuilt : ([{ key := "a", value := "1", version := 1, expire_at := none }] :
      List SnapshotItem).foldl (restore_item lengthHash) (ShardedStore.init 1 10) =
      { storeA1 with
        shards_ := [{ map := [("a", { value := "1", version := 1, expire_at := none,
                                      size_bytes := 2 })], lru := ["a"] }]
        metrics_ := { eviction_count_ := 0, memory_bytes_ := 0 } } := by decide
  rw [hbuilt]
  simp [get, shard_for, lengthHash, storeA1, mapFind, too_new, expired, Nat.mod_one]

/-! ## Placement after a sequence of calls that return -/

set_option maxRecDepth 100000 in
/-- Claim C37, instance: three calls of `put`, a `rebalance` to three shards, a
`rebalance` to zero shards, a `del` and a call of `expire_keys` on a store
constructed with two shards all return, with the locks, and leave three shards
in which every key is in the shard of its hash. -/
theorem shard_placement_witness :
    0 < 2 ∧
    ∃ s', run lengthHash mixedOps (ShardedStore.init 2 100) = some s' ∧
      run_call lengthHash mixedOps (ShardedStore.init 2 100) = CallEnd.returns s' ∧
      s'.shards_.length = 3 ∧
      ∀ (i : Nat) (sh : Shard) (k : String), s'.shards_[i]? = some sh → k ∈ mapKeys sh.map →
        i = lengthHash k % s'.shards_.length := by
  refine ⟨by decide, ?_⟩
  have hs : (match run_call lengthHash mixedOps (ShardedStore.init 2 100) with
      | CallEnd.returns s => decide (s.shards_.length = 3)
      | _ => false) = true := by decide
  cases h : run_call lengthHash mixedOps (ShardedStore.init 2 100) with
  | returns s' =>
    rw [h] at hs
    have hrun := run_call_returns lengthHash mixedOps _ s' h
    exact ⟨s', hrun, rfl, by simpa using hs,
      (shard_placement lengthHash 2 100 mixedOps s' (by decide) hrun).2.1⟩
  | stops m s' => rw [h] at hs; simp at hs
  | never_exits => rw [h] at hs; simp at hs

end kvstore
